import Mathlib

/-!
Verification of the numeric-range-to-regex compiler in
`pyang-apteryx-xml.py` (`regex_for_range` and `RegexForRange.__repr__`).

Python strings are modelled as `List Char`; arbitrary-precision Python
integers as `Nat`/`Int`.  Recursive helpers whose Python termination is
implicit are given an explicit fuel argument; every wrapper supplies fuel
that provably suffices on the inputs the Python code actually receives,
so the fueled function computes exactly what the Python function does
there (structural recursion keeps every definition kernel-reducible).
-/

namespace ApteryxRegex

/-- Numeric value of a digit character, as Python `int(c)` on a digit. -/
def digitVal (c : Char) : Nat := c.toNat - 48

/-- Is a decimal digit character. -/
def isDig (c : Char) : Bool := 48 ≤ c.toNat && c.toNat ≤ 57

/-- Python `int(s)` on a (nonempty, all-digits) string: fold of digits. -/
def pyInt (s : List Char) : Nat := s.foldl (fun a c => 10 * a + digitVal c) 0

/-- Helper for `natStr`: emit decimal digits of `n` most-significant first,
`fuel` bounds the digit count. -/
def natStrF : Nat → Nat → List Char
  | 0, _ => []
  | _ + 1, 0 => []
  | fuel + 1, n => natStrF fuel (n / 10) ++ [Nat.digitChar (n % 10)]

/-- Python `str(n)` for a nonnegative integer. -/
def natStr (n : Nat) : List Char := if n = 0 then ['0'] else natStrF (n + 1) n

/-- All characters of `s` are decimal digits. -/
def AllDigits (s : List Char) : Prop := ∀ c ∈ s, isDig c = true

instance (s : List Char) : Decidable (AllDigits s) := by
  unfold AllDigits; infer_instance

/-! ### `break_into_ranges_1`

Python recurses while `len(str(start)) != len(str(end))`; on the inputs it
receives (`start ≤ end`) that test is equivalent to `<`, and the recursion
performs at most `len(str(end))` steps, which the fuel argument bounds. -/

/-- Fueled body of `break_into_ranges_1`. -/
def break_into_ranges_1F : Nat → Nat → Nat → List (List Char × List Char)
  | 0, s, e => [(natStr s, natStr e)]
  | fuel + 1, s, e =>
    if (natStr s).length = (natStr e).length then [(natStr s, natStr e)]
    else
      let bp := 10 ^ (natStr s).length - 1
      (natStr s, natStr bp) :: break_into_ranges_1F fuel (1 + bp) e

/-- `break_into_ranges_1(start, end)`: breaks the input range into a discrete
set of equal length ranges. -/
def break_into_ranges_1 (s e : Nat) : List (List Char × List Char) :=
  break_into_ranges_1F ((natStr e).length + 1) s e

/-- `fix_pair(pair)`: left-pads the first member with zeros to the length of
the second (`str.rjust(len(end), '0')`). -/
def fix_pair (p : List Char × List Char) : List Char × List Char :=
  (List.replicate (p.2.length - p.1.length) '0' ++ p.1, p.2)

/-- `str_bp(break_point)`: `break_point` and `break_point + 1` as equal length
strings. -/
def str_bp (bp : Nat) : List Char × List Char := fix_pair (natStr bp, natStr (bp + 1))

/-- Python `'0' * len(s) == '0' + s[1:]`: the tail of `s` is all zeros (and
`s` is nonempty). -/
def tailZeros (s : List Char) : Prop := List.replicate s.length '0' = '0' :: s.tail

/-- Python `'9' * len(e) == '9' + e[1:]`: the tail of `e` is all nines (and
`e` is nonempty). -/
def tailNines (e : List Char) : Prop := List.replicate e.length '9' = '9' :: e.tail

instance (s : List Char) : Decidable (tailZeros s) := by unfold tailZeros; infer_instance
instance (s : List Char) : Decidable (tailNines s) := by unfold tailNines; infer_instance

/-- Fueled body of `break_into_ranges_2`.  The Python function always
terminates on the digit strings it receives (each call strictly shrinks
either the string length or the width of the numeric interval, which the
fuel bounds); fuel exhaustion returns the argument pair unchanged. -/
def break_into_ranges_2F : Nat → List Char → List Char → List (List Char × List Char)
  | 0, s, e => [(s, e)]
  | fuel + 1, s, e =>
    if s.length = 1 then [(s, e)]
    else
      let s0 := s.headD '0'
      let e0 := e.headD '0'
      let k := e.tail.length
      if tailZeros s ∧ tailNines e then [(s, e)]
      else if tailZeros s ∧ s0 < e0 then
        let p := str_bp (pyInt (e0 :: List.replicate k '0') - 1)
        (s, p.1) :: break_into_ranges_2F fuel p.2 e
      else if tailNines e ∧ s0 < e0 then
        let p := str_bp (pyInt (natStr (1 + digitVal s0) ++ List.replicate k '0') - 1)
        break_into_ranges_2F fuel s p.1 ++ [(p.2, e)]
      else if s0 < e0 then
        let p := str_bp (pyInt (natStr (1 + digitVal s0) ++ List.replicate k '0') - 1)
        break_into_ranges_2F fuel s p.1 ++ break_into_ranges_2F fuel p.2 e
      else
        (break_into_ranges_2F fuel s.tail e.tail).map (fun q => (s0 :: q.1, s0 :: q.2))

/-- `break_into_ranges_2(start, end)`: breaks an equal-length range into parts
that can readily be turned into regexes. -/
def break_into_ranges_2 (s e : List Char) : List (List Char × List Char) :=
  break_into_ranges_2F (s.length + pyInt e + 1) s e

/-- `break_into_ranges(start, end)`: combines `break_into_ranges_1` and
`break_into_ranges_2`. -/
def break_into_ranges (s e : Nat) : List (List Char × List Char) :=
  (break_into_ranges_1 s e).flatMap (fun p => break_into_ranges_2 p.1 p.2)

/-! ### `individual_regex` and `shrink` -/

/-- Fueled body of Python `str.replace(pat, rep)` (all non-overlapping
occurrences, left to right); each step consumes at least one character of
`s` when `pat` is nonempty, so `s.length` fuel suffices. -/
def replaceAllF : Nat → List Char → List Char → List Char → List Char
  | 0, s, _, _ => s
  | _ + 1, [], _, _ => []
  | fuel + 1, c :: rest, pat, rep =>
    if pat.isPrefixOf (c :: rest) then
      rep ++ replaceAllF fuel ((c :: rest).drop pat.length) pat rep
    else c :: replaceAllF fuel rest pat rep

/-- Python `s.replace(pat, rep)`. -/
def replaceAll (s pat rep : List Char) : List Char := replaceAllF s.length s pat rep

/-- The search string `'[0-9]' * i` used by `shrink`. -/
def shrinkPat (i : Nat) : List Char :=
  (List.replicate i ['[', '0', '-', '9', ']']).flatten

/-- The replacement string `'[0-9]{%d}' % i` used by `shrink`. -/
def shrinkRep (i : Nat) : List Char :=
  ['[', '0', '-', '9', ']', '{'] ++ natStr i ++ ['}']

/-- Fueled loop of `shrink`: `for i in range(maxlen, 1, -1)`. -/
def shrinkF : Nat → List Char → List Char
  | 0, r => r
  | 1, r => r
  | i + 2, r => shrinkF (i + 1) (replaceAll r (shrinkPat (i + 2)) (shrinkRep (i + 2)))

/-- `shrink(regex, maxlen)`: replaces runs of `[0-9]` by quantified form. -/
def shrink (regex : List Char) (maxlen : Nat) : List Char := shrinkF maxlen regex

/-- Position-by-position body of `individual_regex` (before `shrink`).
Python indexes both strings over `range(len(start))`; its inputs always
have equal length, which the simultaneous recursion mirrors. -/
def irBody : List Char → List Char → List Char
  | a :: as, b :: bs =>
    (if a = b then [a]
     else if 1 + digitVal a = digitVal b then ['[', a, b, ']']
     else ['[', a, '-', b, ']']) ++ irBody as bs
  | _, _ => []

/-- `individual_regex(start, end)`: one compact regex for the range. -/
def individual_regex (s e : List Char) : List Char := shrink (irBody s e) e.length

/-- `ranges_to_regexes(ranges)`: list of the individual regexes. -/
def ranges_to_regexes (ranges : List (List Char × List Char)) : List (List Char) :=
  ranges.map (fun p => individual_regex p.1 p.2)

/-- `range_to_regexes(start, end)`: wrapper; normalizes the order of the two
bounds, then runs the splitter and the per-range builder. -/
def range_to_regexes (start e : Nat) : List (List Char) :=
  let p := if start > e then (e, start) else (start, e)
  ranges_to_regexes (break_into_ranges p.1 p.2)

/-! ### `collapse_powers_of_10` -/

/-- Loop state of `collapse_powers_of_10`: the tracked digit-count band
(`-1` is the Python sentinel) and the starts-with-zero flag. -/
structure CPState where
  p10start : Int
  p10end : Int
  sw0 : Bool

/-- The literal prefix `'[1-9][0-9]{'` tested by `startswith`. -/
def bandPre : List Char := ['[', '1', '-', '9', ']', '[', '0', '-', '9', ']', '{']

/-- The flush string built when a run of powers of 10 ends. -/
def cpFlush (st : CPState) : List Char :=
  if st.sw0 then
    ['[', '0', '-', '9', ']'] ++
      (if 1 ≤ st.p10end then
        ['{', '1', ','] ++ natStr (1 + st.p10end).toNat ++ ['}'] else [])
  else
    ['[', '1', '-', '9', ']'] ++
      (if 1 ≤ st.p10end then ['[', '0', '-', '9', ']'] else []) ++
      (if st.p10start = 0 ∧ st.p10end = 1 then ['?']
       else if st.p10start = st.p10end ∧ 1 < st.p10start then
         ['{'] ++ natStr st.p10start.toNat ++ ['}']
       else if st.p10start < st.p10end then
         ['{'] ++ natStr st.p10start.toNat ++ [','] ++ natStr st.p10end.toNat ++ ['}']
       else [])

/-- One iteration of the `collapse_powers_of_10` loop: returns the new state
and the regexes appended to the output on this iteration. -/
def cpStep (st : CPState) (regex : List Char) : CPState × List (List Char) :=
  if regex = ['[', '0', '-', '9', ']'] then
    ({ p10start := 0, p10end := 0, sw0 := true }, [])
  else if regex = ['[', '1', '-', '9', ']'] then
    ({ st with p10start := 0, p10end := 0 }, [])
  else if regex = ['[', '1', '-', '9', ']', '[', '0', '-', '9', ']'] then
    ({ st with p10start := if st.p10start < 0 then 1 else st.p10start, p10end := 1 }, [])
  else if bandPre.isPrefixOf regex then
    let n : Int := (pyInt ((regex.drop bandPre.length).dropLast) : Int)
    ({ st with p10start := if st.p10start < 0 then n else st.p10start, p10end := n }, [])
  else if 0 ≤ st.p10start then
    ({ st with p10start := -1, p10end := -1 },
      cpFlush st :: (if regex = [] then [] else [regex]))
  else
    (st, if regex = [] then [] else [regex])

/-- `collapse_powers_of_10(regexes)`: collapses adjacent powers of 10 into one
compact range (the Python loop runs over the input plus a sentinel `''`). -/
def collapse_powers_of_10 (regexes : List (List Char)) : List (List Char) :=
  ((regexes ++ [[]]).foldl
      (fun (acc : CPState × List (List Char)) r =>
        let st2 := cpStep acc.1 r
        (st2.1, acc.2 ++ st2.2))
      (({ p10start := -1, p10end := -1, sw0 := false } : CPState),
        ([] : List (List Char)))).2

/-! ### `tokenize` and the prefix tree `rfr_tree` -/

/-- Scan up to and including the first occurrence of `close`; `none` when
absent (the bracketed token fails to match). -/
def scanTo (close : Char) : List Char → Option (List Char × List Char)
  | [] => none
  | c :: rest =>
    if c = close then some ([c], rest)
    else
      match scanTo close rest with
      | some pr => some (c :: pr.1, pr.2)
      | none => none

/-- The optional quantifier part `(\?|\{[^}]*\})?` of one token. -/
def tokQuant (r : List Char) : List Char × List Char :=
  match r with
  | [] => ([], [])
  | c :: rest =>
    if c = '?' then (['?'], rest)
    else if c = '{' then
      (match scanTo '}' rest with
       | some pr => ('{' :: pr.1, pr.2)
       | none => ([], c :: rest))
    else ([], c :: rest)

/-- One token `(\d|\[[^\]]*\])(\?|\{[^}]*\})?`; `none` when the input starts
with neither a digit nor a bracket (Python raises there, which `rfr`
catches). -/
def tok1 (r : List Char) : Option (List Char × List Char) :=
  match r with
  | [] => none
  | c :: rest =>
    if isDig c then
      let q := tokQuant rest
      some (c :: q.1, q.2)
    else if c = '[' then
      match scanTo ']' rest with
      | some pr =>
        let q := tokQuant pr.2
        some (c :: pr.1 ++ q.1, q.2)
      | none => none
    else none

/-- Fueled `tokenize(r)`; each token consumes at least one character, so
`r.length` fuel suffices. -/
def tokenizeF : Nat → List Char → Option (List (List Char))
  | 0, r => if r = [] then some [] else none
  | fuel + 1, r =>
    if r = [] then some []
    else
      match tok1 r with
      | none => none
      | some tr => (tokenizeF fuel tr.2).map (fun ts => tr.1 :: ts)

/-- `tokenize(r)`: tokenizes a regex into a list of tokens, or fails. -/
def tokenize (r : List Char) : Option (List (List Char)) := tokenizeF r.length r

/-- The parse tree of `rfr_tree`: a node key and child branches. -/
inductive RTree where
  | mk (node : List Char) (branches : List RTree)

/-- Node key of an `rfr_tree`. -/
def RTree.node : RTree → List Char
  | .mk n _ => n

/-- Child branches of an `rfr_tree`. -/
def RTree.branches : RTree → List RTree
  | .mk _ b => b

/-- The `roots` list built by `rfr_tree.__init__`: first tokens of the
nonempty patterns, first occurrence order, without duplicates. -/
def rootsOf (ps : List (List (List Char))) : List (List Char) :=
  ps.foldl
    (fun acc p =>
      match p with
      | [] => acc
      | h :: _ => if h ∈ acc then acc else acc ++ [h]) []

/-- Total size of a pattern list; bounds the recursion depth of
`rfr_tree.__init__`. -/
def patsSize (ps : List (List (List Char))) : Nat :=
  (ps.map (fun p => p.length + 1)).sum

/-- Fueled `rfr_tree.__init__(key, patterns)`: recursively builds the parse
tree; every recursive call strictly decreases `patsSize`. -/
def buildTreeF : Nat → List Char → List (List (List Char)) → RTree
  | 0, key, _ => RTree.mk key []
  | fuel + 1, key, ps =>
    match ps with
    | [] => RTree.mk key []
    | [p] =>
      match p with
      | [] => RTree.mk key []
      | h :: t => RTree.mk key [buildTreeF fuel h [t]]
    | _ =>
      let eb := ps.filterMap
        (fun p => if p = [] then some (RTree.mk [] []) else none)
      let roots := rootsOf ps
      RTree.mk key (eb ++ roots.map (fun root =>
        buildTreeF fuel root
          ((ps.filter (fun p => p ≠ [] ∧ p.headD [] = root)).map List.tail)))

/-- `rfr_tree(key, patterns)`. -/
def buildTree (key : List Char) (ps : List (List (List Char))) : RTree :=
  buildTreeF (patsSize ps + 1) key ps

/-- `'|'.join(b)`. -/
def joinBar (l : List (List Char)) : List Char := (l.intersperse ['|']).flatten

/-- Python `list.remove(x)`: drops the first occurrence. -/
def removeFirst : List (List Char) → List Char → List (List Char)
  | [], _ => []
  | x :: xs, y => if x = y then xs else x :: removeFirst xs y

/-- The test `1 == len(b0) or (len(b0) <= 5 and b0.startswith('[') and
b0.endswith(']'))` in `rfr_tree.collapse`. -/
def collapseShort (b0 : List Char) : Bool :=
  b0.length = 1 ||
    (b0.length ≤ 5 && b0.headD ' ' = '[' && (b0.getLast?.getD ' ') = ']')

/-- Fueled `rfr_tree.collapse()`: collapses the parse tree into a compact
regex; the tree depth (bounded by the build fuel) bounds the recursion. -/
def RTree.collapseF : Nat → RTree → List Char
  | 0, t => t.node
  | fuel + 1, .mk node bs =>
    match bs with
    | [] => node
    | [b] => node ++ RTree.collapseF fuel b
    | _ =>
      let cs := bs.map (RTree.collapseF fuel)
      if [] ∈ cs then
        let cs2 := removeFirst cs []
        if cs2.length = 1 ∧ collapseShort (cs2.headD []) then
          node ++ cs2.headD [] ++ ['?']
        else node ++ '(' :: joinBar cs2 ++ [')', '?']
      else node ++ '(' :: joinBar cs ++ [')']

/-! ### `rfr`, `regex_for_range` and the sign wrapper -/

/-- The global `lead_zeros = ""`. -/
def lead_zeros : List Char := []

/-- The prefix-factoring pass of `rfr`: tokenize every alternative, build the
tree, collapse it; `none` models the exception the `try` block catches. -/
def rfrFactor (c : List (List Char)) : Option (List Char) :=
  (c.mapM tokenize).map
    (fun t => RTree.collapseF (patsSize t + 1) (buildTree [] t))

/-- The pre-factoring expression built by `rfr` from the collapsed
alternative list: the single alternative, or the flat alternation. -/
def rfrFlatTail (c : List (List Char)) : List Char :=
  match c with
  | [c0] => lead_zeros ++ c0
  | _ => lead_zeros ++ '(' :: joinBar c ++ [')']

/-- The tail of `rfr` after the collapse pass, from the collapsed
alternative list: flat alternation, then the optional prefix-factoring
pass whose result replaces it only when strictly shorter, with any
failure of the pass caught and the flat expression kept. -/
def rfrTail (c : List (List Char)) : List Char :=
  match c with
  | [c0] => lead_zeros ++ c0
  | _ =>
    let s := lead_zeros ++ '(' :: joinBar c ++ [')']
    if '|' ∈ s then
      match rfrFactor c with
      | some t2c =>
        let s2 := lead_zeros ++ t2c
        if s2.length < s.length then s2 else s
      | none => s
    else s

/-- `rfr(start, end)`: the regex computed from the ranges supplied by
`break_into_ranges` (the `verbose` flag only prints and never alters the
result, so it is omitted). -/
def rfr (start e : Nat) : List Char :=
  rfrTail (collapse_powers_of_10 (range_to_regexes start e))

/-- The pre-factoring expression for the bounds `(start, e)`. -/
def rfrFlat (start e : Nat) : List Char :=
  rfrFlatTail (collapse_powers_of_10 (range_to_regexes start e))

/-- `regex_for_range(start, end)`: the public pipeline entry point (all of
its callers pass nonnegative bounds). -/
def regex_for_range (start e : Nat) : List Char := rfr start e

/-- `RegexForRange.__repr__`: the sign wrapper; `Except.error` models the
`AssertionError` raised when `start > end` (and the unreachable final
`else`). -/
def reprRegexForRange (start e : Int) : Except Unit (List Char) :=
  if start > e then Except.error ()
  else if start > 0 then Except.ok (regex_for_range start.toNat e.toNat)
  else if start = 0 ∧ e > 0 then
    Except.ok ('(' :: '0' :: '|' :: (regex_for_range 1 e.toNat ++ [')']))
  else if start = 0 ∧ e = 0 then Except.ok ['0']
  else if start < 0 ∧ e = 0 then
    Except.ok ('(' :: '0' :: '|' :: '-' :: (regex_for_range 1 (-start).toNat ++ [')']))
  else if start < 0 ∧ e < 0 then
    Except.ok ('(' :: '-' :: (regex_for_range (-e).toNat (-start).toNat ++ [')']))
  else if start < 0 ∧ e > 0 then
    Except.ok ('(' :: '-' :: (regex_for_range 1 (-start).toNat ++
      '|' :: '0' :: '|' :: (regex_for_range 1 e.toNat ++ [')'])))
  else Except.error ()

/-! ### Regex abstract syntax and anchored matching semantics

The emitted patterns use literals, character classes, grouping,
alternation, `?` and `{m}`/`{m,n}` quantifiers.  Quantifiers are desugared
at parse time into the core syntax below. -/

/-- Core regex syntax: empty string, single-character class, concatenation,
alternation, option. -/
inductive RE where
  | eps
  | cls (cs : List Char)
  | cat (a b : RE)
  | alt (a b : RE)
  | opt (a : RE)

/-- All suffixes left over after matching a prefix of `s` against `r`. -/
def RE.endsOf : RE → List Char → List (List Char)
  | .eps, s => [s]
  | .cls _, [] => []
  | .cls cs, c :: rest => if c ∈ cs then [rest] else []
  | .cat a b, s => (a.endsOf s).flatMap b.endsOf
  | .alt a b, s => a.endsOf s ++ b.endsOf s
  | .opt a, s => s :: a.endsOf s

/-- Anchored (full-string) matching of `r` against `s`. -/
def RE.Matches (r : RE) (s : List Char) : Prop := [] ∈ r.endsOf s

instance (r : RE) (s : List Char) : Decidable (r.Matches s) := by
  unfold RE.Matches; infer_instance

/-- `a{m}`: `m` concatenated copies. -/
def RE.power (a : RE) : Nat → RE
  | 0 => .eps
  | m + 1 => .cat a (a.power m)

/-- Up to `k` further copies: `(a(a(...)?)?)?`. -/
def RE.upto (a : RE) : Nat → RE
  | 0 => .eps
  | k + 1 => .opt (.cat a (a.upto k))

/-- `a{m,n}` desugared: `m` copies then up to `n - m` more. -/
def RE.repRange (a : RE) (m n : Nat) : RE := .cat (a.power m) (a.upto (n - m))

/-! ### Parser for the emitted pattern strings -/

/-- The contiguous range of characters denoted by `a-b` inside a class. -/
def rangeList (a b : Char) : List Char :=
  (List.range (b.toNat + 1 - a.toNat)).map (fun i => Char.ofNat (a.toNat + i))

/-- Parse the inside of a character class (after `[`, up to `]`): single
characters and `a-b` ranges, accumulated as the list of member characters. -/
def parseClsBody : List Char → Option (List Char × List Char)
  | [] => none
  | c :: rest =>
    if c = ']' then some ([], rest)
    else
      match rest with
      | r0 :: r1 :: rest2 =>
        if r0 = '-' then
          if r1 = ']' then
            match parseClsBody (r1 :: rest2) with
            | some pr => some (c :: '-' :: pr.1, pr.2)
            | none => none
          else
            match parseClsBody rest2 with
            | some pr => some (rangeList c r1 ++ pr.1, pr.2)
            | none => none
        else
          match parseClsBody (r0 :: r1 :: rest2) with
          | some pr => some (c :: pr.1, pr.2)
          | none => none
      | [r0] =>
        match parseClsBody [r0] with
        | some pr => some (c :: pr.1, pr.2)
        | none => none
      | [] => none

/-- Parse a decimal number (at least one digit). -/
def parseNum : List Char → Option (Nat × List Char)
  | s =>
    let ds := s.takeWhile (fun c => isDig c)
    if ds = [] then none else some (pyInt ds, s.drop ds.length)

/-- Parse an optional quantifier `?`, `{m}` or `{m,n}` and apply it. -/
def parseQuant (a : RE) (s : List Char) : RE × List Char :=
  match s with
  | [] => (a, [])
  | c :: rest =>
    if c = '?' then (.opt a, rest)
    else if c = '{' then
      match parseNum rest with
      | some mr =>
        (match mr.2 with
         | [] => (a, c :: rest)
         | c2 :: r2 =>
           if c2 = '}' then (a.power mr.1, r2)
           else if c2 = ',' then
             match parseNum r2 with
             | some nr =>
               (match nr.2 with
                | [] => (a, c :: rest)
                | c3 :: r3 =>
                  if c3 = '}' then (a.repRange mr.1 nr.1, r3)
                  else (a, c :: rest))
             | none => (a, c :: rest)
           else (a, c :: rest))
      | none => (a, c :: rest)
    else (a, c :: rest)

mutual

/-- Parse one atom (group, class or literal) with its quantifier. -/
def parseItem : Nat → List Char → Option (RE × List Char)
  | 0, _ => none
  | fuel + 1, s =>
    match s with
    | [] => none
    | c :: rest =>
      if c = '(' then
        match parseAlt fuel rest with
        | some ar =>
          (match ar.2 with
           | c2 :: rem2 => if c2 = ')' then some (parseQuant ar.1 rem2) else none
           | [] => none)
        | none => none
      else if c = '[' then
        match parseClsBody rest with
        | some pr => some (parseQuant (RE.cls pr.1) pr.2)
        | none => none
      else if c = ')' ∨ c = '|' ∨ c = '?' ∨ c = '{' ∨ c = '}' ∨ c = ']' then none
      else some (parseQuant (RE.cls [c]) rest)

/-- Parse a (possibly empty) sequence of items, stopping at `)`/`|`/end. -/
def parseSeq : Nat → List Char → Option (RE × List Char)
  | 0, _ => none
  | fuel + 1, s =>
    if s = [] ∨ s.headD ' ' = ')' ∨ s.headD ' ' = '|' then some (RE.eps, s)
    else
      match parseItem fuel s with
      | some ir =>
        (match parseSeq fuel ir.2 with
         | some sr => some (RE.cat ir.1 sr.1, sr.2)
         | none => none)
      | none => none

/-- Parse an alternation `seq ('|' seq)*`. -/
def parseAlt : Nat → List Char → Option (RE × List Char)
  | 0, _ => none
  | fuel + 1, s =>
    match parseSeq fuel s with
    | some sr =>
      (match sr.2 with
       | c :: rem2 =>
         if c = '|' then
           match parseAlt fuel rem2 with
           | some ar => some (RE.alt sr.1 ar.1, ar.2)
           | none => none
         else some sr
       | [] => some sr)
    | none => none

end

/-- Parse a whole pattern string into a regex (anchored: the entire input
must be consumed). -/
def parseRE (s : List Char) : Option RE :=
  match parseAlt (2 * s.length + 4) s with
  | some (r, []) => some r
  | _ => none

/-- Boolean form: the pattern string `p`, compiled and matched in anchored
full-string mode, accepts `s`; an unparsable pattern accepts nothing. -/
def reAcceptsB (p s : List Char) : Bool :=
  match parseRE p with
  | some r => decide (r.Matches s)
  | none => false

/-- The pattern string `p`, compiled as a regex and matched in anchored
full-string mode, accepts the candidate string `s`. -/
def reAccepts (p s : List Char) : Prop := reAcceptsB p s = true

instance (p s : List Char) : Decidable (reAccepts p s) := by
  unfold reAccepts; infer_instance

/-! ### Characterization of the matcher -/

theorem endsOf_mem_iff : ∀ (r : RE) (s u : List Char),
    u ∈ r.endsOf s ↔ ∃ p, s = p ++ u ∧ r.Matches p := by
  intro r
  induction r with
  | eps =>
    intro s u
    simp only [RE.endsOf, List.mem_singleton]
    constructor
    · rintro rfl
      exact ⟨[], rfl, List.mem_singleton.2 rfl⟩
    · rintro ⟨p, rfl, hp⟩
      simp only [RE.Matches, RE.endsOf, List.mem_singleton] at hp
      subst hp
      rfl
  | cls cs =>
    intro s u
    constructor
    · intro hu
      cases s with
      | nil => simp [RE.endsOf] at hu
      | cons c t =>
        simp only [RE.endsOf] at hu
        by_cases hc : c ∈ cs
        · rw [if_pos hc] at hu
          simp only [List.mem_singleton] at hu
          subst hu
          refine ⟨[c], rfl, ?_⟩
          simp [RE.Matches, RE.endsOf, hc]
        · rw [if_neg hc] at hu
          simp at hu
    · rintro ⟨p, rfl, hp⟩
      unfold RE.Matches at hp
      cases p with
      | nil => simp [RE.endsOf] at hp
      | cons c t =>
        simp only [RE.endsOf] at hp
        by_cases hc : c ∈ cs
        · rw [if_pos hc] at hp
          simp only [List.mem_singleton] at hp
          subst hp
          simp [RE.endsOf, hc]
        · rw [if_neg hc] at hp
          simp at hp
  | cat a b iha ihb =>
    intro s u
    simp only [RE.endsOf, List.mem_flatMap]
    constructor
    · rintro ⟨m, hm, hu⟩
      obtain ⟨p1, rfl, hp1⟩ := (iha s m).1 hm
      obtain ⟨p2, rfl, hp2⟩ := (ihb m u).1 hu
      refine ⟨p1 ++ p2, by rw [List.append_assoc], ?_⟩
      unfold RE.Matches
      simp only [RE.endsOf, List.mem_flatMap]
      exact ⟨p2, (iha (p1 ++ p2) p2).2 ⟨p1, rfl, hp1⟩,
        (ihb p2 []).2 ⟨p2, by simp, hp2⟩⟩
    · rintro ⟨p, rfl, hp⟩
      unfold RE.Matches at hp
      simp only [RE.endsOf, List.mem_flatMap] at hp
      obtain ⟨m, hm, h0⟩ := hp
      obtain ⟨p1, rfl, hp1⟩ := (iha p m).1 hm
      obtain ⟨p2, hp2e, hp2⟩ := (ihb m []).1 h0
      rw [List.append_nil] at hp2e
      subst hp2e
      refine ⟨m ++ u, (iha _ _).2 ⟨p1, by rw [List.append_assoc], hp1⟩, ?_⟩
      exact (ihb (m ++ u) u).2 ⟨m, rfl, hp2⟩
  | alt a b iha ihb =>
    intro s u
    simp only [RE.endsOf, List.mem_append]
    constructor
    · rintro (h | h)
      · obtain ⟨p, rfl, hp⟩ := (iha s u).1 h
        refine ⟨p, rfl, ?_⟩
        unfold RE.Matches
        simp only [RE.endsOf, List.mem_append]
        left
        exact hp
      · obtain ⟨p, rfl, hp⟩ := (ihb s u).1 h
        refine ⟨p, rfl, ?_⟩
        unfold RE.Matches
        simp only [RE.endsOf, List.mem_append]
        right
        exact hp
    · rintro ⟨p, rfl, hp⟩
      unfold RE.Matches at hp
      simp only [RE.endsOf, List.mem_append] at hp
      rcases hp with h | h
      · left; exact (iha _ _).2 ⟨p, rfl, h⟩
      · right; exact (ihb _ _).2 ⟨p, rfl, h⟩
  | opt a iha =>
    intro s u
    simp only [RE.endsOf, List.mem_cons]
    constructor
    · rintro (rfl | h)
      · refine ⟨[], rfl, ?_⟩
        unfold RE.Matches
        simp [RE.endsOf]
      · obtain ⟨p, rfl, hp⟩ := (iha s u).1 h
        refine ⟨p, rfl, ?_⟩
        unfold RE.Matches
        simp only [RE.endsOf, List.mem_cons]
        right
        exact hp
    · rintro ⟨p, rfl, hp⟩
      unfold RE.Matches at hp
      simp only [RE.endsOf, List.mem_cons] at hp
      rcases hp with h | h
      · subst h
        left
        rfl
      · right
        exact (iha _ _).2 ⟨p, rfl, h⟩

theorem Matches_eps_iff (w : List Char) : RE.eps.Matches w ↔ w = [] := by
  unfold RE.Matches RE.endsOf
  simp [eq_comm]

theorem Matches_cls_iff (cs : List Char) (w : List Char) :
    (RE.cls cs).Matches w ↔ ∃ c, c ∈ cs ∧ w = [c] := by
  unfold RE.Matches
  cases w with
  | nil =>
    simp [RE.endsOf]
  | cons c t =>
    simp only [RE.endsOf]
    by_cases hc : c ∈ cs
    · rw [if_pos hc]
      simp only [List.mem_singleton]
      constructor
      · intro h
        exact ⟨c, hc, by rw [← h]⟩
      · rintro ⟨c2, hc2, he⟩
        simp only [List.cons.injEq] at he
        exact he.2.symm
    · rw [if_neg hc]
      simp only [List.not_mem_nil, false_iff, not_exists]
      rintro c2 ⟨hc2, he⟩
      simp only [List.cons.injEq] at he
      obtain ⟨rfl, rfl⟩ := he
      exact hc hc2

theorem Matches_cat_iff (a b : RE) (w : List Char) :
    (RE.cat a b).Matches w ↔ ∃ u v, w = u ++ v ∧ a.Matches u ∧ b.Matches v := by
  unfold RE.Matches
  simp only [RE.endsOf, List.mem_flatMap]
  constructor
  · rintro ⟨m, hm, h0⟩
    obtain ⟨p1, rfl, hp1⟩ := (endsOf_mem_iff a _ m).1 hm
    obtain ⟨p2, hp2e, hp2⟩ := (endsOf_mem_iff b m []).1 h0
    rw [List.append_nil] at hp2e
    subst hp2e
    exact ⟨p1, m, rfl, hp1, hp2⟩
  · rintro ⟨u, v, rfl, hu, hv⟩
    exact ⟨v, (endsOf_mem_iff a _ v).2 ⟨u, rfl, hu⟩,
      (endsOf_mem_iff b v []).2 ⟨v, by simp, hv⟩⟩

theorem Matches_alt_iff (a b : RE) (w : List Char) :
    (RE.alt a b).Matches w ↔ a.Matches w ∨ b.Matches w := by
  unfold RE.Matches
  simp [RE.endsOf]

theorem Matches_opt_iff (a : RE) (w : List Char) :
    (RE.opt a).Matches w ↔ w = [] ∨ a.Matches w := by
  unfold RE.Matches
  simp only [RE.endsOf, List.mem_cons]
  constructor
  · rintro (h | h)
    · left; exact h.symm
    · right; exact h
  · rintro (rfl | h)
    · left; rfl
    · right; exact h

/-- Unfolding characterization of `reAccepts`. -/
theorem reAccepts_iff (p s : List Char) :
    reAccepts p s ↔ ∃ r, parseRE p = some r ∧ r.Matches s := by
  unfold reAccepts reAcceptsB
  cases h : parseRE p with
  | none => simp [h]
  | some r =>
    simp only [decide_eq_true_eq]
    constructor
    · intro hm; exact ⟨r, rfl, hm⟩
    · rintro ⟨r2, hr2, hm⟩
      cases hr2; exact hm

/-! ### Digit-string arithmetic -/

theorem pyInt_foldl_shift (t : List Char) (a : Nat) :
    t.foldl (fun x c => 10 * x + digitVal c) a =
      a * 10 ^ t.length + t.foldl (fun x c => 10 * x + digitVal c) 0 := by
  induction t generalizing a with
  | nil => simp
  | cons c t ih =>
    simp only [List.foldl_cons, List.length_cons]
    rw [ih (10 * a + digitVal c), ih (10 * 0 + digitVal c)]
    ring

theorem pyInt_nil : pyInt [] = 0 := rfl

theorem pyInt_cons (c : Char) (t : List Char) :
    pyInt (c :: t) = digitVal c * 10 ^ t.length + pyInt t := by
  unfold pyInt
  simp only [List.foldl_cons]
  rw [pyInt_foldl_shift t (10 * 0 + digitVal c)]
  ring_nf

theorem pyInt_append (s t : List Char) :
    pyInt (s ++ t) = pyInt s * 10 ^ t.length + pyInt t := by
  unfold pyInt
  rw [List.foldl_append, pyInt_foldl_shift]

theorem pyInt_single (c : Char) : pyInt [c] = digitVal c := by
  rw [pyInt_cons]; simp [pyInt_nil]

theorem pyInt_replicate_zero (k : Nat) : pyInt (List.replicate k '0') = 0 := by
  induction k with
  | zero => rfl
  | succ k ih =>
    rw [List.replicate_succ, pyInt_cons, ih]
    simp [digitVal]

theorem pyInt_replicate_nine (k : Nat) :
    pyInt (List.replicate k '9') = 10 ^ k - 1 := by
  induction k with
  | zero => rfl
  | succ k ih =>
    rw [List.replicate_succ, pyInt_cons, ih]
    simp only [List.length_replicate]
    have h : 1 ≤ (10 : Nat) ^ k := Nat.one_le_pow _ _ (by norm_num)
    have : digitVal '9' = 9 := rfl
    rw [this, pow_succ]
    omega

theorem pyInt_lt_pow (t : List Char) (h : AllDigits t) :
    pyInt t < 10 ^ t.length := by
  induction t with
  | nil => simp [pyInt_nil]
  | cons c t ih =>
    rw [pyInt_cons]
    have hc : isDig c = true := h c (List.mem_cons_self _ _)
    have hd : digitVal c ≤ 9 := by
      unfold isDig at hc
      unfold digitVal
      simp only [Bool.and_eq_true, decide_eq_true_eq] at hc
      omega
    have ht := ih (fun x hx => h x (List.mem_cons_of_mem _ hx))
    have h10 : (0 : Nat) < 10 ^ t.length := Nat.pos_pow_of_pos _ (by norm_num)
    calc digitVal c * 10 ^ t.length + pyInt t
        ≤ 9 * 10 ^ t.length + pyInt t := by
          exact Nat.add_le_add_right (Nat.mul_le_mul_right _ hd) _
      _ < 9 * 10 ^ t.length + 10 ^ t.length := by omega
      _ = 10 ^ (t.length + 1) := by ring
      _ = 10 ^ (c :: t).length := by simp

/-! ### Characters -/

theorem isDig_iff (c : Char) : isDig c = true ↔ 48 ≤ c.toNat ∧ c.toNat ≤ 57 := by
  unfold isDig
  simp

theorem digitVal_le_nine (c : Char) (h : isDig c = true) : digitVal c ≤ 9 := by
  rw [isDig_iff] at h
  unfold digitVal
  omega

theorem char_toNat_eq_digitVal (c : Char) (h : isDig c = true) :
    c.toNat = 48 + digitVal c := by
  rw [isDig_iff] at h
  unfold digitVal
  omega

theorem char_lt_iff_digitVal (c d : Char) (hc : isDig c = true)
    (hd : isDig d = true) : c < d ↔ digitVal c < digitVal d := by
  have h1 := char_toNat_eq_digitVal c hc
  have h2 := char_toNat_eq_digitVal d hd
  have : c < d ↔ c.toNat < d.toNat := by
    constructor
    · intro h; exact h
    · intro h; exact h
  rw [this, h1, h2]
  omega

theorem char_eq_of_toNat_eq (c d : Char) (h : c.toNat = d.toNat) : c = d := by
  cases c; cases d
  simp only [Char.toNat] at h
  congr 1
  exact UInt32.toNat.inj h

theorem char_eq_of_digitVal_eq (c d : Char) (hc : isDig c = true)
    (hd : isDig d = true) (h : digitVal c = digitVal d) : c = d := by
  have h1 := char_toNat_eq_digitVal c hc
  have h2 := char_toNat_eq_digitVal d hd
  exact char_eq_of_toNat_eq c d (by omega)

theorem digitChar_isDig (d : Nat) (h : d < 10) : isDig (Nat.digitChar d) = true := by
  interval_cases d <;> decide

theorem digitVal_digitChar (d : Nat) (h : d < 10) :
    digitVal (Nat.digitChar d) = d := by
  interval_cases d <;> decide

/-! ### `natStr` via `Nat.digits` -/

theorem natStrF_zero_arg (fuel : Nat) : natStrF fuel 0 = [] := by
  cases fuel <;> rfl

theorem natStrF_eq_digits (fuel : Nat) : ∀ n : Nat, 0 < n → n < 10 ^ fuel →
    natStrF fuel n = ((Nat.digits 10 n).map Nat.digitChar).reverse := by
  induction fuel with
  | zero => intro n hn h; simp at h; omega
  | succ fuel ih =>
    intro n hn h
    obtain ⟨m, rfl⟩ : ∃ m, n = m + 1 := ⟨n - 1, by omega⟩
    rw [show natStrF (fuel + 1) (m + 1) =
        natStrF fuel ((m + 1) / 10) ++ [Nat.digitChar ((m + 1) % 10)] from rfl]
    rw [Nat.digits_def' (by norm_num : (1:Nat) < 10) hn]
    simp only [List.map_cons, List.reverse_cons]
    by_cases h0 : (m + 1) / 10 = 0
    · rw [h0, natStrF_zero_arg]
      simp
    · rw [ih ((m + 1) / 10) (Nat.pos_of_ne_zero h0)
        (by
          rw [Nat.div_lt_iff_lt_mul (by norm_num : (0:Nat) < 10)]
          calc m + 1 < 10 ^ (fuel + 1) := h
            _ = 10 ^ fuel * 10 := by ring)]

theorem natStr_eq_digits (n : Nat) (hn : n ≠ 0) :
    natStr n = ((Nat.digits 10 n).map Nat.digitChar).reverse := by
  unfold natStr
  rw [if_neg hn]
  exact natStrF_eq_digits (n + 1) n (Nat.pos_of_ne_zero hn)
    (lt_of_lt_of_le (Nat.lt_pow_self (by norm_num) n)
      (Nat.pow_le_pow_right (by norm_num) (Nat.le_succ n)))

theorem natStr_zero : natStr 0 = ['0'] := rfl

theorem natStr_ne_nil (n : Nat) : natStr n ≠ [] := by
  by_cases hn : n = 0
  · subst hn; simp [natStr_zero]
  · rw [natStr_eq_digits n hn]
    simp only [ne_eq, List.reverse_eq_nil_iff, List.map_eq_nil_iff]
    exact Nat.digits_ne_nil_iff_ne_zero.2 hn

theorem natStr_all_digits (n : Nat) : AllDigits (natStr n) := by
  by_cases hn : n = 0
  · subst hn; intro c hc; simp [natStr_zero] at hc; subst hc; decide
  · rw [natStr_eq_digits n hn]
    intro c hc
    simp only [List.mem_reverse, List.mem_map] at hc
    obtain ⟨d, hd, rfl⟩ := hc
    exact digitChar_isDig d (Nat.digits_lt_base (by norm_num) hd)

theorem natStr_length (n : Nat) (hn : n ≠ 0) :
    (natStr n).length = (Nat.digits 10 n).length := by
  rw [natStr_eq_digits n hn]
  simp

theorem pyInt_digits_reverse (ds : List Nat) (h : ∀ d ∈ ds, d < 10) :
    pyInt ((ds.map Nat.digitChar).reverse) = Nat.ofDigits 10 ds := by
  induction ds with
  | nil => rfl
  | cons d ds ih =>
    simp only [List.map_cons, List.reverse_cons]
    rw [pyInt_append, ih (fun x hx => h x (List.mem_cons_of_mem _ hx)),
      pyInt_single, digitVal_digitChar d (h d (List.mem_cons_self _ _)),
      Nat.ofDigits_cons]
    simp only [List.length_cons, List.length_nil, pow_one]
    ring

theorem pyInt_natStr (n : Nat) : pyInt (natStr n) = n := by
  by_cases hn : n = 0
  · subst hn; rfl
  · rw [natStr_eq_digits n hn,
      pyInt_digits_reverse _ (fun d hd => Nat.digits_lt_base (by norm_num) hd),
      Nat.ofDigits_digits]

theorem natStr_lt_pow (n : Nat) : n < 10 ^ (natStr n).length := by
  by_cases hn : n = 0
  · subst hn; simp [natStr_zero]
  · rw [natStr_length n hn]
    exact Nat.lt_base_pow_length_digits (by norm_num)

theorem natStr_pow_le (n : Nat) (hn : n ≠ 0) :
    10 ^ ((natStr n).length - 1) ≤ n := by
  rw [natStr_length n hn, Nat.digits_len 10 n (by norm_num) hn]
  simpa using Nat.pow_log_le_self 10 hn

theorem natStr_length_le_iff (n : Nat) (k : Nat) (hn : n ≠ 0) :
    (natStr n).length ≤ k ↔ n < 10 ^ k := by
  rw [natStr_length n hn]
  constructor
  · intro h
    exact lt_of_lt_of_le (Nat.lt_base_pow_length_digits (by norm_num))
      (Nat.pow_le_pow_right (by norm_num) h)
  · intro h
    rw [Nat.digits_len 10 n (by norm_num) hn]
    have := (Nat.lt_pow_iff_log_lt (by norm_num : (1:Nat) < 10) hn).1 h
    omega

/-! ### A grammar of the emitted pattern strings

`Gram cat s r` is a derivation mirroring the parser exactly: running the
corresponding parser function on `s` followed by a suitable stop context
consumes exactly `s` and yields exactly `r`. -/

/-- Characters that parse as literal atoms. -/
def allowedLit (c : Char) : Prop :=
  c ≠ '(' ∧ c ≠ ')' ∧ c ≠ '|' ∧ c ≠ '?' ∧ c ≠ '{' ∧ c ≠ '}' ∧ c ≠ '[' ∧ c ≠ ']'

/-- Class-body derivations (everything after `[`, including the `]`). -/
inductive ClsG : List Char → List Char → Prop where
  | done : ClsG [']'] []
  | rng (a b : Char) (rest cs : List Char) : a ≠ ']' → a ≠ '-' → b ≠ ']' →
      ClsG rest cs → ClsG (a :: '-' :: b :: rest) (rangeList a b ++ cs)
  | chr (a : Char) (rest cs : List Char) : a ≠ ']' →
      rest.headD ' ' ≠ '-' →
      ClsG rest cs → ClsG (a :: rest) (a :: cs)

/-- Quantifier derivations: the quantifier string `q` applied to `base`
yields `r`. -/
inductive QuantG : List Char → RE → RE → Prop where
  | opt (base : RE) : QuantG ['?'] base (RE.opt base)
  | pow (base : RE) (m : Nat) : QuantG ('{' :: natStr m ++ ['}']) base (base.power m)
  | rep (base : RE) (m n : Nat) :
      QuantG ('{' :: natStr m ++ ',' :: natStr n ++ ['}']) base (base.repRange m n)

/-- Syntactic category: alternation, sequence or single item. -/
inductive GCat where
  | alt | seq | item

/-- Derivations of emitted pattern strings, by category. -/
inductive Gram : GCat → List Char → RE → Prop where
  | seqNil : Gram GCat.seq [] RE.eps
  | seqCons (t s : List Char) (r r2 : RE) :
      Gram GCat.item t r → Gram GCat.seq s r2 →
      Gram GCat.seq (t ++ s) (RE.cat r r2)
  | altOne (s : List Char) (r : RE) : Gram GCat.seq s r → Gram GCat.alt s r
  | altCons (s s2 : List Char) (r r2 : RE) :
      Gram GCat.seq s r → Gram GCat.alt s2 r2 →
      Gram GCat.alt (s ++ '|' :: s2) (RE.alt r r2)
  | itemChr (c : Char) : allowedLit c → Gram GCat.item [c] (RE.cls [c])
  | itemChrQ (c : Char) (q : List Char) (r : RE) :
      allowedLit c → QuantG q (RE.cls [c]) r → Gram GCat.item (c :: q) r
  | itemCls (body cs : List Char) :
      ClsG body cs → Gram GCat.item ('[' :: body) (RE.cls cs)
  | itemClsQ (body cs q : List Char) (r : RE) :
      ClsG body cs → QuantG q (RE.cls cs) r →
      Gram GCat.item ('[' :: (body ++ q)) r
  | itemGrp (inner : List Char) (r : RE) :
      Gram GCat.alt inner r → Gram GCat.item ('(' :: (inner ++ [')'])) r
  | itemGrpQ (inner q : List Char) (r r2 : RE) :
      Gram GCat.alt inner r → QuantG q r r2 →
      Gram GCat.item ('(' :: (inner ++ ')' :: q)) r2

/-- Stop contexts under which a derivation of each category round-trips
through the parser. -/
def stopOf : GCat → List Char → Prop
  | GCat.alt, rest => rest = [] ∨ rest.headD ' ' = ')'
  | GCat.seq, rest => rest = [] ∨ rest.headD ' ' = ')' ∨ rest.headD ' ' = '|'
  | GCat.item, rest => rest = [] ∨ (rest.headD ' ' ≠ '?' ∧ rest.headD ' ' ≠ '{')

/-- Fuel headroom needed by each category. -/
def fuelNeed : GCat → Nat
  | GCat.alt => 3
  | GCat.seq => 2
  | GCat.item => 1

/-- The parser function for each category. -/
def parseOf : GCat → Nat → List Char → Option (RE × List Char)
  | GCat.alt => parseAlt
  | GCat.seq => parseSeq
  | GCat.item => parseItem

theorem quantG_head {q : List Char} {b r : RE} (h : QuantG q b r) :
    ∃ c q2, q = c :: q2 ∧ (c = '?' ∨ c = '{') := by
  cases h with
  | opt => exact ⟨'?', [], rfl, Or.inl rfl⟩
  | pow base m => exact ⟨'{', _, rfl, Or.inr rfl⟩
  | rep base m n => exact ⟨'{', _, rfl, Or.inr rfl⟩

theorem gram_item_head {t : List Char} {r : RE} (h : Gram GCat.item t r) :
    ∃ c t2, t = c :: t2 ∧ c ≠ ')' ∧ c ≠ '|' ∧ c ≠ '?' ∧ c ≠ '{' := by
  cases h with
  | itemChr c hc => exact ⟨c, [], rfl, hc.2.1, hc.2.2.1, hc.2.2.2.1, hc.2.2.2.2.1⟩
  | itemChrQ c q r hc hq => exact ⟨c, q, rfl, hc.2.1, hc.2.2.1, hc.2.2.2.1, hc.2.2.2.2.1⟩
  | itemCls body cs hb => exact ⟨'[', body, rfl, by decide, by decide, by decide, by decide⟩
  | itemClsQ body cs q r hb hq =>
    exact ⟨'[', body ++ q, rfl, by decide, by decide, by decide, by decide⟩
  | itemGrp inner r hi =>
    exact ⟨'(', inner ++ [')'], rfl, by decide, by decide, by decide, by decide⟩
  | itemGrpQ inner q r r2 hi hq =>
    exact ⟨'(', inner ++ ')' :: q, rfl, by decide, by decide, by decide, by decide⟩

theorem gram_seq_shape {s : List Char} {r : RE} (h : Gram GCat.seq s r) :
    s = [] ∨ ∃ c s2, s = c :: s2 ∧ c ≠ ')' ∧ c ≠ '|' ∧ c ≠ '?' ∧ c ≠ '{' := by
  cases h with
  | seqNil => exact Or.inl rfl
  | seqCons t s2 r1 r2 hi hs =>
    obtain ⟨c, t2, rfl, h1, h2, h3, h4⟩ := gram_item_head hi
    exact Or.inr ⟨c, t2 ++ s2, rfl, h1, h2, h3, h4⟩

theorem clsG_ne_nil {body cs : List Char} (h : ClsG body cs) : body ≠ [] := by
  cases h <;> simp

theorem takeWhile_append_all (p : Char → Bool) (rest : List Char)
    (hrest : rest = [] ∨ p (rest.headD ' ') = false) :
    ∀ l : List Char, (∀ c ∈ l, p c = true) →
      (l ++ rest).takeWhile p = l := by
  intro l hl
  induction l with
  | nil =>
    rcases hrest with rfl | hh
    · rfl
    · cases rest with
      | nil => rfl
      | cons c2 t2 =>
        simp only [List.headD_cons] at hh
        simp only [List.nil_append, List.takeWhile, hh]
  | cons c2 t2 ih2 =>
    simp only [List.cons_append, List.takeWhile, hl c2 (List.mem_cons_self _ _),
      List.append_eq]
    rw [ih2 (fun x hx => hl x (List.mem_cons_of_mem _ hx))]

theorem parseNum_natStr (m : Nat) (rest : List Char)
    (h : rest = [] ∨ isDig (rest.headD ' ') = false) :
    parseNum (natStr m ++ rest) = some (m, rest) := by
  have htake : (natStr m ++ rest).takeWhile (fun c => isDig c) = natStr m :=
    takeWhile_append_all _ rest h (natStr m) (natStr_all_digits m)
  unfold parseNum
  simp only [htake]
  rw [if_neg (natStr_ne_nil m), pyInt_natStr]
  congr 1
  congr 1
  rw [List.drop_left]

theorem quantG_parse {q : List Char} {base r : RE} (h : QuantG q base r)
    (rest : List Char) : parseQuant base (q ++ rest) = (r, rest) := by
  cases h with
  | opt =>
    simp [parseQuant]
  | pow base m =>
    simp only [List.cons_append, List.append_assoc, List.nil_append, parseQuant]
    rw [parseNum_natStr m ('}' :: rest)
      (by right; simp only [List.headD_cons]; decide)]
    simp
  | rep base m n =>
    simp only [List.cons_append, List.append_assoc, List.nil_append, parseQuant]
    rw [parseNum_natStr m (',' :: (natStr n ++ '}' :: rest))
      (by right; simp only [List.headD_cons]; decide)]
    simp only [reduceIte]
    rw [parseNum_natStr n ('}' :: rest)
      (by right; simp only [List.headD_cons]; decide)]
    simp

theorem clsG_parse {body cs : List Char} (h : ClsG body cs) :
    ∀ rest, parseClsBody (body ++ rest) = some (cs, rest) := by
  induction h with
  | done =>
    intro rest
    rw [parseClsBody.eq_def]
    simp
  | rng a b rest0 cs0 ha hd hb h0 ih =>
    intro rest
    rw [show (a :: '-' :: b :: rest0) ++ rest = a :: '-' :: b :: (rest0 ++ rest)
      from by simp]
    rw [parseClsBody.eq_def]
    simp only [if_neg ha]
    rw [if_neg hb, ih rest]
    simp
  | chr a rest0 cs0 ha hnd h0 ih =>
    intro rest
    obtain ⟨y, rest1, rfl⟩ : ∃ y rest1, rest0 = y :: rest1 := by
      cases rest0 with
      | nil => exact absurd rfl (clsG_ne_nil h0)
      | cons y r1 => exact ⟨y, r1, rfl⟩
    simp only [List.headD_cons] at hnd
    rw [show (a :: y :: rest1) ++ rest = a :: y :: (rest1 ++ rest) from by simp]
    rw [parseClsBody.eq_def]
    simp only [if_neg ha]
    cases hr : rest1 ++ rest with
    | nil =>
      have h1 : rest1 = [] := by
        cases rest1 with
        | nil => rfl
        | cons w ws => simp at hr
      have h2 : rest = [] := by
        subst h1
        simpa using hr
      subst h1
      subst h2
      have hstep := ih []
      simp only [List.append_nil] at hstep
      simp only [hstep]
    | cons w ws =>
      have hstep := ih rest
      have hys : (y :: rest1) ++ rest = y :: w :: ws := by
        simp only [List.cons_append, hr]
      rw [hys] at hstep
      simp only [if_neg hnd, hstep]

theorem parseQuant_stop (a : RE) (rest : List Char)
    (h : rest = [] ∨ (rest.headD ' ' ≠ '?' ∧ rest.headD ' ' ≠ '{')) :
    parseQuant a rest = (a, rest) := by
  cases rest with
  | nil => rfl
  | cons c r2 =>
    rcases h with h | ⟨h1, h2⟩
    · simp at h
    · simp only [List.headD_cons] at h1 h2
      simp only [parseQuant]
      rw [if_neg h1, if_neg h2]

/-- The parser round-trips every grammar derivation: run with enough fuel on
the derived string followed by a stop context, it consumes exactly the
derived string and returns exactly the derived regex. -/
theorem gram_parse : ∀ {cat : GCat} {s : List Char} {r : RE}, Gram cat s r →
    ∀ (rest : List Char) (fuel : Nat), stopOf cat rest →
    2 * s.length + rest.length + fuelNeed cat ≤ fuel →
    parseOf cat fuel (s ++ rest) = some (r, rest) := by
  intro cat s r h
  induction h with
  | seqNil =>
    intro rest fuel hstop hfuel
    simp only [fuelNeed] at hfuel
    obtain ⟨f, rfl⟩ : ∃ f, fuel = f + 1 := ⟨fuel - 1, by omega⟩
    simp only [parseOf, parseSeq, List.nil_append]
    have hstop2 : rest = [] ∨ rest.headD ' ' = ')' ∨ rest.headD ' ' = '|' := hstop
    rw [if_pos hstop2]
  | seqCons t s2 r1 r2 hit hse iht ihs =>
    intro rest fuel hstop hfuel
    simp only [fuelNeed, List.length_append] at hfuel
    obtain ⟨f, rfl⟩ : ∃ f, fuel = f + 1 := ⟨fuel - 1, by omega⟩
    obtain ⟨c, t2, rfl, hc1, hc2, hc3, hc4⟩ := gram_item_head hit
    simp only [parseOf, parseSeq, List.cons_append, List.append_assoc]
    rw [if_neg (by
      simp only [List.headD_cons]
      push_neg
      exact ⟨by simp, hc1, hc2⟩)]
    have hstop2 : stopOf GCat.item (s2 ++ rest) := by
      rcases gram_seq_shape hse with rfl | ⟨c2, s3, rfl, h1, h2, h3, h4⟩
      · simp only [List.nil_append]
        rcases hstop with rfl | h | h
        · exact Or.inl rfl
        · right
          constructor <;> (intro hcon; rw [hcon] at h; simp at h)
        · right
          constructor <;> (intro hcon; rw [hcon] at h; simp at h)
      · right
        simp only [List.cons_append, List.headD_cons]
        exact ⟨h3, h4⟩
    have hit2 := iht (s2 ++ rest) f hstop2 (by
      simp only [fuelNeed, List.length_append, List.length_cons]
      simp only [List.length_cons] at hfuel
      omega)
    simp only [parseOf, List.cons_append, List.append_assoc] at hit2
    rw [hit2]
    have hse2 := ihs rest f hstop (by
      simp only [fuelNeed]
      simp only [List.length_cons] at hfuel
      omega)
    simp only [parseOf] at hse2
    simp only [hse2]
  | altOne s2 r2 hse ih =>
    intro rest fuel hstop hfuel
    simp only [fuelNeed] at hfuel
    obtain ⟨f, rfl⟩ : ∃ f, fuel = f + 1 := ⟨fuel - 1, by omega⟩
    simp only [parseOf, parseAlt]
    have hse2 := ih rest f (by
      rcases hstop with rfl | h
      · exact Or.inl rfl
      · exact Or.inr (Or.inl h)) (by simp only [fuelNeed]; omega)
    simp only [parseOf] at hse2
    rw [hse2]
    rcases hstop with rfl | h
    · rfl
    · cases rest with
      | nil => rfl
      | cons c rr =>
        simp only [List.headD_cons] at h
        subst h
        simp only []
        rw [if_neg (by decide)]
  | altCons s2 s3 r2 r3 hse halt ihs ihalt =>
    intro rest fuel hstop hfuel
    simp only [fuelNeed, List.length_append, List.length_cons] at hfuel
    obtain ⟨f, rfl⟩ : ∃ f, fuel = f + 1 := ⟨fuel - 1, by omega⟩
    simp only [parseOf, parseAlt, List.append_assoc, List.cons_append]
    have hse2 := ihs ('|' :: (s3 ++ rest)) f
      (Or.inr (Or.inr (by simp)))
      (by simp only [fuelNeed, List.length_cons, List.length_append]; omega)
    simp only [parseOf] at hse2
    rw [hse2]
    simp only [reduceIte]
    have halt2 := ihalt rest f hstop
      (by simp only [fuelNeed]; omega)
    simp only [parseOf] at halt2
    rw [halt2]
  | itemChr c hc =>
    intro rest fuel hstop hfuel
    simp only [fuelNeed] at hfuel
    obtain ⟨f, rfl⟩ : ∃ f, fuel = f + 1 := ⟨fuel - 1, by omega⟩
    simp only [parseOf, parseItem, List.cons_append, List.nil_append]
    rw [if_neg hc.1, if_neg hc.2.2.2.2.2.2.1,
      if_neg (by push_neg; exact ⟨hc.2.1, hc.2.2.1, hc.2.2.2.1, hc.2.2.2.2.1,
        hc.2.2.2.2.2.1, hc.2.2.2.2.2.2.2⟩)]
    rw [parseQuant_stop _ rest hstop]
  | itemChrQ c q r2 hc hq =>
    intro rest fuel hstop hfuel
    simp only [fuelNeed] at hfuel
    obtain ⟨f, rfl⟩ : ∃ f, fuel = f + 1 := ⟨fuel - 1, by omega⟩
    simp only [parseOf, parseItem, List.cons_append]
    rw [if_neg hc.1, if_neg hc.2.2.2.2.2.2.1,
      if_neg (by push_neg; exact ⟨hc.2.1, hc.2.2.1, hc.2.2.2.1, hc.2.2.2.2.1,
        hc.2.2.2.2.2.1, hc.2.2.2.2.2.2.2⟩)]
    rw [quantG_parse hq rest]
  | itemCls body cs hb =>
    intro rest fuel hstop hfuel
    simp only [fuelNeed] at hfuel
    obtain ⟨f, rfl⟩ : ∃ f, fuel = f + 1 := ⟨fuel - 1, by omega⟩
    simp only [parseOf, parseItem, List.cons_append, reduceIte]
    rw [clsG_parse hb rest]
    simp only []
    rw [parseQuant_stop _ rest hstop]
    rw [if_neg (by decide)]
  | itemClsQ body cs q r2 hb hq =>
    intro rest fuel hstop hfuel
    simp only [fuelNeed] at hfuel
    obtain ⟨f, rfl⟩ : ∃ f, fuel = f + 1 := ⟨fuel - 1, by omega⟩
    simp only [parseOf, parseItem, List.cons_append, List.append_assoc, reduceIte]
    rw [clsG_parse hb (q ++ rest)]
    simp only []
    rw [quantG_parse hq rest]
    rw [if_neg (by decide)]
  | itemGrp inner r2 hi ih =>
    intro rest fuel hstop hfuel
    simp only [fuelNeed, List.length_cons, List.length_append, List.length_nil]
      at hfuel
    obtain ⟨f, rfl⟩ : ∃ f, fuel = f + 1 := ⟨fuel - 1, by omega⟩
    simp only [parseOf, parseItem, List.cons_append, List.append_assoc,
      List.singleton_append, List.nil_append, reduceIte]
    have hi2 := ih (')' :: rest) f (Or.inr (by simp))
      (by simp only [fuelNeed, List.length_cons]; omega)
    simp only [parseOf] at hi2
    rw [hi2]
    simp only [reduceIte]
    rw [parseQuant_stop _ rest hstop]
  | itemGrpQ inner q r2 r3 hi hq ih =>
    intro rest fuel hstop hfuel
    simp only [fuelNeed, List.length_cons, List.length_append] at hfuel
    obtain ⟨f, rfl⟩ : ∃ f, fuel = f + 1 := ⟨fuel - 1, by omega⟩
    simp only [parseOf, parseItem, List.cons_append, List.append_assoc, reduceIte]
    have hi2 := ih (')' :: (q ++ rest)) f (Or.inr (by simp))
      (by simp only [fuelNeed, List.length_cons, List.length_append]; omega)
    simp only [parseOf] at hi2
    rw [hi2]
    simp only [reduceIte]
    rw [quantG_parse hq rest]

/-- Whole-string parsing of an alternation derivation. -/
theorem gram_parseRE {s : List Char} {r : RE} (h : Gram GCat.alt s r) :
    parseRE s = some r := by
  unfold parseRE
  have hp := gram_parse h [] (2 * s.length + 4) (Or.inl rfl)
    (by simp only [fuelNeed, List.length_nil]; omega)
  simp only [parseOf, List.append_nil] at hp
  rw [hp]

/-! ### Token lists and their languages -/

/-- Right-nested concatenation of a token list's regexes, as the parser
builds it. -/
def reOf : List (List Char × RE) → RE
  | [] => RE.eps
  | tr :: ts => RE.cat tr.2 (reOf ts)

/-- The string of a token list. -/
def flatToks (toks : List (List Char × RE)) : List Char :=
  (toks.map Prod.fst).flatten

theorem flatToks_nil : flatToks [] = [] := rfl

theorem flatToks_cons (tr : List Char × RE) (ts : List (List Char × RE)) :
    flatToks (tr :: ts) = tr.1 ++ flatToks ts := by
  unfold flatToks
  simp

theorem flatToks_append (a b : List (List Char × RE)) :
    flatToks (a ++ b) = flatToks a ++ flatToks b := by
  unfold flatToks
  simp

theorem gram_seq_of_toks (toks : List (List Char × RE))
    (h : ∀ tr ∈ toks, Gram GCat.item tr.1 tr.2) :
    Gram GCat.seq (flatToks toks) (reOf toks) := by
  induction toks with
  | nil => exact Gram.seqNil
  | cons tr ts ih =>
    rw [flatToks_cons]
    exact Gram.seqCons tr.1 (flatToks ts) tr.2 (reOf ts)
      (h tr (List.mem_cons_self _ _))
      (ih (fun x hx => h x (List.mem_cons_of_mem _ hx)))

theorem reOf_cons (tr : List Char × RE) (ts : List (List Char × RE)) :
    reOf (tr :: ts) = RE.cat tr.2 (reOf ts) := rfl

theorem Matches_reOf_cons (tr : List Char × RE) (ts : List (List Char × RE))
    (w : List Char) :
    (reOf (tr :: ts)).Matches w ↔
      ∃ u v, w = u ++ v ∧ tr.2.Matches u ∧ (reOf ts).Matches v := by
  rw [reOf_cons]
  exact Matches_cat_iff _ _ w

theorem Matches_reOf_append (a b : List (List Char × RE)) (w : List Char) :
    (reOf (a ++ b)).Matches w ↔
      ∃ u v, w = u ++ v ∧ (reOf a).Matches u ∧ (reOf b).Matches v := by
  induction a generalizing w with
  | nil =>
    simp only [List.nil_append]
    constructor
    · intro h
      exact ⟨[], w, rfl, (Matches_eps_iff []).2 rfl, h⟩
    · rintro ⟨u, v, rfl, hu, hv⟩
      rw [(Matches_eps_iff u).1 hu]
      simpa using hv
  | cons tr ts ih =>
    simp only [List.cons_append]
    simp only [Matches_reOf_cons]
    constructor
    · rintro ⟨u, v, rfl, hu, hv⟩
      obtain ⟨v1, v2, rfl, hv1, hv2⟩ := (ih v).1 hv
      exact ⟨u ++ v1, v2, by rw [List.append_assoc], ⟨u, v1, rfl, hu, hv1⟩, hv2⟩
    · rintro ⟨u, v, rfl, ⟨u1, u2, rfl, hu1, hu2⟩, hv⟩
      exact ⟨u1, u2 ++ v, by rw [List.append_assoc], hu1,
        (ih (u2 ++ v)).2 ⟨u2, v, rfl, hu2, hv⟩⟩

/-- Right-nested alternation of a nonempty list of regexes, as the parser
builds it. -/
def altOf : List RE → RE
  | [] => RE.eps
  | [r] => r
  | r :: rs => RE.alt r (altOf rs)

theorem joinBar_cons2 (a b : List Char) (t : List (List Char)) :
    joinBar (a :: b :: t) = a ++ '|' :: joinBar (b :: t) := by
  unfold joinBar
  simp only [List.intersperse]
  simp

theorem joinBar_single (a : List Char) : joinBar [a] = a := by
  unfold joinBar
  simp

theorem gram_alt_of_list : ∀ (l : List (List Char × RE)), l ≠ [] →
    (∀ e ∈ l, Gram GCat.seq e.1 e.2) →
    Gram GCat.alt (joinBar (l.map Prod.fst)) (altOf (l.map Prod.snd)) := by
  intro l
  induction l with
  | nil => intro h; exact absurd rfl h
  | cons e t ih =>
    intro _ h
    cases t with
    | nil =>
      simp only [List.map_cons, List.map_nil, joinBar_single]
      exact Gram.altOne _ _ (h e (List.mem_cons_self _ _))
    | cons e2 t2 =>
      simp only [List.map_cons]
      rw [joinBar_cons2]
      have hrec := ih (by simp) (fun x hx => h x (List.mem_cons_of_mem _ hx))
      simp only [List.map_cons] at hrec
      exact Gram.altCons e.1 _ e.2 _ (h e (List.mem_cons_self _ _)) hrec

theorem Matches_altOf : ∀ (l : List RE), l ≠ [] → ∀ w,
    ((altOf l).Matches w ↔ ∃ r ∈ l, r.Matches w) := by
  intro l
  induction l with
  | nil => intro h; exact absurd rfl h
  | cons r t ih =>
    intro _ w
    cases t with
    | nil =>
      simp only [altOf]
      constructor
      · intro h; exact ⟨r, by simp, h⟩
      · rintro ⟨r2, hr2, h⟩
        simp only [List.mem_singleton] at hr2
        subst hr2
        exact h
    | cons r2 t2 =>
      simp only [altOf]
      rw [Matches_alt_iff]
      constructor
      · rintro (h | h)
        · exact ⟨r, List.mem_cons_self _ _, h⟩
        · obtain ⟨r3, hr3, h3⟩ := (ih (by simp) w).1 h
          exact ⟨r3, List.mem_cons_of_mem _ hr3, h3⟩
      · rintro ⟨r3, hr3, h3⟩
        rcases List.mem_cons.1 hr3 with rfl | hr3
        · exact Or.inl h3
        · exact Or.inr ((ih (by simp) w).2 ⟨r3, hr3, h3⟩)

/-! ### Pattern languages for the prefix tree -/

/-- The language of one token string: matches of some derivable regex. -/
def TokML (t : List Char) (u : List Char) : Prop :=
  ∃ r, Gram GCat.item t r ∧ r.Matches u

/-- The language of one pattern (a token-string list): concatenation. -/
def PatML : List (List Char) → List Char → Prop
  | [], w => w = []
  | t :: p, w => ∃ u v, w = u ++ v ∧ TokML t u ∧ PatML p v

/-- The language of a node key: empty string for the empty key, otherwise
the token's language. -/
def KeyML : List Char → List Char → Prop
  | [], u => u = []
  | key, u => TokML key u

/-! ### Decimal strings of `d * 10^k` and `d * 10^k - 1` -/

theorem digits_single (d : Nat) (h1 : 0 < d) (h9 : d < 10) :
    Nat.digits 10 d = [d] := by
  rw [Nat.digits_def' (by norm_num : (1:Nat) < 10) h1,
    Nat.mod_eq_of_lt h9, Nat.div_eq_of_lt h9]
  simp

theorem natStr_pow_mul (d k : Nat) (h1 : 0 < d) (h9 : d < 10) :
    natStr (d * 10 ^ k) = Nat.digitChar d :: List.replicate k '0' := by
  have hne : d * 10 ^ k ≠ 0 := by positivity
  rw [natStr_eq_digits _ hne, mul_comm d (10 ^ k),
    Nat.digits_base_pow_mul (by norm_num) h1, digits_single d h1 h9]
  simp only [List.map_append, List.map_replicate, List.map_cons, List.map_nil,
    List.reverse_append, List.reverse_replicate, List.reverse_cons, List.reverse_nil,
    List.nil_append]
  rfl

theorem digits_pred_pow : ∀ k : Nat, Nat.digits 10 (10 ^ k - 1) = List.replicate k 9 := by
  intro k
  induction k with
  | zero => simp
  | succ k ih =>
    have hpos : 0 < 10 ^ (k + 1) - 1 := by
      have : (10:Nat) ^ (k + 1) ≥ 10 := by
        calc (10:Nat) ^ (k+1) ≥ 10 ^ 1 := Nat.pow_le_pow_right (by norm_num) (by omega)
          _ = 10 := by norm_num
      omega
    have hk : (0:Nat) < 10 ^ k := Nat.pos_pow_of_pos _ (by norm_num)
    have hdecomp : 10 ^ (k + 1) - 1 = 10 * (10 ^ k - 1) + 9 := by
      rw [pow_succ]
      omega
    rw [Nat.digits_def' (by norm_num : (1:Nat) < 10) hpos]
    rw [hdecomp]
    have hmod : (10 * (10 ^ k - 1) + 9) % 10 = 9 := by omega
    have hdiv : (10 * (10 ^ k - 1) + 9) / 10 = 10 ^ k - 1 := by omega
    rw [hmod, hdiv, ih]
    rfl

theorem digits_mul_pow_pred (d : Nat) (h2 : 2 ≤ d) (h9 : d ≤ 9) :
    ∀ k : Nat, Nat.digits 10 (d * 10 ^ k - 1) = List.replicate k 9 ++ [d - 1] := by
  intro k
  induction k with
  | zero =>
    simp only [pow_zero, mul_one, List.replicate_zero, List.nil_append]
    exact digits_single (d - 1) (by omega) (by omega)
  | succ k ih =>
    have h1 : (10:Nat) ^ k ≥ 1 := Nat.one_le_pow _ _ (by norm_num)
    have hd : d * 10 ^ k ≥ 2 := by nlinarith
    have heq : d * 10 ^ (k + 1) = d * 10 ^ k * 10 := by ring
    have hpos : 0 < d * 10 ^ (k + 1) - 1 := by omega
    have hdecomp : d * 10 ^ (k + 1) - 1 = 10 * (d * 10 ^ k - 1) + 9 := by omega
    rw [Nat.digits_def' (by norm_num : (1:Nat) < 10) hpos, hdecomp]
    have hmod : (10 * (d * 10 ^ k - 1) + 9) % 10 = 9 := by omega
    have hdiv : (10 * (d * 10 ^ k - 1) + 9) / 10 = d * 10 ^ k - 1 := by omega
    rw [hmod, hdiv, ih]
    rfl

theorem natStr_mul_pow_pred (d k : Nat) (h1 : 1 ≤ d) (h9 : d ≤ 9) :
    List.replicate ((k + 1) - (natStr (d * 10 ^ k - 1)).length) '0' ++
      natStr (d * 10 ^ k - 1) = Nat.digitChar (d - 1) :: List.replicate k '9' := by
  rcases Nat.lt_or_ge d 2 with hd1 | hd2
  · have hd : d = 1 := by omega
    subst hd
    simp only [one_mul]
    rcases Nat.eq_zero_or_pos k with rfl | hk
    · decide
    · have hne : 10 ^ k - 1 ≠ 0 := by
        have : (10:Nat) ^ k ≥ 10 ^ 1 := Nat.pow_le_pow_right (by norm_num) hk
        omega
      rw [natStr_eq_digits _ hne, digits_pred_pow k]
      simp only [List.map_replicate, List.reverse_replicate, List.length_replicate]
      have : Nat.digitChar 9 = '9' := rfl
      rw [this]
      have hrep : List.replicate (k + 1 - k) '0' = ['0'] := by
        rw [show k + 1 - k = 1 from by omega]
        rfl
      rw [hrep]
      rfl
  · have hne : d * 10 ^ k - 1 ≠ 0 := by
      have h10 : (10:Nat) ^ k ≥ 1 := Nat.one_le_pow _ _ (by norm_num)
      have : d * 10 ^ k ≥ 2 * 1 := Nat.mul_le_mul hd2 h10
      omega
    rw [natStr_eq_digits _ hne, digits_mul_pow_pred d hd2 h9 k]
    simp only [List.map_append, List.map_replicate, List.map_cons, List.map_nil,
      List.reverse_append, List.reverse_replicate, List.reverse_cons, List.reverse_nil,
      List.nil_append, List.length_append, List.length_replicate, List.length_cons,
      List.length_nil, List.singleton_append, List.length_singleton, Nat.sub_self,
      List.replicate_zero]
    rfl

/-- The two equal-length strings `str_bp` builds around `d * 10^k`. -/
theorem str_bp_pow (d k : Nat) (h1 : 1 ≤ d) (h9 : d ≤ 9) :
    str_bp (d * 10 ^ k - 1) =
      (Nat.digitChar (d - 1) :: List.replicate k '9',
       Nat.digitChar d :: List.replicate k '0') := by
  have hsucc : d * 10 ^ k - 1 + 1 = d * 10 ^ k := by
    have h10 : (10:Nat) ^ k ≥ 1 := Nat.one_le_pow _ _ (by norm_num)
    have : d * 10 ^ k ≥ 1 * 1 := Nat.mul_le_mul h1 h10
    omega
  unfold str_bp fix_pair
  simp only [hsucc]
  rw [natStr_pow_mul d k (by omega) (by omega)]
  simp only [List.length_cons, List.length_replicate]
  rw [natStr_mul_pow_pred d k h1 h9]

/-! ### Interval chains -/

/-- Values of a list of digit-string pairs. -/
def pairVals (l : List (List Char × List Char)) : List (Nat × Nat) :=
  l.map (fun p => (pyInt p.1, pyInt p.2))

/-- `ChainCov l a b`: the pairs in `l` are consecutive nonempty integer
intervals tiling `[a, b]` exactly, in order. -/
def ChainCov : List (Nat × Nat) → Nat → Nat → Prop
  | [], a, b => a = b + 1
  | p :: t, a, b => p.1 = a ∧ p.1 ≤ p.2 ∧ ChainCov t (p.2 + 1) b

theorem ChainCov_append {l1 l2 : List (Nat × Nat)} {a m b : Nat}
    (h1 : ChainCov l1 a m) (h2 : ChainCov l2 (m + 1) b) :
    ChainCov (l1 ++ l2) a b := by
  induction l1 generalizing a with
  | nil =>
    unfold ChainCov at h1
    subst h1
    simpa using h2
  | cons p t ih =>
    obtain ⟨hp, hle, ht⟩ := h1
    exact ⟨hp, hle, ih ht⟩

theorem ChainCov_singleton {a b : Nat} (h : a ≤ b) : ChainCov [(a, b)] a b :=
  ⟨rfl, h, rfl⟩

theorem ChainCov_shift {l : List (Nat × Nat)} {a b : Nat} (D : Nat)
    (h : ChainCov l a b) :
    ChainCov (l.map (fun p => (D + p.1, D + p.2))) (D + a) (D + b) := by
  induction l generalizing a with
  | nil =>
    simp only [List.map_nil]
    unfold ChainCov at h ⊢
    omega
  | cons p t ih =>
    obtain ⟨hp, hle, ht⟩ := h
    subst hp
    simp only [List.map_cons]
    refine ⟨rfl, by omega, ?_⟩
    have hrec := ih ht
    have heq : D + (p.2 + 1) = D + p.2 + 1 := by omega
    rw [heq] at hrec
    exact hrec

theorem ChainCov_le {l : List (Nat × Nat)} {a b : Nat} (h : ChainCov l a b) :
    a ≤ b + 1 := by
  induction l generalizing a with
  | nil => exact Nat.le_of_eq h
  | cons p t ih =>
    obtain ⟨hp, hle, ht⟩ := h
    have := ih ht
    omega

theorem ChainCov_bounds {l : List (Nat × Nat)} {a b : Nat} (h : ChainCov l a b) :
    ∀ p ∈ l, a ≤ p.1 ∧ p.1 ≤ p.2 ∧ p.2 ≤ b := by
  induction l generalizing a with
  | nil => intro p hp; simp at hp
  | cons q t ih =>
    obtain ⟨hq, hle, ht⟩ := h
    intro p hp
    rcases List.mem_cons.1 hp with rfl | hp
    · exact ⟨le_of_eq hq.symm, hle, by
        have := ChainCov_le ht
        omega⟩
    · have := ih ht p hp
      omega

theorem ChainCov_mem_iff {l : List (Nat × Nat)} {a b : Nat} (h : ChainCov l a b) :
    ∀ x, (∃ p ∈ l, p.1 ≤ x ∧ x ≤ p.2) ↔ (a ≤ x ∧ x ≤ b) := by
  induction l generalizing a with
  | nil =>
    intro x
    unfold ChainCov at h
    constructor
    · rintro ⟨p, hp, _⟩; simp at hp
    · intro hx; omega
  | cons q t ih =>
    obtain ⟨hq, hle, ht⟩ := h
    subst hq
    intro x
    constructor
    · rintro ⟨p, hp, hx1, hx2⟩
      rcases List.mem_cons.1 hp with rfl | hp
      · have := ChainCov_le ht
        omega
      · have := (ih ht x).1 ⟨p, hp, hx1, hx2⟩
        omega
    · rintro ⟨hax, hxb⟩
      by_cases hcase : x ≤ q.2
      · exact ⟨q, List.mem_cons_self _ _, hax, hcase⟩
      · obtain ⟨p, hp, h1, h2⟩ := (ih ht x).2 ⟨by omega, hxb⟩
        exact ⟨p, List.mem_cons_of_mem _ hp, h1, h2⟩

theorem ChainCov_pairwise {l : List (Nat × Nat)} {a b : Nat} (h : ChainCov l a b) :
    l.Pairwise (fun p q => p.2 < q.1) := by
  induction l generalizing a with
  | nil => exact List.Pairwise.nil
  | cons q t ih =>
    obtain ⟨hq, hle, ht⟩ := h
    refine List.Pairwise.cons ?_ (ih ht)
    intro p hp
    have := ChainCov_bounds ht p hp
    omega

/-! ### The splitter invariant -/

/-- The PositionRegexBuilder invariant: a common prefix, one position where
the bounding digits satisfy `a ≤ b`, then an all-zeros and an all-nines
tail of equal length. -/
def SimplePair (p : List Char × List Char) : Prop :=
  ∃ u a b k, isDig a = true ∧ isDig b = true ∧ digitVal a ≤ digitVal b ∧
    p.1 = u ++ a :: List.replicate k '0' ∧ p.2 = u ++ b :: List.replicate k '9'

/-- Every pair in `l` is a pair of equal-length (`L`) digit strings
satisfying the splitter invariant. -/
def GoodList (L : Nat) (l : List (List Char × List Char)) : Prop :=
  ∀ p ∈ l, p.1.length = L ∧ p.2.length = L ∧ AllDigits p.1 ∧ AllDigits p.2 ∧
    SimplePair p

theorem allDigits_cons {c : Char} {t : List Char} :
    AllDigits (c :: t) ↔ isDig c = true ∧ AllDigits t := by
  unfold AllDigits
  simp

theorem allDigits_replicate (k : Nat) (c : Char) (h : isDig c = true) :
    AllDigits (List.replicate k c) := by
  intro x hx
  rw [List.eq_of_mem_replicate hx]
  exact h

theorem allDigits_append {s t : List Char} (hs : AllDigits s) (ht : AllDigits t) :
    AllDigits (s ++ t) := by
  intro x hx
  rcases List.mem_append.1 hx with h | h
  · exact hs x h
  · exact ht x h

theorem pyInt_cons_replicate_zero (c : Char) (k : Nat) :
    pyInt (c :: List.replicate k '0') = digitVal c * 10 ^ k := by
  rw [pyInt_cons, pyInt_replicate_zero, List.length_replicate]
  omega

theorem pyInt_cons_replicate_nine (c : Char) (k : Nat) :
    pyInt (c :: List.replicate k '9') = digitVal c * 10 ^ k + (10 ^ k - 1) := by
  rw [pyInt_cons, pyInt_replicate_nine, List.length_replicate]

theorem tailZeros_cons (s0 : Char) (st : List Char) :
    tailZeros (s0 :: st) ↔ st = List.replicate st.length '0' := by
  unfold tailZeros
  simp only [List.length_cons, List.tail_cons, List.replicate_succ, List.cons.injEq,
    true_and]
  exact eq_comm

theorem tailNines_cons (e0 : Char) (et : List Char) :
    tailNines (e0 :: et) ↔ et = List.replicate et.length '9' := by
  unfold tailNines
  simp only [List.length_cons, List.tail_cons, List.replicate_succ, List.cons.injEq,
    true_and]
  exact eq_comm

/-- One unfolding step of the fueled splitter. -/
theorem bir2F_succ (fuel : Nat) (s e : List Char) :
    break_into_ranges_2F (fuel + 1) s e =
      if s.length = 1 then [(s, e)]
      else if tailZeros s ∧ tailNines e then [(s, e)]
      else if tailZeros s ∧ s.headD '0' < e.headD '0' then
        (s, (str_bp (pyInt (e.headD '0' :: List.replicate e.tail.length '0') - 1)).1) ::
          break_into_ranges_2F fuel
            (str_bp (pyInt (e.headD '0' :: List.replicate e.tail.length '0') - 1)).2 e
      else if tailNines e ∧ s.headD '0' < e.headD '0' then
        break_into_ranges_2F fuel s
          (str_bp (pyInt (natStr (1 + digitVal (s.headD '0')) ++
            List.replicate e.tail.length '0') - 1)).1 ++
          [((str_bp (pyInt (natStr (1 + digitVal (s.headD '0')) ++
            List.replicate e.tail.length '0') - 1)).2, e)]
      else if s.headD '0' < e.headD '0' then
        break_into_ranges_2F fuel s
          (str_bp (pyInt (natStr (1 + digitVal (s.headD '0')) ++
            List.replicate e.tail.length '0') - 1)).1 ++
          break_into_ranges_2F fuel
            (str_bp (pyInt (natStr (1 + digitVal (s.headD '0')) ++
              List.replicate e.tail.length '0') - 1)).2 e
      else
        (break_into_ranges_2F fuel s.tail e.tail).map
          (fun q => (s.headD '0' :: q.1, s.headD '0' :: q.2)) := rfl

theorem digit_le_of_val_le {d1 d2 r1 r2 q : Nat} (h1 : r1 < q) (h2 : r2 < q)
    (h : d1 * q + r1 ≤ d2 * q + r2) : d1 ≤ d2 := by
  by_contra hab
  push_neg at hab
  have hq : (d2 + 1) * q ≤ d1 * q := Nat.mul_le_mul_right q (by omega)
  nlinarith

theorem pairVals_map_cons (c : Char) (M : Nat) :
    ∀ rec : List (List Char × List Char),
      (∀ q ∈ rec, q.1.length = M ∧ q.2.length = M) →
      pairVals (rec.map (fun q => (c :: q.1, c :: q.2))) =
        (pairVals rec).map
          (fun v => (digitVal c * 10 ^ M + v.1, digitVal c * 10 ^ M + v.2)) := by
  intro rec
  induction rec with
  | nil => intro _; rfl
  | cons q t ih =>
    intro h
    obtain ⟨h1, h2⟩ := h q (List.mem_cons_self _ _)
    simp only [pairVals, List.map_cons] at ih ⊢
    rw [pyInt_cons, pyInt_cons, h1, h2]
    have := ih (fun p hp => h p (List.mem_cons_of_mem _ hp))
    simp only [pairVals] at this
    rw [this]

/-- Full correctness of the fueled splitter `break_into_ranges_2F` on valid
equal-length digit strings with enough fuel: the produced pairs tile the
numeric interval exactly, in order, and each pair is an equal-length digit
pair satisfying the per-position invariant. -/
theorem bir2F_correct : ∀ fuel : Nat, ∀ s e : List Char,
    AllDigits s → AllDigits e → s ≠ [] → s.length = e.length →
    pyInt s ≤ pyInt e → s.length + (pyInt e - pyInt s) < fuel →
    ChainCov (pairVals (break_into_ranges_2F fuel s e)) (pyInt s) (pyInt e) ∧
    GoodList s.length (break_into_ranges_2F fuel s e) := by
  intro fuel
  induction fuel with
  | zero => intro s e _ _ _ _ _ hf; omega
  | succ fuel ih =>
    rintro (_ | ⟨s0, st⟩) (_ | ⟨e0, et⟩) hsd hed hsne hlen hle hf
    · exact absurd rfl hsne
    · exact absurd rfl hsne
    · simp at hlen
    · obtain ⟨hs0, hstd⟩ := allDigits_cons.1 hsd
      obtain ⟨he0, hetd⟩ := allDigits_cons.1 hed
      have hK : st.length = et.length := by simpa using hlen
      have hP : (0:Nat) < 10 ^ et.length := Nat.pos_pow_of_pos _ (by norm_num)
      have hstlt : pyInt st < 10 ^ et.length := by
        rw [← hK]; exact pyInt_lt_pow st hstd
      have hetlt : pyInt et < 10 ^ et.length := pyInt_lt_pow et hetd
      have hvs : pyInt (s0 :: st) = digitVal s0 * 10 ^ et.length + pyInt st := by
        rw [pyInt_cons, hK]
      have hve : pyInt (e0 :: et) = digitVal e0 * 10 ^ et.length + pyInt et := by
        rw [pyInt_cons]
      have hs9 : digitVal s0 ≤ 9 := digitVal_le_nine s0 hs0
      have he9 : digitVal e0 ≤ 9 := digitVal_le_nine e0 he0
      rw [bir2F_succ]
      simp only [List.headD_cons, List.tail_cons]
      by_cases hb1 : (s0 :: st).length = 1
      · rw [if_pos hb1]
        have hst : st = [] := by
          have : st.length = 0 := by simpa using hb1
          exact List.eq_nil_of_length_eq_zero this
        subst hst
        have het : et = [] := by
          have : et.length = 0 := by simpa using hK.symm
          exact List.eq_nil_of_length_eq_zero this
        subst het
        constructor
        · exact ⟨rfl, hle, rfl⟩
        · intro p hp
          rcases List.mem_cons.1 hp with rfl | hp2
          · refine ⟨rfl, rfl, hsd, hed, [], s0, e0, 0, hs0, he0, ?_, rfl, rfl⟩
            have h1 : pyInt [s0] = digitVal s0 := pyInt_single s0
            have h2 : pyInt [e0] = digitVal e0 := pyInt_single e0
            omega
          · simp at hp2
      · rw [if_neg hb1]
        have hstne : st ≠ [] := by
          intro hst; subst hst; simp at hb1
        have hetne : et ≠ [] := by
          intro het
          rw [het] at hK
          simp only [List.length_nil] at hK
          exact hstne (List.eq_nil_of_length_eq_zero hK)
        by_cases hb2 : tailZeros (s0 :: st) ∧ tailNines (e0 :: et)
        · rw [if_pos hb2]
          have hst0 : st = List.replicate st.length '0' := (tailZeros_cons _ _).1 hb2.1
          have het9 : et = List.replicate et.length '9' := (tailNines_cons _ _).1 hb2.2
          have hpst : pyInt st = 0 := by
            conv_lhs => rw [hst0]
            exact pyInt_replicate_zero st.length
          have hpet : pyInt et = 10 ^ et.length - 1 := by
            conv_lhs => rw [het9]
            exact pyInt_replicate_nine et.length
          have hdle : digitVal s0 ≤ digitVal e0 :=
            digit_le_of_val_le hstlt hetlt (by rw [← hvs, ← hve]; exact hle)
          constructor
          · exact ⟨rfl, hle, rfl⟩
          · intro p hp
            rcases List.mem_cons.1 hp with rfl | hp2
            · refine ⟨rfl, by simp [hK], hsd, hed, [], s0, e0, st.length, hs0, he0,
                hdle, ?_, ?_⟩
              · conv_lhs => rw [hst0]
                rfl
              · conv_lhs => rw [het9]
                simp [hK]
            · simp at hp2
        · rw [if_neg hb2]
          by_cases hb3 : tailZeros (s0 :: st) ∧ s0 < e0
          · rw [if_pos hb3]
            have hst0 : st = List.replicate st.length '0' := (tailZeros_cons _ _).1 hb3.1
            have hpst : pyInt st = 0 := by
              conv_lhs => rw [hst0]
              exact pyInt_replicate_zero st.length
            have hdlt : digitVal s0 < digitVal e0 :=
              (char_lt_iff_digitVal s0 e0 hs0 he0).1 hb3.2
            have hde1 : 1 ≤ digitVal e0 := by omega
            have hbp : pyInt (e0 :: List.replicate et.length '0') =
                digitVal e0 * 10 ^ et.length := pyInt_cons_replicate_zero e0 et.length
            rw [hbp, str_bp_pow (digitVal e0) et.length hde1 he9]
            have hP1v : pyInt (Nat.digitChar (digitVal e0 - 1) :: List.replicate et.length '9') =
                digitVal e0 * 10 ^ et.length - 1 := by
              rw [pyInt_cons_replicate_nine, digitVal_digitChar _ (by omega)]
              have h1 : (digitVal e0 - 1) * 10 ^ et.length =
                  digitVal e0 * 10 ^ et.length - 1 * 10 ^ et.length := Nat.sub_mul _ _ _
              rw [one_mul] at h1
              have h2 : 10 ^ et.length ≤ digitVal e0 * 10 ^ et.length :=
                Nat.le_mul_of_pos_left _ (by omega)
              omega
            have hP2v : pyInt (Nat.digitChar (digitVal e0) :: List.replicate et.length '0') =
                digitVal e0 * 10 ^ et.length := by
              rw [pyInt_cons_replicate_zero, digitVal_digitChar _ (by omega)]
            have hmul : digitVal s0 * 10 ^ et.length < digitVal e0 * 10 ^ et.length :=
              Nat.mul_lt_mul_of_lt_of_le hdlt le_rfl hP
            have hrec := ih (Nat.digitChar (digitVal e0) :: List.replicate et.length '0')
              (e0 :: et)
              (allDigits_cons.2 ⟨digitChar_isDig _ (by omega),
                allDigits_replicate _ _ (by decide)⟩)
              hed (by simp)
              (by simp [hK])
              (by rw [hP2v, hve]; omega)
              (by
                rw [hP2v, hve]
                simp only [List.length_cons, List.length_replicate]
                rw [hvs] at hf hle
                rw [hve] at hf hle
                simp only [List.length_cons] at hf
                omega)
            obtain ⟨hrecC, hrecG⟩ := hrec
            constructor
            · simp only [pairVals, List.map_cons]
              refine ⟨rfl, ?_, ?_⟩
              · rw [hP1v, hvs]
                omega
              · have heq : pyInt (Nat.digitChar (digitVal e0 - 1) ::
                    List.replicate et.length '9') + 1 =
                    pyInt (Nat.digitChar (digitVal e0) :: List.replicate et.length '0') := by
                  rw [hP1v, hP2v]
                  omega
                rw [heq]
                rw [hP2v] at hrecC
                rw [hP2v]
                exact hrecC
            · intro p hp
              rcases List.mem_cons.1 hp with rfl | hp2
              · refine ⟨rfl, by simp [hK], hsd,
                  allDigits_cons.2 ⟨digitChar_isDig _ (by omega),
                    allDigits_replicate _ _ (by decide)⟩,
                  [], s0, Nat.digitChar (digitVal e0 - 1), st.length, hs0,
                  digitChar_isDig _ (by omega), ?_, ?_, ?_⟩
                · rw [digitVal_digitChar _ (by omega)]
                  omega
                · conv_lhs => rw [hst0]
                  rfl
                · simp [hK]
              · have := hrecG p hp2
                simpa [hK] using this
          · rw [if_neg hb3]
            by_cases hb4 : tailNines (e0 :: et) ∧ s0 < e0
            · rw [if_pos hb4]
              have het9 : et = List.replicate et.length '9' := (tailNines_cons _ _).1 hb4.1
              have hpet : pyInt et = 10 ^ et.length - 1 := by
                conv_lhs => rw [het9]
                exact pyInt_replicate_nine et.length
              have hdlt : digitVal s0 < digitVal e0 :=
                (char_lt_iff_digitVal s0 e0 hs0 he0).1 hb4.2
              have hbpval : pyInt (natStr (1 + digitVal s0) ++ List.replicate et.length '0') =
                  (1 + digitVal s0) * 10 ^ et.length := by
                rw [pyInt_append, pyInt_natStr, pyInt_replicate_zero, List.length_replicate]
                omega
              rw [hbpval, str_bp_pow (1 + digitVal s0) et.length (by omega) (by omega)]
              rw [show (1 : Nat) + digitVal s0 - 1 = digitVal s0 from by omega]
              have hP1v : pyInt (Nat.digitChar (digitVal s0) :: List.replicate et.length '9') =
                  digitVal s0 * 10 ^ et.length + (10 ^ et.length - 1) := by
                rw [pyInt_cons_replicate_nine, digitVal_digitChar _ (by omega)]
              have hP2v : pyInt (Nat.digitChar (1 + digitVal s0) ::
                  List.replicate et.length '0') = (1 + digitVal s0) * 10 ^ et.length := by
                rw [pyInt_cons_replicate_zero, digitVal_digitChar _ (by omega)]
              have hsucc : (1 + digitVal s0) * 10 ^ et.length =
                  digitVal s0 * 10 ^ et.length + 10 ^ et.length := by
                rw [add_mul, one_mul]
                omega
              have hmulM : (1 + digitVal s0) * 10 ^ et.length ≤
                  digitVal e0 * 10 ^ et.length :=
                Nat.mul_le_mul_right _ (by omega)
              have hrec := ih (s0 :: st)
                (Nat.digitChar (digitVal s0) :: List.replicate et.length '9')
                hsd
                (allDigits_cons.2 ⟨digitChar_isDig _ (by omega),
                  allDigits_replicate _ _ (by decide)⟩)
                hsne
                (by simp [hK])
                (by rw [hP1v, hvs]; omega)
                (by
                  rw [hP1v, hvs]
                  rw [hvs, hve] at hf
                  simp only [List.length_cons] at hf ⊢
                  omega)
              obtain ⟨hrecC, hrecG⟩ := hrec
              constructor
              · simp only [pairVals, List.map_append, List.map_cons, List.map_nil]
                refine ChainCov_append hrecC ⟨by rw [hP1v, hP2v]; omega, ?_, by rfl⟩
                rw [hP2v, hve]
                omega
              · intro p hp
                rcases List.mem_append.1 hp with hp1 | hp2
                · exact hrecG p hp1
                · rcases List.mem_cons.1 hp2 with rfl | hp3
                  · refine ⟨by simp [hK], by simp [hK], ?_, hed,
                      [], Nat.digitChar (1 + digitVal s0), e0, et.length,
                      digitChar_isDig _ (by omega), he0, ?_, by simp, ?_⟩
                    · exact allDigits_cons.2 ⟨digitChar_isDig _ (by omega),
                        allDigits_replicate _ _ (by decide)⟩
                    · rw [digitVal_digitChar _ (by omega)]
                      omega
                    · simp only [List.nil_append, List.cons.injEq, true_and]
                      exact het9
                  · simp at hp3
            · rw [if_neg hb4]
              by_cases hb5 : s0 < e0
              · rw [if_pos hb5]
                have hdlt : digitVal s0 < digitVal e0 :=
                  (char_lt_iff_digitVal s0 e0 hs0 he0).1 hb5
                have hbpval : pyInt (natStr (1 + digitVal s0) ++
                    List.replicate et.length '0') =
                    (1 + digitVal s0) * 10 ^ et.length := by
                  rw [pyInt_append, pyInt_natStr, pyInt_replicate_zero,
                    List.length_replicate]
                  omega
                rw [hbpval, str_bp_pow (1 + digitVal s0) et.length (by omega) (by omega)]
                rw [show (1 : Nat) + digitVal s0 - 1 = digitVal s0 from by omega]
                have hP1v : pyInt (Nat.digitChar (digitVal s0) ::
                    List.replicate et.length '9') =
                    digitVal s0 * 10 ^ et.length + (10 ^ et.length - 1) := by
                  rw [pyInt_cons_replicate_nine, digitVal_digitChar _ (by omega)]
                have hP2v : pyInt (Nat.digitChar (1 + digitVal s0) ::
                    List.replicate et.length '0') = (1 + digitVal s0) * 10 ^ et.length := by
                  rw [pyInt_cons_replicate_zero, digitVal_digitChar _ (by omega)]
                have hsucc : (1 + digitVal s0) * 10 ^ et.length =
                    digitVal s0 * 10 ^ et.length + 10 ^ et.length := by
                  rw [add_mul, one_mul]
                  omega
                have hmulM : (1 + digitVal s0) * 10 ^ et.length ≤
                    digitVal e0 * 10 ^ et.length :=
                  Nat.mul_le_mul_right _ (by omega)
                have hrec1 := ih (s0 :: st)
                  (Nat.digitChar (digitVal s0) :: List.replicate et.length '9')
                  hsd
                  (allDigits_cons.2 ⟨digitChar_isDig _ (by omega),
                    allDigits_replicate _ _ (by decide)⟩)
                  hsne
                  (by simp [hK])
                  (by rw [hP1v, hvs]; omega)
                  (by
                    rw [hP1v]
                    rw [hvs, hve] at hf
                    rw [hvs]
                    simp only [List.length_cons] at hf ⊢
                    omega)
                have hrec2 := ih
                  (Nat.digitChar (1 + digitVal s0) :: List.replicate et.length '0')
                  (e0 :: et)
                  (allDigits_cons.2 ⟨digitChar_isDig _ (by omega),
                    allDigits_replicate _ _ (by decide)⟩)
                  hed
                  (by simp)
                  (by simp [hK])
                  (by rw [hP2v, hve]; omega)
                  (by
                    rw [hP2v, hve]
                    simp only [List.length_cons, List.length_replicate]
                    rw [hvs] at hf hle
                    rw [hve] at hf hle
                    simp only [List.length_cons] at hf
                    omega)
                obtain ⟨hrec1C, hrec1G⟩ := hrec1
                obtain ⟨hrec2C, hrec2G⟩ := hrec2
                constructor
                · simp only [pairVals, List.map_append]
                  refine ChainCov_append hrec1C ?_
                  have heq : pyInt (Nat.digitChar (digitVal s0) ::
                      List.replicate et.length '9') + 1 =
                      pyInt (Nat.digitChar (1 + digitVal s0) ::
                        List.replicate et.length '0') := by
                    rw [hP1v, hP2v]
                    omega
                  rw [heq]
                  exact hrec2C
                · intro p hp
                  rcases List.mem_append.1 hp with hp1 | hp2
                  · exact hrec1G p hp1
                  · have := hrec2G p hp2
                    simpa [hK] using this
              · rw [if_neg hb5]
                have hdge : digitVal e0 ≤ digitVal s0 := by
                  by_contra hcon
                  exact hb5 ((char_lt_iff_digitVal s0 e0 hs0 he0).2 (by omega))
                have hdle : digitVal s0 ≤ digitVal e0 :=
                  digit_le_of_val_le hstlt hetlt (by rw [← hvs, ← hve]; exact hle)
                have hchar : s0 = e0 :=
                  char_eq_of_digitVal_eq s0 e0 hs0 he0 (by omega)
                subst hchar
                have hrec := ih st et hstd hetd hstne hK
                  (by rw [hvs, hve] at hle; omega)
                  (by
                    rw [hvs, hve] at hf
                    simp only [List.length_cons] at hf
                    omega)
                obtain ⟨hrecC, hrecG⟩ := hrec
                have hlens : ∀ q ∈ break_into_ranges_2F fuel st et,
                    q.1.length = st.length ∧ q.2.length = st.length :=
                  fun q hq => ⟨(hrecG q hq).1, (hrecG q hq).2.1⟩
                constructor
                · rw [pairVals_map_cons s0 st.length _ hlens]
                  have hsh := ChainCov_shift (digitVal s0 * 10 ^ st.length) hrecC
                  have hvs' : pyInt (s0 :: st) =
                      digitVal s0 * 10 ^ st.length + pyInt st := pyInt_cons s0 st
                  have hve' : pyInt (s0 :: et) =
                      digitVal s0 * 10 ^ st.length + pyInt et := by
                    rw [pyInt_cons, hK]
                  rw [hvs', hve']
                  exact hsh
                · intro p hp
                  obtain ⟨q, hq, rfl⟩ := List.mem_map.1 hp
                  obtain ⟨hq1, hq2, hq3, hq4, u, a, b, k, ha, hb2, hab, hqa, hqb⟩ :=
                    hrecG q hq
                  refine ⟨by simp [hq1], by simp [hq2, hK],
                    allDigits_cons.2 ⟨hs0, hq3⟩, allDigits_cons.2 ⟨hs0, hq4⟩,
                    s0 :: u, a, b, k, ha, hb2, hab, ?_, ?_⟩
                  · simp only [List.cons_append, List.cons.injEq, true_and]
                    exact hqa
                  · simp only [List.cons_append, List.cons.injEq, true_and]
                    exact hqb


/-- Correctness of the fueled equal-length partition `break_into_ranges_1F`:
given enough fuel it tiles `[a, b]` with ranges whose bounds are decimal
strings of equal digit length. -/
theorem bir1F_correct : ∀ fuel a b : Nat, 1 ≤ a → a ≤ b →
    (natStr b).length - (natStr a).length < fuel →
    ChainCov (pairVals (break_into_ranges_1F fuel a b)) a b ∧
    ∀ p ∈ break_into_ranges_1F fuel a b, ∃ x y : Nat,
      p = (natStr x, natStr y) ∧ 1 ≤ x ∧ x ≤ y ∧
      (natStr x).length = (natStr y).length := by
  intro fuel
  induction fuel with
  | zero => intro a b _ _ hf; omega
  | succ fuel ih =>
    intro a b ha hle hf
    rw [break_into_ranges_1F]
    by_cases hlen : (natStr a).length = (natStr b).length
    · rw [if_pos hlen]
      refine ⟨?_, ?_⟩
      · simp only [pairVals, List.map_cons, List.map_nil, pyInt_natStr]
        exact ⟨rfl, hle, rfl⟩
      · intro p hp
        rcases List.mem_cons.1 hp with rfl | hp2
        · exact ⟨a, b, rfl, ha, hle, hlen⟩
        · simp at hp2
    · rw [if_neg hlen]
      have hb0 : b ≠ 0 := by omega
      have ha0 : a ≠ 0 := by omega
      have hmono : (natStr a).length ≤ (natStr b).length := by
        rw [natStr_length a ha0, natStr_length b hb0]
        exact Nat.le_digits_len_le 10 a b hle
      have hlt : (natStr a).length < (natStr b).length := by omega
      have haL : 1 ≤ (natStr a).length := by
        have hne := natStr_ne_nil a
        cases h : natStr a with
        | nil => exact absurd h hne
        | cons c t => simp [h]
      have hbp9 : (10:Nat) ^ (natStr a).length - 1 ≠ 0 := by
        have : (10:Nat) ^ (natStr a).length ≥ 10 ^ 1 :=
          Nat.pow_le_pow_right (by norm_num) haL
        omega
      have habp : a ≤ 10 ^ (natStr a).length - 1 := by
        have := natStr_lt_pow a
        omega
      have hnext : 10 ^ (natStr a).length ≤ b := by
        have h1 : 10 ^ ((natStr b).length - 1) ≤ b := natStr_pow_le b hb0
        have h2 : (10:Nat) ^ (natStr a).length ≤ 10 ^ ((natStr b).length - 1) :=
          Nat.pow_le_pow_right (by norm_num) (by omega)
        omega
      have hlen10 : (natStr (10 ^ (natStr a).length)).length =
          (natStr a).length + 1 := by
        have h1 : (10:Nat) ^ (natStr a).length = 1 * 10 ^ (natStr a).length := by ring
        rw [h1, natStr_pow_mul 1 _ (by norm_num) (by norm_num)]
        simp
      have hP : (0:Nat) < 10 ^ (natStr a).length := Nat.pos_pow_of_pos _ (by norm_num)
      have hsucc : 1 + (10 ^ (natStr a).length - 1) = 10 ^ (natStr a).length := by
        omega
      have hrec := ih (1 + (10 ^ (natStr a).length - 1)) b
        (by omega)
        (by omega)
        (by rw [hsucc, hlen10]; omega)
      obtain ⟨hrecC, hrecG⟩ := hrec
      refine ⟨?_, ?_⟩
      · simp only [pairVals, List.map_cons, pyInt_natStr]
        refine ⟨rfl, habp, ?_⟩
        have heq : 10 ^ (natStr a).length - 1 + 1 = 1 + (10 ^ (natStr a).length - 1) := by
          omega
        rw [heq]
        exact hrecC
      · intro p hp
        rcases List.mem_cons.1 hp with rfl | hp2
        · refine ⟨a, 10 ^ (natStr a).length - 1, rfl, ha, habp, ?_⟩
          have hd : Nat.digits 10 (10 ^ (natStr a).length - 1) =
              List.replicate ((natStr a).length) 9 := digits_pred_pow _
          rw [natStr_length _ hbp9, hd]
          simp
        · exact hrecG p hp2

/-- Gluing lemma: running the Stage-B splitter over a chain of decimal
ranges yields a chain of good pairs covering the same interval. -/
theorem bir2_glue : ∀ (l : List (List Char × List Char)) (a b : Nat),
    ChainCov (pairVals l) a b →
    (∀ p ∈ l, ∃ x y : Nat, p = (natStr x, natStr y) ∧ 1 ≤ x ∧ x ≤ y ∧
      (natStr x).length = (natStr y).length) →
    ChainCov (pairVals (l.flatMap (fun p => break_into_ranges_2 p.1 p.2))) a b ∧
    ∀ p ∈ l.flatMap (fun p => break_into_ranges_2 p.1 p.2),
      AllDigits p.1 ∧ AllDigits p.2 ∧ p.1.length = p.2.length ∧ p.1 ≠ [] ∧
      SimplePair p ∧ 10 ^ (p.1.length - 1) ≤ pyInt p.1 := by
  intro l
  induction l with
  | nil =>
    intro a b hC hG
    refine ⟨by simpa [pairVals] using hC, ?_⟩
    intro p hp
    simp at hp
  | cons q t iht =>
    intro a b hC hG
    obtain ⟨x, y, rfl, hx1, hxy, hxylen⟩ := hG q (List.mem_cons_self _ _)
    simp only [pairVals, List.map_cons, pyInt_natStr] at hC
    obtain ⟨hq1, hq2, htC⟩ := hC
    have h2 := bir2F_correct ((natStr x).length + y + 1)
      (natStr x) (natStr y)
      (natStr_all_digits x) (natStr_all_digits y) (natStr_ne_nil x) hxylen
      (by rw [pyInt_natStr, pyInt_natStr]; exact hxy)
      (by rw [pyInt_natStr, pyInt_natStr]; omega)
    obtain ⟨h2C, h2G⟩ := h2
    rw [pyInt_natStr, pyInt_natStr] at h2C
    have hrest := iht (y + 1) b (by simpa [pairVals] using htC)
      (fun p hp => hG p (List.mem_cons_of_mem _ hp))
    obtain ⟨hrestC, hrestG⟩ := hrest
    have hxL : 1 ≤ (natStr x).length := by
      have hne := natStr_ne_nil x
      cases h : natStr x with
      | nil => exact absurd h hne
      | cons c u => simp [h]
    have hunf : break_into_ranges_2 (natStr x) (natStr y) =
        break_into_ranges_2F ((natStr x).length + y + 1) (natStr x) (natStr y) := by
      unfold break_into_ranges_2
      rw [pyInt_natStr]
    constructor
    · simp only [List.flatMap_cons, pairVals, List.map_append, hunf]
      have hc1 : ChainCov (List.map (fun p => (pyInt p.1, pyInt p.2))
          (break_into_ranges_2F ((natStr x).length + y + 1) (natStr x) (natStr y)))
          a y := by
        rw [← hq1]
        exact h2C
      exact ChainCov_append hc1 (by simpa [pairVals] using hrestC)
    · intro p hp
      simp only [List.flatMap_cons, hunf] at hp
      rcases List.mem_append.1 hp with hp1 | hp2
      · obtain ⟨hl1, hl2, hd1, hd2, hsp⟩ := h2G p hp1
        have hval : x ≤ pyInt p.1 := by
          have hb := ChainCov_bounds h2C (pyInt p.1, pyInt p.2) (by
            simp only [pairVals, List.mem_map]
            exact ⟨p, hp1, rfl⟩)
          exact hb.1
        refine ⟨hd1, hd2, by rw [hl1, hl2], ?_, hsp, ?_⟩
        · intro hnil
          rw [hnil] at hl1
          simp at hl1
          omega
        · rw [hl1]
          calc 10 ^ ((natStr x).length - 1) ≤ x := natStr_pow_le x (by omega)
            _ ≤ pyInt p.1 := hval
      · exact hrestG p hp2

/-- Correctness of `break_into_ranges`: for `1 ≤ a ≤ b` the produced pairs
are equal-length digit strings (with no leading zero and satisfying the
splitter invariant) tiling `[a, b]` exactly, in order. -/
theorem break_into_ranges_correct (a b : Nat) (ha : 1 ≤ a) (hle : a ≤ b) :
    ChainCov (pairVals (break_into_ranges a b)) a b ∧
    ∀ p ∈ break_into_ranges a b, AllDigits p.1 ∧ AllDigits p.2 ∧
      p.1.length = p.2.length ∧ p.1 ≠ [] ∧ SimplePair p ∧
      10 ^ (p.1.length - 1) ≤ pyInt p.1 := by
  have h1 := bir1F_correct ((natStr b).length + 1) a b ha hle (by omega)
  exact bir2_glue _ a b h1.1 h1.2

/-- The bound-normalizing swap in `range_to_regexes` makes it symmetric. -/
theorem range_to_regexes_swap (a b : Nat) :
    range_to_regexes b a = range_to_regexes a b := by
  unfold range_to_regexes
  rcases Nat.lt_trichotomy a b with h | h | h
  · rw [if_pos (by omega), if_neg (by omega)]
  · subst h; rfl
  · rw [if_neg (by omega), if_pos (by omega)]

/-- The inner pipeline is symmetric in its two bounds. -/
theorem regex_for_range_swap (a b : Nat) :
    regex_for_range b a = regex_for_range a b := by
  unfold regex_for_range rfr
  rw [range_to_regexes_swap]

/-- In every case the result of `rfrTail` is either the pre-factoring flat
expression or a strictly shorter successfully factored expression. -/
theorem rfrTail_flat_or_shorter (c : List (List Char)) :
    rfrTail c = rfrFlatTail c ∨
      ((rfrTail c).length < (rfrFlatTail c).length ∧
        ∃ t2, rfrFactor c = some t2 ∧ rfrTail c = lead_zeros ++ t2) := by
  rcases c with _ | ⟨c0, _ | ⟨c1, rest⟩⟩
  · left; rfl
  · left; rfl
  · simp only [rfrTail, rfrFlatTail]
    by_cases hbar : '|' ∈ lead_zeros ++ '(' :: joinBar (c0 :: c1 :: rest) ++ [')']
    · rw [if_pos hbar]
      cases hf : rfrFactor (c0 :: c1 :: rest) with
      | none => left; rfl
      | some t2 =>
        dsimp only
        by_cases hlen : (lead_zeros ++ t2).length <
            (lead_zeros ++ '(' :: joinBar (c0 :: c1 :: rest) ++ [')']).length
        · right
          rw [if_pos hlen]
          exact ⟨hlen, t2, rfl, rfl⟩
        · left; rw [if_neg hlen]
    · rw [if_neg hbar]; left; rfl

/-- A failing factoring pass leaves the flat expression unchanged. -/
theorem rfrTail_of_factor_none (c : List (List Char)) (h : rfrFactor c = none) :
    rfrTail c = rfrFlatTail c := by
  rcases c with _ | ⟨c0, _ | ⟨c1, rest⟩⟩
  · rfl
  · rfl
  · simp only [rfrTail, rfrFlatTail]
    by_cases hbar : '|' ∈ lead_zeros ++ '(' :: joinBar (c0 :: c1 :: rest) ++ [')']
    · rw [if_pos hbar, h]
    · rw [if_neg hbar]

/-- The signed entry point in the all-negative case. -/
theorem reprRegexForRange_neg_neg (s e : Int) (hle : s ≤ e) (hs : s < 0)
    (he : e < 0) :
    reprRegexForRange s e =
      Except.ok ('(' :: '-' :: (regex_for_range (-e).toNat (-s).toNat ++ [')'])) := by
  unfold reprRegexForRange
  rw [if_neg (by omega), if_neg (by omega), if_neg (by omega), if_neg (by omega),
    if_neg (by omega), if_pos (by exact ⟨hs, he⟩)]

/-- The signed entry point raises its assertion whenever `start > end`. -/
theorem reprRegexForRange_error (s e : Int) (h : e < s) :
    reprRegexForRange s e = Except.error () := by
  unfold reprRegexForRange
  rw [if_pos (by omega)]

/-- The signed entry point with a zero lower bound: the value `0` becomes a
separate literal alternative and the pipeline is invoked from `1`. -/
theorem reprRegexForRange_zero_pos (e : Int) (he : 0 < e) :
    reprRegexForRange 0 e =
      Except.ok ('(' :: '0' :: '|' :: (regex_for_range 1 e.toNat ++ [')'])) := by
  unfold reprRegexForRange
  rw [if_neg (by omega), if_neg (by omega), if_pos (by exact ⟨rfl, he⟩)]

/-! ### Shapes of derivable tokens -/

theorem isDig_allowedLit (c : Char) (h : isDig c = true) : allowedLit c := by
  rw [isDig_iff] at h
  refine ⟨?_, ?_, ?_, ?_, ?_, ?_, ?_, ?_⟩ <;>
    (intro he; subst he; exact absurd h (by decide))

theorem clsG_shape {body cs : List Char} (h : ClsG body cs) :
    ∃ int, body = int ++ [']'] ∧ ']' ∉ int := by
  induction h with
  | done => exact ⟨[], rfl, by simp⟩
  | rng a b rest cs ha had hb h0 ih =>
    obtain ⟨int, rfl, hni⟩ := ih
    refine ⟨a :: '-' :: b :: int, rfl, ?_⟩
    intro hm
    rcases List.mem_cons.1 hm with hx | hm
    · exact ha hx.symm
    rcases List.mem_cons.1 hm with hx | hm
    · exact absurd hx (by decide)
    rcases List.mem_cons.1 hm with hx | hm
    · exact hb hx.symm
    · exact hni hm
  | chr a rest cs ha hh h0 ih =>
    obtain ⟨int, rfl, hni⟩ := ih
    refine ⟨a :: int, rfl, ?_⟩
    intro hm
    rcases List.mem_cons.1 hm with hx | hm
    · exact ha hx.symm
    · exact hni hm

theorem quantG_shape {q : List Char} {b r : RE} (h : QuantG q b r) :
    q = ['?'] ∨ ∃ inner, q = '{' :: inner ++ ['}'] ∧ '}' ∉ inner := by
  cases h with
  | opt => exact Or.inl rfl
  | pow base m =>
    refine Or.inr ⟨natStr m, rfl, fun hm => ?_⟩
    exact absurd (natStr_all_digits m _ hm) (by decide)
  | rep base m n =>
    refine Or.inr ⟨natStr m ++ ',' :: natStr n, by simp, fun hm => ?_⟩
    rcases List.mem_append.1 hm with hx | hx
    · exact absurd (natStr_all_digits m _ hx) (by decide)
    rcases List.mem_cons.1 hx with hx | hx
    · exact absurd hx (by decide)
    · exact absurd (natStr_all_digits n _ hx) (by decide)

theorem gram_item_det {t : List Char} {r1 r2 : RE} (h1 : Gram GCat.item t r1)
    (h2 : Gram GCat.item t r2) : r1 = r2 := by
  have p1 := gram_parse h1 [] (2 * t.length + 1) (Or.inl rfl)
    (by simp only [fuelNeed, List.length_nil]; omega)
  have p2 := gram_parse h2 [] (2 * t.length + 1) (Or.inl rfl)
    (by simp only [fuelNeed, List.length_nil]; omega)
  have := p1.symm.trans p2
  simpa using this

theorem gram_seq_det {t : List Char} {r1 r2 : RE} (h1 : Gram GCat.seq t r1)
    (h2 : Gram GCat.seq t r2) : r1 = r2 := by
  have p1 := gram_parse h1 [] (2 * t.length + 2) (Or.inl rfl)
    (by simp only [fuelNeed, List.length_nil]; omega)
  have p2 := gram_parse h2 [] (2 * t.length + 2) (Or.inl rfl)
    (by simp only [fuelNeed, List.length_nil]; omega)
  have := p1.symm.trans p2
  simpa using this

theorem gram_alt_det {t : List Char} {r1 r2 : RE} (h1 : Gram GCat.alt t r1)
    (h2 : Gram GCat.alt t r2) : r1 = r2 := by
  have p1 := gram_parse h1 [] (2 * t.length + 3) (Or.inl rfl)
    (by simp only [fuelNeed, List.length_nil]; omega)
  have p2 := gram_parse h2 [] (2 * t.length + 3) (Or.inl rfl)
    (by simp only [fuelNeed, List.length_nil]; omega)
  have := p1.symm.trans p2
  simpa using this

/-! ### The tokens emitted by the pipeline -/

/-- The token shapes the numeric pipeline emits: a digit literal, a
quantified digit, a digit class of at least two body characters, or a
quantified such class, each paired with its parsed regex. -/
def GoodTok (tr : List Char × RE) : Prop :=
  (∃ c, isDig c = true ∧ tr = ([c], RE.cls [c])) ∨
  (∃ c q r, isDig c = true ∧ QuantG q (RE.cls [c]) r ∧ tr = (c :: q, r)) ∨
  (∃ body cs, ClsG body cs ∧ AllDigits cs ∧ 2 ≤ body.length ∧
    tr = ('[' :: body, RE.cls cs)) ∨
  (∃ body cs q r, ClsG body cs ∧ AllDigits cs ∧ 2 ≤ body.length ∧
    QuantG q (RE.cls cs) r ∧ tr = ('[' :: body ++ q, r))

/-- A token string of pipeline shape (with some parse). -/
def GoodTokS (t : List Char) : Prop := ∃ r, GoodTok (t, r)

theorem goodTok_gram {tr : List Char × RE} (h : GoodTok tr) :
    Gram GCat.item tr.1 tr.2 := by
  rcases h with ⟨c, hc, rfl⟩ | ⟨c, q, r, hc, hq, rfl⟩ |
    ⟨body, cs, hb, hd, hl, rfl⟩ | ⟨body, cs, q, r, hb, hd, hl, hq, rfl⟩
  · exact Gram.itemChr c (isDig_allowedLit c hc)
  · exact Gram.itemChrQ c q r (isDig_allowedLit c hc) hq
  · exact Gram.itemCls body cs hb
  · exact Gram.itemClsQ body cs q r hb hq

theorem goodTok_ne_nil {tr : List Char × RE} (h : GoodTok tr) : tr.1 ≠ [] := by
  rcases h with ⟨c, hc, rfl⟩ | ⟨c, q, r, hc, hq, rfl⟩ |
    ⟨body, cs, hb, hd, hl, rfl⟩ | ⟨body, cs, q, r, hb, hd, hl, hq, rfl⟩ <;> simp

theorem goodTok_head {tr : List Char × RE} (h : GoodTok tr) :
    isDig (tr.1.headD ' ') = true ∨ tr.1.headD ' ' = '[' := by
  rcases h with ⟨c, hc, rfl⟩ | ⟨c, q, r, hc, hq, rfl⟩ |
    ⟨body, cs, hb, hd, hl, rfl⟩ | ⟨body, cs, q, r, hb, hd, hl, hq, rfl⟩
  · exact Or.inl hc
  · exact Or.inl hc
  · exact Or.inr rfl
  · exact Or.inr rfl

/-! ### `tokenize` recovers pipeline token lists -/

theorem scanTo_append (close : Char) (int : List Char) (hni : close ∉ int)
    (rest : List Char) :
    scanTo close (int ++ close :: rest) = some (int ++ [close], rest) := by
  induction int with
  | nil => simp [scanTo]
  | cons c t ih =>
    have hne : ¬ c = close := fun hx => hni (hx ▸ List.mem_cons_self _ _)
    have hrec := ih (fun hm => hni (List.mem_cons_of_mem _ hm))
    simp only [List.cons_append, scanTo, List.append_eq, if_neg hne, hrec]

theorem tokQuant_quant {q : List Char} {b r : RE} (h : QuantG q b r)
    (rest : List Char) : tokQuant (q ++ rest) = (q, rest) := by
  rcases quantG_shape h with rfl | ⟨inner, rfl, hni⟩
  · simp [tokQuant]
  · rw [show ('{' :: inner ++ ['}']) ++ rest = '{' :: (inner ++ '}' :: rest) from
      by simp]
    simp only [tokQuant, reduceIte]
    rw [scanTo_append '}' inner hni rest]
    rfl

theorem tokQuant_stop (s : List Char)
    (h : s = [] ∨ (s.headD ' ' ≠ '?' ∧ s.headD ' ' ≠ '{')) :
    tokQuant s = ([], s) := by
  cases s with
  | nil => rfl
  | cons c r2 =>
    rcases h with h | ⟨h1, h2⟩
    · simp at h
    · simp only [List.headD_cons] at h1 h2
      simp only [tokQuant, if_neg h1, if_neg h2]

theorem tok1_good {t : List Char} {r : RE} (hg : GoodTok (t, r)) (rest : List Char)
    (hrest : rest = [] ∨ isDig (rest.headD ' ') = true ∨ rest.headD ' ' = '[') :
    tok1 (t ++ rest) = some (t, rest) := by
  have hstop : rest = [] ∨ (rest.headD ' ' ≠ '?' ∧ rest.headD ' ' ≠ '{') := by
    rcases hrest with h | h | h
    · exact Or.inl h
    · refine Or.inr ⟨?_, ?_⟩ <;> (intro hx; rw [hx] at h; exact absurd h (by decide))
    · exact Or.inr ⟨by rw [h]; decide, by rw [h]; decide⟩
  rcases hg with ⟨c, hc, he⟩ | ⟨c, q, r2, hc, hq, he⟩ |
    ⟨body, cs, hb, hd, hl, he⟩ | ⟨body, cs, q, r2, hb, hd, hl, hq, he⟩
  · rw [Prod.mk.injEq] at he
    obtain ⟨rfl, rfl⟩ := he
    simp only [List.singleton_append, tok1, hc, reduceIte,
      tokQuant_stop rest hstop]
  · rw [Prod.mk.injEq] at he
    obtain ⟨rfl, rfl⟩ := he
    simp only [List.cons_append, tok1, hc, reduceIte, tokQuant_quant hq rest]
  · rw [Prod.mk.injEq] at he
    obtain ⟨rfl, rfl⟩ := he
    obtain ⟨int, rfl, hni⟩ := clsG_shape hb
    rw [show ('[' :: (int ++ [']'])) ++ rest = '[' :: (int ++ ']' :: rest) from
      by simp]
    simp only [tok1, show isDig '[' = false from rfl, Bool.false_eq_true, reduceIte]
    rw [scanTo_append ']' int hni rest]
    simp only [tokQuant_stop rest hstop]
    simp
  · rw [Prod.mk.injEq] at he
    obtain ⟨rfl, rfl⟩ := he
    obtain ⟨int, rfl, hni⟩ := clsG_shape hb
    rw [show ('[' :: (int ++ [']']) ++ q) ++ rest = '[' :: (int ++ ']' :: (q ++ rest))
      from by simp]
    simp only [tok1, show isDig '[' = false from rfl, Bool.false_eq_true, reduceIte]
    rw [scanTo_append ']' int hni (q ++ rest)]
    simp only [tokQuant_quant hq rest]

theorem flatToks_head_good {ts : List (List Char × RE)}
    (h : ∀ tr ∈ ts, GoodTok tr) :
    flatToks ts = [] ∨ isDig ((flatToks ts).headD ' ') = true ∨
      (flatToks ts).headD ' ' = '[' := by
  cases ts with
  | nil => exact Or.inl rfl
  | cons tr ts2 =>
    right
    rw [flatToks_cons]
    have hg := goodTok_head (h tr (List.mem_cons_self _ _))
    obtain ⟨c, cs, hc⟩ : ∃ c cs, tr.1 = c :: cs := by
      cases hh : tr.1 with
      | nil => exact absurd hh (goodTok_ne_nil (h tr (List.mem_cons_self _ _)))
      | cons c cs => exact ⟨c, cs, rfl⟩
    rw [hc] at hg ⊢
    simpa using hg

theorem tokenizeF_flat : ∀ (ts : List (List Char × RE)) (fuel : Nat),
    (∀ tr ∈ ts, GoodTok tr) → (flatToks ts).length ≤ fuel →
    tokenizeF fuel (flatToks ts) = some (ts.map Prod.fst) := by
  intro ts
  induction ts with
  | nil =>
    intro fuel _ _
    cases fuel <;> simp [flatToks, tokenizeF]
  | cons tr ts ih =>
    intro fuel h hlen
    have hne := goodTok_ne_nil (h tr (List.mem_cons_self _ _))
    have h1 : 1 ≤ tr.1.length :=
      Nat.one_le_iff_ne_zero.2 (fun h0 => hne (List.length_eq_zero.1 h0))
    rw [flatToks_cons] at hlen ⊢
    rw [List.length_append] at hlen
    obtain ⟨fuel2, rfl⟩ : ∃ f2, fuel = f2 + 1 := by
      cases fuel with
      | zero => omega
      | succ f2 => exact ⟨f2, rfl⟩
    have hr : ¬ tr.1 ++ flatToks ts = [] := by
      cases hh : tr.1 with
      | nil => exact absurd hh hne
      | cons c cs => simp [hh]
    simp only [tokenizeF, if_neg hr]
    rw [tok1_good (h tr (List.mem_cons_self _ _)) _
      (flatToks_head_good (fun x hx => h x (List.mem_cons_of_mem _ hx)))]
    simp only [Option.map_eq_map]
    rw [ih fuel2 (fun x hx => h x (List.mem_cons_of_mem _ hx)) (by omega)]
    rfl

/-- `tokenize` recovers the token list of every pipeline-shaped string. -/
theorem tokenize_flat (ts : List (List Char × RE)) (h : ∀ tr ∈ ts, GoodTok tr) :
    tokenize (flatToks ts) = some (ts.map Prod.fst) :=
  tokenizeF_flat ts (flatToks ts).length h le_rfl

/-! ### Languages of pipeline tokens are digit strings -/

theorem Matches_power_digits {b : RE} (hb : ∀ u, b.Matches u → AllDigits u) :
    ∀ (m : Nat) (w : List Char), (b.power m).Matches w → AllDigits w := by
  intro m
  induction m with
  | zero =>
    intro w hw
    rw [show b.power 0 = RE.eps from rfl, Matches_eps_iff] at hw
    subst hw
    intro x hx
    simp at hx
  | succ m ihm =>
    intro w hw
    rw [show b.power (m + 1) = RE.cat b (b.power m) from rfl, Matches_cat_iff] at hw
    obtain ⟨u, v, rfl, hu, hv⟩ := hw
    exact allDigits_append (hb u hu) (ihm v hv)

theorem Matches_upto_digits {b : RE} (hb : ∀ u, b.Matches u → AllDigits u) :
    ∀ (m : Nat) (w : List Char), (b.upto m).Matches w → AllDigits w := by
  intro m
  induction m with
  | zero =>
    intro w hw
    rw [show b.upto 0 = RE.eps from rfl, Matches_eps_iff] at hw
    subst hw
    intro x hx
    simp at hx
  | succ m ihm =>
    intro w hw
    rw [show b.upto (m + 1) = RE.opt (RE.cat b (b.upto m)) from rfl,
      Matches_opt_iff] at hw
    rcases hw with rfl | hw
    · intro x hx; simp at hx
    · rw [Matches_cat_iff] at hw
      obtain ⟨u, v, rfl, hu, hv⟩ := hw
      exact allDigits_append (hb u hu) (ihm v hv)

theorem quantG_digits {q : List Char} {b r : RE} (h : QuantG q b r)
    (hb : ∀ u, b.Matches u → AllDigits u) :
    ∀ w, r.Matches w → AllDigits w := by
  cases h with
  | opt =>
    intro w hw
    rw [Matches_opt_iff] at hw
    rcases hw with rfl | hw
    · intro x hx; simp at hx
    · exact hb w hw
  | pow base m => exact Matches_power_digits hb m
  | rep base m n =>
    intro w hw
    rw [RE.repRange, Matches_cat_iff] at hw
    obtain ⟨u, v, rfl, hu, hv⟩ := hw
    exact allDigits_append (Matches_power_digits hb m u hu)
      (Matches_upto_digits hb (n - m) v hv)

theorem cls_digits {cs : List Char} (hd : AllDigits cs) :
    ∀ u, (RE.cls cs).Matches u → AllDigits u := by
  intro u hu
  rw [Matches_cls_iff] at hu
  obtain ⟨c, hc, rfl⟩ := hu
  intro x hx
  rw [List.mem_singleton] at hx
  rw [hx]
  exact hd c hc

/-- Every pipeline token matches only digit strings. -/
theorem goodTok_digits {tr : List Char × RE} (h : GoodTok tr) :
    ∀ w, tr.2.Matches w → AllDigits w := by
  obtain ⟨t, r⟩ := tr
  rcases h with ⟨c, hc, he⟩ | ⟨c, q, r2, hc, hq, he⟩ |
    ⟨body, cs, hb, hd, hl, he⟩ | ⟨body, cs, q, r2, hb, hd, hl, hq, he⟩ <;>
    (rw [Prod.mk.injEq] at he; obtain ⟨rfl, rfl⟩ := he)
  · exact cls_digits (by intro x hx; rw [List.mem_singleton] at hx; subst hx; exact hc)
  · exact quantG_digits hq
      (cls_digits (by intro x hx; rw [List.mem_singleton] at hx; subst hx; exact hc))
  · exact cls_digits hd
  · exact quantG_digits hq (cls_digits hd)

/-! ### Occurrences and `replace` -/

/-- `pat` occurs as a contiguous substring of `s`. -/
def Occurs (pat s : List Char) : Prop := ∃ u v, s = u ++ pat ++ v

/-- No suffix of a proper split point of `P` continued by `X` starts with
`pat`: `pat` has no occurrence beginning inside `P`. -/
def NoStart (pat P X : List Char) : Prop :=
  ∀ P1 P2, P = P1 ++ P2 → P2 ≠ [] → ¬ pat <+: P2 ++ X

theorem prefix_append_left {p a b : List Char} (h : p <+: a ++ b)
    (hl : p.length ≤ a.length) : p <+: a := by
  induction p generalizing a with
  | nil => exact ⟨a, rfl⟩
  | cons c p2 ih =>
    cases a with
    | nil => simp at hl
    | cons d a2 =>
      obtain ⟨t, ht⟩ := h
      simp only [List.cons_append, List.cons.injEq] at ht
      obtain ⟨rfl, ht2⟩ := ht
      simp only [List.length_cons, Nat.add_le_add_iff_right] at hl
      obtain ⟨t2, ht3⟩ := ih ⟨t, ht2⟩ hl
      exact ⟨t2, by simp [← ht3]⟩

theorem prefix_split {p a b : List Char} (h : p <+: a ++ b)
    (hl : a.length ≤ p.length) : ∃ p2, p = a ++ p2 ∧ p2 <+: b := by
  induction a generalizing p with
  | nil => exact ⟨p, rfl, h⟩
  | cons d a2 ih =>
    cases p with
    | nil => simp at hl
    | cons c p2 =>
      obtain ⟨t, ht⟩ := h
      simp only [List.cons_append, List.cons.injEq] at ht
      obtain ⟨rfl, ht2⟩ := ht
      simp only [List.length_cons, Nat.add_le_add_iff_right] at hl
      obtain ⟨p3, rfl, hp3⟩ := ih ⟨t, ht2⟩ hl
      exact ⟨p3, rfl, hp3⟩

theorem occurs_append_cases {pat a b : List Char} (h : Occurs pat (a ++ b)) :
    (∃ a1 a2, a = a1 ++ a2 ∧ a2 ≠ [] ∧ pat <+: a2 ++ b) ∨ Occurs pat b := by
  obtain ⟨u, v, hv⟩ := h
  induction a generalizing u with
  | nil =>
    right
    exact ⟨u, v, by simpa using hv⟩
  | cons c a2 ih =>
    cases u with
    | nil =>
      left
      refine ⟨[], c :: a2, rfl, by simp, ⟨v, ?_⟩⟩
      simpa using hv.symm
    | cons d u2 =>
      simp only [List.cons_append, List.cons.injEq, List.append_assoc] at hv
      obtain ⟨rfl, hv2⟩ := hv
      rcases ih u2 (by simpa using hv2) with ⟨a1, a3, rfl, hne, hp⟩ | hocc
      · exact Or.inl ⟨c :: a1, a3, rfl, hne, hp⟩
      · exact Or.inr hocc

theorem not_occurs_append {pat a b : List Char} (ha : NoStart pat a b)
    (hb : ¬ Occurs pat b) : ¬ Occurs pat (a ++ b) := by
  intro h
  rcases occurs_append_cases h with ⟨a1, a2, he, hne, hp⟩ | h2
  · exact ha a1 a2 he hne hp
  · exact hb h2

theorem replaceAllF_nil (fuel : Nat) (pat rep : List Char) :
    replaceAllF fuel [] pat rep = [] := by
  cases fuel <;> rfl

theorem replaceAllF_noocc : ∀ (s : List Char) (fuel : Nat) (pat rep : List Char),
    pat ≠ [] → ¬ Occurs pat s → replaceAllF fuel s pat rep = s := by
  intro s
  induction s with
  | nil => intro fuel pat rep _ _; exact replaceAllF_nil fuel pat rep
  | cons c rest ih =>
    intro fuel pat rep hne hocc
    cases fuel with
    | zero => rfl
    | succ f =>
      have hpre : ¬ pat.isPrefixOf (c :: rest) = true := by
        rw [ List.isPrefixOf_iff_prefix]
        rintro ⟨t, ht⟩
        exact hocc ⟨[], t, by simp [← ht]⟩
      simp only [replaceAllF, if_neg hpre]
      rw [ih f pat rep hne (fun ⟨u, v, huv⟩ => hocc ⟨c :: u, v, by simp [huv]⟩)]

theorem replaceAllF_skip : ∀ (P : List Char) (X pat rep : List Char) (fuel : Nat),
    P.length ≤ fuel → NoStart pat P X →
    replaceAllF fuel (P ++ X) pat rep =
      P ++ replaceAllF (fuel - P.length) X pat rep := by
  intro P
  induction P with
  | nil => intro X pat rep fuel _ _; simp
  | cons c P2 ih =>
    intro X pat rep fuel hf hns
    obtain ⟨f, rfl⟩ : ∃ f, fuel = f + 1 := by
      cases fuel with
      | zero => simp at hf
      | succ f => exact ⟨f, rfl⟩
    have hpre : ¬ pat.isPrefixOf (c :: (P2 ++ X)) = true := by
      rw [ List.isPrefixOf_iff_prefix]
      intro hp
      exact hns [] (c :: P2) rfl (by simp) (by simpa using hp)
    simp only [List.cons_append, replaceAllF, List.append_eq, if_neg hpre]
    rw [ih X pat rep f (by simpa using hf)
      (fun P1 P2' he hne hp => hns (c :: P1) P2' (by simp [he]) hne hp)]
    simp only [List.length_cons]
    rw [show f - P2.length = f + 1 - (P2.length + 1) from by omega]

theorem replaceAllF_self (pat rep : List Char) (c : Char) (t : List Char)
    (he : pat = c :: t) (fuel : Nat) (hf : 1 ≤ fuel) :
    replaceAllF fuel pat pat rep = rep := by
  obtain ⟨f, rfl⟩ : ∃ f, fuel = f + 1 := by
    cases fuel with
    | zero => simp at hf
    | succ f => exact ⟨f, rfl⟩
  subst he
  have hpre : (c :: t).isPrefixOf (c :: t) = true := by
    rw [ List.isPrefixOf_iff_prefix]
  simp only [replaceAllF, if_pos hpre]
  rw [show (c :: t).drop (c :: t).length = [] from List.drop_length _]
  rw [replaceAllF_nil]
  simp

/-! ### The `shrink` pass on a pipeline body -/

theorem shrinkPat_zero : shrinkPat 0 = [] := rfl

theorem shrinkPat_succ (i : Nat) :
    shrinkPat (i + 1) = '[' :: '0' :: '-' :: '9' :: ']' :: shrinkPat i := by
  simp [shrinkPat, List.replicate_succ]

theorem shrinkPat_length (i : Nat) : (shrinkPat i).length = 5 * i := by
  induction i with
  | zero => rfl
  | succ i ih => rw [shrinkPat_succ]; simp [ih]; omega

theorem shrinkPat_ne_nil (i : Nat) (hi : 1 ≤ i) : shrinkPat i ≠ [] := by
  intro h
  have := shrinkPat_length i
  rw [h] at this
  simp at this
  omega

theorem count_shrinkPat (i : Nat) : (shrinkPat i).count '[' = i := by
  induction i with
  | zero => rfl
  | succ i ih =>
    rw [shrinkPat_succ]
    simp only [List.count_cons]
    rw [ih]
    simp

theorem count_allDigits {l : List Char} (h : AllDigits l) : l.count '[' = 0 := by
  rw [List.count_eq_zero]
  intro hm
  exact absurd (h '[' hm) (by decide)

theorem count_shrinkRep (m : Nat) : (shrinkRep m).count '[' = 1 := by
  unfold shrinkRep
  rw [List.count_append, List.count_append]
  rw [count_allDigits (natStr_all_digits m)]
  decide

theorem not_occurs_shrinkPat_shrinkRep (i m : Nat) (hi : 2 ≤ i) :
    ¬ Occurs (shrinkPat i) (shrinkRep m) := by
  rintro ⟨u, v, hv⟩
  have hc : (shrinkRep m).count '[' =
      u.count '[' + (shrinkPat i).count '[' + v.count '[' := by
    rw [hv, List.count_append, List.count_append]
  rw [count_shrinkRep, count_shrinkPat] at hc
  omega

theorem not_occurs_shrinkPat_run (i m : Nat) (him : m < i) :
    ¬ Occurs (shrinkPat i) (shrinkPat m) := by
  rintro ⟨u, v, hv⟩
  have hc := congrArg List.length hv
  simp only [List.length_append, shrinkPat_length] at hc
  omega

theorem shrinkPat_drop_head (i d : Nat) (h1 : 1 ≤ d) (h4 : d ≤ 4) (hi : 1 ≤ i) :
    ((shrinkPat i).drop d).headD ' ' ≠ '[' := by
  obtain ⟨i2, rfl⟩ : ∃ i2, i = i2 + 1 := by
    cases i with
    | zero => omega
    | succ i2 => exact ⟨i2, rfl⟩
  rw [shrinkPat_succ]
  interval_cases d <;> simp

/-- An occurrence of a `[0-9]`-run pattern never begins inside a string
free of `[0-9]` when the continuation starts with `[` (or is empty). -/
theorem noStart_of_noOcc09 {P X : List Char} (i : Nat) (hi : 1 ≤ i)
    (hP : ¬ Occurs (shrinkPat 1) P)
    (hX : X = [] ∨ X.headD ' ' = '[') :
    NoStart (shrinkPat i) P X := by
  intro P1 P2 he hne hp
  by_cases hlen : (shrinkPat 1).length ≤ P2.length
  · have h1i : shrinkPat 1 <+: shrinkPat i := by
      obtain ⟨i2, rfl⟩ : ∃ i2, i = i2 + 1 := by
        cases i with
        | zero => omega
        | succ i2 => exact ⟨i2, rfl⟩
      refine ⟨shrinkPat i2, ?_⟩
      rw [shrinkPat_succ]
      rfl
    have hp1 : shrinkPat 1 <+: P2 ++ X := h1i.trans hp
    have hp2 : shrinkPat 1 <+: P2 := prefix_append_left hp1 hlen
    obtain ⟨t, ht⟩ := hp2
    exact hP ⟨P1, t, by rw [he, ← ht]; simp⟩
  · rw [shrinkPat_length, Nat.not_le] at hlen
    have hl2 : P2.length ≤ (shrinkPat i).length := by
      rw [shrinkPat_length]; omega
    obtain ⟨p2, hpe, hp2X⟩ := prefix_split hp hl2
    have hd : p2 = (shrinkPat i).drop P2.length := by
      rw [hpe, List.drop_left]
    have hplen : 1 ≤ P2.length := by
      cases hP2 : P2 with
      | nil => exact absurd hP2 hne
      | cons c t => simp [hP2]
    have hne2 : p2 ≠ [] := by
      intro h0
      have := congrArg List.length hpe
      rw [h0, shrinkPat_length] at this
      simp at this
      omega
    obtain ⟨c, p3, rfl⟩ : ∃ c p3, p2 = c :: p3 := by
      cases p2 with
      | nil => exact absurd rfl hne2
      | cons c p3 => exact ⟨c, p3, rfl⟩
    obtain ⟨t2, ht2⟩ := hp2X
    have hXh : X.headD ' ' = c := by rw [← ht2]; rfl
    have hXne : X ≠ [] := by rw [← ht2]; simp
    rcases hX with h0 | h0
    · exact hXne h0
    · have hch : c = '[' := by rw [← hXh, h0]
      have hhd := shrinkPat_drop_head i P2.length hplen (by omega) hi
      rw [← hd] at hhd
      exact hhd (by simp [hch])

theorem shrinkPat_head (m : Nat) :
    shrinkPat m = [] ∨ (shrinkPat m).headD ' ' = '[' := by
  cases m with
  | zero => exact Or.inl rfl
  | succ m2 =>
    right
    rw [shrinkPat_succ]
    rfl

theorem shrinkF_noop : ∀ (L : Nat) (r : List Char),
    (∀ i, 2 ≤ i → i ≤ L → ¬ Occurs (shrinkPat i) r) → shrinkF L r = r := by
  intro L
  induction L with
  | zero => intro r _; rfl
  | succ K ihK =>
    intro r h
    cases K with
    | zero => rfl
    | succ K2 =>
      have hno : ¬ Occurs (shrinkPat (K2 + 2)) r := h (K2 + 2) (by omega) le_rfl
      have h1 : replaceAll r (shrinkPat (K2 + 2)) (shrinkRep (K2 + 2)) = r :=
        replaceAllF_noocc r r.length _ _ (shrinkPat_ne_nil _ (by omega)) hno
      show shrinkF (K2 + 1)
        (replaceAll r (shrinkPat (K2 + 2)) (shrinkRep (K2 + 2))) = r
      rw [h1]
      exact ihK r (fun i h2 hle => h i h2 (by omega))

/-- The `shrink` pass on a `[0-9]`-free prefix followed by a run of `m`
copies of `[0-9]`: a run of at least two is replaced by the `{m}`-quantified
class, anything else is left unchanged. -/
theorem shrink_run : ∀ (maxlen : Nat) (P : List Char) (m : Nat),
    ¬ Occurs (shrinkPat 1) P → m ≤ maxlen →
    shrink (P ++ shrinkPat m) maxlen =
      P ++ (if 2 ≤ m then shrinkRep m else shrinkPat m) := by
  intro maxlen
  induction maxlen with
  | zero =>
    intro P m hP hm
    have h0 : m = 0 := by omega
    subst h0
    rw [if_neg (by omega)]
    rfl
  | succ K ihK =>
    intro P m hP hm
    cases K with
    | zero =>
      rw [if_neg (by omega)]
      rfl
    | succ K2 =>
      by_cases hms : m = K2 + 2
      · subst hms
        rw [if_pos (by omega)]
        show shrinkF (K2 + 1) (replaceAll (P ++ shrinkPat (K2 + 2))
          (shrinkPat (K2 + 2)) (shrinkRep (K2 + 2))) = P ++ shrinkRep (K2 + 2)
        have hns : NoStart (shrinkPat (K2 + 2)) P (shrinkPat (K2 + 2)) :=
          noStart_of_noOcc09 (K2 + 2) (by omega) hP (shrinkPat_head _)
        have hskip := replaceAllF_skip P (shrinkPat (K2 + 2)) (shrinkPat (K2 + 2))
          (shrinkRep (K2 + 2)) (P ++ shrinkPat (K2 + 2)).length (by simp) hns
        have hself : replaceAllF ((P ++ shrinkPat (K2 + 2)).length - P.length)
            (shrinkPat (K2 + 2)) (shrinkPat (K2 + 2)) (shrinkRep (K2 + 2)) =
            shrinkRep (K2 + 2) := by
          apply replaceAllF_self _ _ '[' ('0' :: '-' :: '9' :: ']' ::
            shrinkPat (K2 + 1)) (by rw [shrinkPat_succ])
          rw [List.length_append, shrinkPat_length]
          omega
        have hrepl : replaceAll (P ++ shrinkPat (K2 + 2)) (shrinkPat (K2 + 2))
            (shrinkRep (K2 + 2)) = P ++ shrinkRep (K2 + 2) := by
          show replaceAllF (P ++ shrinkPat (K2 + 2)).length (P ++ shrinkPat (K2 + 2))
            (shrinkPat (K2 + 2)) (shrinkRep (K2 + 2)) = P ++ shrinkRep (K2 + 2)
          rw [hskip, hself]
        rw [hrepl]
        apply shrinkF_noop
        intro i h2 hle
        exact not_occurs_append (noStart_of_noOcc09 i (by omega) hP (Or.inr rfl))
          (not_occurs_shrinkPat_shrinkRep i (K2 + 2) h2)
      · have hlt : m < K2 + 2 := by omega
        have hno : ¬ Occurs (shrinkPat (K2 + 2)) (P ++ shrinkPat m) :=
          not_occurs_append
            (noStart_of_noOcc09 (K2 + 2) (by omega) hP (shrinkPat_head m))
            (not_occurs_shrinkPat_run (K2 + 2) m hlt)
        have h1 : replaceAll (P ++ shrinkPat m) (shrinkPat (K2 + 2))
            (shrinkRep (K2 + 2)) = P ++ shrinkPat m :=
          replaceAllF_noocc _ _ _ _ (shrinkPat_ne_nil _ (by omega)) hno
        show shrinkF (K2 + 1) (replaceAll (P ++ shrinkPat m) (shrinkPat (K2 + 2))
          (shrinkRep (K2 + 2))) = P ++ if 2 ≤ m then shrinkRep m else shrinkPat m
        rw [h1]
        exact ihK P m hP (by omega)

/-! ### `individual_regex` on splitter pairs -/

/-- The per-position token emitted by `irBody` at the split position. -/
def classTok (a b : Char) : List Char :=
  if a = b then [a]
  else if 1 + digitVal a = digitVal b then ['[', a, b, ']']
  else ['[', a, '-', b, ']']

theorem occurs_length {pat s : List Char} (h : Occurs pat s) :
    pat.length ≤ s.length := by
  obtain ⟨u, v, hv⟩ := h
  have := congrArg List.length hv
  simp only [List.length_append] at this
  omega

theorem occurs_eq_of_length {pat s : List Char} (h : Occurs pat s)
    (hl : s.length = pat.length) : s = pat := by
  obtain ⟨u, v, hv⟩ := h
  have hlen := congrArg List.length hv
  simp only [List.length_append] at hlen
  have hu : u = [] := List.length_eq_zero.1 (by omega)
  have hveq : v = [] := List.length_eq_zero.1 (by omega)
  rw [hu, hveq] at hv
  simpa using hv

theorem no_occ09_digits {P : List Char} (h : AllDigits P) :
    ¬ Occurs (shrinkPat 1) P := by
  rintro ⟨u, v, hv⟩
  have hm : '[' ∈ P := by
    rw [hv]
    refine List.mem_append.2 (Or.inl (List.mem_append.2 (Or.inr ?_)))
    rw [show shrinkPat 1 = ['[', '0', '-', '9', ']'] from rfl]
    simp
  exact absurd (h '[' hm) (by decide)

theorem noStart_of_no_bracket {P X pat : List Char} (hpne : pat ≠ [])
    (hp : pat.headD ' ' = '[') (hP : '[' ∉ P) : NoStart pat P X := by
  intro P1 P2 he hne hpre
  obtain ⟨c, pat2, rfl⟩ : ∃ c pat2, pat = c :: pat2 := by
    cases pat with
    | nil => exact absurd rfl hpne
    | cons c p2 => exact ⟨c, p2, rfl⟩
  obtain ⟨d, P2', rfl⟩ : ∃ d P2', P2 = d :: P2' := by
    cases P2 with
    | nil => exact absurd rfl hne
    | cons d p2 => exact ⟨d, p2, rfl⟩
  obtain ⟨t, ht⟩ := hpre
  simp only [List.cons_append, List.cons.injEq] at ht
  have hcd : c = d := ht.1
  have hch : c = '[' := by simpa using hp
  refine hP ?_
  rw [he]
  exact List.mem_append.2 (Or.inr (by rw [← hcd, hch]; exact List.mem_cons_self _ _))

theorem classTok_cases (a b : Char) :
    classTok a b = [a] ∨ classTok a b = ['[', a, b, ']'] ∨
      classTok a b = ['[', a, '-', b, ']'] := by
  unfold classTok
  by_cases h1 : a = b
  · rw [if_pos h1]; exact Or.inl rfl
  · rw [if_neg h1]
    by_cases h2 : 1 + digitVal a = digitVal b
    · rw [if_pos h2]; exact Or.inr (Or.inl rfl)
    · rw [if_neg h2]; exact Or.inr (Or.inr rfl)

theorem no_occ09_classTok (a b : Char) (hnb : ¬ (a = '0' ∧ b = '9')) :
    ¬ Occurs (shrinkPat 1) (classTok a b) := by
  intro h
  have hl := occurs_length h
  rw [shrinkPat_length] at hl
  rcases classTok_cases a b with hc | hc | hc <;> rw [hc] at hl h
  · simp only [List.length_cons, List.length_nil] at hl
    omega
  · simp only [List.length_cons, List.length_nil] at hl
    omega
  · have he := occurs_eq_of_length h
      (by rw [shrinkPat_length]; simp only [List.length_cons, List.length_nil])
    rw [show shrinkPat 1 = ['[', '0', '-', '9', ']'] from rfl] at he
    simp only [List.cons.injEq] at he
    exact hnb ⟨he.2.1, he.2.2.2.1⟩

theorem irBody_prefix : ∀ (u s e : List Char),
    irBody (u ++ s) (u ++ e) = u ++ irBody s e := by
  intro u
  induction u with
  | nil => intro s e; simp
  | cons c u2 ih =>
    intro s e
    simp only [List.cons_append, irBody, List.append_eq, eq_self_iff_true,
      if_true, ih]
    rfl

theorem irBody_run : ∀ k : Nat,
    irBody (List.replicate k '0') (List.replicate k '9') = shrinkPat k := by
  intro k
  induction k with
  | zero => rfl
  | succ k ih =>
    simp only [List.replicate_succ]
    rw [show irBody ('0' :: List.replicate k '0') ('9' :: List.replicate k '9') =
      (if '0' = '9' then ['0']
       else if 1 + digitVal '0' = digitVal '9' then ['[', '0', '9', ']']
       else ['[', '0', '-', '9', ']']) ++
        irBody (List.replicate k '0') (List.replicate k '9') from rfl]
    rw [if_neg (by decide), if_neg (by decide), ih, shrinkPat_succ]
    rfl

theorem irBody_split (u : List Char) (a b : Char) (k : Nat) :
    irBody (u ++ a :: List.replicate k '0') (u ++ b :: List.replicate k '9') =
      u ++ (classTok a b ++ shrinkPat k) := by
  rw [ irBody_prefix]
  congr 1
  show irBody (a :: List.replicate k '0') (b :: List.replicate k '9') = _
  rw [show irBody (a :: List.replicate k '0') (b :: List.replicate k '9') =
    (if a = b then [a]
     else if 1 + digitVal a = digitVal b then ['[', a, b, ']']
     else ['[', a, '-', b, ']']) ++
      irBody (List.replicate k '0') (List.replicate k '9') from rfl]
  rw [irBody_run]
  rfl

/-- `individual_regex` on a splitter pair: the common prefix, the class for
the split position, and the (possibly quantified) `[0-9]` run. -/
theorem individual_regex_simple (u : List Char) (a b : Char) (k : Nat)
    (hu : AllDigits u) :
    individual_regex (u ++ a :: List.replicate k '0')
        (u ++ b :: List.replicate k '9') =
      if a = '0' ∧ b = '9' then
        u ++ (if 2 ≤ k + 1 then shrinkRep (k + 1) else shrinkPat (k + 1))
      else
        (u ++ classTok a b) ++ (if 2 ≤ k then shrinkRep k else shrinkPat k) := by
  unfold individual_regex
  rw [irBody_split]
  have hlen : (u ++ b :: List.replicate k '9').length = u.length + 1 + k := by
    simp
    omega
  by_cases hnb : a = '0' ∧ b = '9'
  · rw [if_pos hnb]
    obtain ⟨rfl, rfl⟩ := hnb
    have hct : classTok '0' '9' = ['[', '0', '-', '9', ']'] := by
      unfold classTok
      rw [if_neg (by decide), if_neg (by decide)]
    rw [hct, show (['[', '0', '-', '9', ']'] ++ shrinkPat k : List Char) =
      shrinkPat (k + 1) from by rw [shrinkPat_succ]; rfl]
    rw [hlen]
    exact shrink_run (u.length + 1 + k) u (k + 1) (no_occ09_digits hu) (by omega)
  · rw [if_neg hnb]
    rw [show u ++ (classTok a b ++ shrinkPat k) =
      (u ++ classTok a b) ++ shrinkPat k from by simp]
    rw [hlen]
    apply shrink_run (u.length + 1 + k) (u ++ classTok a b) k
    · exact not_occurs_append
        (noStart_of_no_bracket (by decide) rfl (fun hm => absurd (hu '[' hm) (by decide)))
        (no_occ09_classTok a b hnb)
    · omega

/-! ### Character ranges -/

theorem char_toNat_ofNat (n : Nat) (h : n < 55296) : (Char.ofNat n).toNat = n := by
  unfold Char.ofNat
  rw [dif_pos (Or.inl h)]
  rfl

theorem mem_rangeList {a b c : Char} (h : c ∈ rangeList a b)
    (hb : b.toNat < 55296) : a.toNat ≤ c.toNat ∧ c.toNat ≤ b.toNat := by
  unfold rangeList at h
  rw [List.mem_map] at h
  obtain ⟨i, hi, rfl⟩ := h
  rw [List.mem_range] at hi
  rw [char_toNat_ofNat (a.toNat + i) (by omega)]
  omega

theorem rangeList_mem_of {a b c : Char} (h1 : a.toNat ≤ c.toNat)
    (h2 : c.toNat ≤ b.toNat) : c ∈ rangeList a b := by
  unfold rangeList
  rw [List.mem_map]
  refine ⟨c.toNat - a.toNat, List.mem_range.2 (by omega), ?_⟩
  rw [show a.toNat + (c.toNat - a.toNat) = c.toNat from by omega, Char.ofNat_toNat]

theorem mem_rangeList_digit {a b c : Char} (ha : isDig a = true)
    (hb : isDig b = true) :
    c ∈ rangeList a b ↔
      isDig c = true ∧ digitVal a ≤ digitVal c ∧ digitVal c ≤ digitVal b := by
  rw [isDig_iff] at ha hb
  constructor
  · intro h
    have h2 := mem_rangeList h (by omega)
    rw [isDig_iff]
    unfold digitVal
    omega
  · rintro ⟨hc, h1, h2⟩
    rw [isDig_iff] at hc
    unfold digitVal at h1 h2
    exact rangeList_mem_of (by omega) (by omega)

theorem allDigits_rangeList {a b : Char} (ha : isDig a = true)
    (hb : isDig b = true) : AllDigits (rangeList a b) := by
  intro c hc
  exact ((mem_rangeList_digit ha hb).1 hc).1

theorem isDig_ne (c d : Char) (hc : isDig c = true) (hd : isDig d = false) :
    c ≠ d := by
  intro h
  rw [h, hd] at hc
  exact absurd hc (by decide)

theorem clsG_range (a b : Char) (ha : isDig a = true) (hb : isDig b = true) :
    ClsG [a, '-', b, ']'] (rangeList a b) := by
  have h := ClsG.rng a b [']'] [] (isDig_ne a ']' ha (by decide))
    (isDig_ne a '-' ha (by decide)) (isDig_ne b ']' hb (by decide)) ClsG.done
  simpa using h

theorem clsG_two (a b : Char) (ha : isDig a = true) (hb : isDig b = true) :
    ClsG [a, b, ']'] [a, b] :=
  ClsG.chr a [b, ']'] [b] (isDig_ne a ']' ha (by decide))
    (by simp; exact (isDig_ne b '-' hb (by decide)))
    (ClsG.chr b [']'] [] (isDig_ne b ']' hb (by decide)) (by decide) ClsG.done)

/-! ### Token lists of the pipeline alternatives -/

/-- The digit class `[0-9]` as a parsed regex. -/
def cls09 : RE := RE.cls (rangeList '0' '9')

/-- The nonzero digit class `[1-9]` as a parsed regex. -/
def cls19 : RE := RE.cls (rangeList '1' '9')

/-- Tokens of the common prefix: one literal per digit. -/
def litToks (u : List Char) : List (List Char × RE) :=
  u.map (fun c => ([c], RE.cls [c]))

/-- Token of the split position. -/
def classToks (a b : Char) : List (List Char × RE) :=
  if a = b then [([a], RE.cls [a])]
  else if 1 + digitVal a = digitVal b then [(['[', a, b, ']'], RE.cls [a, b])]
  else [(['[', a, '-', b, ']'], RE.cls (rangeList a b))]

/-- Tokens of the `[0-9]` run after `shrink`. -/
def runToks (m : Nat) : List (List Char × RE) :=
  if 2 ≤ m then [(shrinkRep m, cls09.power m)]
  else if m = 1 then [(['[', '0', '-', '9', ']'], cls09)]
  else []

/-- The token list of `individual_regex` on a splitter pair. -/
def pairToks (u : List Char) (a b : Char) (k : Nat) : List (List Char × RE) :=
  if a = '0' ∧ b = '9' then litToks u ++ runToks (k + 1)
  else litToks u ++ classToks a b ++ runToks k

theorem flatToks_litToks (u : List Char) : flatToks (litToks u) = u := by
  induction u with
  | nil => rfl
  | cons c u2 ih =>
    rw [show litToks (c :: u2) = ([c], RE.cls [c]) :: litToks u2 from rfl,
      flatToks_cons, ih]
    rfl

theorem flatToks_classToks (a b : Char) :
    flatToks (classToks a b) = classTok a b := by
  unfold classToks classTok
  by_cases h1 : a = b
  · rw [if_pos h1, if_pos h1]; rfl
  · rw [if_neg h1, if_neg h1]
    by_cases h2 : 1 + digitVal a = digitVal b
    · rw [if_pos h2, if_pos h2]; rfl
    · rw [if_neg h2, if_neg h2]; rfl

theorem flatToks_runToks (m : Nat) :
    flatToks (runToks m) = if 2 ≤ m then shrinkRep m else shrinkPat m := by
  unfold runToks
  by_cases h2 : 2 ≤ m
  · rw [if_pos h2, if_pos h2]
    unfold flatToks
    simp
  · rw [if_neg h2, if_neg h2]
    by_cases h1 : m = 1
    · subst h1
      rw [if_pos rfl]
      rfl
    · rw [if_neg h1]
      have h0 : m = 0 := by omega
      subst h0
      rfl

theorem individual_regex_toks (u : List Char) (a b : Char) (k : Nat)
    (hu : AllDigits u) :
    individual_regex (u ++ a :: List.replicate k '0')
        (u ++ b :: List.replicate k '9') = flatToks (pairToks u a b k) := by
  rw [individual_regex_simple u a b k hu]
  unfold pairToks
  by_cases hc : a = '0' ∧ b = '9'
  · rw [if_pos hc, if_pos hc, flatToks_append, flatToks_litToks, flatToks_runToks]
  · rw [if_neg hc, if_neg hc, flatToks_append, flatToks_append, flatToks_litToks,
      flatToks_classToks, flatToks_runToks]

theorem goodTok_litToks {u : List Char} (hu : AllDigits u) :
    ∀ tr ∈ litToks u, GoodTok tr := by
  intro tr htr
  unfold litToks at htr
  rw [List.mem_map] at htr
  obtain ⟨c, hc, rfl⟩ := htr
  exact Or.inl ⟨c, hu c hc, rfl⟩

theorem goodTok_classToks {a b : Char} (ha : isDig a = true)
    (hb : isDig b = true) : ∀ tr ∈ classToks a b, GoodTok tr := by
  intro tr htr
  unfold classToks at htr
  by_cases h1 : a = b
  · rw [if_pos h1] at htr
    rw [List.mem_singleton] at htr
    subst htr
    exact Or.inl ⟨a, ha, rfl⟩
  · rw [if_neg h1] at htr
    by_cases h2 : 1 + digitVal a = digitVal b
    · rw [if_pos h2, List.mem_singleton] at htr
      subst htr
      refine Or.inr (Or.inr (Or.inl ⟨[a, b, ']'], [a, b], clsG_two a b ha hb, ?_, ?_, rfl⟩))
      · intro c hc
        rcases List.mem_cons.1 hc with rfl | hc2
        · exact ha
        rcases List.mem_cons.1 hc2 with rfl | hc3
        · exact hb
        · simp at hc3
      · simp
    · rw [if_neg h2, List.mem_singleton] at htr
      subst htr
      exact Or.inr (Or.inr (Or.inl ⟨[a, '-', b, ']'], rangeList a b,
        clsG_range a b ha hb, allDigits_rangeList ha hb, by simp, rfl⟩))

theorem goodTok_runToks (m : Nat) : ∀ tr ∈ runToks m, GoodTok tr := by
  intro tr htr
  unfold runToks at htr
  by_cases h2 : 2 ≤ m
  · rw [if_pos h2, List.mem_singleton] at htr
    subst htr
    refine Or.inr (Or.inr (Or.inr ⟨['0', '-', '9', ']'], rangeList '0' '9',
      '{' :: natStr m ++ ['}'], cls09.power m, clsG_range '0' '9' (by decide)
        (by decide), allDigits_rangeList (by decide) (by decide), by simp,
      QuantG.pow cls09 m, ?_⟩))
    unfold shrinkRep
    simp
  · rw [if_neg h2] at htr
    by_cases h1 : m = 1
    · rw [if_pos h1, List.mem_singleton] at htr
      subst htr
      exact Or.inr (Or.inr (Or.inl ⟨['0', '-', '9', ']'], rangeList '0' '9',
        clsG_range '0' '9' (by decide) (by decide),
        allDigits_rangeList (by decide) (by decide), by simp, rfl⟩))
    · rw [if_neg h1] at htr
      simp at htr

theorem goodTok_pairToks {u : List Char} {a b : Char} {k : Nat}
    (hu : AllDigits u) (ha : isDig a = true) (hb : isDig b = true) :
    ∀ tr ∈ pairToks u a b k, GoodTok tr := by
  intro tr htr
  unfold pairToks at htr
  by_cases hc : a = '0' ∧ b = '9'
  · rw [if_pos hc] at htr
    rcases List.mem_append.1 htr with h | h
    · exact goodTok_litToks hu tr h
    · exact goodTok_runToks (k + 1) tr h
  · rw [if_neg hc] at htr
    rcases List.mem_append.1 htr with h | h
    · rcases List.mem_append.1 h with h2 | h2
      · exact goodTok_litToks hu tr h2
      · exact goodTok_classToks ha hb tr h2
    · exact goodTok_runToks k tr h

/-! ### Languages of the pipeline token lists -/

theorem mem_d09 (c : Char) : c ∈ rangeList '0' '9' ↔ isDig c = true := by
  rw [mem_rangeList_digit (by decide) (by decide)]
  constructor
  · exact fun h => h.1
  · intro h
    refine ⟨h, ?_, ?_⟩
    · rw [show digitVal '0' = 0 from rfl]
      omega
    · rw [show digitVal '9' = 9 from rfl]
      exact digitVal_le_nine c h

theorem Matches_power_cls (cs : List Char) : ∀ (m : Nat) (w : List Char),
    ((RE.cls cs).power m).Matches w ↔ w.length = m ∧ ∀ c ∈ w, c ∈ cs := by
  intro m
  induction m with
  | zero =>
    intro w
    rw [show (RE.cls cs).power 0 = RE.eps from rfl, Matches_eps_iff]
    constructor
    · rintro rfl; exact ⟨rfl, by simp⟩
    · rintro ⟨hl, _⟩; exact List.length_eq_zero.1 hl
  | succ m ih =>
    intro w
    rw [show (RE.cls cs).power (m + 1) = RE.cat (RE.cls cs) ((RE.cls cs).power m)
      from rfl, Matches_cat_iff]
    constructor
    · rintro ⟨u, v, rfl, hu, hv⟩
      obtain ⟨c, hc, rfl⟩ := (Matches_cls_iff cs u).1 hu
      obtain ⟨hl, hm⟩ := (ih v).1 hv
      refine ⟨by simp [hl], ?_⟩
      intro x hx
      rcases List.mem_cons.1 (by simpa using hx) with rfl | hx2
      · exact hc
      · exact hm x hx2
    · rintro ⟨hl, hm⟩
      obtain ⟨c, t, rfl⟩ : ∃ c t, w = c :: t := by
        cases w with
        | nil => simp at hl
        | cons c t => exact ⟨c, t, rfl⟩
      refine ⟨[c], t, rfl, (Matches_cls_iff cs [c]).2
        ⟨c, hm c (List.mem_cons_self _ _), rfl⟩, (ih t).2 ⟨by simpa using hl, ?_⟩⟩
      intro x hx
      exact hm x (List.mem_cons_of_mem _ hx)

theorem Matches_upto_cls (cs : List Char) : ∀ (m : Nat) (w : List Char),
    ((RE.cls cs).upto m).Matches w ↔ w.length ≤ m ∧ ∀ c ∈ w, c ∈ cs := by
  intro m
  induction m with
  | zero =>
    intro w
    rw [show (RE.cls cs).upto 0 = RE.eps from rfl, Matches_eps_iff]
    constructor
    · rintro rfl; exact ⟨by simp, by simp⟩
    · rintro ⟨hl, _⟩
      exact List.length_eq_zero.1 (by omega)
  | succ m ih =>
    intro w
    rw [show (RE.cls cs).upto (m + 1) =
      RE.opt (RE.cat (RE.cls cs) ((RE.cls cs).upto m)) from rfl, Matches_opt_iff,
      Matches_cat_iff]
    constructor
    · rintro (rfl | ⟨u, v, rfl, hu, hv⟩)
      · exact ⟨by simp, by simp⟩
      · obtain ⟨c, hc, rfl⟩ := (Matches_cls_iff cs u).1 hu
        obtain ⟨hl, hm⟩ := (ih v).1 hv
        refine ⟨by simp; omega, ?_⟩
        intro x hx
        rcases List.mem_cons.1 (by simpa using hx) with rfl | hx2
        · exact hc
        · exact hm x hx2
    · rintro ⟨hl, hm⟩
      cases w with
      | nil => exact Or.inl rfl
      | cons c t =>
        refine Or.inr ⟨[c], t, rfl, (Matches_cls_iff cs [c]).2
          ⟨c, hm c (List.mem_cons_self _ _), rfl⟩, (ih t).2
          ⟨by simp at hl; omega, ?_⟩⟩
        intro x hx
        exact hm x (List.mem_cons_of_mem _ hx)

theorem Matches_repRange_cls (cs : List Char) (m n : Nat) (w : List Char) :
    ((RE.cls cs).repRange m n).Matches w ↔
      m ≤ w.length ∧ w.length ≤ m + (n - m) ∧ ∀ c ∈ w, c ∈ cs := by
  rw [RE.repRange, Matches_cat_iff]
  constructor
  · rintro ⟨u, v, rfl, hu, hv⟩
    obtain ⟨hlu, hmu⟩ := (Matches_power_cls cs m u).1 hu
    obtain ⟨hlv, hmv⟩ := (Matches_upto_cls cs (n - m) v).1 hv
    refine ⟨by simp; omega, by simp; omega, ?_⟩
    intro x hx
    rcases List.mem_append.1 hx with h | h
    · exact hmu x h
    · exact hmv x h
  · rintro ⟨h1, h2, hm⟩
    refine ⟨w.take m, w.drop m, (List.take_append_drop m w).symm,
      (Matches_power_cls cs m _).2 ⟨by rw [List.length_take]; omega,
        fun x hx => hm x (List.mem_of_mem_take hx)⟩,
      (Matches_upto_cls cs (n - m) _).2 ⟨by rw [List.length_drop]; omega,
        fun x hx => hm x (List.mem_of_mem_drop hx)⟩⟩

theorem Matches_reOf_litToks (u : List Char) (w : List Char) :
    (reOf (litToks u)).Matches w ↔ w = u := by
  induction u generalizing w with
  | nil =>
    rw [show litToks [] = [] from rfl, show reOf [] = RE.eps from rfl,
      Matches_eps_iff]
  | cons c u2 ih =>
    rw [show litToks (c :: u2) = ([c], RE.cls [c]) :: litToks u2 from rfl,
      Matches_reOf_cons]
    constructor
    · rintro ⟨w1, w2, rfl, hw1, hw2⟩
      obtain ⟨c2, hc2, rfl⟩ := (Matches_cls_iff [c] w1).1 hw1
      rw [List.mem_singleton] at hc2
      subst hc2
      rw [(ih w2).1 hw2]
      rfl
    · rintro rfl
      exact ⟨[c], u2, rfl, (Matches_cls_iff [c] [c]).2 ⟨c, by simp, rfl⟩,
        (ih u2).2 rfl⟩

theorem Matches_reOf_classToks (a b : Char) (ha : isDig a = true)
    (hb : isDig b = true) (w : List Char) :
    (reOf (classToks a b)).Matches w ↔
      ∃ c, w = [c] ∧ isDig c = true ∧ digitVal a ≤ digitVal c ∧
        digitVal c ≤ digitVal b := by
  have hsingle : ∀ (r : RE) (w2 : List Char), (reOf [(([] : List Char), r)]).Matches w2
      ↔ r.Matches w2 := by
    intro r w2
    rw [show reOf [(([] : List Char), r)] = RE.cat r RE.eps from rfl,
      Matches_cat_iff]
    constructor
    · rintro ⟨x, y, rfl, hx, hy⟩
      rw [(Matches_eps_iff y).1 hy]
      simpa using hx
    · intro hx
      exact ⟨w2, [], by simp, hx, (Matches_eps_iff []).2 rfl⟩
  unfold classToks
  by_cases h1 : a = b
  · subst h1
    rw [if_pos rfl]
    rw [show reOf [(([a] : List Char), RE.cls [a])] = RE.cat (RE.cls [a]) RE.eps
      from rfl, Matches_cat_iff]
    constructor
    · rintro ⟨x, y, rfl, hx, hy⟩
      obtain ⟨c, hc, rfl⟩ := (Matches_cls_iff [a] x).1 hx
      rw [List.mem_singleton] at hc
      subst hc
      rw [(Matches_eps_iff y).1 hy]
      exact ⟨c, rfl, ha, le_rfl, le_rfl⟩
    · rintro ⟨c, rfl, hc, hc1, hc2⟩
      have hca : c = a := char_eq_of_digitVal_eq c a hc ha (by omega)
      subst hca
      exact ⟨[c], [], rfl, (Matches_cls_iff [c] [c]).2 ⟨c, by simp, rfl⟩,
        (Matches_eps_iff []).2 rfl⟩
  · rw [if_neg h1]
    by_cases h2 : 1 + digitVal a = digitVal b
    · rw [if_pos h2]
      rw [show reOf [((['[', a, b, ']'] : List Char), RE.cls [a, b])] =
        RE.cat (RE.cls [a, b]) RE.eps from rfl, Matches_cat_iff]
      constructor
      · rintro ⟨x, y, rfl, hx, hy⟩
        obtain ⟨c, hc, rfl⟩ := (Matches_cls_iff [a, b] x).1 hx
        rw [(Matches_eps_iff y).1 hy]
        rcases List.mem_cons.1 hc with rfl | hc2
        · exact ⟨c, by simp, ha, le_rfl, by omega⟩
        · rw [List.mem_singleton] at hc2
          subst hc2
          exact ⟨c, by simp, hb, by omega, le_rfl⟩
      · rintro ⟨c, rfl, hc, hc1, hc2⟩
        have hcab : c = a ∨ c = b := by
          by_cases hca : digitVal c = digitVal a
          · exact Or.inl (char_eq_of_digitVal_eq c a hc ha hca)
          · exact Or.inr (char_eq_of_digitVal_eq c b hc hb (by omega))
        refine ⟨[c], [], rfl, (Matches_cls_iff [a, b] [c]).2 ⟨c, ?_, rfl⟩,
          (Matches_eps_iff []).2 rfl⟩
        rcases hcab with rfl | rfl
        · exact List.mem_cons_self _ _
        · exact List.mem_cons_of_mem _ (List.mem_cons_self _ _)
    · rw [if_neg h2]
      rw [show reOf [((['[', a, '-', b, ']'] : List Char), RE.cls (rangeList a b))] =
        RE.cat (RE.cls (rangeList a b)) RE.eps from rfl, Matches_cat_iff]
      constructor
      · rintro ⟨x, y, rfl, hx, hy⟩
        obtain ⟨c, hc, rfl⟩ := (Matches_cls_iff _ x).1 hx
        rw [(Matches_eps_iff y).1 hy]
        obtain ⟨hcd, hc1, hc2⟩ := (mem_rangeList_digit ha hb).1 hc
        exact ⟨c, by simp, hcd, hc1, hc2⟩
      · rintro ⟨c, rfl, hc, hc1, hc2⟩
        exact ⟨[c], [], rfl, (Matches_cls_iff _ [c]).2
          ⟨c, (mem_rangeList_digit ha hb).2 ⟨hc, hc1, hc2⟩, rfl⟩,
          (Matches_eps_iff []).2 rfl⟩

theorem Matches_reOf_runToks (m : Nat) (w : List Char) :
    (reOf (runToks m)).Matches w ↔ w.length = m ∧ AllDigits w := by
  unfold runToks
  by_cases h2 : 2 ≤ m
  · rw [if_pos h2]
    rw [show reOf [((shrinkRep m : List Char), cls09.power m)] =
      RE.cat (cls09.power m) RE.eps from rfl, Matches_cat_iff]
    constructor
    · rintro ⟨x, y, rfl, hx, hy⟩
      rw [(Matches_eps_iff y).1 hy]
      obtain ⟨hl, hm⟩ := (Matches_power_cls _ m x).1 hx
      exact ⟨by simpa using hl, fun c hc => (mem_d09 c).1 (hm c (by simpa using hc))⟩
    · rintro ⟨hl, hd⟩
      exact ⟨w, [], by simp, (Matches_power_cls _ m w).2
        ⟨hl, fun c hc => (mem_d09 c).2 (hd c hc)⟩, (Matches_eps_iff []).2 rfl⟩
  · rw [if_neg h2]
    by_cases h1 : m = 1
    · subst h1
      rw [if_pos rfl]
      rw [show reOf [((['[', '0', '-', '9', ']'] : List Char), cls09)] =
        RE.cat cls09 RE.eps from rfl, Matches_cat_iff]
      constructor
      · rintro ⟨x, y, rfl, hx, hy⟩
        have hy0 := (Matches_eps_iff y).1 hy
        subst hy0
        obtain ⟨c, hc, rfl⟩ := (Matches_cls_iff _ x).1 hx
        refine ⟨by simp, ?_⟩
        intro x2 hx2
        have hx2c : x2 = c := by simpa using hx2
        rw [hx2c]
        exact (mem_d09 c).1 hc
      · rintro ⟨hl, hd⟩
        obtain ⟨c, t, rfl⟩ : ∃ c t, w = c :: t := by
          cases w with
          | nil => simp at hl
          | cons c t => exact ⟨c, t, rfl⟩
        have ht : t = [] := by
          simp only [List.length_cons] at hl
          exact List.length_eq_zero.1 (by omega)
        subst ht
        exact ⟨[c], [], rfl, (Matches_cls_iff _ [c]).2
          ⟨c, (mem_d09 c).2 (hd c (List.mem_cons_self _ _)), rfl⟩,
          (Matches_eps_iff []).2 rfl⟩
    · rw [if_neg h1]
      rw [show reOf ([] : List (List Char × RE)) = RE.eps from rfl, Matches_eps_iff]
      constructor
      · rintro rfl
        exact ⟨by simp; omega, by intro c hc; simp at hc⟩
      · rintro ⟨hl, _⟩
        exact List.length_eq_zero.1 (by omega)

/-- The exact language of `individual_regex` on a splitter pair: the common
prefix, a digit between the two split digits, then any `k` digits. -/
theorem Matches_reOf_pairToks (u : List Char) (a b : Char) (k : Nat)
    (ha : isDig a = true) (hb : isDig b = true) (w : List Char) :
    (reOf (pairToks u a b k)).Matches w ↔
      ∃ c t, w = u ++ c :: t ∧ isDig c = true ∧ digitVal a ≤ digitVal c ∧
        digitVal c ≤ digitVal b ∧ t.length = k ∧ AllDigits t := by
  unfold pairToks
  by_cases hc0 : a = '0' ∧ b = '9'
  · rw [if_pos hc0]
    obtain ⟨rfl, rfl⟩ := hc0
    rw [Matches_reOf_append]
    constructor
    · rintro ⟨w1, w2, rfl, h1, h2⟩
      rw [Matches_reOf_litToks] at h1
      subst h1
      obtain ⟨hl, hd⟩ := (Matches_reOf_runToks (k + 1) w2).1 h2
      obtain ⟨c, t, rfl⟩ : ∃ c t, w2 = c :: t := by
        cases w2 with
        | nil => simp at hl
        | cons c t => exact ⟨c, t, rfl⟩
      refine ⟨c, t, rfl, hd c (List.mem_cons_self _ _), ?_, ?_,
        by simpa using hl, fun x hx => hd x (List.mem_cons_of_mem _ hx)⟩
      · rw [show digitVal '0' = 0 from rfl]
        omega
      · rw [show digitVal '9' = 9 from rfl]
        exact digitVal_le_nine c (hd c (List.mem_cons_self _ _))
    · rintro ⟨c, t, rfl, hcd, h1, h2, hl, hd⟩
      refine ⟨u, c :: t, rfl, (Matches_reOf_litToks u u).2 rfl,
        (Matches_reOf_runToks (k + 1) (c :: t)).2 ⟨by simp [hl], ?_⟩⟩
      intro x hx
      rcases List.mem_cons.1 hx with rfl | hx2
      · exact hcd
      · exact hd x hx2
  · rw [if_neg hc0]
    rw [show litToks u ++ classToks a b ++ runToks k =
      litToks u ++ (classToks a b ++ runToks k) from by simp, Matches_reOf_append]
    constructor
    · rintro ⟨w1, w2, rfl, h1, h2⟩
      rw [Matches_reOf_litToks] at h1
      subst h1
      rw [Matches_reOf_append] at h2
      obtain ⟨x, y, rfl, hx, hy⟩ := h2
      obtain ⟨c, rfl, hcd, hc1, hc2⟩ := (Matches_reOf_classToks a b ha hb x).1 hx
      obtain ⟨hl, hd⟩ := (Matches_reOf_runToks k y).1 hy
      exact ⟨c, y, rfl, hcd, hc1, hc2, hl, hd⟩
    · rintro ⟨c, t, rfl, hcd, h1, h2, hl, hd⟩
      refine ⟨u, c :: t, rfl, (Matches_reOf_litToks u u).2 rfl,
        (Matches_reOf_append _ _ _).2 ⟨[c], t, rfl,
          (Matches_reOf_classToks a b ha hb [c]).2 ⟨c, rfl, hcd, h1, h2⟩,
          (Matches_reOf_runToks k t).2 ⟨hl, hd⟩⟩⟩

/-! ### Well-shaped alternatives -/

/-- A nonempty all-digit string with a nonzero leading digit. -/
def NZHead (w : List Char) : Prop :=
  ∃ c t, w = c :: t ∧ isDig c = true ∧ 1 ≤ digitVal c ∧ AllDigits t

/-- A well-shaped pipeline alternative: a pipeline token string whose first
token matches only nonzero-digit-headed digit strings, and which does not
start with `[0` (in particular it is not the bare class `[0-9]`). -/
def AltOK (x : List Char) : Prop :=
  ∃ t1 r1 toks,
    x = flatToks ((t1, r1) :: toks) ∧
    GoodTok (t1, r1) ∧ (∀ tr ∈ toks, GoodTok tr) ∧
    (∀ w, r1.Matches w → NZHead w) ∧
    (∀ rest, x ≠ '[' :: '0' :: rest)

theorem Matches_reOf_digits {toks : List (List Char × RE)}
    (h : ∀ tr ∈ toks, GoodTok tr) :
    ∀ w, (reOf toks).Matches w → AllDigits w := by
  induction toks with
  | nil =>
    intro w hw
    rw [show reOf [] = RE.eps from rfl, Matches_eps_iff] at hw
    subst hw
    intro c hc
    simp at hc
  | cons tr toks ih =>
    intro w hw
    rw [Matches_reOf_cons] at hw
    obtain ⟨w1, w2, rfl, h1, h2⟩ := hw
    exact allDigits_append (goodTok_digits (h tr (List.mem_cons_self _ _)) w1 h1)
      (ih (fun x hx => h x (List.mem_cons_of_mem _ hx)) w2 h2)

/-- Every well-shaped alternative derives as a sequence, and its language
contains only nonzero-headed digit strings. -/
theorem altOK_lang {x : List Char} (h : AltOK x) :
    ∃ rx, Gram GCat.seq x rx ∧ ∀ w, rx.Matches w → NZHead w := by
  obtain ⟨t1, r1, toks, rfl, hg1, hgs, hlang, _⟩ := h
  refine ⟨reOf ((t1, r1) :: toks), gram_seq_of_toks _ ?_, ?_⟩
  · intro tr htr
    rcases List.mem_cons.1 htr with rfl | htr2
    · exact goodTok_gram hg1
    · exact goodTok_gram (hgs tr htr2)
  · intro w hw
    rw [Matches_reOf_cons] at hw
    obtain ⟨w1, w2, rfl, h1, h2⟩ := hw
    obtain ⟨c, t2, rfl, hcd, hc1, ht2⟩ := hlang w1 h1
    exact ⟨c, t2 ++ w2, by simp, hcd, hc1,
      allDigits_append ht2 (Matches_reOf_digits hgs w2 h2)⟩

theorem first_digit_pos {t : List Char} {c : Char} (ht : AllDigits t)
    (hv : 10 ^ ((c :: t).length - 1) ≤ pyInt (c :: t)) : 1 ≤ digitVal c := by
  rw [pyInt_cons] at hv
  by_contra h0
  have hc0 : digitVal c = 0 := by omega
  rw [hc0] at hv
  have hlt := pyInt_lt_pow t ht
  simp only [List.length_cons, Nat.add_sub_cancel, Nat.zero_mul, Nat.zero_add] at hv
  omega

theorem cls19_nz : ∀ w, cls19.Matches w → NZHead w := by
  intro w hw
  rw [show cls19 = RE.cls (rangeList '1' '9') from rfl, Matches_cls_iff] at hw
  obtain ⟨c, hc, rfl⟩ := hw
  obtain ⟨hcd, h1, _⟩ := (mem_rangeList_digit (by decide) (by decide)).1 hc
  exact ⟨c, [], rfl, hcd, by rw [show digitVal '1' = 1 from rfl] at h1; omega,
    by intro x hx; simp at hx⟩

/-- Every `individual_regex` of a splitter pair whose lower bound has no
leading zero is a well-shaped alternative. -/
theorem altOK_pairToks (u : List Char) (a b : Char) (k : Nat)
    (hu : AllDigits u) (ha : isDig a = true) (hb : isDig b = true)
    (hab : digitVal a ≤ digitVal b)
    (hfirst : 1 ≤ digitVal ((u ++ [a]).headD ' ')) :
    AltOK (flatToks (pairToks u a b k)) := by
  cases u with
  | cons c0 u' =>
    have hc0 : isDig c0 = true := hu c0 (List.mem_cons_self _ _)
    have h1 : 1 ≤ digitVal c0 := by simpa using hfirst
    have hu' : AllDigits u' := fun x hx => hu x (List.mem_cons_of_mem _ hx)
    have hsplit : ∃ rest, pairToks (c0 :: u') a b k =
        ([c0], RE.cls [c0]) :: rest ∧ ∀ tr ∈ rest, GoodTok tr := by
      unfold pairToks
      by_cases hc : a = '0' ∧ b = '9'
      · rw [if_pos hc]
        refine ⟨litToks u' ++ runToks (k + 1), rfl, ?_⟩
        intro tr htr
        rcases List.mem_append.1 htr with h | h
        · exact goodTok_litToks hu' tr h
        · exact goodTok_runToks (k + 1) tr h
      · rw [if_neg hc]
        refine ⟨litToks u' ++ classToks a b ++ runToks k, ?_, ?_⟩
        · rw [show litToks (c0 :: u') = ([c0], RE.cls [c0]) :: litToks u' from rfl]
          simp
        · intro tr htr
          rcases List.mem_append.1 htr with h | h
          · rcases List.mem_append.1 h with h2 | h2
            · exact goodTok_litToks hu' tr h2
            · exact goodTok_classToks ha hb tr h2
          · exact goodTok_runToks k tr h
    obtain ⟨rest, hre, hrest⟩ := hsplit
    rw [hre]
    refine ⟨[c0], RE.cls [c0], rest, rfl, Or.inl ⟨c0, hc0, rfl⟩, hrest, ?_, ?_⟩
    · intro w hw
      obtain ⟨c, hc, rfl⟩ := (Matches_cls_iff [c0] w).1 hw
      rw [List.mem_singleton] at hc
      subst hc
      exact ⟨c, [], rfl, hc0, h1, by intro x hx; simp at hx⟩
    · intro rest2 he
      rw [flatToks_cons] at he
      simp only [List.singleton_append, List.cons.injEq] at he
      exact absurd (he.1 ▸ hc0) (by decide)
  | nil =>
    have h1 : 1 ≤ digitVal a := by simpa using hfirst
    have hc : ¬ (a = '0' ∧ b = '9') := by
      rintro ⟨rfl, _⟩
      simp [show digitVal '0' = 0 from rfl] at h1
    have hane : a ≠ '0' := by
      intro h0
      rw [h0, show digitVal '0' = 0 from rfl] at h1
      omega
    have hform : ∃ tok, pairToks [] a b k = tok :: runToks k ∧
        classToks a b = [tok] := by
      unfold pairToks
      rw [if_neg hc]
      exact ⟨(classToks a b).headD ([], RE.eps), by
        unfold classToks
        by_cases he1 : a = b
        · rw [if_pos he1]; rfl
        · rw [if_neg he1]
          by_cases he2 : 1 + digitVal a = digitVal b
          · rw [if_pos he2]; rfl
          · rw [if_neg he2]; rfl, by
        unfold classToks
        by_cases he1 : a = b
        · rw [if_pos he1]; rfl
        · rw [if_neg he1]
          by_cases he2 : 1 + digitVal a = digitVal b
          · rw [if_pos he2]; rfl
          · rw [if_neg he2]; rfl⟩
    obtain ⟨tok, hre, hcls⟩ := hform
    rw [hre]
    have hgtok : GoodTok tok := goodTok_classToks ha hb tok (by rw [hcls]; simp)
    refine ⟨tok.1, tok.2, runToks k, by rw [flatToks_cons], by
        rw [show (tok.1, tok.2) = tok from rfl]; exact hgtok,
      goodTok_runToks k, ?_, ?_⟩
    · intro w hw
      have hw2 : (reOf (classToks a b)).Matches w := by
        rw [hcls]
        rw [show reOf [tok] = RE.cat tok.2 RE.eps from rfl, Matches_cat_iff]
        exact ⟨w, [], by simp, hw, (Matches_eps_iff []).2 rfl⟩
      obtain ⟨c, rfl, hcd, hc1, hc2⟩ := (Matches_reOf_classToks a b ha hb w).1 hw2
      exact ⟨c, [], rfl, hcd, by omega, by intro x hx; simp at hx⟩
    · intro rest2 he
      rw [flatToks_cons] at he
      have hth : tok.1 = classTok a b := by
        have := flatToks_classToks a b
        rw [hcls] at this
        rw [← this]
        unfold flatToks
        simp
      rw [hth] at he
      rcases classTok_cases a b with hct | hct | hct <;> rw [hct] at he <;>
        simp only [List.cons_append, List.cons.injEq] at he
      · have ha2 : a = '[' := he.1
        rw [ha2] at ha
        exact absurd ha (by decide)
      · exact hane he.2.1
      · exact hane he.2.1

/-! ### `collapse_powers_of_10` preserves well-shapedness -/

theorem goodTok_cls19 : GoodTok ((['[', '1', '-', '9', ']'] : List Char), cls19) :=
  Or.inr (Or.inr (Or.inl ⟨['1', '-', '9', ']'], rangeList '1' '9',
    clsG_range '1' '9' (by decide) (by decide),
    allDigits_rangeList (by decide) (by decide), by simp, rfl⟩))

theorem goodTok_cls09q {q : List Char} {rq : RE} (hq : QuantG q cls09 rq) :
    GoodTok ((['[', '0', '-', '9', ']'] ++ q : List Char), rq) :=
  Or.inr (Or.inr (Or.inr ⟨['0', '-', '9', ']'], rangeList '0' '9', q, rq,
    clsG_range '0' '9' (by decide) (by decide),
    allDigits_rangeList (by decide) (by decide), by simp, hq, by simp⟩))

theorem altOK_cpFlush (st : CPState) (hsw : st.sw0 = false)
    (h0 : 0 ≤ st.p10start) : AltOK (cpFlush st) := by
  unfold cpFlush
  rw [hsw]
  simp only [Bool.false_eq_true, if_false]
  by_cases he : 1 ≤ st.p10end
  · rw [if_pos he]
    have hq : ∃ q rq,
        ((if st.p10start = 0 ∧ st.p10end = 1 then ['?']
          else if st.p10start = st.p10end ∧ 1 < st.p10start then
            ['{'] ++ natStr st.p10start.toNat ++ ['}']
          else if st.p10start < st.p10end then
            ['{'] ++ natStr st.p10start.toNat ++ [','] ++
              natStr st.p10end.toNat ++ ['}']
          else []) = q) ∧
        (QuantG q cls09 rq ∨ (q = [] ∧ rq = cls09)) := by
      by_cases h1 : st.p10start = 0 ∧ st.p10end = 1
      · exact ⟨['?'], RE.opt cls09, by rw [if_pos h1], Or.inl (QuantG.opt cls09)⟩
      · rw [if_neg h1]
        by_cases h2 : st.p10start = st.p10end ∧ 1 < st.p10start
        · refine ⟨'{' :: natStr st.p10start.toNat ++ ['}'],
            cls09.power st.p10start.toNat, by rw [if_pos h2]; simp,
            Or.inl (QuantG.pow cls09 st.p10start.toNat)⟩
        · rw [if_neg h2]
          by_cases h3 : st.p10start < st.p10end
          · refine ⟨'{' :: natStr st.p10start.toNat ++ ',' ::
              natStr st.p10end.toNat ++ ['}'],
              cls09.repRange st.p10start.toNat st.p10end.toNat,
              by rw [if_pos h3]; simp,
              Or.inl (QuantG.rep cls09 st.p10start.toNat st.p10end.toNat)⟩
          · exact ⟨[], cls09, by rw [if_neg h3], Or.inr ⟨rfl, rfl⟩⟩
    obtain ⟨q, rq, hqe, hqor⟩ := hq
    have htokg : GoodTok ((['[', '0', '-', '9', ']'] ++ q : List Char), rq) := by
      rcases hqor with hqg | ⟨rfl, rfl⟩
      · exact goodTok_cls09q hqg
      · rw [show (['[', '0', '-', '9', ']'] ++ ([] : List Char)) =
          ['[', '0', '-', '9', ']'] from by simp]
        exact Or.inr (Or.inr (Or.inl ⟨['0', '-', '9', ']'], rangeList '0' '9',
          clsG_range '0' '9' (by decide) (by decide),
          allDigits_rangeList (by decide) (by decide), by simp, rfl⟩))
    rw [hqe]
    refine ⟨['[', '1', '-', '9', ']'], cls19,
      [((['[', '0', '-', '9', ']'] ++ q : List Char), rq)], ?_, goodTok_cls19,
      ?_, cls19_nz, ?_⟩
    · rw [flatToks_cons, flatToks_cons, flatToks_nil]
      simp
    · intro tr htr
      rw [List.mem_singleton] at htr
      subst htr
      exact htokg
    · intro rest he
      simp only [List.cons_append, List.cons.injEq] at he
      exact absurd he.2.1 (by decide)
  · rw [if_neg he]
    rw [if_neg (by rintro ⟨_, h1⟩; omega), if_neg (by rintro ⟨h1, h2⟩; omega),
      if_neg (by omega)]
    refine ⟨['[', '1', '-', '9', ']'], cls19, [], ?_, goodTok_cls19,
      by intro tr htr; simp at htr, cls19_nz, ?_⟩
    · rw [flatToks_cons, flatToks_nil]
      simp
    · intro rest he
      simp only [List.cons_append, List.cons.injEq] at he
      exact absurd he.2.1 (by decide)

theorem cpStep_altOK {st : CPState} {r : List Char} (hsw : st.sw0 = false)
    (hr : AltOK r ∨ r = []) :
    (cpStep st r).1.sw0 = false ∧ (∀ x ∈ (cpStep st r).2, AltOK x) := by
  unfold cpStep
  by_cases h1 : r = ['[', '0', '-', '9', ']']
  · exfalso
    rcases hr with hA | rfl
    · obtain ⟨_, _, _, _, _, _, _, hshape⟩ := hA
      exact hshape ['-', '9', ']'] h1
    · simp at h1
  · rw [if_neg h1]
    by_cases h2 : r = ['[', '1', '-', '9', ']']
    · rw [if_pos h2]
      exact ⟨hsw, by intro x hx; simp at hx⟩
    · rw [if_neg h2]
      by_cases h3 : r = ['[', '1', '-', '9', ']', '[', '0', '-', '9', ']']
      · rw [if_pos h3]
        exact ⟨hsw, by intro x hx; simp at hx⟩
      · rw [if_neg h3]
        by_cases h4 : bandPre.isPrefixOf r = true
        · rw [if_pos h4]
          exact ⟨hsw, by intro x hx; simp at hx⟩
        · rw [if_neg h4]
          by_cases h5 : 0 ≤ st.p10start
          · rw [if_pos h5]
            refine ⟨hsw, ?_⟩
            intro x hx
            rcases List.mem_cons.1 hx with rfl | hx2
            · exact altOK_cpFlush st hsw h5
            · by_cases h6 : r = []
              · rw [if_pos h6] at hx2
                simp at hx2
              · rw [if_neg h6] at hx2
                rw [List.mem_singleton] at hx2
                subst hx2
                rcases hr with hA | rfl
                · exact hA
                · exact absurd rfl h6
          · rw [if_neg h5]
            refine ⟨hsw, ?_⟩
            intro x hx
            by_cases h6 : r = []
            · rw [if_pos h6] at hx
              simp at hx
            · rw [if_neg h6] at hx
              rw [List.mem_singleton] at hx
              subst hx
              rcases hr with hA | rfl
              · exact hA
              · exact absurd rfl h6

theorem collapse_fold : ∀ (l : List (List Char)) (st : CPState)
    (out : List (List Char)), st.sw0 = false → (∀ y ∈ l, AltOK y ∨ y = []) →
    (∀ x ∈ out, AltOK x) →
    ∀ x ∈ (l.foldl (fun (acc : CPState × List (List Char)) r =>
        ((cpStep acc.1 r).1, acc.2 ++ (cpStep acc.1 r).2)) (st, out)).2,
      AltOK x := by
  intro l
  induction l with
  | nil =>
    intro st out _ _ hout x hx
    exact hout x (by simpa using hx)
  | cons r l ih =>
    intro st out hsw hl hout x hx
    have hstep := cpStep_altOK hsw (hl r (List.mem_cons_self _ _))
    rw [List.foldl_cons] at hx
    refine ih _ _ hstep.1 (fun y hy => hl y (List.mem_cons_of_mem _ hy)) ?_ x hx
    intro z hz
    rcases List.mem_append.1 hz with h | h
    · exact hout z h
    · exact hstep.2 z h

/-- `collapse_powers_of_10` maps well-shaped alternative lists to well-shaped
alternative lists. -/
theorem collapse_altOK (regexes : List (List Char))
    (h : ∀ y ∈ regexes, AltOK y) :
    ∀ x ∈ collapse_powers_of_10 regexes, AltOK x := by
  unfold collapse_powers_of_10
  intro x hx
  refine collapse_fold (regexes ++ [[]])
    ({ p10start := -1, p10end := -1, sw0 := false } : CPState) [] rfl ?_
    (by intro z hz; simp at hz) x hx
  intro y hy
  rcases List.mem_append.1 hy with h2 | h2
  · exact Or.inl (h y h2)
  · rw [List.mem_singleton] at h2
    exact Or.inr h2

/-- Every alternative list the pipeline hands to the factoring stage, for
bounds `1 ≤ a ≤ b`, consists of well-shaped alternatives. -/
theorem pipeline_altOK (a b : Nat) (h1 : 1 ≤ a) (hle : a ≤ b) :
    ∀ x ∈ collapse_powers_of_10 (range_to_regexes a b), AltOK x := by
  apply collapse_altOK
  intro y hy
  unfold range_to_regexes at hy
  rw [if_neg (by omega)] at hy
  unfold ranges_to_regexes at hy
  rw [List.mem_map] at hy
  obtain ⟨p, hp, rfl⟩ := hy
  obtain ⟨hd1, hd2, hlen, hne, hsp, hval⟩ :=
    (break_into_ranges_correct a b h1 hle).2 p hp
  obtain ⟨u, a2, b2, k, ha2, hb2, hab, hp1, hp2⟩ := hsp
  have hu : AllDigits u := by
    intro c hc
    exact hd1 c (hp1 ▸ List.mem_append.2 (Or.inl hc))
  rw [show p.1 = u ++ a2 :: List.replicate k '0' from hp1,
    show p.2 = u ++ b2 :: List.replicate k '9' from hp2,
    individual_regex_toks u a2 b2 k hu]
  apply altOK_pairToks u a2 b2 k hu ha2 hb2 hab
  have hval2 : 10 ^ (p.1.length - 1) ≤ pyInt p.1 := hval
  cases hu2 : u with
  | nil =>
    rw [hu2] at hp1
    simp only [List.nil_append] at hp1
    rw [hp1] at hval2 hd1
    have := first_digit_pos (fun c hc => hd1 c (List.mem_cons_of_mem _ hc)) hval2
    simpa using this
  | cons c0 u' =>
    rw [hu2] at hp1
    rw [hp1] at hval2 hd1
    simp only [List.cons_append] at hval2 hd1
    have := first_digit_pos (fun c hc => hd1 c (List.mem_cons_of_mem _ hc)) hval2
    simpa using this

/-! ### The prefix tree: auxiliary lemmas -/

/-- Tokens that can appear in a collapsed tree: pipeline tokens and
(possibly quantified) groups. -/
def CTok (tr : List Char × RE) : Prop :=
  GoodTok tr ∨ ∃ inner q r r2, Gram GCat.alt inner r ∧
    (tr = ('(' :: inner ++ [')'], r) ∨
     (QuantG q r r2 ∧ tr = ('(' :: inner ++ ')' :: q, r2)))

theorem ctok_gram {tr : List Char × RE} (h : CTok tr) :
    Gram GCat.item tr.1 tr.2 := by
  rcases h with h | ⟨inner, q, r, r2, hi, he | ⟨hq, he⟩⟩
  · exact goodTok_gram h
  · rw [he]
    exact Gram.itemGrp inner r hi
  · rw [he]
    exact Gram.itemGrpQ inner q r r2 hi hq

theorem ctok_ne_nil {tr : List Char × RE} (h : CTok tr) : tr.1 ≠ [] := by
  rcases h with h | ⟨inner, q, r, r2, hi, he | ⟨hq, he⟩⟩
  · exact goodTok_ne_nil h
  · rw [he]; simp
  · rw [he]; simp

theorem tokML_iff {t : List Char} {r : RE} (h : Gram GCat.item t r)
    (u : List Char) : TokML t u ↔ r.Matches u := by
  constructor
  · rintro ⟨r2, h2, hm⟩
    rw [← gram_item_det h2 h]
    exact hm
  · intro hm
    exact ⟨r, h, hm⟩

theorem Matches_reOf_single (tr : List Char × RE) (w : List Char) :
    (reOf [tr]).Matches w ↔ tr.2.Matches w := by
  rw [show reOf [tr] = RE.cat tr.2 RE.eps from rfl, Matches_cat_iff]
  constructor
  · rintro ⟨u, v, rfl, hu, hv⟩
    rw [(Matches_eps_iff v).1 hv]
    simpa using hu
  · intro h
    exact ⟨w, [], by simp, h, (Matches_eps_iff []).2 rfl⟩

theorem goodTok_len1 {t : List Char} {r : RE} (h : GoodTok (t, r))
    (hl : t.length = 1) : ∃ c, t = [c] ∧ isDig c = true ∧ r = RE.cls [c] := by
  rcases h with ⟨c, hc, he⟩ | ⟨c, q, r2, hc, hq, he⟩ |
    ⟨body, cs, hb, hd, hbl, he⟩ | ⟨body, cs, q, r2, hb, hd, hbl, hq, he⟩ <;>
    (rw [Prod.mk.injEq] at he)
  · exact ⟨c, he.1, hc, he.2⟩
  · obtain ⟨c2, q2, rfl, _⟩ := quantG_head hq
    rw [he.1] at hl
    simp at hl
  · rw [he.1] at hl
    simp only [List.length_cons] at hl
    omega
  · obtain ⟨c2, q2, rfl, _⟩ := quantG_head hq
    rw [he.1] at hl
    simp only [List.length_cons, List.length_append] at hl
    omega

theorem ctok_len1 {t : List Char} {r : RE} (h : CTok (t, r)) (hl : t.length = 1) :
    ∃ c, t = [c] ∧ isDig c = true ∧ r = RE.cls [c] := by
  rcases h with h | ⟨inner, q, r0, r2, hi, he | ⟨hq, he⟩⟩
  · exact goodTok_len1 h hl
  · rw [Prod.mk.injEq] at he
    rw [he.1] at hl
    simp at hl
  · rw [Prod.mk.injEq] at he
    rw [he.1] at hl
    simp at hl

theorem quantG_last {q : List Char} {b r : RE} (h : QuantG q b r) :
    q.getLast?.getD ' ' = '?' ∨ q.getLast?.getD ' ' = '}' := by
  rcases quantG_shape h with rfl | ⟨inner, rfl, _⟩
  · exact Or.inl rfl
  · right
    rw [show ('{' :: inner ++ ['}'] : List Char) = ('{' :: inner) ++ ['}'] from
      by simp, List.getLast?_concat]
    rfl

/-- A collapsed-tree token ending in `]` is a plain class token. -/
theorem ctok_last_bracket {t : List Char} {r : RE} (h : CTok (t, r))
    (hl : t.getLast?.getD ' ' = ']') :
    ∃ body cs, t = '[' :: body ∧ ClsG body cs ∧ AllDigits cs ∧
      2 ≤ body.length ∧ r = RE.cls cs := by
  rcases h with hg | ⟨inner, q, r0, r2, hi, he | ⟨hq, he⟩⟩
  · rcases hg with ⟨c, hc, he⟩ | ⟨c, q, r2, hc, hq, he⟩ |
      ⟨body, cs, hb, hd, hbl, he⟩ | ⟨body, cs, q, r2, hb, hd, hbl, hq, he⟩ <;>
      (rw [Prod.mk.injEq] at he)
    · rw [he.1] at hl
      simp only [List.getLast?_singleton, Option.getD_some] at hl
      rw [hl] at hc
      exact absurd hc (by decide)
    · exfalso
      obtain ⟨c2, q2, rfl, _⟩ := quantG_head hq
      rw [he.1] at hl
      rw [show (c :: c2 :: q2 : List Char) = [c] ++ (c2 :: q2) from rfl,
        List.getLast?_append_of_ne_nil _ (by simp)] at hl
      rcases quantG_last hq with h2 | h2 <;> (rw [h2] at hl; exact absurd hl (by decide))
    · exact ⟨body, cs, he.1, hb, hd, hbl, he.2⟩
    · exfalso
      obtain ⟨c2, q2, rfl, _⟩ := quantG_head hq
      rw [he.1] at hl
      rw [show ('[' :: body ++ c2 :: q2 : List Char) =
        ('[' :: body) ++ (c2 :: q2) from by simp,
        List.getLast?_append_of_ne_nil _ (by simp)] at hl
      rcases quantG_last hq with h2 | h2 <;> (rw [h2] at hl; exact absurd hl (by decide))
  · exfalso
    rw [Prod.mk.injEq] at he
    rw [he.1] at hl
    rw [show ('(' :: inner ++ [')'] : List Char) = ('(' :: inner) ++ [')'] from
      by simp, List.getLast?_concat] at hl
    exact absurd hl (by decide)
  · exfalso
    obtain ⟨c2, q2, rfl, _⟩ := quantG_head hq
    rw [Prod.mk.injEq] at he
    rw [he.1] at hl
    rw [show ('(' :: inner ++ ')' :: c2 :: q2 : List Char) =
      ('(' :: inner ++ [')']) ++ (c2 :: q2) from by simp,
      List.getLast?_append_of_ne_nil _ (by simp)] at hl
    rcases quantG_last hq with h2 | h2 <;> (rw [h2] at hl; exact absurd hl (by decide))

theorem collapseF_nilnode : ∀ f : Nat, RTree.collapseF f (RTree.mk [] []) = [] := by
  intro f
  cases f <;> rfl

theorem flatToks_eq_nil {toks : List (List Char × RE)}
    (h : ∀ tr ∈ toks, tr.1 ≠ []) (he : flatToks toks = []) : toks = [] := by
  cases toks with
  | nil => rfl
  | cons tr ts =>
    rw [flatToks_cons] at he
    exact absurd (List.append_eq_nil.1 he).1 (h tr (List.mem_cons_self _ _))

theorem filterMap_empties (ps : List (List (List Char))) :
    ps.filterMap (fun p => if p = [] then some (RTree.mk [] []) else none) =
      List.replicate (ps.filter (fun p => p = [])).length (RTree.mk [] []) := by
  induction ps with
  | nil => rfl
  | cons p ps ih =>
    rw [List.filterMap_cons, List.filter_cons]
    by_cases hp : p = []
    · rw [if_pos hp, show (decide (p = [])) = true from by simp [hp]]
      simp only [if_pos trivial, List.length_cons, List.replicate_succ, ih]
    · rw [if_neg hp, show (decide (p = [])) = false from by simp [hp]]
      simp only [Bool.false_eq_true, if_false]
      exact ih

theorem removeFirst_replicate (n : Nat) (hn : 1 ≤ n) (X : List (List Char)) :
    removeFirst (List.replicate n [] ++ X) [] =
      List.replicate (n - 1) [] ++ X := by
  obtain ⟨m, rfl⟩ : ∃ m, n = m + 1 := by
    cases n with
    | zero => omega
    | succ m => exact ⟨m, rfl⟩
  rw [List.replicate_succ]
  simp [removeFirst]

theorem rootsOf_mem {ps : List (List (List Char))} {root : List Char} :
    root ∈ rootsOf ps ↔ ∃ p ∈ ps, p ≠ [] ∧ p.headD [] = root := by
  have hgen : ∀ (l : List (List (List Char))) (acc : List (List Char)),
      root ∈ l.foldl (fun acc p =>
        match p with
        | [] => acc
        | h :: _ => if h ∈ acc then acc else acc ++ [h]) acc ↔
      root ∈ acc ∨ ∃ p ∈ l, p ≠ [] ∧ p.headD [] = root := by
    intro l
    induction l with
    | nil => intro acc; simp
    | cons p l ih =>
      intro acc
      rw [List.foldl_cons]
      cases p with
      | nil =>
        dsimp only
        rw [ih acc]
        constructor
        · rintro (h | ⟨p2, hp2, hne, hh⟩)
          · exact Or.inl h
          · exact Or.inr ⟨p2, List.mem_cons_of_mem _ hp2, hne, hh⟩
        · rintro (h | ⟨p2, hp2, hne, hh⟩)
          · exact Or.inl h
          · rcases List.mem_cons.1 hp2 with rfl | hp3
            · exact absurd rfl hne
            · exact Or.inr ⟨p2, hp3, hne, hh⟩
      | cons h t =>
        dsimp only
        rw [ih _]
        by_cases hmem : h ∈ acc
        · rw [if_pos hmem]
          constructor
          · rintro (h2 | ⟨p2, hp2, hne, hh⟩)
            · exact Or.inl h2
            · exact Or.inr ⟨p2, List.mem_cons_of_mem _ hp2, hne, hh⟩
          · rintro (h2 | ⟨p2, hp2, hne, hh⟩)
            · exact Or.inl h2
            · rcases List.mem_cons.1 hp2 with rfl | hp3
              · exact Or.inl (by simpa using hh ▸ hmem)
              · exact Or.inr ⟨p2, hp3, hne, hh⟩
        · rw [if_neg hmem]
          constructor
          · rintro (h2 | ⟨p2, hp2, hne, hh⟩)
            · rcases List.mem_append.1 h2 with h3 | h3
              · exact Or.inl h3
              · rw [List.mem_singleton] at h3
                exact Or.inr ⟨h :: t, List.mem_cons_self _ _, by simp, by simp [h3]⟩
            · exact Or.inr ⟨p2, List.mem_cons_of_mem _ hp2, hne, hh⟩
          · rintro (h2 | ⟨p2, hp2, hne, hh⟩)
            · exact Or.inl (List.mem_append.2 (Or.inl h2))
            · rcases List.mem_cons.1 hp2 with rfl | hp3
              · simp only [List.headD_cons] at hh
                exact Or.inl (List.mem_append.2 (Or.inr (by simp [hh])))
              · exact Or.inr ⟨p2, hp3, hne, hh⟩
  rw [show rootsOf ps = ps.foldl (fun acc p =>
    match p with
    | [] => acc
    | h :: _ => if h ∈ acc then acc else acc ++ [h]) [] from rfl, hgen]
  simp

/-- The sub-pattern list built for one root. -/
def subsOf (root : List Char) (ps : List (List (List Char))) :
    List (List (List Char)) :=
  (ps.filter (fun p => p ≠ [] ∧ p.headD [] = root)).map List.tail

theorem mem_subsOf {root : List Char} {ps : List (List (List Char))}
    {q : List (List Char)} :
    q ∈ subsOf root ps ↔ ∃ p ∈ ps, p ≠ [] ∧ p.headD [] = root ∧ q = p.tail := by
  unfold subsOf
  rw [List.mem_map]
  constructor
  · rintro ⟨p, hp, rfl⟩
    rw [List.mem_filter] at hp
    have hd := of_decide_eq_true hp.2
    exact ⟨p, hp.1, hd.1, hd.2, rfl⟩
  · rintro ⟨p, hp, hne, hh, rfl⟩
    exact ⟨p, List.mem_filter.2 ⟨hp, decide_eq_true ⟨hne, hh⟩⟩, rfl⟩

theorem patsSize_subsOf {root : List Char} {ps : List (List (List Char))}
    (h : root ∈ rootsOf ps) : patsSize (subsOf root ps) < patsSize ps := by
  have hgen : ∀ (l : List (List (List Char))),
      patsSize (subsOf root l) +
        (l.filter (fun p => p ≠ [] ∧ p.headD [] = root)).length ≤ patsSize l := by
    intro l
    induction l with
    | nil => simp [subsOf, patsSize]
    | cons p l ih =>
      unfold subsOf at ih ⊢
      rw [List.filter_cons]
      by_cases hp : (p ≠ [] ∧ p.headD [] = root)
      · rw [show (decide (p ≠ [] ∧ p.headD [] = root)) = true from decide_eq_true hp]
        simp only [if_pos trivial, List.map_cons, List.length_cons]
        have hlen : p.tail.length + 1 = p.length := by
          cases p with
          | nil => exact absurd rfl hp.1
          | cons a t => simp
        unfold patsSize at ih ⊢
        simp only [List.map_cons, List.sum_cons]
        omega
      · rw [show (decide (p ≠ [] ∧ p.headD [] = root)) = false from
          decide_eq_false hp]
        simp only [Bool.false_eq_true, if_false]
        unfold patsSize at ih ⊢
        simp only [List.map_cons, List.sum_cons]
        omega
  have hmem := rootsOf_mem.1 h
  obtain ⟨p, hp, hne, hh⟩ := hmem
  have hlen : 1 ≤ (ps.filter (fun p => p ≠ [] ∧ p.headD [] = root)).length := by
    have : p ∈ ps.filter (fun p => p ≠ [] ∧ p.headD [] = root) :=
      List.mem_filter.2 ⟨hp, decide_eq_true ⟨hne, hh⟩⟩
    cases hc : ps.filter (fun p => p ≠ [] ∧ p.headD [] = root) with
    | nil => rw [hc] at this; simp at this
    | cons a t => simp
  have := hgen ps
  omega

theorem subsOf_ne_nil {root : List Char} {ps : List (List (List Char))}
    (h : root ∈ rootsOf ps) : subsOf root ps ≠ [] := by
  obtain ⟨p, hp, hne, hh⟩ := rootsOf_mem.1 h
  intro h0
  have : p.tail ∈ subsOf root ps := mem_subsOf.2 ⟨p, hp, hne, hh, rfl⟩
  rw [h0] at this
  simp at this

/-- Splitting a union of pattern languages by the first token. -/
theorem patML_grouping (ps : List (List (List Char))) (v : List Char) :
    (∃ p ∈ ps, PatML p v) ↔
      ((∃ p ∈ ps, p = []) ∧ v = []) ∨
      (∃ root ∈ rootsOf ps, ∃ w1 w2, v = w1 ++ w2 ∧ TokML root w1 ∧
        ∃ q ∈ subsOf root ps, PatML q w2) := by
  constructor
  · rintro ⟨p, hp, hm⟩
    cases p with
    | nil => exact Or.inl ⟨⟨[], hp, rfl⟩, hm⟩
    | cons h t =>
      obtain ⟨w1, w2, rfl, h1, h2⟩ := hm
      refine Or.inr ⟨h, rootsOf_mem.2 ⟨h :: t, hp, by simp, by simp⟩, w1, w2, rfl,
        h1, t, mem_subsOf.2 ⟨h :: t, hp, by simp, by simp, rfl⟩, h2⟩
  · rintro (⟨⟨p, hp, rfl⟩, rfl⟩ | ⟨root, hroot, w1, w2, rfl, h1, q, hq, h2⟩)
    · exact ⟨[], hp, rfl⟩
    · obtain ⟨p, hp, hne, hh, rfl⟩ := mem_subsOf.1 hq
      obtain ⟨h0, t, rfl⟩ : ∃ h0 t, p = h0 :: t := by
        cases p with
        | nil => exact absurd rfl hne
        | cons h0 t => exact ⟨h0, t, rfl⟩
      simp only [List.headD_cons] at hh
      rw [← hh] at h1
      exact ⟨h0 :: t, hp, w1, w2, rfl, h1, by simpa using h2⟩

theorem nil_mem_replicate_append {n : Nat} {X : List (List Char)}
    (hX : ∀ x ∈ X, x ≠ []) :
    ([] ∈ List.replicate n ([] : List Char) ++ X) ↔ 1 ≤ n := by
  constructor
  · intro h
    rcases List.mem_append.1 h with h2 | h2
    · have := List.eq_of_mem_replicate h2
      cases n with
      | zero => simp at h2
      | succ m => omega
    · exact absurd rfl (hX [] h2)
  · intro h
    obtain ⟨m, rfl⟩ : ∃ m, n = m + 1 := by
      cases n with
      | zero => omega
      | succ m => exact ⟨m, rfl⟩
    rw [List.replicate_succ]
    simp

theorem exists_empty_iff (ps : List (List (List Char))) :
    (∃ p ∈ ps, p = []) ↔ 1 ≤ (ps.filter (fun p => p = [])).length := by
  constructor
  · rintro ⟨p, hp, rfl⟩
    have hm : ([] : List (List Char)) ∈ ps.filter (fun p => p = []) :=
      List.mem_filter.2 ⟨hp, by simp⟩
    cases hc : ps.filter (fun p => p = []) with
    | nil => rw [hc] at hm; simp at hm
    | cons a t => simp
  · intro h
    cases hc : ps.filter (fun p => p = []) with
    | nil => rw [hc] at h; simp at h
    | cons a t =>
      have hm : a ∈ ps.filter (fun p => p = []) := by rw [hc]; simp
      rw [List.mem_filter] at hm
      exact ⟨a, hm.1, by simpa using hm.2⟩

theorem goodTokS_of_mem {ps : List (List (List Char))} {root : List Char}
    (hgood : ∀ p ∈ ps, ∀ t ∈ p, GoodTokS t) (h : root ∈ rootsOf ps) :
    GoodTokS root := by
  obtain ⟨p, hp, hne, hh⟩ := rootsOf_mem.1 h
  obtain ⟨h0, t, rfl⟩ : ∃ h0 t, p = h0 :: t := by
    cases p with
    | nil => exact absurd rfl hne
    | cons h0 t => exact ⟨h0, t, rfl⟩
  simp only [List.headD_cons] at hh
  rw [← hh]
  exact hgood _ hp h0 (List.mem_cons_self _ _)

theorem goodSubs {ps : List (List (List Char))} {root : List Char}
    (hgood : ∀ p ∈ ps, ∀ t ∈ p, GoodTokS t) :
    ∀ q ∈ subsOf root ps, ∀ t ∈ q, GoodTokS t := by
  intro q hq t ht
  obtain ⟨p, hp, hne, hh, rfl⟩ := mem_subsOf.1 hq
  obtain ⟨h0, t2, rfl⟩ : ∃ h0 t2, p = h0 :: t2 := by
    cases p with
    | nil => exact absurd rfl hne
    | cons h0 t2 => exact ⟨h0, t2, rfl⟩
  exact hgood _ hp t (List.mem_cons_of_mem _ (by simpa using ht))

/-- Collapsing the tree built from well-shaped token patterns yields the key
followed by a token string whose language is exactly the union of the
pattern languages. -/
theorem tree_collapse : ∀ (bf : Nat) (ps : List (List (List Char))) (cf : Nat)
    (key : List Char), patsSize ps < bf → patsSize ps < cf → ps ≠ [] →
    (∀ p ∈ ps, ∀ t ∈ p, GoodTokS t) →
    ∃ toks : List (List Char × RE),
      RTree.collapseF cf (buildTreeF bf key ps) = key ++ flatToks toks ∧
      (∀ tr ∈ toks, CTok tr) ∧
      (∀ w, (reOf toks).Matches w ↔ ∃ p ∈ ps, PatML p w) := by
  intro bf
  induction bf with
  | zero =>
    intro ps cf key hbf _ _ _
    omega
  | succ bf ih =>
    intro ps cf key hbf hcf hne hgood
    obtain ⟨cf2, rfl⟩ : ∃ cf2, cf = cf2 + 1 := by
      cases cf with
      | zero => omega
      | succ cf2 => exact ⟨cf2, rfl⟩
    match ps, hne with
    | [p], _ =>
      cases p with
      | nil =>
        refine ⟨[], ?_, by intro tr htr; simp at htr, ?_⟩
        · rw [show buildTreeF (bf + 1) key [[]] = RTree.mk key [] from rfl,
            show RTree.collapseF (cf2 + 1) (RTree.mk key []) = key from rfl]
          simp [flatToks]
        · intro w
          rw [show reOf [] = RE.eps from rfl, Matches_eps_iff]
          constructor
          · rintro rfl
            exact ⟨[], by simp, rfl⟩
          · rintro ⟨p, hp, hm⟩
            rw [List.mem_singleton] at hp
            subst hp
            exact hm
      | cons h t =>
        have hps : patsSize [t] < bf ∧ patsSize [t] < cf2 := by
          unfold patsSize at hbf hcf ⊢
          simp only [List.map_cons, List.map_nil, List.sum_cons, List.sum_nil,
            List.length_cons] at hbf hcf ⊢
          omega
        obtain ⟨toksT, hTe, hTc, hTl⟩ := ih [t] cf2 h hps.1 hps.2 (by simp)
          (fun q hq t2 ht2 => by
            rw [List.mem_singleton] at hq
            exact hgood (h :: t) (List.mem_singleton.2 rfl) t2
              (List.mem_cons_of_mem _ (hq ▸ ht2)))
        obtain ⟨rh, hrh⟩ : GoodTokS h :=
          hgood (h :: t) (List.mem_singleton.2 rfl) h (List.mem_cons_self _ _)
        refine ⟨(h, rh) :: toksT, ?_, ?_, ?_⟩
        · rw [show buildTreeF (bf + 1) key [h :: t] =
            RTree.mk key [buildTreeF bf h [t]] from rfl,
            show RTree.collapseF (cf2 + 1) (RTree.mk key [buildTreeF bf h [t]]) =
              key ++ RTree.collapseF cf2 (buildTreeF bf h [t]) from rfl,
            hTe, flatToks_cons]
        · intro tr htr
          rcases List.mem_cons.1 htr with rfl | htr2
          · exact Or.inl hrh
          · exact hTc tr htr2
        · intro w
          rw [Matches_reOf_cons]
          constructor
          · rintro ⟨w1, w2, rfl, h1, h2⟩
            obtain ⟨q, hq, hmq⟩ := (hTl w2).1 h2
            rw [List.mem_singleton] at hq
            refine ⟨h :: t, List.mem_singleton.2 rfl, w1, w2, rfl,
              ⟨rh, goodTok_gram hrh, h1⟩, ?_⟩
            rw [← hq]
            exact hmq
          · rintro ⟨p, hp, hm⟩
            rw [List.mem_singleton] at hp
            subst hp
            obtain ⟨w1, w2, rfl, h1, h2⟩ := hm
            exact ⟨w1, w2, rfl, (tokML_iff (goodTok_gram hrh) w1).1 h1,
              (hTl w2).2 ⟨t, List.mem_singleton.2 rfl, h2⟩⟩
    | p1 :: p2 :: rest, _ =>
      set PS := p1 :: p2 :: rest with hPS
      set nE := (PS.filter (fun p => p = [])).length with hnE
      set roots := rootsOf PS with hroots0
      have hbuild : buildTreeF (bf + 1) key PS =
          RTree.mk key (List.replicate nE (RTree.mk [] []) ++
            roots.map (fun root => buildTreeF bf root (subsOf root PS))) := by
        rw [show buildTreeF (bf + 1) key PS =
          RTree.mk key ((PS.filterMap
            (fun p => if p = [] then some (RTree.mk [] []) else none)) ++
            (rootsOf PS).map (fun root => buildTreeF bf root
              ((PS.filter (fun p => p ≠ [] ∧ p.headD [] = root)).map List.tail)))
          from rfl, filterMap_empties]
        rfl
      -- per-root data
      have hsubfacts : ∀ root ∈ roots, patsSize (subsOf root PS) < bf ∧
          patsSize (subsOf root PS) < cf2 ∧ subsOf root PS ≠ [] := by
        intro root hr
        have hlt := patsSize_subsOf (hroots0 ▸ hr)
        exact ⟨by omega, by omega, subsOf_ne_nil (hroots0 ▸ hr)⟩
      have hone : ∀ root ∈ roots, ∃ rroot toksR,
          GoodTok (root, rroot) ∧
          RTree.collapseF cf2 (buildTreeF bf root (subsOf root PS)) =
            root ++ flatToks toksR ∧
          (∀ tr ∈ toksR, CTok tr) ∧
          (∀ w, (reOf toksR).Matches w ↔ ∃ q ∈ subsOf root PS, PatML q w) := by
        intro root hr
        obtain ⟨h1, h2, h3⟩ := hsubfacts root hr
        obtain ⟨toksR, hRe, hRc, hRl⟩ := ih (subsOf root PS) cf2 root h1 h2 h3
          (goodSubs hgood)
        obtain ⟨rroot, hrroot⟩ : GoodTokS root :=
          goodTokS_of_mem hgood (hroots0 ▸ hr)
        exact ⟨rroot, toksR, hrroot, hRe, hRc, hRl⟩
      have hrootsl : ∀ rs : List (List Char), (∀ root ∈ rs, root ∈ roots) →
          ∃ l : List (List Char × RE),
            (rs.map (fun root =>
              RTree.collapseF cf2 (buildTreeF bf root (subsOf root PS)))) =
              l.map Prod.fst ∧
            (∀ e ∈ l, Gram GCat.seq e.1 e.2 ∧ e.1 ≠ []) ∧
            (∀ w, (∃ e ∈ l, e.2.Matches w) ↔
              ∃ root ∈ rs, ∃ w1 w2, w = w1 ++ w2 ∧ TokML root w1 ∧
                ∃ q ∈ subsOf root PS, PatML q w2) := by
        intro rs
        induction rs with
        | nil =>
          intro _
          exact ⟨[], by simp, by intro e he; simp at he, by
            intro w
            constructor
            · rintro ⟨e, he, _⟩; simp at he
            · rintro ⟨root, hr, _⟩; simp at hr⟩
        | cons root rs2 ihr =>
          intro hsub
          obtain ⟨l2, hl2e, hl2g, hl2l⟩ :=
            ihr (fun r hr => hsub r (List.mem_cons_of_mem _ hr))
          obtain ⟨rroot, toksR, hrroot, hRe, hRc, hRl⟩ :=
            hone root (hsub root (List.mem_cons_self _ _))
          refine ⟨(root ++ flatToks toksR, reOf ((root, rroot) :: toksR)) :: l2,
            ?_, ?_, ?_⟩
          · rw [List.map_cons, hRe, hl2e]
            rfl
          · intro e he
            rcases List.mem_cons.1 he with rfl | he2
            · constructor
              · have := gram_seq_of_toks ((root, rroot) :: toksR) (by
                  intro tr htr
                  rcases List.mem_cons.1 htr with rfl | htr2
                  · exact goodTok_gram hrroot
                  · exact ctok_gram (hRc tr htr2))
                rw [flatToks_cons] at this
                exact this
              · have hne2 := goodTok_ne_nil hrroot
                intro h0
                rw [List.append_eq_nil] at h0
                exact hne2 h0.1
            · exact hl2g e he2
          · intro w
            constructor
            · rintro ⟨e, he, hme⟩
              rcases List.mem_cons.1 he with rfl | he2
              · rw [Matches_reOf_cons] at hme
                obtain ⟨w1, w2, rfl, h1, h2⟩ := hme
                exact ⟨root, List.mem_cons_self _ _, w1, w2, rfl,
                  ⟨rroot, goodTok_gram hrroot, h1⟩, (hRl w2).1 h2⟩
              · obtain ⟨root2, hr2, hdata⟩ := (hl2l w).1 ⟨e, he2, hme⟩
                exact ⟨root2, List.mem_cons_of_mem _ hr2, hdata⟩
            · rintro ⟨root2, hr2, w1, w2, rfl, h1, hq⟩
              rcases List.mem_cons.1 hr2 with rfl | hr3
              · refine ⟨(root2 ++ flatToks toksR, reOf ((root2, rroot) :: toksR)),
                  List.mem_cons_self _ _, ?_⟩
                rw [Matches_reOf_cons]
                exact ⟨w1, w2, rfl, (tokML_iff (goodTok_gram hrroot) w1).1 h1,
                  (hRl w2).2 hq⟩
              · obtain ⟨e, he, hme⟩ := (hl2l (w1 ++ w2)).2 ⟨root2, hr3, w1, w2,
                  rfl, h1, hq⟩
                exact ⟨e, List.mem_cons_of_mem _ he, hme⟩
      obtain ⟨l, hle, hlg, hll⟩ := hrootsl roots (fun r hr => hr)
      have hllen : roots.length = l.length := by
        have := congrArg List.length hle
        simpa using this
      have hroots_nil : roots = [] → 2 ≤ nE := by
        intro h0
        have hall : ∀ p ∈ PS, p = [] := by
          intro p hp
          by_contra hne2
          have : p.headD [] ∈ rootsOf PS := rootsOf_mem.2 ⟨p, hp, hne2, rfl⟩
          rw [← hroots0, h0] at this
          simp at this
        have h1 : p1 ∈ PS.filter (fun p => p = []) :=
          List.mem_filter.2 ⟨List.mem_cons_self _ _, by
            simp [hall p1 (List.mem_cons_self _ _)]⟩
        have h2 : PS.filter (fun p => p = []) = PS := by
          apply List.filter_eq_self.2
          intro p hp
          simp [hall p hp]
        rw [hnE, h2]
        simp [hPS]
      have hRHS : ∀ w, (∃ p ∈ PS, PatML p w) ↔
          ((1 ≤ nE ∧ w = []) ∨ (∃ root ∈ roots, ∃ w1 w2, w = w1 ++ w2 ∧
            TokML root w1 ∧ ∃ q ∈ subsOf root PS, PatML q w2)) := by
        intro w
        rw [patML_grouping]
        rw [show (∃ p ∈ PS, p = []) ↔ 1 ≤ nE from hnE ▸ exists_empty_iff PS]
      have hcsmap : (List.replicate nE (RTree.mk [] []) ++
          roots.map (fun root => buildTreeF bf root (subsOf root PS))).map
            (RTree.collapseF cf2) =
          List.replicate nE [] ++ roots.map (fun root =>
            RTree.collapseF cf2 (buildTreeF bf root (subsOf root PS))) := by
        rw [List.map_append, List.map_replicate, collapseF_nilnode, List.map_map]
        rfl
      have hrcs_ne : ∀ c ∈ roots.map (fun root =>
          RTree.collapseF cf2 (buildTreeF bf root (subsOf root PS))), c ≠ [] := by
        intro c hc
        rw [hle] at hc
        rw [List.mem_map] at hc
        obtain ⟨e, he, rfl⟩ := hc
        exact (hlg e he).2
      rw [hbuild]
      cases hBS1 : List.replicate nE (RTree.mk [] []) ++
          roots.map (fun root => buildTreeF bf root (subsOf root PS)) with
      | nil =>
        exfalso
        rw [List.append_eq_nil] at hBS1
        have hnE0 : nE = 0 := by
          have := congrArg List.length hBS1.1
          simpa using this
        have hroots_e : roots = [] := List.map_eq_nil.1 hBS1.2
        have := hroots_nil hroots_e
        omega
      | cons b1 bs1 =>
        cases hBS2 : bs1 with
        | nil =>
          subst hBS2
          have hlen1 : nE + roots.length = 1 := by
            have := congrArg List.length hBS1
            simpa using this
          have hnE0 : nE = 0 := by
            by_contra h0
            have hr0 : roots.length = 0 := by omega
            have := hroots_nil (List.length_eq_zero.1 hr0)
            omega
          obtain ⟨root, hroot1⟩ : ∃ root, roots = [root] := by
            cases hrr : roots with
            | nil => rw [hrr] at hlen1; simp at hlen1; omega
            | cons r t =>
              rw [hrr] at hlen1
              simp at hlen1
              have : t = [] := List.length_eq_zero.1 (by omega)
              exact ⟨r, by rw [this]⟩
          have hb1 : b1 = buildTreeF bf root (subsOf root PS) := by
            rw [hnE0, hroot1] at hBS1
            simpa using hBS1.symm
          obtain ⟨rroot, toksR, hrroot, hRe, hRc, hRl⟩ :=
            hone root (by rw [hroot1]; simp)
          refine ⟨(root, rroot) :: toksR, ?_, ?_, ?_⟩
          · rw [show RTree.collapseF (cf2 + 1) (RTree.mk key [b1]) =
              key ++ RTree.collapseF cf2 b1 from rfl, hb1, hRe, flatToks_cons]
          · intro tr htr
            rcases List.mem_cons.1 htr with rfl | htr2
            · exact Or.inl hrroot
            · exact hRc tr htr2
          · intro w
            rw [Matches_reOf_cons, hRHS w]
            constructor
            · rintro ⟨w1, w2, rfl, h1, h2⟩
              exact Or.inr ⟨root, by rw [hroot1]; simp, w1, w2, rfl,
                ⟨rroot, goodTok_gram hrroot, h1⟩, (hRl w2).1 h2⟩
            · rintro (⟨h1, _⟩ | ⟨root2, hr2, w1, w2, rfl, h1, hq⟩)
              · omega
              · rw [hroot1, List.mem_singleton] at hr2
                subst hr2
                exact ⟨w1, w2, rfl, (tokML_iff (goodTok_gram hrroot) w1).1 h1,
                  (hRl w2).2 hq⟩
        | cons b2 bs2 =>
          subst hBS2
          have hcs : (b1 :: b2 :: bs2).map (RTree.collapseF cf2) =
              List.replicate nE [] ++ roots.map (fun root =>
                RTree.collapseF cf2 (buildTreeF bf root (subsOf root PS))) := by
            rw [← hBS1, hcsmap]
          have hcoll : RTree.collapseF (cf2 + 1) (RTree.mk key (b1 :: b2 :: bs2)) =
              (if [] ∈ (b1 :: b2 :: bs2).map (RTree.collapseF cf2) then
                (if (removeFirst ((b1 :: b2 :: bs2).map (RTree.collapseF cf2))
                      []).length = 1 ∧
                    collapseShort ((removeFirst ((b1 :: b2 :: bs2).map
                      (RTree.collapseF cf2)) []).headD []) = true then
                  key ++ (removeFirst ((b1 :: b2 :: bs2).map
                    (RTree.collapseF cf2)) []).headD [] ++ ['?']
                else key ++ '(' :: joinBar (removeFirst ((b1 :: b2 :: bs2).map
                  (RTree.collapseF cf2)) []) ++ [')', '?'])
              else key ++ '(' :: joinBar ((b1 :: b2 :: bs2).map
                (RTree.collapseF cf2)) ++ [')']) := rfl
          have hBlen : nE + roots.length = 2 + bs2.length := by
            have := congrArg List.length hBS1
            simp only [List.length_append, List.length_replicate, List.length_map,
              List.length_cons] at this
            omega
          rw [hcoll, hcs]
          by_cases hnE1 : 1 ≤ nE
          · rw [if_pos ((nil_mem_replicate_append hrcs_ne).2 hnE1)]
            rw [removeFirst_replicate nE hnE1]
            by_cases hT : (List.replicate (nE - 1) ([] : List Char) ++
                roots.map (fun root => RTree.collapseF cf2 (buildTreeF bf root
                  (subsOf root PS)))).length = 1 ∧
                collapseShort ((List.replicate (nE - 1) ([] : List Char) ++
                  roots.map (fun root => RTree.collapseF cf2 (buildTreeF bf root
                    (subsOf root PS)))).headD []) = true
            · rw [if_pos hT]
              have hnE1e : nE = 1 := by
                by_contra h2
                have h3 : 1 ≤ nE - 1 := by omega
                obtain ⟨m, hm⟩ : ∃ m, nE - 1 = m + 1 := by
                  cases h4 : nE - 1 with
                  | zero => omega
                  | succ m => exact ⟨m, rfl⟩
                have hhd : (List.replicate (nE - 1) ([] : List Char) ++
                    roots.map (fun root => RTree.collapseF cf2 (buildTreeF bf root
                      (subsOf root PS)))).headD [] = [] := by
                  rw [hm, List.replicate_succ]
                  rfl
                rw [hhd] at hT
                exact absurd hT.2 (by decide)
              rw [hnE1e] at hT ⊢
              simp only [Nat.sub_self, List.replicate_zero, List.nil_append] at hT ⊢
              obtain ⟨root, hroot1⟩ : ∃ root, roots = [root] := by
                have hrl : roots.length = 1 := by
                  have := hT.1
                  simpa using this
                cases hrr : roots with
                | nil => rw [hrr] at hrl; simp at hrl
                | cons r t =>
                  rw [hrr] at hrl
                  simp at hrl
                  exact ⟨r, by rw [hrl]⟩
              rw [hroot1] at hT ⊢
              simp only [List.map_cons, List.map_nil, List.headD_cons] at hT ⊢
              obtain ⟨rroot, toksR, hrroot, hRe, hRc, hRl⟩ :=
                hone root (by rw [hroot1]; simp)
              rw [hRe] at hT ⊢
              -- the short branch forces the branch to be a bare root token
              have hkey : toksR = [] ∧ ∃ rU,
                  GoodTok ((root ++ ['?'] : List Char), rU) ∧
                  (∀ w, rU.Matches w ↔ w = [] ∨ rroot.Matches w) := by
                have hrne := goodTok_ne_nil hrroot
                have hT2 := hT.2
                unfold collapseShort at hT2
                rw [Bool.or_eq_true] at hT2
                rcases hT2 with hB | hB
                · -- single character
                  have hlen : root.length + (flatToks toksR).length = 1 := by
                    have := of_decide_eq_true hB
                    simpa using this
                  have hr1 : root.length = 1 := by
                    have : 1 ≤ root.length := by
                      cases hr0 : root with
                      | nil => exact absurd hr0 hrne
                      | cons c t => simp [hr0]
                    omega
                  have hfl : toksR = [] := flatToks_eq_nil
                    (fun tr htr => ctok_ne_nil (hRc tr htr))
                    (List.length_eq_zero.1 (by omega))
                  obtain ⟨c, rfl, hcd, rfl⟩ := goodTok_len1 hrroot hr1
                  refine ⟨hfl, RE.opt (RE.cls [c]), ?_, ?_⟩
                  · exact Or.inr (Or.inl ⟨c, ['?'], RE.opt (RE.cls [c]), hcd,
                      QuantG.opt (RE.cls [c]), rfl⟩)
                  · intro w
                    exact Matches_opt_iff (RE.cls [c]) w
                · -- short bracket class
                  rw [Bool.and_eq_true, Bool.and_eq_true] at hB
                  obtain ⟨⟨hB5, hBh⟩, hBl⟩ := hB
                  have hfl : flatToks toksR = [] := by
                    by_contra hfne
                    obtain ⟨toksI, trL, rfl⟩ : ∃ toksI trL, toksR = toksI ++ [trL] := by
                      rcases List.eq_nil_or_concat toksR with h0 | ⟨L2, b3, h0⟩
                      · rw [h0] at hfne
                        exact absurd rfl hfne
                      · exact ⟨L2, b3, by rw [h0, List.concat_eq_append]⟩
                    have hlast : ((root ++ flatToks (toksI ++ [trL])).getLast?.getD
                        ' ') = ']' := by
                      have := of_decide_eq_true hBl
                      simpa using this
                    rw [flatToks_append] at hlast hfne
                    have htrne : trL.1 ≠ [] :=
                      ctok_ne_nil (hRc trL (List.mem_append.2 (Or.inr
                        (List.mem_singleton.2 rfl))))
                    have hflL : flatToks [trL] = trL.1 ++ [] := by
                      rw [flatToks_cons, flatToks_nil]
                    rw [hflL, List.append_nil] at hlast hfne
                    rw [← List.append_assoc,
                      List.getLast?_append_of_ne_nil _ htrne] at hlast
                    obtain ⟨bodyL, csL, htrL1, hbl2, _, hbl3, _⟩ :=
                      ctok_last_bracket (hRc trL (List.mem_append.2 (Or.inr
                        (List.mem_singleton.2 rfl)))) hlast
                    have hroot3 : 3 ≤ root.length := by
                      have hh : root.headD ' ' = '[' := by
                        have := of_decide_eq_true hBh
                        cases hr0 : root with
                        | nil => exact absurd hr0 hrne
                        | cons c t =>
                          rw [hr0] at this
                          simpa using this
                      rcases hrroot with ⟨c, hc, he⟩ | ⟨c, q, r2, hc, hq2, he⟩ |
                        ⟨body, cs, hbc, hdc, hlc, he⟩ |
                        ⟨body, cs, q, r2, hbc, hdc, hlc, hq2, he⟩ <;>
                        (rw [Prod.mk.injEq] at he)
                      · rw [he.1] at hh
                        simp only [List.headD_cons] at hh
                        rw [hh] at hc
                        exact absurd hc (by decide)
                      · obtain ⟨c2, q2, rfl, _⟩ := quantG_head hq2
                        rw [he.1] at hh
                        simp only [List.headD_cons] at hh
                        rw [hh] at hc
                        exact absurd hc (by decide)
                      · rw [he.1]
                        simp only [List.length_cons]
                        omega
                      · obtain ⟨c2, q2, rfl, _⟩ := quantG_head hq2
                        rw [he.1]
                        simp only [List.length_cons, List.length_append]
                        omega
                    have hlen5 : (root ++ (flatToks toksI ++ trL.1)).length ≤ 5 := by
                      have := of_decide_eq_true hB5
                      simpa [flatToks_append, flatToks_cons, flatToks_nil]
                        using this
                    have htr3 : 3 ≤ trL.1.length := by
                      rw [htrL1]
                      simp only [List.length_cons]
                      omega
                    rw [List.length_append, List.length_append] at hlen5
                    omega
                  have hfl2 : toksR = [] := flatToks_eq_nil
                    (fun tr htr => ctok_ne_nil (hRc tr htr)) hfl
                  have hlast : (root.getLast?.getD ' ') = ']' := by
                    have := of_decide_eq_true hBl
                    rw [hfl, List.append_nil] at this
                    exact this
                  obtain ⟨body, cs, hre, hbc, hdc, hbl2, hrr2⟩ :=
                    ctok_last_bracket (Or.inl hrroot) hlast
                  refine ⟨hfl2, RE.opt (RE.cls cs), ?_, ?_⟩
                  · rw [hre]
                    refine Or.inr (Or.inr (Or.inr ⟨body, cs, ['?'],
                      RE.opt (RE.cls cs), hbc, hdc, hbl2, QuantG.opt (RE.cls cs),
                      by simp⟩))
                  · intro w
                    rw [hrr2]
                    exact Matches_opt_iff (RE.cls cs) w
              obtain ⟨hfl, rU, hrU, hrUl⟩ := hkey
              rw [hfl] at hRl ⊢
              rw [show flatToks ([] : List (List Char × RE)) = [] from rfl,
                List.append_nil]
              refine ⟨[((root ++ ['?'] : List Char), rU)], ?_, ?_, ?_⟩
              · rw [flatToks_cons, flatToks_nil, List.append_nil, List.append_assoc]
              · intro tr htr
                rw [List.mem_singleton] at htr
                subst htr
                exact Or.inl hrU
              · intro w
                rw [Matches_reOf_single, hrUl w, hRHS w]
                constructor
                · rintro (rfl | hm)
                  · exact Or.inl ⟨by omega, rfl⟩
                  · refine Or.inr ⟨root, by rw [hroot1]; simp, w, [], by simp,
                      ⟨rroot, goodTok_gram hrroot, hm⟩, ?_⟩
                    have := (hRl []).1 ((Matches_eps_iff []).2 rfl)
                    exact this
                · rintro (⟨_, rfl⟩ | ⟨root2, hr2, w1, w2, rfl, h1, hq⟩)
                  · exact Or.inl rfl
                  · rw [hroot1, List.mem_singleton] at hr2
                    subst hr2
                    have hw2 : w2 = [] := by
                      have := (hRl w2).2 hq
                      rw [show reOf ([] : List (List Char × RE)) = RE.eps from rfl,
                        Matches_eps_iff] at this
                      exact this
                    subst hw2
                    rw [List.append_nil]
                    exact Or.inr ((tokML_iff (goodTok_gram hrroot) w1).1 h1)
            · rw [if_neg hT]
              have hl2 : ∃ l2 : List (List Char × RE),
                  List.replicate (nE - 1) ([] : List Char) ++
                    roots.map (fun root => RTree.collapseF cf2 (buildTreeF bf root
                      (subsOf root PS))) = l2.map Prod.fst ∧
                  (∀ e ∈ l2, Gram GCat.seq e.1 e.2) ∧ l2 ≠ [] ∧
                  (∀ w, (∃ e ∈ l2, e.2.Matches w) ↔
                    ((1 ≤ nE - 1 ∧ w = []) ∨ (∃ root ∈ roots, ∃ w1 w2,
                      w = w1 ++ w2 ∧ TokML root w1 ∧
                      ∃ q ∈ subsOf root PS, PatML q w2))) := by
                refine ⟨List.replicate (nE - 1) (([] : List Char), RE.eps) ++ l,
                  ?_, ?_, ?_, ?_⟩
                · rw [List.map_append, List.map_replicate, hle]
                · intro e he
                  rcases List.mem_append.1 he with h2 | h2
                  · rw [List.eq_of_mem_replicate h2]
                    exact Gram.seqNil
                  · exact (hlg e h2).1
                · intro h0
                  rw [List.append_eq_nil] at h0
                  have h1 : nE - 1 = 0 := by
                    have := congrArg List.length h0.1
                    simpa using this
                  have h2 : roots = [] := by
                    have hh := congrArg List.length h0.2
                    simp only [List.length_nil] at hh
                    exact List.length_eq_zero.1 (hllen.trans hh)
                  have := hroots_nil h2
                  omega
                · intro w
                  constructor
                  · rintro ⟨e, he, hme⟩
                    rcases List.mem_append.1 he with h2 | h2
                    · rw [List.eq_of_mem_replicate h2] at hme
                      rw [show ((([] : List Char), RE.eps)).2 = RE.eps from rfl,
                        Matches_eps_iff] at hme
                      refine Or.inl ⟨?_, hme⟩
                      cases hn : nE - 1 with
                      | zero => rw [hn] at h2; simp at h2
                      | succ m => omega
                    · exact Or.inr ((hll w).1 ⟨e, h2, hme⟩)
                  · rintro (⟨h1, rfl⟩ | hun)
                    · obtain ⟨m, hm⟩ : ∃ m, nE - 1 = m + 1 := by
                        cases hn : nE - 1 with
                        | zero => omega
                        | succ m => exact ⟨m, rfl⟩
                      refine ⟨(([] : List Char), RE.eps), ?_, ?_⟩
                      · rw [hm, List.replicate_succ]
                        exact List.mem_append.2 (Or.inl (List.mem_cons_self _ _))
                      · exact (Matches_eps_iff []).2 rfl
                    · obtain ⟨e, he, hme⟩ := (hll w).2 hun
                      exact ⟨e, List.mem_append.2 (Or.inr he), hme⟩
              obtain ⟨l2, hl2e, hl2g, hl2ne, hl2l⟩ := hl2
              rw [hl2e]
              refine ⟨[(('(' :: joinBar (l2.map Prod.fst) ++ ')' :: ['?'] :
                List Char), RE.opt (altOf (l2.map Prod.snd)))], ?_, ?_, ?_⟩
              · rw [flatToks_cons, flatToks_nil, List.append_nil]
                simp
              · intro tr htr
                rw [List.mem_singleton] at htr
                subst htr
                exact Or.inr ⟨joinBar (l2.map Prod.fst), ['?'],
                  altOf (l2.map Prod.snd), RE.opt (altOf (l2.map Prod.snd)),
                  gram_alt_of_list l2 hl2ne (fun e he => hl2g e he),
                  Or.inr ⟨QuantG.opt _, rfl⟩⟩
              · intro w
                rw [Matches_reOf_single]
                rw [show ((('(' :: joinBar (l2.map Prod.fst) ++ ')' :: ['?'] :
                  List Char), RE.opt (altOf (l2.map Prod.snd)))).2 =
                  RE.opt (altOf (l2.map Prod.snd)) from rfl, Matches_opt_iff]
                have hmapne : l2.map Prod.snd ≠ [] := by
                  intro h0
                  exact hl2ne (List.map_eq_nil.1 h0)
                rw [Matches_altOf (l2.map Prod.snd) hmapne w, hRHS w]
                constructor
                · rintro (rfl | ⟨r2, hr2, hm⟩)
                  · exact Or.inl ⟨by omega, rfl⟩
                  · rw [List.mem_map] at hr2
                    obtain ⟨e, he, rfl⟩ := hr2
                    rcases (hl2l w).1 ⟨e, he, hm⟩ with ⟨h1, rfl⟩ | hun
                    · exact Or.inl ⟨by omega, rfl⟩
                    · exact Or.inr hun
                · rintro (⟨h1, rfl⟩ | hun)
                  · exact Or.inl rfl
                  · obtain ⟨e, he, hme⟩ := (hl2l w).2 (Or.inr hun)
                    exact Or.inr ⟨e.2, List.mem_map.2 ⟨e, he, rfl⟩, hme⟩
          · rw [if_neg (by
              intro hmem
              exact hnE1 ((nil_mem_replicate_append hrcs_ne).1 hmem))]
            have hnE0 : nE = 0 := by omega
            rw [hnE0] at hBlen ⊢
            simp only [List.replicate_zero, List.nil_append]
            have hlne : l ≠ [] := by
              intro h0
              rw [h0] at hllen
              simp only [List.length_nil] at hllen
              have := hroots_nil (List.length_eq_zero.1 hllen)
              omega
            rw [hle]
            refine ⟨[(('(' :: joinBar (l.map Prod.fst) ++ [')'] : List Char),
              altOf (l.map Prod.snd))], ?_, ?_, ?_⟩
            · rw [flatToks_cons, flatToks_nil, List.append_nil]
              simp
            · intro tr htr
              rw [List.mem_singleton] at htr
              subst htr
              exact Or.inr ⟨joinBar (l.map Prod.fst), [],
                altOf (l.map Prod.snd), altOf (l.map Prod.snd),
                gram_alt_of_list l hlne (fun e he => (hlg e he).1),
                Or.inl rfl⟩
            · intro w
              rw [Matches_reOf_single]
              rw [show ((('(' :: joinBar (l.map Prod.fst) ++ [')'] : List Char),
                altOf (l.map Prod.snd))).2 = altOf (l.map Prod.snd) from rfl]
              have hmapne : l.map Prod.snd ≠ [] := by
                intro h0
                exact hlne (List.map_eq_nil.1 h0)
              rw [Matches_altOf (l.map Prod.snd) hmapne w, hRHS w]
              constructor
              · rintro ⟨r2, hr2, hm⟩
                rw [List.mem_map] at hr2
                obtain ⟨e, he, rfl⟩ := hr2
                exact Or.inr ((hll w).1 ⟨e, he, hm⟩)
              · rintro (⟨h1, rfl⟩ | hun)
                · omega
                · obtain ⟨e, he, hme⟩ := (hll w).2 hun
                  exact ⟨e.2, List.mem_map.2 ⟨e, he, rfl⟩, hme⟩

/-! ### Token strings without the leading-digit constraint -/

/-- A string made of pipeline tokens. -/
def TokStr (x : List Char) : Prop :=
  ∃ toks, x = flatToks toks ∧ ∀ tr ∈ toks, GoodTok tr

theorem altOK_tokStr {x : List Char} (h : AltOK x) : TokStr x := by
  obtain ⟨t1, r1, toks, rfl, hg1, hgs, _, _⟩ := h
  refine ⟨(t1, r1) :: toks, rfl, ?_⟩
  intro tr htr
  rcases List.mem_cons.1 htr with rfl | htr2
  · exact hg1
  · exact hgs tr htr2

theorem cpFlush_tokStr (st : CPState) (h0 : 0 ≤ st.p10start) :
    TokStr (cpFlush st) := by
  cases hsw : st.sw0 with
  | false => exact altOK_tokStr (altOK_cpFlush st hsw h0)
  | true =>
    unfold cpFlush
    rw [hsw]
    simp only [eq_self_iff_true, if_true]
    by_cases he : 1 ≤ st.p10end
    · rw [if_pos he]
      refine ⟨[((['[', '0', '-', '9', ']'] ++ ('{' :: natStr 1 ++ ',' ::
        natStr (1 + st.p10end).toNat ++ ['}']) : List Char),
        cls09.repRange 1 (1 + st.p10end).toNat)], ?_, ?_⟩
      · rw [flatToks_cons, flatToks_nil, List.append_nil]
        rfl
      · intro tr htr
        rw [List.mem_singleton] at htr
        subst htr
        exact goodTok_cls09q (QuantG.rep cls09 1 (1 + st.p10end).toNat)
    · rw [if_neg he]
      refine ⟨[((['[', '0', '-', '9', ']'] : List Char), cls09)], ?_, ?_⟩
      · rw [flatToks_cons, flatToks_nil, List.append_nil]
      · intro tr htr
        rw [List.mem_singleton] at htr
        subst htr
        exact Or.inr (Or.inr (Or.inl ⟨['0', '-', '9', ']'], rangeList '0' '9',
          clsG_range '0' '9' (by decide) (by decide),
          allDigits_rangeList (by decide) (by decide), by decide, rfl⟩))

theorem cpStep_tokStr {st : CPState} {r : List Char} (hr : TokStr r ∨ r = []) :
    ∀ x ∈ (cpStep st r).2, TokStr x := by
  intro x hx
  unfold cpStep at hx
  by_cases h1 : r = ['[', '0', '-', '9', ']']
  · rw [if_pos h1] at hx
    simp at hx
  · rw [if_neg h1] at hx
    by_cases h2 : r = ['[', '1', '-', '9', ']']
    · rw [if_pos h2] at hx
      simp at hx
    · rw [if_neg h2] at hx
      by_cases h3 : r = ['[', '1', '-', '9', ']', '[', '0', '-', '9', ']']
      · rw [if_pos h3] at hx
        simp at hx
      · rw [if_neg h3] at hx
        by_cases h4 : bandPre.isPrefixOf r = true
        · rw [if_pos h4] at hx
          simp at hx
        · rw [if_neg h4] at hx
          by_cases h5 : 0 ≤ st.p10start
          · rw [if_pos h5] at hx
            rcases List.mem_cons.1 hx with rfl | hx2
            · exact cpFlush_tokStr st h5
            · by_cases h6 : r = []
              · rw [if_pos h6] at hx2
                simp at hx2
              · rw [if_neg h6] at hx2
                rw [List.mem_singleton] at hx2
                subst hx2
                rcases hr with hA | rfl
                · exact hA
                · exact absurd rfl h6
          · rw [if_neg h5] at hx
            by_cases h6 : r = []
            · rw [if_pos h6] at hx
              simp at hx
            · rw [if_neg h6] at hx
              rw [List.mem_singleton] at hx
              subst hx
              rcases hr with hA | rfl
              · exact hA
              · exact absurd rfl h6

theorem collapse_tokStr (regexes : List (List Char))
    (h : ∀ y ∈ regexes, TokStr y) :
    ∀ x ∈ collapse_powers_of_10 regexes, TokStr x := by
  have hfold : ∀ (l : List (List Char)) (st : CPState) (out : List (List Char)),
      (∀ y ∈ l, TokStr y ∨ y = []) → (∀ x ∈ out, TokStr x) →
      ∀ x ∈ (l.foldl (fun (acc : CPState × List (List Char)) r =>
          ((cpStep acc.1 r).1, acc.2 ++ (cpStep acc.1 r).2)) (st, out)).2,
        TokStr x := by
    intro l
    induction l with
    | nil =>
      intro st out _ hout x hx
      exact hout x (by simpa using hx)
    | cons r l ihl =>
      intro st out hl hout x hx
      rw [List.foldl_cons] at hx
      refine ihl _ _ (fun y hy => hl y (List.mem_cons_of_mem _ hy)) ?_ x hx
      intro z hz
      rcases List.mem_append.1 hz with h2 | h2
      · exact hout z h2
      · exact cpStep_tokStr (hl r (List.mem_cons_self _ _)) z h2
  unfold collapse_powers_of_10
  intro x hx
  refine hfold (regexes ++ [[]]) _ [] ?_ (by intro z hz; simp at hz) x hx
  intro y hy
  rcases List.mem_append.1 hy with h2 | h2
  · exact Or.inl (h y h2)
  · rw [List.mem_singleton] at h2
    exact Or.inr h2

theorem natStr_single (b : Nat) (hb : b ≤ 9) : natStr b = [Nat.digitChar b] := by
  by_cases hb0 : b = 0
  · subst hb0; rfl
  · rw [natStr_eq_digits b hb0, digits_single b (by omega) (by omega)]
    rfl

theorem break_into_ranges_zero_props (b : Nat) :
    ∀ p ∈ break_into_ranges 0 b, AllDigits p.1 ∧ AllDigits p.2 ∧
      p.1.length = p.2.length ∧ p.1 ≠ [] ∧ SimplePair p := by
  have hd09 : ∀ (d : Char), isDig d = true →
      AllDigits [('0' : Char)] ∧ AllDigits [d] ∧
      ([('0' : Char)] : List Char).length = ([d] : List Char).length ∧
      ([('0' : Char)] : List Char) ≠ [] ∧
      SimplePair (([('0' : Char)] : List Char), ([d] : List Char)) := by
    intro d hd
    refine ⟨by intro c hc; rw [List.mem_singleton] at hc; subst hc; decide,
      by intro c hc; rw [List.mem_singleton] at hc; rw [hc]; exact hd,
      rfl, by simp, ⟨[], '0', d, 0, by decide, hd, ?_, rfl, rfl⟩⟩
    rw [show digitVal '0' = 0 from rfl]
    omega
  by_cases hb : b ≤ 9
  · have hlen : (natStr b).length = 1 := by
      rw [natStr_single b hb]
      rfl
    have h1F : break_into_ranges_1F (1 + 1) 0 b = [(natStr 0, natStr b)] := by
      rw [show break_into_ranges_1F (1 + 1) 0 b =
        if (natStr 0).length = (natStr b).length then [(natStr 0, natStr b)]
        else (natStr 0, natStr (10 ^ (natStr 0).length - 1)) ::
          break_into_ranges_1F 1 (1 + (10 ^ (natStr 0).length - 1)) b from by
          rw [break_into_ranges_1F]]
      rw [if_pos (by rw [natStr_zero, hlen]; rfl)]
    have h2F : break_into_ranges_2 (natStr 0) (natStr b) =
        [((['0'] : List Char), natStr b)] := by
      unfold break_into_ranges_2
      rw [natStr_zero, bir2F_succ]
      rw [if_pos (show (['0'] : List Char).length = 1 from rfl)]
    have he : break_into_ranges 0 b = [((['0'] : List Char), natStr b)] := by
      unfold break_into_ranges break_into_ranges_1
      rw [hlen, h1F, List.flatMap_cons, List.flatMap_nil, List.append_nil, h2F]
    rw [he]
    intro p hp
    rw [List.mem_singleton] at hp
    subst hp
    rw [natStr_single b hb]
    refine hd09 (Nat.digitChar b) (digitChar_isDig b (by omega))
  · have hsplit : break_into_ranges 0 b =
        break_into_ranges_2 (natStr 0) (natStr 9) ++
        (break_into_ranges_1F (natStr b).length 10 b).flatMap
          (fun p => break_into_ranges_2 p.1 p.2) := by
      unfold break_into_ranges break_into_ranges_1
      rw [show break_into_ranges_1F ((natStr b).length + 1) 0 b =
        if (natStr 0).length = (natStr b).length then [(natStr 0, natStr b)]
        else (natStr 0, natStr (10 ^ (natStr 0).length - 1)) ::
          break_into_ranges_1F (natStr b).length
            (1 + (10 ^ (natStr 0).length - 1)) b from by
          rw [break_into_ranges_1F]]
      have hlen1 : (natStr b).length ≠ 1 := by
        intro h1
        have := natStr_lt_pow b
        rw [h1] at this
        omega
      rw [if_neg (by rw [natStr_zero]; simp; omega)]
      rw [show (10:Nat) ^ (natStr 0).length - 1 = 9 from by decide]
      rw [show (1 : Nat) + 9 = 10 from rfl]
      simp
    have h29 : break_into_ranges_2 (natStr 0) (natStr 9) =
        [((['0'] : List Char), ['9'])] := by
      unfold break_into_ranges_2
      rw [show natStr 0 = ['0'] from rfl, show natStr 9 = ['9'] from rfl]
      rw [bir2F_succ]
      rw [if_pos (show (['0'] : List Char).length = 1 from rfl)]
    rw [hsplit, h29]
    intro p hp
    rcases List.mem_append.1 hp with hp1 | hp2
    · rw [List.mem_singleton] at hp1
      subst hp1
      exact hd09 '9' (by decide)
    · have h1 := bir1F_correct ((natStr b).length) 10 b (by omega) (by omega)
        (by
          have h2 : (natStr 10).length = 2 := by decide
          have h3 : 2 ≤ (natStr b).length := by
            have h4 := Nat.le_digits_len_le 10 10 b (by omega)
            rw [← natStr_length 10 (by omega), ← natStr_length b (by omega)] at h4
            omega
          omega)
      have h2 := bir2_glue _ 10 b h1.1 h1.2
      obtain ⟨hd1, hd2, hlen, hne, hsp, _⟩ := h2.2 p hp2
      exact ⟨hd1, hd2, hlen, hne, hsp⟩

/-- Every regex built by `range_to_regexes`, for any bounds, is the token
string of a splitter pair. -/
theorem range_to_regexes_pairToks (a b : Nat) :
    ∀ y ∈ range_to_regexes a b, ∃ u a2 b2 k, AllDigits u ∧
      isDig a2 = true ∧ isDig b2 = true ∧
      y = flatToks (pairToks u a2 b2 k) := by
  intro y hy
  unfold range_to_regexes ranges_to_regexes at hy
  have hy2 : ∃ p ∈ break_into_ranges (min a b) (max a b),
      y = individual_regex p.1 p.2 := by
    rcases le_or_lt a b with h | h
    · rw [if_neg (by omega)] at hy
      rw [List.mem_map] at hy
      obtain ⟨p, hp, rfl⟩ := hy
      exact ⟨p, by rwa [Nat.min_eq_left h, Nat.max_eq_right h], rfl⟩
    · rw [if_pos (by omega)] at hy
      rw [List.mem_map] at hy
      obtain ⟨p, hp, rfl⟩ := hy
      exact ⟨p, by rwa [Nat.min_eq_right (by omega), Nat.max_eq_left (by omega)],
        rfl⟩
  obtain ⟨p, hp, rfl⟩ := hy2
  have hprops : AllDigits p.1 ∧ AllDigits p.2 ∧ p.1.length = p.2.length ∧
      p.1 ≠ [] ∧ SimplePair p := by
    rcases Nat.eq_zero_or_pos (min a b) with h0 | h0
    · rw [h0] at hp
      exact break_into_ranges_zero_props (max a b) p hp
    · obtain ⟨_, hG⟩ := break_into_ranges_correct (min a b) (max a b) h0
        (by omega)
      obtain ⟨hd1, hd2, hlen, hne, hsp, _⟩ := hG p hp
      exact ⟨hd1, hd2, hlen, hne, hsp⟩
  obtain ⟨hd1, hd2, hlen, hne, hsp⟩ := hprops
  obtain ⟨u, a2, b2, k, ha2, hb2, hab, hp1, hp2⟩ := hsp
  have hu : AllDigits u := by
    intro c hc
    exact hd1 c (hp1 ▸ List.mem_append.2 (Or.inl hc))
  rw [show p.1 = u ++ a2 :: List.replicate k '0' from hp1,
    show p.2 = u ++ b2 :: List.replicate k '9' from hp2,
    individual_regex_toks u a2 b2 k hu]
  exact ⟨u, a2, b2, k, hu, ha2, hb2, rfl⟩

/-- Every alternative handed to the collapse stage, for any bounds, is a
pipeline token string. -/
theorem pipeline_tokStr (a b : Nat) :
    ∀ x ∈ collapse_powers_of_10 (range_to_regexes a b), TokStr x := by
  apply collapse_tokStr
  intro y hy
  obtain ⟨u, a2, b2, k, hu, ha2, hb2, rfl⟩ := range_to_regexes_pairToks a b y hy
  exact ⟨pairToks u a2 b2 k, rfl, goodTok_pairToks hu ha2 hb2⟩

/-! ### Languages of the flat and factored expressions -/

theorem patML_reOf : ∀ (toks : List (List Char × RE)),
    (∀ tr ∈ toks, Gram GCat.item tr.1 tr.2) → ∀ w,
    (PatML (toks.map Prod.fst) w ↔ (reOf toks).Matches w) := by
  intro toks
  induction toks with
  | nil =>
    intro _ w
    simp only [List.map_nil, PatML]
    rw [show reOf [] = RE.eps from rfl, Matches_eps_iff]
  | cons tr ts ih =>
    intro h w
    simp only [List.map_cons, PatML]
    rw [Matches_reOf_cons]
    constructor
    · rintro ⟨u, v, rfl, htu, hpv⟩
      exact ⟨u, v, rfl, (tokML_iff (h tr (List.mem_cons_self _ _)) u).1 htu,
        (ih (fun x hx => h x (List.mem_cons_of_mem _ hx)) v).1 hpv⟩
    · rintro ⟨u, v, rfl, hru, hrv⟩
      exact ⟨u, v, rfl, (tokML_iff (h tr (List.mem_cons_self _ _)) u).2 hru,
        (ih (fun x hx => h x (List.mem_cons_of_mem _ hx)) v).2 hrv⟩

theorem tokStr_accepts {toks : List (List Char × RE)}
    (h : ∀ tr ∈ toks, GoodTok tr) (w : List Char) :
    reAccepts (flatToks toks) w ↔ (reOf toks).Matches w := by
  have hp : parseRE (flatToks toks) = some (reOf toks) :=
    gram_parseRE (Gram.altOne _ _
      (gram_seq_of_toks toks (fun tr htr => goodTok_gram (h tr htr))))
  rw [reAccepts_iff]
  constructor
  · rintro ⟨r, hr, hm⟩
    rw [hp, Option.some.injEq] at hr
    rw [← hr] at hm
    exact hm
  · intro hm
    exact ⟨reOf toks, hp, hm⟩

theorem tokStr_list (c : List (List Char)) (hc : ∀ x ∈ c, TokStr x) :
    ∃ l : List (List Char × RE), c = l.map Prod.fst ∧
      (∀ e ∈ l, Gram GCat.seq e.1 e.2) ∧
      ∀ w, ((∃ e ∈ l, e.2.Matches w) ↔ ∃ x ∈ c, reAccepts x w) := by
  induction c with
  | nil =>
    refine ⟨[], rfl, ?_, ?_⟩
    · intro e he
      exact absurd he (List.not_mem_nil e)
    · intro w
      constructor
      · rintro ⟨e, he, -⟩
        exact absurd he (List.not_mem_nil e)
      · rintro ⟨x, hx, -⟩
        exact absurd hx (List.not_mem_nil x)
  | cons x c2 ih =>
    obtain ⟨l2, hmap, hgram, hlang⟩ :=
      ih (fun y hy => hc y (List.mem_cons_of_mem _ hy))
    obtain ⟨toks, hx, htoks⟩ := hc x (List.mem_cons_self _ _)
    refine ⟨(x, reOf toks) :: l2, by rw [List.map_cons, ← hmap], ?_, ?_⟩
    · intro e he
      rcases List.mem_cons.1 he with rfl | he2
      · rw [hx]
        exact gram_seq_of_toks toks (fun tr htr => goodTok_gram (htoks tr htr))
      · exact hgram e he2
    · intro w
      constructor
      · rintro ⟨e, he, hm⟩
        rcases List.mem_cons.1 he with rfl | he2
        · refine ⟨x, List.mem_cons_self _ _, ?_⟩
          rw [hx]
          exact (tokStr_accepts htoks w).2 hm
        · obtain ⟨y, hy, hacc⟩ := (hlang w).1 ⟨e, he2, hm⟩
          exact ⟨y, List.mem_cons_of_mem _ hy, hacc⟩
      · rintro ⟨y, hy, hacc⟩
        rcases List.mem_cons.1 hy with rfl | hy2
        · refine ⟨(y, reOf toks), List.mem_cons_self _ _, ?_⟩
          rw [hx] at hacc
          exact (tokStr_accepts htoks w).1 hacc
        · obtain ⟨e, he, hm⟩ := (hlang w).2 ⟨y, hy2, hacc⟩
          exact ⟨e, List.mem_cons_of_mem _ he, hm⟩

theorem Matches_cat_eps (r : RE) (w : List Char) :
    (RE.cat r RE.eps).Matches w ↔ r.Matches w := by
  rw [Matches_cat_iff]
  constructor
  · rintro ⟨u, v, rfl, hu, hv⟩
    rw [(Matches_eps_iff v).1 hv]
    simpa using hu
  · intro h
    exact ⟨w, [], by simp, h, (Matches_eps_iff []).2 rfl⟩

theorem rfrFlatTail_lang (c : List (List Char)) (hc : ∀ x ∈ c, TokStr x)
    (hne : c ≠ []) :
    ∃ r, Gram GCat.seq (rfrFlatTail c) r ∧
      ∀ w, (r.Matches w ↔ ∃ x ∈ c, reAccepts x w) := by
  match c, hne with
  | [c0], _ =>
    obtain ⟨toks, hx, htoks⟩ := hc c0 (List.mem_cons_self _ _)
    refine ⟨reOf toks, ?_, ?_⟩
    · show Gram GCat.seq ([] ++ c0) (reOf toks)
      rw [List.nil_append, hx]
      exact gram_seq_of_toks toks (fun tr htr => goodTok_gram (htoks tr htr))
    · intro w
      rw [show (∃ x ∈ [c0], reAccepts x w) ↔ reAccepts c0 w from by simp]
      rw [hx]
      exact (tokStr_accepts htoks w).symm
  | c0 :: c1 :: c2, _ =>
    obtain ⟨l, hmap, hgram, hlang⟩ := tokStr_list (c0 :: c1 :: c2) hc
    have hlne : l ≠ [] := by
      intro h0
      rw [h0] at hmap
      simp at hmap
    have halt := gram_alt_of_list l hlne hgram
    refine ⟨RE.cat (altOf (l.map Prod.snd)) RE.eps, ?_, ?_⟩
    · have h1 : Gram GCat.seq
          (('(' :: (joinBar (l.map Prod.fst) ++ [')'])) ++ [])
          (RE.cat (altOf (l.map Prod.snd)) RE.eps) :=
        Gram.seqCons _ _ _ _ (Gram.itemGrp _ _ halt) Gram.seqNil
      rw [List.append_nil] at h1
      show Gram GCat.seq ([] ++ '(' :: joinBar (c0 :: c1 :: c2) ++ [')']) _
      rw [List.nil_append, hmap]
      exact h1
    · intro w
      rw [Matches_cat_eps, Matches_altOf (l.map Prod.snd)
        (by simp only [ne_eq, List.map_eq_nil_iff]; exact hlne) w]
      rw [show (∃ r ∈ l.map Prod.snd, r.Matches w) ↔ ∃ e ∈ l, e.2.Matches w
        from ⟨fun ⟨r, hr, hm⟩ => by
            obtain ⟨e, he, rfl⟩ := List.mem_map.1 hr
            exact ⟨e, he, hm⟩,
          fun ⟨e, he, hm⟩ => ⟨e.2, List.mem_map.2 ⟨e, he, rfl⟩, hm⟩⟩]
      exact hlang w

theorem mapM_tokenize (c : List (List Char)) (hc : ∀ x ∈ c, TokStr x) :
    ∃ tl : List (List (List Char × RE)), c = tl.map flatToks ∧
      c.mapM tokenize = some (tl.map (fun toks => toks.map Prod.fst)) ∧
      ∀ toks ∈ tl, ∀ tr ∈ toks, GoodTok tr := by
  induction c with
  | nil => exact ⟨[], rfl, rfl, fun t ht => absurd ht (List.not_mem_nil t)⟩
  | cons x c2 ih =>
    obtain ⟨tl2, hmap, hM, hG⟩ :=
      ih (fun y hy => hc y (List.mem_cons_of_mem _ hy))
    obtain ⟨toks, hx, htoks⟩ := hc x (List.mem_cons_self _ _)
    refine ⟨toks :: tl2, by rw [List.map_cons, ← hx, ← hmap], ?_, ?_⟩
    · have h1 : tokenize x = some (toks.map Prod.fst) := by
        rw [hx]
        exact tokenize_flat toks htoks
      rw [List.mapM_cons, h1, hM]
      rfl
    · intro toks2 h2
      rcases List.mem_cons.1 h2 with rfl | h3
      · exact htoks
      · exact hG toks2 h3

theorem rfrFactor_lang (c : List (List Char)) (hc : ∀ x ∈ c, TokStr x)
    (hne : c ≠ []) {t2c : List Char} (hf : rfrFactor c = some t2c) :
    ∃ r, Gram GCat.seq t2c r ∧
      ∀ w, (r.Matches w ↔ ∃ x ∈ c, reAccepts x w) := by
  obtain ⟨tl, hmap, hM, hG⟩ := mapM_tokenize c hc
  unfold rfrFactor at hf
  rw [hM] at hf
  have hf2 : RTree.collapseF
      (patsSize (tl.map (fun toks => toks.map Prod.fst)) + 1)
      (buildTree [] (tl.map (fun toks => toks.map Prod.fst))) = t2c :=
    Option.some.inj hf
  set ps := tl.map (fun toks => toks.map Prod.fst) with hps
  have htlne : tl ≠ [] := by
    intro h0
    rw [h0] at hmap
    simp at hmap
    exact hne hmap
  have hpsne : ps ≠ [] := by
    rw [hps]
    simp only [ne_eq, List.map_eq_nil_iff]
    exact htlne
  have hgood : ∀ p ∈ ps, ∀ t ∈ p, GoodTokS t := by
    intro p hp t ht
    rw [hps] at hp
    obtain ⟨toks, htl, rfl⟩ := List.mem_map.1 hp
    obtain ⟨tr, htr, rfl⟩ := List.mem_map.1 ht
    exact ⟨tr.2, hG toks htl tr htr⟩
  obtain ⟨toksC, hcoll, hctoks, hlangC⟩ := tree_collapse (patsSize ps + 1) ps
    (patsSize ps + 1) [] (by omega) (by omega) hpsne hgood
  have ht2c : t2c = flatToks toksC := by
    rw [← hf2]
    unfold buildTree
    rw [hcoll, List.nil_append]
  refine ⟨reOf toksC, ?_, ?_⟩
  · rw [ht2c]
    exact gram_seq_of_toks toksC (fun tr htr => ctok_gram (hctoks tr htr))
  · intro w
    rw [hlangC w]
    constructor
    · rintro ⟨p, hp, hPw⟩
      rw [hps] at hp
      obtain ⟨toks, htl, rfl⟩ := List.mem_map.1 hp
      refine ⟨flatToks toks, ?_, ?_⟩
      · rw [hmap]
        exact List.mem_map.2 ⟨toks, htl, rfl⟩
      · rw [tokStr_accepts (hG toks htl) w]
        exact (patML_reOf toks
          (fun tr htr => goodTok_gram (hG toks htl tr htr)) w).1 hPw
    · rintro ⟨x, hx, hacc⟩
      rw [hmap] at hx
      obtain ⟨toks, htl, rfl⟩ := List.mem_map.1 hx
      refine ⟨toks.map Prod.fst, ?_, ?_⟩
      · rw [hps]
        exact List.mem_map.2 ⟨toks, htl, rfl⟩
      exact (patML_reOf toks
        (fun tr htr => goodTok_gram (hG toks htl tr htr)) w).2
        ((tokStr_accepts (hG toks htl) w).1 hacc)

theorem rfrTail_lang (c : List (List Char)) (hc : ∀ x ∈ c, TokStr x)
    (hne : c ≠ []) :
    ∃ r, Gram GCat.seq (rfrTail c) r ∧
      ∀ w, (r.Matches w ↔ ∃ x ∈ c, reAccepts x w) := by
  rcases rfrTail_flat_or_shorter c with heq | ⟨_, t2, hfac, heq⟩
  · rw [heq]
    exact rfrFlatTail_lang c hc hne
  · rw [heq]
    obtain ⟨r, hg, hl⟩ := rfrFactor_lang c hc hne hfac
    rw [show lead_zeros ++ t2 = t2 from rfl]
    exact ⟨r, hg, hl⟩

/-! ### Nonemptiness of the collapsed alternative list -/

theorem pairToks_ne (u : List Char) (a b : Char) (k : Nat) :
    pairToks u a b k ≠ [] := by
  unfold pairToks
  by_cases hc : a = '0' ∧ b = '9'
  · rw [if_pos hc]
    intro h
    have h2 := (List.append_eq_nil.1 h).2
    unfold runToks at h2
    by_cases h21 : 2 ≤ k + 1
    · rw [if_pos h21] at h2
      simp at h2
    · rw [if_neg h21, if_pos (by omega)] at h2
      simp at h2
  · rw [if_neg hc]
    intro h
    have h1 : classToks a b = [] :=
      (List.append_eq_nil.1 (List.append_eq_nil.1 h).1).2
    unfold classToks at h1
    by_cases hab : a = b
    · rw [if_pos hab] at h1
      simp at h1
    · rw [if_neg hab] at h1
      by_cases h2 : 1 + digitVal a = digitVal b
      · rw [if_pos h2] at h1
        simp at h1
      · rw [if_neg h2] at h1
        simp at h1

theorem flatToks_ne {toks : List (List Char × RE)} (hne : toks ≠ [])
    (h : ∀ tr ∈ toks, GoodTok tr) : flatToks toks ≠ [] := by
  cases toks with
  | nil => exact absurd rfl hne
  | cons tr ts =>
    rw [flatToks_cons]
    intro h0
    exact goodTok_ne_nil (h tr (List.mem_cons_self _ _))
      (List.append_eq_nil.1 h0).1

theorem range_to_regexes_nePats (a b : Nat) :
    ∀ y ∈ range_to_regexes a b, y ≠ [] := by
  intro y hy
  obtain ⟨u, a2, b2, k, hu, ha2, hb2, rfl⟩ := range_to_regexes_pairToks a b y hy
  exact flatToks_ne (pairToks_ne u a2 b2 k) (goodTok_pairToks hu ha2 hb2)

theorem break_into_ranges_ne (a b : Nat) (ha : 1 ≤ a) (hle : a ≤ b) :
    break_into_ranges a b ≠ [] := by
  intro h0
  have hC := (break_into_ranges_correct a b ha hle).1
  rw [h0] at hC
  have h2 : a = b + 1 := hC
  omega

theorem range_to_regexes_ne (a b : Nat) (ha : 1 ≤ a) (hle : a ≤ b) :
    range_to_regexes a b ≠ [] := by
  unfold range_to_regexes ranges_to_regexes
  rw [if_neg (by omega)]
  simp only [ne_eq, List.map_eq_nil_iff]
  exact break_into_ranges_ne a b ha hle

theorem cpStep_Q (st : CPState) (r : List Char) (out : List (List Char))
    (h : r ≠ [] ∨ out ≠ [] ∨ 0 ≤ st.p10start) :
    out ++ (cpStep st r).2 ≠ [] ∨ 0 ≤ (cpStep st r).1.p10start := by
  unfold cpStep
  by_cases h1 : r = ['[', '0', '-', '9', ']']
  · rw [if_pos h1]
    right
    exact le_refl 0
  rw [if_neg h1]
  by_cases h2 : r = ['[', '1', '-', '9', ']']
  · rw [if_pos h2]
    right
    exact le_refl 0
  rw [if_neg h2]
  by_cases h3 : r = ['[', '1', '-', '9', ']', '[', '0', '-', '9', ']']
  · rw [if_pos h3]
    right
    show (0:Int) ≤ if st.p10start < 0 then 1 else st.p10start
    split <;> omega
  rw [if_neg h3]
  by_cases h4 : bandPre.isPrefixOf r = true
  · rw [if_pos h4]
    right
    show (0:Int) ≤ if st.p10start < 0 then
      ((pyInt ((r.drop bandPre.length).dropLast) : Int)) else st.p10start
    split <;> omega
  rw [if_neg h4]
  by_cases h5 : 0 ≤ st.p10start
  · rw [if_pos h5]
    left
    show out ++ (cpFlush st :: (if r = [] then [] else [r])) ≠ []
    simp
  · rw [if_neg h5]
    rcases h with hr | hout | hst
    · left
      show out ++ (if r = [] then [] else [r]) ≠ []
      rw [if_neg hr]
      simp
    · left
      show out ++ (if r = [] then [] else [r]) ≠ []
      intro h0
      exact hout (List.append_eq_nil.1 h0).1
    · exact absurd hst h5

theorem cpStep_sentinel (st : CPState) (h : 0 ≤ st.p10start) :
    (cpStep st []).2 = [cpFlush st] := by
  unfold cpStep
  rw [if_neg (by decide), if_neg (by decide), if_neg (by decide),
    if_neg (by decide), if_pos h, if_pos rfl]

theorem collapse_ne_nil (regexes : List (List Char)) (hne : regexes ≠ [])
    (hnn : ∀ x ∈ regexes, x ≠ []) :
    collapse_powers_of_10 regexes ≠ [] := by
  have hlast : ∀ (P : CPState × List (List Char)),
      (P.2 ≠ [] ∨ 0 ≤ P.1.p10start) →
      (P.2 ++ (cpStep P.1 []).2) ≠ [] := by
    rintro ⟨stP, outP⟩ h
    rcases h with h | h
    · intro h0
      exact h (List.append_eq_nil.1 h0).1
    · rw [cpStep_sentinel stP h]
      simp
  have hfold : ∀ (l : List (List Char)) (st : CPState) (out : List (List Char)),
      (out ≠ [] ∨ 0 ≤ st.p10start) →
      ((l.foldl (fun (acc : CPState × List (List Char)) r =>
          ((cpStep acc.1 r).1, acc.2 ++ (cpStep acc.1 r).2)) (st, out)).2 ≠ [] ∨
       0 ≤ (l.foldl (fun (acc : CPState × List (List Char)) r =>
          ((cpStep acc.1 r).1, acc.2 ++ (cpStep acc.1 r).2))
            (st, out)).1.p10start) := by
    intro l
    induction l with
    | nil =>
      intro st out h
      exact h
    | cons r l ihl =>
      intro st out h
      rw [List.foldl_cons]
      exact ihl (cpStep st r).1 (out ++ (cpStep st r).2)
        (cpStep_Q st r out (Or.inr h))
  cases regexes with
  | nil => exact absurd rfl hne
  | cons r0 rest =>
    have h2 := hfold rest
      (cpStep { p10start := -1, p10end := -1, sw0 := false } r0).1
      ([] ++ (cpStep { p10start := -1, p10end := -1, sw0 := false } r0).2)
      (cpStep_Q _ r0 [] (Or.inl (hnn r0 (List.mem_cons_self _ _))))
    unfold collapse_powers_of_10
    rw [List.cons_append, List.foldl_cons, List.foldl_append, List.foldl_cons,
      List.foldl_nil]
    exact hlast _ h2

/-- For positive ordered bounds, the pipeline result parses as an
alternation whose language contains only nonzero-digit-headed digit
strings. -/
theorem rfr_NZ (a b : Nat) (h1 : 1 ≤ a) (hle : a ≤ b) :
    ∃ r, Gram GCat.seq (regex_for_range a b) r ∧
      ∀ w, r.Matches w → NZHead w := by
  unfold regex_for_range rfr
  have hOK := pipeline_altOK a b h1 hle
  have hcne : collapse_powers_of_10 (range_to_regexes a b) ≠ [] :=
    collapse_ne_nil _ (range_to_regexes_ne a b h1 hle)
      (range_to_regexes_nePats a b)
  obtain ⟨r, hg, hl⟩ := rfrTail_lang _ (fun x hx => altOK_tokStr (hOK x hx)) hcne
  refine ⟨r, hg, ?_⟩
  intro w hw
  obtain ⟨x, hx, hacc⟩ := (hl w).1 hw
  obtain ⟨rx, hgx, hnz⟩ := altOK_lang (hOK x hx)
  rw [reAccepts_iff] at hacc
  obtain ⟨r2, hp2, hm2⟩ := hacc
  rw [gram_parseRE (Gram.altOne _ _ hgx), Option.some.injEq] at hp2
  rw [← hp2] at hm2
  exact hnz w hm2

/-! ### The sign wrapper's emitted strings and their languages -/

theorem gram_seq_lit (c : Char) (h : allowedLit c) :
    Gram GCat.seq [c] (RE.cat (RE.cls [c]) RE.eps) :=
  Gram.seqCons [c] [] _ _ (Gram.itemChr c h) Gram.seqNil

instance (c : Char) : Decidable (allowedLit c) := by
  unfold allowedLit
  infer_instance

theorem gram_alt_group (inner : List Char) (r : RE)
    (h : Gram GCat.alt inner r) :
    Gram GCat.alt ('(' :: inner ++ [')']) (RE.cat r RE.eps) := by
  have h1 := Gram.seqCons ('(' :: (inner ++ [')'])) [] _ _
    (Gram.itemGrp inner r h) Gram.seqNil
  rw [List.append_nil] at h1
  exact Gram.altOne _ _ h1

theorem Matches_lit (c : Char) (w : List Char) :
    (RE.cat (RE.cls [c]) RE.eps).Matches w ↔ w = [c] := by
  rw [Matches_cat_eps, Matches_cls_iff]
  constructor
  · rintro ⟨c2, hc2, rfl⟩
    rw [List.mem_singleton] at hc2
    rw [hc2]
  · rintro rfl
    exact ⟨c, List.mem_singleton.2 rfl, rfl⟩

/-- Language bound for the wrapper output `(0|R)` with `R` the pipeline
result for positive bounds. -/
theorem wrap0P_lang (a b : Nat) (h1 : 1 ≤ a) (hle : a ≤ b) (w : List Char)
    (hacc : reAccepts ('(' :: '0' :: '|' :: (regex_for_range a b ++ [')'])) w) :
    w = ['0'] ∨ NZHead w := by
  obtain ⟨rS, hg, hnz⟩ := rfr_NZ a b h1 hle
  have hbody : Gram GCat.alt ('0' :: '|' :: regex_for_range a b)
      (RE.alt (RE.cat (RE.cls ['0']) RE.eps) rS) :=
    Gram.altCons ['0'] _ _ _ (gram_seq_lit '0' (by decide)) (Gram.altOne _ _ hg)
  have hfull : Gram GCat.alt ('(' :: '0' :: '|' :: (regex_for_range a b ++ [')']))
      (RE.cat (RE.alt (RE.cat (RE.cls ['0']) RE.eps) rS) RE.eps) :=
    gram_alt_group _ _ hbody
  rw [reAccepts_iff] at hacc
  obtain ⟨r2, hp2, hm2⟩ := hacc
  rw [gram_parseRE hfull, Option.some.injEq] at hp2
  rw [← hp2] at hm2
  rw [Matches_cat_eps, Matches_alt_iff] at hm2
  rcases hm2 with hm | hm
  · left
    exact (Matches_lit '0' w).1 hm
  · right
    exact hnz w hm

/-- Language bound for the wrapper output `(-R)` with `R` the pipeline
result for positive bounds. -/
theorem wrapNN_lang (a b : Nat) (h1 : 1 ≤ a) (hle : a ≤ b) (w : List Char)
    (hacc : reAccepts ('(' :: '-' :: (regex_for_range a b ++ [')'])) w) :
    ∃ v, w = '-' :: v ∧ NZHead v := by
  obtain ⟨rS, hg, hnz⟩ := rfr_NZ a b h1 hle
  have hbody : Gram GCat.alt ('-' :: regex_for_range a b)
      (RE.cat (RE.cls ['-']) rS) :=
    Gram.altOne _ _
      (Gram.seqCons ['-'] _ _ _ (Gram.itemChr '-' (by decide)) hg)
  have hfull : Gram GCat.alt ('(' :: '-' :: (regex_for_range a b ++ [')']))
      (RE.cat (RE.cat (RE.cls ['-']) rS) RE.eps) :=
    gram_alt_group _ _ hbody
  rw [reAccepts_iff] at hacc
  obtain ⟨r2, hp2, hm2⟩ := hacc
  rw [gram_parseRE hfull, Option.some.injEq] at hp2
  rw [← hp2] at hm2
  rw [Matches_cat_eps, Matches_cat_iff] at hm2
  obtain ⟨u, v, rfl, hu, hv⟩ := hm2
  obtain ⟨c, hc, rfl⟩ := (Matches_cls_iff _ u).1 hu
  rw [List.mem_singleton] at hc
  subst hc
  exact ⟨v, rfl, hnz v hv⟩

/-- Language bound for the wrapper output `(0|-R)`. -/
theorem wrapN0_lang (a b : Nat) (h1 : 1 ≤ a) (hle : a ≤ b) (w : List Char)
    (hacc : reAccepts
      ('(' :: '0' :: '|' :: '-' :: (regex_for_range a b ++ [')'])) w) :
    w = ['0'] ∨ ∃ v, w = '-' :: v ∧ NZHead v := by
  obtain ⟨rS, hg, hnz⟩ := rfr_NZ a b h1 hle
  have hbody : Gram GCat.alt ('0' :: '|' :: '-' :: regex_for_range a b)
      (RE.alt (RE.cat (RE.cls ['0']) RE.eps) (RE.cat (RE.cls ['-']) rS)) :=
    Gram.altCons ['0'] _ _ _ (gram_seq_lit '0' (by decide))
      (Gram.altOne _ _
        (Gram.seqCons ['-'] _ _ _ (Gram.itemChr '-' (by decide)) hg))
  have hfull : Gram GCat.alt
      ('(' :: '0' :: '|' :: '-' :: (regex_for_range a b ++ [')']))
      (RE.cat (RE.alt (RE.cat (RE.cls ['0']) RE.eps)
        (RE.cat (RE.cls ['-']) rS)) RE.eps) :=
    gram_alt_group _ _ hbody
  rw [reAccepts_iff] at hacc
  obtain ⟨r2, hp2, hm2⟩ := hacc
  rw [gram_parseRE hfull, Option.some.injEq] at hp2
  rw [← hp2] at hm2
  rw [Matches_cat_eps, Matches_alt_iff] at hm2
  rcases hm2 with hm | hm
  · left
    exact (Matches_lit '0' w).1 hm
  · right
    rw [Matches_cat_iff] at hm
    obtain ⟨u, v, rfl, hu, hv⟩ := hm
    obtain ⟨c, hc, rfl⟩ := (Matches_cls_iff _ u).1 hu
    rw [List.mem_singleton] at hc
    subst hc
    exact ⟨v, rfl, hnz v hv⟩

/-- Language bound for the wrapper output `(-RN|0|RP)`. -/
theorem wrapNP_lang (aN bN aP bP : Nat) (h1N : 1 ≤ aN) (hleN : aN ≤ bN)
    (h1P : 1 ≤ aP) (hleP : aP ≤ bP) (w : List Char)
    (hacc : reAccepts ('(' :: '-' :: (regex_for_range aN bN ++
      '|' :: '0' :: '|' :: (regex_for_range aP bP ++ [')']))) w) :
    (∃ v, w = '-' :: v ∧ NZHead v) ∨ w = ['0'] ∨ NZHead w := by
  obtain ⟨rN, hgN, hnzN⟩ := rfr_NZ aN bN h1N hleN
  obtain ⟨rP, hgP, hnzP⟩ := rfr_NZ aP bP h1P hleP
  have hbody : Gram GCat.alt
      ('-' :: (regex_for_range aN bN ++ '|' :: '0' :: '|' ::
        regex_for_range aP bP))
      (RE.alt (RE.cat (RE.cls ['-']) rN)
        (RE.alt (RE.cat (RE.cls ['0']) RE.eps) rP)) :=
    Gram.altCons ('-' :: regex_for_range aN bN) _ _ _
      (Gram.seqCons ['-'] _ _ _ (Gram.itemChr '-' (by decide)) hgN)
      (Gram.altCons ['0'] _ _ _ (gram_seq_lit '0' (by decide))
        (Gram.altOne _ _ hgP))
  have hfull0 := gram_alt_group _ _ hbody
  rw [show ('(' :: '-' :: (regex_for_range aN bN ++ '|' :: '0' :: '|' ::
      regex_for_range aP bP)) ++ [')'] =
      '(' :: '-' :: (regex_for_range aN bN ++
        '|' :: '0' :: '|' :: (regex_for_range aP bP ++ [')'])) from by
    simp] at hfull0
  rw [reAccepts_iff] at hacc
  obtain ⟨r2, hp2, hm2⟩ := hacc
  rw [gram_parseRE hfull0, Option.some.injEq] at hp2
  rw [← hp2] at hm2
  rw [Matches_cat_eps, Matches_alt_iff] at hm2
  rcases hm2 with hm | hm
  · left
    rw [Matches_cat_iff] at hm
    obtain ⟨u, v, rfl, hu, hv⟩ := hm
    obtain ⟨c, hc, rfl⟩ := (Matches_cls_iff _ u).1 hu
    rw [List.mem_singleton] at hc
    subst hc
    exact ⟨v, rfl, hnzN v hv⟩
  · rw [Matches_alt_iff] at hm
    rcases hm with hm | hm
    · right
      left
      exact (Matches_lit '0' w).1 hm
    · right
      right
      exact hnzP w hm

/-! ### The canonical-representation bijection -/

theorem digitVal_pos {c : Char} (hc : isDig c = true) (h0 : c ≠ '0') :
    1 ≤ digitVal c := by
  have h1 := char_toNat_eq_digitVal c hc
  by_contra h
  have h2 : digitVal c = 0 := by omega
  exact h0 (char_eq_of_digitVal_eq c '0' hc (by decide) (by rw [h2]; rfl))

theorem pyInt_inj : ∀ (s t : List Char), AllDigits s → AllDigits t →
    s.length = t.length → pyInt s = pyInt t → s = t := by
  intro s
  induction s with
  | nil =>
    intro t _ _ hl _
    cases t with
    | nil => rfl
    | cons d t2 => simp at hl
  | cons c s2 ih =>
    intro t hs ht hl hv
    cases t with
    | nil => simp at hl
    | cons d t2 =>
      rw [pyInt_cons, pyInt_cons] at hv
      simp only [List.length_cons] at hl
      have hl2 : s2.length = t2.length := by omega
      rw [hl2] at hv
      have hps := pyInt_lt_pow s2 (fun x hx => hs x (List.mem_cons_of_mem _ hx))
      have hpt := pyInt_lt_pow t2 (fun x hx => ht x (List.mem_cons_of_mem _ hx))
      rw [hl2] at hps
      have hcd : digitVal c = digitVal d :=
        le_antisymm (digit_le_of_val_le hps hpt (le_of_eq hv))
          (digit_le_of_val_le hpt hps (le_of_eq hv.symm))
      rw [hcd] at hv
      have hrest : pyInt s2 = pyInt t2 := Nat.add_left_cancel hv
      rw [char_eq_of_digitVal_eq c d (hs c (List.mem_cons_self _ _))
          (ht d (List.mem_cons_self _ _)) hcd,
        ih t2 (fun x hx => hs x (List.mem_cons_of_mem _ hx))
          (fun x hx => ht x (List.mem_cons_of_mem _ hx)) hl2 hrest]

theorem allDigits_natStr (n : Nat) : AllDigits (natStr n) := by
  by_cases hn : n = 0
  · subst hn
    intro c hc
    rw [natStr_zero, List.mem_singleton] at hc
    subst hc
    decide
  · rw [natStr_eq_digits n hn]
    intro c hc
    rw [List.mem_reverse, List.mem_map] at hc
    obtain ⟨d, hd, rfl⟩ := hc
    exact digitChar_isDig d (Nat.digits_lt_base (by norm_num) hd)

theorem natStr_len_eq (v L : Nat) (h1 : 10 ^ (L - 1) ≤ v) (h2 : v < 10 ^ L)
    (hL : 1 ≤ L) : (natStr v).length = L := by
  have hpow : 1 ≤ (10:Nat) ^ (L - 1) := Nat.one_le_pow _ _ (by norm_num)
  have hv0 : v ≠ 0 := by omega
  have hle := (natStr_length_le_iff v L hv0).2 h2
  have hgt : ¬ ((natStr v).length ≤ L - 1) := by
    intro h
    have := (natStr_length_le_iff v (L - 1) hv0).1 h
    omega
  omega

/-- A nonempty all-digits string without a leading zero is the canonical
decimal string of its value. -/
theorem natStr_pyInt_canon : ∀ {w : List Char}, AllDigits w → w ≠ [] →
    w.headD ' ' ≠ '0' → natStr (pyInt w) = w := by
  intro w hd hne hnz
  cases w with
  | nil => exact absurd rfl hne
  | cons c t =>
    have hc : isDig c = true := hd c (List.mem_cons_self _ _)
    have h1 : 1 ≤ digitVal c := digitVal_pos hc (by simpa using hnz)
    have hlow : 10 ^ t.length ≤ pyInt (c :: t) := by
      rw [pyInt_cons]
      calc 10 ^ t.length = 1 * 10 ^ t.length := by ring
        _ ≤ digitVal c * 10 ^ t.length := Nat.mul_le_mul_right _ h1
        _ ≤ digitVal c * 10 ^ t.length + pyInt t := Nat.le_add_right _ _
    have hhigh := pyInt_lt_pow (c :: t) hd
    rw [List.length_cons] at hhigh
    have hlen : (natStr (pyInt (c :: t))).length = t.length + 1 :=
      natStr_len_eq _ _ (by simpa using hlow) hhigh (by omega)
    refine pyInt_inj _ _ (allDigits_natStr _) hd ?_ (pyInt_natStr _)
    rw [hlen, List.length_cons]

/-- The width-`L` zero-padded decimal string of `v` (empty when `L = 0`). -/
def padStr (L v : Nat) : List Char :=
  if L = 0 then []
  else List.replicate (L - (natStr v).length) '0' ++ natStr v

theorem pyInt_padStr (L v : Nat) (h : v < 10 ^ L) : pyInt (padStr L v) = v := by
  unfold padStr
  by_cases hL : L = 0
  · rw [if_pos hL]
    subst hL
    simp only [pow_zero] at h
    rw [pyInt_nil]
    omega
  · rw [if_neg hL]
    rw [pyInt_append, pyInt_replicate_zero, pyInt_natStr]
    simp

theorem padStr_length (L v : Nat) (h : v < 10 ^ L) :
    (padStr L v).length = L := by
  unfold padStr
  by_cases hL : L = 0
  · rw [if_pos hL, hL]
    rfl
  · rw [if_neg hL]
    rw [List.length_append, List.length_replicate]
    have h2 : (natStr v).length ≤ L := by
      by_cases hv : v = 0
      · subst hv
        rw [natStr_zero]
        simp
        omega
      · exact (natStr_length_le_iff v L hv).2 h
    omega

theorem allDigits_padStr (L v : Nat) : AllDigits (padStr L v) := by
  intro c hc
  unfold padStr at hc
  by_cases hL : L = 0
  · rw [if_pos hL] at hc
    simp at hc
  · rw [if_neg hL] at hc
    rcases List.mem_append.1 hc with h | h
    · rw [List.eq_of_mem_replicate h]
      decide
    · exact allDigits_natStr v c h

/-! ### The exact value language of one splitter alternative -/

theorem digitVal_le9 {c : Char} (hc : isDig c = true) : digitVal c ≤ 9 := by
  have h1 := char_toNat_eq_digitVal c hc
  unfold isDig at hc
  rw [Bool.and_eq_true, decide_eq_true_eq, decide_eq_true_eq] at hc
  omega

theorem head_ne_zero_of_ge (u : List Char) (a2 c : Char) (z t : List Char)
    (ha : isDig a2 = true) (hnz : (u ++ a2 :: z).headD ' ' ≠ '0')
    (hge : digitVal a2 ≤ digitVal c) :
    (u ++ c :: t).headD ' ' ≠ '0' := by
  cases u with
  | nil =>
    simp only [List.nil_append, List.headD_cons] at hnz ⊢
    intro h0
    subst h0
    have h1 : 1 ≤ digitVal a2 := digitVal_pos ha hnz
    rw [show digitVal '0' = 0 from rfl] at hge
    omega
  | cons u0 u2 =>
    simpa using hnz

theorem pairToks_lang (u : List Char) (a2 b2 : Char) (k : Nat)
    (hu : AllDigits u) (ha : isDig a2 = true) (hb : isDig b2 = true)
    (hnz : (u ++ a2 :: List.replicate k '0').headD ' ' ≠ '0') (w : List Char) :
    ((reOf (pairToks u a2 b2 k)).Matches w ↔
      ∃ v, pyInt (u ++ a2 :: List.replicate k '0') ≤ v ∧
        v ≤ pyInt (u ++ b2 :: List.replicate k '9') ∧ w = natStr v) := by
  have hBpos : (0:Nat) < 10 ^ k := Nat.pos_pow_of_pos _ (by norm_num)
  have hlo : pyInt (u ++ a2 :: List.replicate k '0') =
      pyInt u * 10 ^ (k + 1) + digitVal a2 * 10 ^ k := by
    rw [pyInt_append, pyInt_cons_replicate_zero]
    simp
  have hhi : pyInt (u ++ b2 :: List.replicate k '9') =
      pyInt u * 10 ^ (k + 1) + (digitVal b2 * 10 ^ k + (10 ^ k - 1)) := by
    rw [pyInt_append, pyInt_cons_replicate_nine]
    simp only [List.length_cons, List.length_replicate]
  rw [Matches_reOf_pairToks u a2 b2 k ha hb]
  constructor
  · rintro ⟨c, t, rfl, hcd, hca, hcb, htk, htd⟩
    have hall : AllDigits (u ++ c :: t) := by
      refine allDigits_append hu ?_
      intro x hx
      rcases List.mem_cons.1 hx with rfl | hx2
      · exact hcd
      · exact htd x hx2
    refine ⟨pyInt (u ++ c :: t), ?_, ?_, ?_⟩
    · rw [hlo, pyInt_append, pyInt_cons, List.length_cons, htk]
      have h1 : digitVal a2 * 10 ^ k ≤ digitVal c * 10 ^ k :=
        Nat.mul_le_mul_right _ hca
      omega
    · rw [hhi, pyInt_append, pyInt_cons, List.length_cons, htk]
      have h1 : digitVal c * 10 ^ k ≤ digitVal b2 * 10 ^ k :=
        Nat.mul_le_mul_right _ hcb
      have h2 : pyInt t < 10 ^ k := htk ▸ pyInt_lt_pow t htd
      omega
    · exact (natStr_pyInt_canon hall (by simp)
        (head_ne_zero_of_ge u a2 c _ t ha hnz hca)).symm
  · rintro ⟨v, hvl, hvh, rfl⟩
    rw [hlo] at hvl
    rw [hhi] at hvh
    have hPle : pyInt u * 10 ^ (k + 1) ≤ v := by omega
    have hrlo : digitVal a2 * 10 ^ k ≤ v - pyInt u * 10 ^ (k + 1) := by omega
    have hrhi : v - pyInt u * 10 ^ (k + 1) ≤
        digitVal b2 * 10 ^ k + (10 ^ k - 1) := by omega
    have hdm := Nat.div_add_mod (v - pyInt u * 10 ^ (k + 1)) (10 ^ k)
    have hrestlt : (v - pyInt u * 10 ^ (k + 1)) % 10 ^ k < 10 ^ k :=
      Nat.mod_lt _ hBpos
    have hdlo : digitVal a2 ≤ (v - pyInt u * 10 ^ (k + 1)) / 10 ^ k :=
      (Nat.le_div_iff_mul_le hBpos).2 hrlo
    have hdhi : (v - pyInt u * 10 ^ (k + 1)) / 10 ^ k ≤ digitVal b2 := by
      by_contra hcon
      push_neg at hcon
      have h1 : (digitVal b2 + 1) * 10 ^ k ≤
          ((v - pyInt u * 10 ^ (k + 1)) / 10 ^ k) * 10 ^ k :=
        Nat.mul_le_mul_right _ hcon
      have h2 : ((v - pyInt u * 10 ^ (k + 1)) / 10 ^ k) * 10 ^ k ≤
          v - pyInt u * 10 ^ (k + 1) := Nat.div_mul_le_self _ _
      have h3 : (digitVal b2 + 1) * 10 ^ k = digitVal b2 * 10 ^ k + 10 ^ k := by
        ring
      omega
    have hd9 : (v - pyInt u * 10 ^ (k + 1)) / 10 ^ k ≤ 9 := by
      have := digitVal_le9 hb
      omega
    have hdig := digitChar_isDig ((v - pyInt u * 10 ^ (k + 1)) / 10 ^ k)
      (by omega)
    have hdv := digitVal_digitChar ((v - pyInt u * 10 ^ (k + 1)) / 10 ^ k)
      (by omega)
    refine ⟨Nat.digitChar ((v - pyInt u * 10 ^ (k + 1)) / 10 ^ k),
      padStr k ((v - pyInt u * 10 ^ (k + 1)) % 10 ^ k), ?_, hdig,
      by rw [hdv]; exact hdlo, by rw [hdv]; exact hdhi,
      padStr_length k _ hrestlt, allDigits_padStr k _⟩
    have hall : AllDigits (u ++ Nat.digitChar
        ((v - pyInt u * 10 ^ (k + 1)) / 10 ^ k) ::
        padStr k ((v - pyInt u * 10 ^ (k + 1)) % 10 ^ k)) := by
      refine allDigits_append hu ?_
      intro x hx
      rcases List.mem_cons.1 hx with rfl | hx2
      · exact hdig
      · exact allDigits_padStr k _ x hx2
    have hw : pyInt (u ++ Nat.digitChar
        ((v - pyInt u * 10 ^ (k + 1)) / 10 ^ k) ::
        padStr k ((v - pyInt u * 10 ^ (k + 1)) % 10 ^ k)) = v := by
      rw [pyInt_append, pyInt_cons, padStr_length k _ hrestlt,
        List.length_cons, padStr_length k _ hrestlt,
        pyInt_padStr k _ hrestlt, hdv]
      have hcomm : ((v - pyInt u * 10 ^ (k + 1)) / 10 ^ k) * 10 ^ k =
          10 ^ k * ((v - pyInt u * 10 ^ (k + 1)) / 10 ^ k) := Nat.mul_comm _ _
      omega
    exact (congrArg natStr hw.symm).trans (natStr_pyInt_canon hall (by simp)
      (head_ne_zero_of_ge u a2 _ _ _ ha hnz (by rw [hdv]; exact hdlo)))

theorem alt_lang (p : List Char × List Char) (hd1 : AllDigits p.1)
    (hsp : SimplePair p) (hlo : 10 ^ (p.1.length - 1) ≤ pyInt p.1)
    (w : List Char) :
    (reAccepts (individual_regex p.1 p.2) w ↔
      ∃ v, pyInt p.1 ≤ v ∧ v ≤ pyInt p.2 ∧ w = natStr v) := by
  obtain ⟨u, a2, b2, k, ha, hb, hab, hp1, hp2⟩ := hsp
  have hu : AllDigits u := by
    intro c hc
    exact hd1 c (hp1 ▸ List.mem_append.2 (Or.inl hc))
  have hnz : (u ++ a2 :: List.replicate k '0').headD ' ' ≠ '0' := by
    rw [← hp1]
    have hne : p.1 ≠ [] := by
      rw [hp1]
      simp
    cases hq : p.1 with
    | nil => exact absurd hq hne
    | cons c0 t0 =>
      have hd0 : AllDigits t0 := by
        intro x hx
        exact hd1 x (hq ▸ List.mem_cons_of_mem _ hx)
      have h1 : 1 ≤ digitVal c0 := by
        refine first_digit_pos hd0 ?_
        rw [← hq]
        exact hlo
      simp only [List.headD_cons]
      intro h0
      subst h0
      rw [show digitVal '0' = 0 from rfl] at h1
      omega
  rw [show p.1 = u ++ a2 :: List.replicate k '0' from hp1,
    show p.2 = u ++ b2 :: List.replicate k '9' from hp2,
    individual_regex_toks u a2 b2 k hu]
  rw [tokStr_accepts (goodTok_pairToks hu ha hb)]
  exact pairToks_lang u a2 b2 k hu ha hb hnz w

theorem alts_lang_union (pl : List (List Char × List Char)) (a0 b0 : Nat)
    (hC : ChainCov (pairVals pl) a0 b0)
    (hG : ∀ p ∈ pl, AllDigits p.1 ∧ SimplePair p ∧
      10 ^ (p.1.length - 1) ≤ pyInt p.1) (w : List Char) :
    (∃ p ∈ pl, reAccepts (individual_regex p.1 p.2) w) ↔
      ∃ v, a0 ≤ v ∧ v ≤ b0 ∧ w = natStr v := by
  constructor
  · rintro ⟨p, hp, hacc⟩
    obtain ⟨hd1, hsp, hlo⟩ := hG p hp
    obtain ⟨v, h1, h2, rfl⟩ := (alt_lang p hd1 hsp hlo w).1 hacc
    have hm := (ChainCov_mem_iff hC v).1 ⟨(pyInt p.1, pyInt p.2),
      List.mem_map.2 ⟨p, hp, rfl⟩, h1, h2⟩
    exact ⟨v, hm.1, hm.2, rfl⟩
  · rintro ⟨v, h1, h2, rfl⟩
    obtain ⟨q, hq, hq1, hq2⟩ := (ChainCov_mem_iff hC v).2 ⟨h1, h2⟩
    obtain ⟨p, hp, rfl⟩ := List.mem_map.1 hq
    obtain ⟨hd1, hsp, hlo⟩ := hG p hp
    exact ⟨p, hp, (alt_lang p hd1 hsp hlo _).2 ⟨v, hq1, hq2, rfl⟩⟩

/-! ### The flush strings of `collapse_powers_of_10` and their languages -/

/-- Strings made of a nonzero digit followed by `s` to `e` digits are
exactly the canonical strings of the values in `[10^s, 10^(e+1) - 1]`. -/
theorem nz_digits_lang (s e : Nat) (w : List Char) :
    (∃ c t, w = c :: t ∧ isDig c = true ∧ 1 ≤ digitVal c ∧ AllDigits t ∧
      s ≤ t.length ∧ t.length ≤ e) ↔
    ∃ v, 10 ^ s ≤ v ∧ v ≤ 10 ^ (e + 1) - 1 ∧ w = natStr v := by
  constructor
  · rintro ⟨c, t, rfl, hcd, hc1, htd, hts, hte⟩
    have hall : AllDigits (c :: t) := by
      intro x hx
      rcases List.mem_cons.1 hx with rfl | h
      · exact hcd
      · exact htd x h
    have hnz : (c :: t).headD ' ' ≠ '0' := by
      simp only [List.headD_cons]
      intro h0
      subst h0
      rw [show digitVal '0' = 0 from rfl] at hc1
      omega
    refine ⟨pyInt (c :: t), ?_, ?_,
      (natStr_pyInt_canon hall (by simp) hnz).symm⟩
    · calc 10 ^ s ≤ 10 ^ t.length := Nat.pow_le_pow_right (by norm_num) hts
        _ ≤ pyInt (c :: t) := by
            rw [pyInt_cons]
            calc 10 ^ t.length = 1 * 10 ^ t.length := by ring
              _ ≤ digitVal c * 10 ^ t.length := Nat.mul_le_mul_right _ hc1
              _ ≤ _ := Nat.le_add_right _ _
    · have h1 := pyInt_lt_pow (c :: t) hall
      rw [List.length_cons] at h1
      have h2 : (10:Nat) ^ (t.length + 1) ≤ 10 ^ (e + 1) :=
        Nat.pow_le_pow_right (by norm_num) (by omega)
      omega
  · rintro ⟨v, h1, h2, rfl⟩
    have hv0 : v ≠ 0 := by
      have : 1 ≤ (10:Nat) ^ s := Nat.one_le_pow _ _ (by norm_num)
      omega
    cases hq : natStr v with
    | nil => exact absurd hq (natStr_ne_nil v)
    | cons c t =>
      have hall : AllDigits (c :: t) := hq ▸ allDigits_natStr v
      have h3 : (natStr v).length = t.length + 1 := by
        rw [hq]
        rfl
      have hLle : (natStr v).length ≤ e + 1 :=
        (natStr_length_le_iff v (e + 1) hv0).2 (by
          have : (0:Nat) < 10 ^ (e + 1) := by positivity
          omega)
      have hLgt : ¬ ((natStr v).length ≤ s) := by
        intro h
        have := (natStr_length_le_iff v s hv0).1 h
        omega
      have hpv : pyInt (c :: t) = v := by
        rw [← hq]
        exact pyInt_natStr v
      have hc1 : 1 ≤ digitVal c := by
        refine first_digit_pos (fun x hx => hall x (List.mem_cons_of_mem _ hx))
          ?_
        rw [hpv]
        have hlow := natStr_pow_le v hv0
        rw [h3] at hlow
        simpa using hlow
      exact ⟨c, t, rfl, hall c (List.mem_cons_self _ _), hc1,
        fun x hx => hall x (List.mem_cons_of_mem _ hx), by omega, by omega⟩

theorem cls19_match (w : List Char) :
    cls19.Matches w ↔ ∃ c, w = [c] ∧ isDig c = true ∧ 1 ≤ digitVal c := by
  rw [show cls19 = RE.cls (rangeList '1' '9') from rfl, Matches_cls_iff]
  constructor
  · rintro ⟨c, hc, rfl⟩
    obtain ⟨hcd, hc1, -⟩ := (mem_rangeList_digit (by decide) (by decide)).1 hc
    rw [show digitVal '1' = 1 from rfl] at hc1
    exact ⟨c, rfl, hcd, hc1⟩
  · rintro ⟨c, rfl, hcd, hc1⟩
    refine ⟨c, (mem_rangeList_digit (by decide) (by decide)).2
      ⟨hcd, ?_, ?_⟩, rfl⟩
    · rw [show digitVal '1' = 1 from rfl]
      omega
    · rw [show digitVal '9' = 9 from rfl]
      exact digitVal_le9 hcd

theorem cls19_run_accepts (toks2 : List (List Char × RE)) (lo hi : Nat)
    (hgood : ∀ tr ∈ toks2, GoodTok tr)
    (hlang : ∀ w2, ((reOf toks2).Matches w2 ↔
      lo ≤ w2.length ∧ w2.length ≤ hi ∧ AllDigits w2)) (w : List Char) :
    reAccepts (flatToks (((['[', '1', '-', '9', ']'] : List Char), cls19) ::
      toks2)) w ↔
      ∃ v, 10 ^ lo ≤ v ∧ v ≤ 10 ^ (hi + 1) - 1 ∧ w = natStr v := by
  rw [tokStr_accepts (by
    intro tr htr
    rcases List.mem_cons.1 htr with rfl | h
    · exact goodTok_cls19
    · exact hgood tr h)]
  rw [Matches_reOf_cons]
  rw [← nz_digits_lang lo hi w]
  constructor
  · rintro ⟨w1, w2, rfl, h1, h2⟩
    obtain ⟨c, rfl, hcd, hc1⟩ := (cls19_match w1).1 h1
    obtain ⟨hlo2, hhi2, hd2⟩ := (hlang w2).1 h2
    exact ⟨c, w2, rfl, hcd, hc1, hd2, hlo2, hhi2⟩
  · rintro ⟨c, t, rfl, hcd, hc1, htd, hts, hte⟩
    exact ⟨[c], t, rfl, (cls19_match [c]).2 ⟨c, rfl, hcd, hc1⟩,
      (hlang t).2 ⟨hts, hte, htd⟩⟩

theorem cls09_tok_good : GoodTok ((['[', '0', '-', '9', ']'] : List Char),
    cls09) :=
  Or.inr (Or.inr (Or.inl ⟨['0', '-', '9', ']'], rangeList '0' '9',
    clsG_range '0' '9' (by decide) (by decide),
    allDigits_rangeList (by decide) (by decide), by decide, rfl⟩))

theorem cls09_match (w : List Char) :
    cls09.Matches w ↔ w.length = 1 ∧ AllDigits w := by
  rw [show cls09 = RE.cls (rangeList '0' '9') from rfl, Matches_cls_iff]
  constructor
  · rintro ⟨c, hc, rfl⟩
    refine ⟨rfl, ?_⟩
    intro x hx
    rw [List.mem_singleton] at hx
    rw [hx]
    exact (mem_d09 c).1 hc
  · rintro ⟨hl, hd⟩
    cases w with
    | nil => simp at hl
    | cons c t =>
      simp only [List.length_cons] at hl
      have ht : t = [] := List.length_eq_zero.1 (by omega)
      subst ht
      exact ⟨c, (mem_d09 c).2 (hd c (List.mem_cons_self _ _)), rfl⟩

theorem opt09_match (w : List Char) :
    (RE.opt cls09).Matches w ↔ w.length ≤ 1 ∧ AllDigits w := by
  rw [Matches_opt_iff]
  constructor
  · rintro (rfl | h)
    · exact ⟨by simp, by intro x hx; simp at hx⟩
    · obtain ⟨h1, h2⟩ := (cls09_match w).1 h
      exact ⟨by omega, h2⟩
  · rintro ⟨hl, hd⟩
    cases w with
    | nil => exact Or.inl rfl
    | cons c t =>
      refine Or.inr ((cls09_match _).2 ⟨?_, hd⟩)
      simp only [List.length_cons] at hl ⊢
      omega

theorem power09_match (m : Nat) (w : List Char) :
    (cls09.power m).Matches w ↔ w.length = m ∧ AllDigits w := by
  rw [show cls09 = RE.cls (rangeList '0' '9') from rfl, Matches_power_cls]
  constructor
  · rintro ⟨h1, h2⟩
    exact ⟨h1, fun c hc => (mem_d09 c).1 (h2 c hc)⟩
  · rintro ⟨h1, h2⟩
    exact ⟨h1, fun c hc => (mem_d09 c).2 (h2 c hc)⟩

theorem repRange09_match (m n : Nat) (hmn : m ≤ n) (w : List Char) :
    (cls09.repRange m n).Matches w ↔
      m ≤ w.length ∧ w.length ≤ n ∧ AllDigits w := by
  rw [show cls09 = RE.cls (rangeList '0' '9') from rfl, Matches_repRange_cls]
  rw [show m + (n - m) = n from by omega]
  constructor
  · rintro ⟨h1, h2, h3⟩
    exact ⟨h1, h2, fun c hc => (mem_d09 c).1 (h3 c hc)⟩
  · rintro ⟨h1, h2, h3⟩
    exact ⟨h1, h2, fun c hc => (mem_d09 c).2 (h3 c hc)⟩

/-- The language of the flush string: the canonical decimal strings of the
values whose lengths lie in the tracked band. -/
theorem cpFlush_lang (st : CPState) (s e : Nat) (hsw : st.sw0 = false)
    (hs : st.p10start = (s : Int)) (he : st.p10end = (e : Int)) (hse : s ≤ e)
    (w : List Char) :
    reAccepts (cpFlush st) w ↔
      ∃ v, 10 ^ s ≤ v ∧ v ≤ 10 ^ (e + 1) - 1 ∧ w = natStr v := by
  unfold cpFlush
  rw [hsw]
  simp only [Bool.false_eq_true, if_false]
  rw [hs, he]
  by_cases he0 : e = 0
  · subst he0
    have hs0 : s = 0 := by omega
    subst hs0
    rw [if_neg (by omega), if_neg (by omega), if_neg (by omega),
      if_neg (by omega)]
    refine Iff.trans ?_ (cls19_run_accepts [] 0 0
      (by intro tr htr; simp at htr)
      (by
        intro w2
        rw [show reOf [] = RE.eps from rfl, Matches_eps_iff]
        constructor
        · rintro rfl
          exact ⟨by simp, by simp, by intro x hx; simp at hx⟩
        · rintro ⟨h1, h2, h3⟩
          cases w2 with
          | nil => rfl
          | cons a t => simp at h2) w)
    rw [show (['[', '1', '-', '9', ']'] : List Char) ++ [] ++ [] =
      flatToks [((['[', '1', '-', '9', ']'] : List Char), cls19)] from rfl]
  · rw [if_pos (by omega : (1:Int) ≤ (e : Int))]
    by_cases hc1 : s = 0 ∧ e = 1
    · obtain ⟨rfl, rfl⟩ := hc1
      rw [if_pos (by constructor <;> rfl)]
      refine Iff.trans ?_ (cls19_run_accepts
        [((['[', '0', '-', '9', ']', '?'] : List Char), RE.opt cls09)] 0 1
        (by
          intro tr htr
          rw [List.mem_singleton] at htr
          subst htr
          exact goodTok_cls09q (QuantG.opt cls09))
        (by
          intro w2
          rw [Matches_reOf_single]
          constructor
          · intro h
            obtain ⟨h1, h2⟩ := (opt09_match w2).1 h
            exact ⟨by omega, h1, h2⟩
          · rintro ⟨h0, h1, h2⟩
            exact (opt09_match w2).2 ⟨h1, h2⟩) w)
      rw [show (['[', '1', '-', '9', ']'] : List Char) ++
        ['[', '0', '-', '9', ']'] ++ ['?'] = flatToks
          [((['[', '1', '-', '9', ']'] : List Char), cls19),
           ((['[', '0', '-', '9', ']', '?'] : List Char), RE.opt cls09)]
        from rfl]
    · rw [if_neg (by
        intro hcon
        exact hc1 ⟨by omega, by omega⟩)]
      by_cases hse2 : s = e
      · subst hse2
        by_cases he1 : s = 1
        · subst he1
          rw [if_neg (by omega), if_neg (by omega)]
          refine Iff.trans ?_ (cls19_run_accepts
            [((['[', '0', '-', '9', ']'] : List Char), cls09)] 1 1
            (by
              intro tr htr
              rw [List.mem_singleton] at htr
              subst htr
              exact cls09_tok_good)
            (by
              intro w2
              rw [Matches_reOf_single]
              constructor
              · intro h
                obtain ⟨h1, h2⟩ := (cls09_match w2).1 h
                exact ⟨by omega, by omega, h2⟩
              · rintro ⟨h1, h2, h3⟩
                exact (cls09_match w2).2 ⟨by omega, h3⟩) w)
          rw [show (['[', '1', '-', '9', ']'] : List Char) ++
            ['[', '0', '-', '9', ']'] ++ [] = flatToks
              [((['[', '1', '-', '9', ']'] : List Char), cls19),
               ((['[', '0', '-', '9', ']'] : List Char), cls09)] from rfl]
        · rw [if_pos ⟨rfl, by omega⟩]
          rw [show ((s : Int)).toNat = s from Int.toNat_natCast s]
          refine Iff.trans ?_ (cls19_run_accepts
            [((['[', '0', '-', '9', ']'] ++ ('{' :: natStr s ++ ['}']) :
              List Char), cls09.power s)] s s
            (by
              intro tr htr
              rw [List.mem_singleton] at htr
              subst htr
              exact goodTok_cls09q (QuantG.pow cls09 s))
            (by
              intro w2
              rw [Matches_reOf_single]
              constructor
              · intro h
                obtain ⟨h1, h2⟩ := (power09_match s w2).1 h
                exact ⟨by omega, by omega, h2⟩
              · rintro ⟨h1, h2, h3⟩
                exact (power09_match s w2).2 ⟨by omega, h3⟩) w)
          rw [show (['[', '1', '-', '9', ']'] : List Char) ++
            ['[', '0', '-', '9', ']'] ++ (['{'] ++ natStr s ++ ['}']) =
            flatToks
              [((['[', '1', '-', '9', ']'] : List Char), cls19),
               ((['[', '0', '-', '9', ']'] ++ ('{' :: natStr s ++ ['}']) :
                 List Char), cls09.power s)] from by
            unfold flatToks
            simp]
      · have hlt : s < e := by omega
        rw [if_neg (by omega), if_pos (by omega)]
        rw [show ((s : Int)).toNat = s from Int.toNat_natCast s,
          show ((e : Int)).toNat = e from Int.toNat_natCast e]
        refine Iff.trans ?_ (cls19_run_accepts
          [((['[', '0', '-', '9', ']'] ++
            ('{' :: natStr s ++ ',' :: natStr e ++ ['}']) : List Char),
            cls09.repRange s e)] s e
          (by
            intro tr htr
            rw [List.mem_singleton] at htr
            subst htr
            exact goodTok_cls09q (QuantG.rep cls09 s e))
          (by
            intro w2
            rw [Matches_reOf_single]
            exact repRange09_match s e (by omega) w2) w)
        rw [show (['[', '1', '-', '9', ']'] : List Char) ++
          ['[', '0', '-', '9', ']'] ++
            (['{'] ++ natStr s ++ [','] ++ natStr e ++ ['}']) =
          flatToks
            [((['[', '1', '-', '9', ']'] : List Char), cls19),
             ((['[', '0', '-', '9', ']'] ++
               ('{' :: natStr s ++ ',' :: natStr e ++ ['}']) : List Char),
               cls09.repRange s e)] from by
          unfold flatToks
          simp]

/-! ### Which alternatives are power-of-10 tokens -/

theorem shrinkRep_length (k : Nat) :
    (shrinkRep k).length = 7 + (natStr k).length := by
  unfold shrinkRep
  simp
  omega

theorem natStr_length_pos (n : Nat) : 1 ≤ (natStr n).length := by
  cases hq : natStr n with
  | nil => exact absurd hq (natStr_ne_nil n)
  | cons c t => simp

/-- Decomposition of one splitter alternative: it either starts with a
literal digit, or is a class token followed by the run. -/
theorem alt_decomp (p : List Char × List Char) (hd1 : AllDigits p.1)
    (hsp : SimplePair p) (hlo : 10 ^ (p.1.length - 1) ≤ pyInt p.1) :
    (∃ c0 t0, individual_regex p.1 p.2 = c0 :: t0 ∧ isDig c0 = true) ∨
    (∃ a2 b2 k, isDig a2 = true ∧ isDig b2 = true ∧ 1 ≤ digitVal a2 ∧
      digitVal a2 ≤ digitVal b2 ∧ p.1 = a2 :: List.replicate k '0' ∧
      p.2 = b2 :: List.replicate k '9' ∧
      individual_regex p.1 p.2 = classTok a2 b2 ++
        (if 2 ≤ k then shrinkRep k else shrinkPat k)) := by
  obtain ⟨u, a2, b2, k, ha, hb, hab, hp1, hp2⟩ := hsp
  have hu : AllDigits u := by
    intro c hc
    exact hd1 c (hp1 ▸ List.mem_append.2 (Or.inl hc))
  cases u with
  | cons c0 u2 =>
    left
    have hsplit : ∃ rest, flatToks (pairToks (c0 :: u2) a2 b2 k) =
        (c0 :: u2) ++ rest := by
      unfold pairToks
      by_cases hc : a2 = '0' ∧ b2 = '9'
      · rw [if_pos hc, flatToks_append, flatToks_litToks]
        exact ⟨_, rfl⟩
      · rw [if_neg hc, flatToks_append, flatToks_append, flatToks_litToks,
          List.append_assoc]
        exact ⟨_, rfl⟩
    obtain ⟨rest, hr⟩ := hsplit
    refine ⟨c0, u2 ++ rest, ?_, hu c0 (List.mem_cons_self _ _)⟩
    rw [show p.1 = (c0 :: u2) ++ a2 :: List.replicate k '0' from hp1,
      show p.2 = (c0 :: u2) ++ b2 :: List.replicate k '9' from hp2,
      individual_regex_toks (c0 :: u2) a2 b2 k hu, hr]
    rfl
  | nil =>
    right
    have h1 : 1 ≤ digitVal a2 := by
      have hlo2 : 10 ^ ((a2 :: List.replicate k '0').length - 1) ≤
          pyInt (a2 :: List.replicate k '0') := by
        have hp1n : p.1 = a2 :: List.replicate k '0' := by
          rw [hp1]
          rfl
        rw [← hp1n]
        exact hlo
      refine first_digit_pos ?_ hlo2
      intro x hx
      rw [List.eq_of_mem_replicate hx]
      decide
    have ha0 : ¬ (a2 = '0' ∧ b2 = '9') := by
      rintro ⟨rfl, -⟩
      rw [show digitVal '0' = 0 from rfl] at h1
      omega
    refine ⟨a2, b2, k, ha, hb, h1, hab, by rw [hp1]; rfl, by rw [hp2]; rfl, ?_⟩
    rw [show p.1 = [] ++ a2 :: List.replicate k '0' from hp1,
      show p.2 = [] ++ b2 :: List.replicate k '9' from hp2,
      individual_regex_toks [] a2 b2 k hu]
    unfold pairToks
    rw [if_neg ha0, flatToks_append, flatToks_append, flatToks_litToks,
      flatToks_classToks, flatToks_runToks]
    simp

theorem alt_ne_d09 (p : List Char × List Char) (hd1 : AllDigits p.1)
    (hsp : SimplePair p) (hlo : 10 ^ (p.1.length - 1) ≤ pyInt p.1) :
    individual_regex p.1 p.2 ≠ ['[', '0', '-', '9', ']'] := by
  rcases alt_decomp p hd1 hsp hlo with ⟨c0, t0, he, hc0⟩ |
    ⟨a2, b2, k, ha, hb, h1, hab, hq1, hq2, he⟩ <;> intro h <;> rw [he] at h
  · injection h with hA hB
    rw [hA] at hc0
    exact absurd hc0 (by decide)
  · rcases classTok_cases a2 b2 with hc | hc | hc <;> rw [hc] at h <;>
      simp only [List.cons_append, List.nil_append, List.cons.injEq] at h
    · rw [h.1] at ha
      exact absurd ha (by decide)
    · obtain ⟨-, hA, -⟩ := h
      rw [hA] at h1
      exact absurd h1 (by decide)
    · obtain ⟨-, hA, -⟩ := h
      rw [hA] at h1
      exact absurd h1 (by decide)

theorem alt_eq_band0 (p : List Char × List Char) (hd1 : AllDigits p.1)
    (hsp : SimplePair p) (hlo : 10 ^ (p.1.length - 1) ≤ pyInt p.1)
    (h : individual_regex p.1 p.2 = ['[', '1', '-', '9', ']']) :
    pyInt p.1 = 1 ∧ pyInt p.2 = 9 := by
  rcases alt_decomp p hd1 hsp hlo with ⟨c0, t0, he, hc0⟩ |
    ⟨a2, b2, k, ha, hb, h1, hab, hq1, hq2, he⟩ <;> rw [he] at h
  · injection h with hA hB
    rw [hA] at hc0
    exact absurd hc0 (by decide)
  · have hlen := congrArg List.length h
    rcases k with _ | _ | k2
    · rw [if_neg (by omega), shrinkPat_zero, List.append_nil] at h
      rcases classTok_cases a2 b2 with hc | hc | hc <;> rw [hc] at h
      · injection h with hA hB
        rw [hA] at ha
        exact absurd ha (by decide)
      · simp only [List.cons.injEq] at h
        obtain ⟨-, -, hB, -⟩ := h
        rw [hB] at hb
        exact absurd hb (by decide)
      · simp only [List.cons.injEq] at h
        obtain ⟨-, hA, -, hB, -⟩ := h
        subst hA
        subst hB
        constructor
        · rw [hq1]
          rfl
        · rw [hq2]
          rfl
    · rw [if_neg (by omega), shrinkPat_succ, shrinkPat_zero] at hlen
      rcases classTok_cases a2 b2 with hc | hc | hc <;> rw [hc] at hlen <;>
        simp at hlen
    · rw [if_pos (by omega)] at hlen
      have hsl := shrinkRep_length (k2 + 1 + 1)
      have hnl := natStr_length_pos (k2 + 1 + 1)
      rcases classTok_cases a2 b2 with hc | hc | hc <;> rw [hc] at hlen <;>
        simp only [List.length_append, List.length_cons, List.length_nil]
          at hlen <;> omega

theorem alt_eq_band1 (p : List Char × List Char) (hd1 : AllDigits p.1)
    (hsp : SimplePair p) (hlo : 10 ^ (p.1.length - 1) ≤ pyInt p.1)
    (h : individual_regex p.1 p.2 =
      ['[', '1', '-', '9', ']', '[', '0', '-', '9', ']']) :
    pyInt p.1 = 10 ∧ pyInt p.2 = 99 := by
  rcases alt_decomp p hd1 hsp hlo with ⟨c0, t0, he, hc0⟩ |
    ⟨a2, b2, k, ha, hb, h1, hab, hq1, hq2, he⟩ <;> rw [he] at h
  · injection h with hA hB
    rw [hA] at hc0
    exact absurd hc0 (by decide)
  · have hlen := congrArg List.length h
    rcases k with _ | _ | k2
    · rw [if_neg (by omega), shrinkPat_zero, List.append_nil] at h
      rcases classTok_cases a2 b2 with hc | hc | hc <;> rw [hc] at h <;>
        simp at h
    · rw [if_neg (by omega), shrinkPat_succ, shrinkPat_zero] at h
      rcases classTok_cases a2 b2 with hc | hc | hc <;> rw [hc] at h
      · injection h with hA hB
        rw [hA] at ha
        exact absurd ha (by decide)
      · simp only [List.cons_append, List.nil_append, List.cons.injEq] at h
        obtain ⟨-, -, hB, -⟩ := h
        rw [hB] at hb
        exact absurd hb (by decide)
      · simp only [List.cons_append, List.nil_append, List.cons.injEq] at h
        obtain ⟨-, hA, -, hB, -⟩ := h
        subst hA
        subst hB
        constructor
        · rw [hq1, pyInt_cons_replicate_zero]
          rfl
        · rw [hq2, pyInt_cons_replicate_nine]
          rfl
    · rw [if_pos (by omega)] at h
      rcases classTok_cases a2 b2 with hc | hc | hc <;> rw [hc] at h
      · injection h with hA hB
        rw [hA] at ha
        exact absurd ha (by decide)
      · simp only [List.cons_append, List.nil_append, List.cons.injEq] at h
        obtain ⟨-, -, hB, -⟩ := h
        rw [hB] at hb
        exact absurd hb (by decide)
      · simp only [List.cons_append, List.nil_append, List.cons.injEq] at h
        obtain ⟨-, -, -, -, -, h5⟩ := h
        have := congrArg List.length h5
        have hsl := shrinkRep_length (k2 + 1 + 1)
        have hnl := natStr_length_pos (k2 + 1 + 1)
        simp only [List.length_append, List.length_cons, List.length_nil]
          at this
        omega

theorem alt_band_rep (p : List Char × List Char) (hd1 : AllDigits p.1)
    (hsp : SimplePair p) (hlo : 10 ^ (p.1.length - 1) ≤ pyInt p.1)
    (h : bandPre.isPrefixOf (individual_regex p.1 p.2) = true) :
    ∃ k, 2 ≤ k ∧
      individual_regex p.1 p.2 = ['[', '1', '-', '9', ']'] ++ shrinkRep k ∧
      pyInt p.1 = 10 ^ k ∧ pyInt p.2 = 10 ^ (k + 1) - 1 ∧
      pyInt (((individual_regex p.1 p.2).drop bandPre.length).dropLast) =
        k := by
  obtain ⟨tail, htail⟩ : ∃ tail,
      individual_regex p.1 p.2 = bandPre ++ tail := by
    obtain ⟨t, ht⟩ := List.isPrefixOf_iff_prefix.1 h
    exact ⟨t, ht.symm⟩
  rcases alt_decomp p hd1 hsp hlo with ⟨c0, t0, he, hc0⟩ |
    ⟨a2, b2, k, ha, hb, h1, hab, hq1, hq2, he⟩
  · rw [he] at htail
    have hhd : c0 = '[' := by
      have := congrArg (fun l => l.headD ' ') htail
      simpa [bandPre] using this
    rw [hhd] at hc0
    exact absurd hc0 (by decide)
  · rw [he] at htail
    rcases k with _ | _ | k2
    · rw [if_neg (by omega), shrinkPat_zero, List.append_nil] at htail
      have hlen := congrArg List.length htail
      rcases classTok_cases a2 b2 with hc | hc | hc <;> rw [hc] at hlen <;>
        simp only [List.length_append, List.length_cons, List.length_nil,
          bandPre] at hlen <;> omega
    · rw [if_neg (by omega), shrinkPat_succ, shrinkPat_zero] at htail
      have hlen := congrArg List.length htail
      rcases classTok_cases a2 b2 with hc | hc | hc <;> rw [hc] at hlen <;>
        simp only [List.length_append, List.length_cons, List.length_nil,
          bandPre] at hlen <;> omega
    · rw [if_pos (by omega)] at htail
      rcases classTok_cases a2 b2 with hc | hc | hc <;> rw [hc] at htail
      · have hhd : a2 = '[' := by
          have := congrArg (fun l => l.headD ' ') htail
          simpa [bandPre] using this
        rw [hhd] at ha
        exact absurd ha (by decide)
      · unfold bandPre shrinkRep at htail
        simp only [List.cons_append, List.nil_append, List.append_assoc,
          List.cons.injEq] at htail
        obtain ⟨-, -, hB, -⟩ := htail
        rw [hB] at hb
        exact absurd hb (by decide)
      · unfold bandPre shrinkRep at htail
        simp only [List.cons_append, List.nil_append, List.append_assoc,
          List.cons.injEq] at htail
        obtain ⟨-, hA, -, hB, -⟩ := htail
        subst hA
        subst hB
        have hpow : 1 ≤ (10:Nat) ^ (k2 + 1 + 1) :=
          Nat.one_le_pow _ _ (by norm_num)
        refine ⟨k2 + 1 + 1, by omega, ?_, ?_, ?_, ?_⟩
        · rw [he, hc, if_pos (by omega : 2 ≤ k2 + 1 + 1)]
        · rw [hq1, pyInt_cons_replicate_zero,
            show digitVal '1' = 1 from rfl, one_mul]
        · rw [hq2, pyInt_cons_replicate_nine,
            show digitVal '9' = 9 from rfl, pow_succ]
          omega
        · rw [he, hc, if_pos (by omega : 2 ≤ k2 + 1 + 1)]
          rw [show (['[', '1', '-', '9', ']'] : List Char) ++
            shrinkRep (k2 + 1 + 1) = bandPre ++
              (natStr (k2 + 1 + 1) ++ ['}']) from by
            unfold bandPre shrinkRep
            simp]
          rw [List.drop_left, List.dropLast_concat, pyInt_natStr]

/-! ### Length accounting for the collapse pass -/

/-- Joined length plus one separator per alternative. -/
def totLen (l : List (List Char)) : Nat :=
  (l.map (fun x => x.length + 1)).sum

theorem totLen_nil : totLen [] = 0 := rfl

theorem totLen_cons (x : List Char) (l : List (List Char)) :
    totLen (x :: l) = x.length + 1 + totLen l := by
  unfold totLen
  simp

theorem totLen_append (l1 l2 : List (List Char)) :
    totLen (l1 ++ l2) = totLen l1 + totLen l2 := by
  unfold totLen
  simp

theorem joinBar_length (l : List (List Char)) (hne : l ≠ []) :
    (joinBar l).length + 1 = totLen l := by
  induction l with
  | nil => exact absurd rfl hne
  | cons x l2 ih =>
    cases l2 with
    | nil =>
      rw [joinBar_single, totLen_cons, totLen_nil]
    | cons y l3 =>
      rw [joinBar_cons2, totLen_cons]
      have h2 := ih (by simp)
      simp only [List.length_append, List.length_cons]
      omega

/-- The pending cost of an open band: the flush it will emit, plus its
separator. -/
def pendLen (st : CPState) : Nat :=
  if 0 ≤ st.p10start then (cpFlush st).length + 1 else 0

theorem alt_ne_nil (p : List Char × List Char) (hd1 : AllDigits p.1)
    (hsp : SimplePair p) : individual_regex p.1 p.2 ≠ [] := by
  obtain ⟨u, a2, b2, k, ha, hb, hab, hp1, hp2⟩ := hsp
  have hu : AllDigits u := by
    intro c hc
    exact hd1 c (hp1 ▸ List.mem_append.2 (Or.inl hc))
  rw [show p.1 = u ++ a2 :: List.replicate k '0' from hp1,
    show p.2 = u ++ b2 :: List.replicate k '9' from hp2,
    individual_regex_toks u a2 b2 k hu]
  exact flatToks_ne (pairToks_ne u a2 b2 k) (goodTok_pairToks hu ha hb)

theorem pow10_inj {a b : Nat} (h : (10:Nat) ^ a = 10 ^ b) : a = b :=
  Nat.pow_right_injective (by norm_num) h

/-- The flush of a one-exponent band is the band token itself. -/
theorem cpFlush_band (st : CPState) (k : Nat) (hsw : st.sw0 = false)
    (hs : st.p10start = (k : Int)) (he : st.p10end = (k : Int)) :
    cpFlush st = if k = 0 then ['[', '1', '-', '9', ']']
      else if k = 1 then ['[', '1', '-', '9', ']', '[', '0', '-', '9', ']']
      else ['[', '1', '-', '9', ']'] ++ shrinkRep k := by
  unfold cpFlush
  rw [hsw]
  simp only [Bool.false_eq_true, if_false]
  rw [hs, he]
  by_cases h0 : k = 0
  · subst h0
    rw [if_neg (by omega), if_neg (by omega), if_neg (by omega),
      if_neg (by omega), if_pos rfl]
    rfl
  · by_cases h1 : k = 1
    · subst h1
      rw [if_pos (by omega), if_neg (by omega), if_neg (by omega),
        if_neg (by omega), if_neg (by omega), if_pos rfl]
      rfl
    · rw [if_pos (by omega), if_neg (by omega),
        if_pos ⟨rfl, by omega⟩, if_neg h0, if_neg h1]
      rw [show ((k : Int)).toNat = k from Int.toNat_natCast k]
      unfold shrinkRep
      simp

/-- Length bounds on the flush of a band `s ≤ e`. -/
theorem cpFlush_length_bounds (st : CPState) (s e : Nat)
    (hsw : st.sw0 = false) (hs : st.p10start = (s : Int))
    (he : st.p10end = (e : Int)) (hse : s ≤ e) :
    4 + (natStr s).length ≤ (cpFlush st).length ∧
    (cpFlush st).length ≤ 13 + (natStr s).length + (natStr e).length := by
  unfold cpFlush
  rw [hsw]
  simp only [Bool.false_eq_true, if_false]
  rw [hs, he]
  have hns := natStr_length_pos s
  have hne := natStr_length_pos e
  by_cases he0 : e = 0
  · subst he0
    have hs0 : s = 0 := by omega
    subst hs0
    rw [if_neg (by omega), if_neg (by omega), if_neg (by omega),
      if_neg (by omega)]
    rw [show (natStr 0).length = 1 from rfl]
    simp
  · rw [if_pos (by omega : (1:Int) ≤ (e : Int))]
    by_cases hc1 : s = 0 ∧ e = 1
    · obtain ⟨rfl, rfl⟩ := hc1
      rw [if_pos (by constructor <;> rfl)]
      rw [show (natStr 0).length = 1 from rfl,
        show (natStr 1).length = 1 from rfl]
      simp
    · rw [if_neg (by
        intro hcon
        exact hc1 ⟨by omega, by omega⟩)]
      by_cases hse2 : s = e
      · subst hse2
        by_cases he1 : s = 1
        · subst he1
          rw [if_neg (by omega), if_neg (by omega)]
          rw [show (natStr 1).length = 1 from rfl]
          simp
        · rw [if_pos ⟨rfl, by omega⟩]
          rw [show ((s : Int)).toNat = s from Int.toNat_natCast s]
          simp only [List.length_append, List.length_cons, List.length_nil]
          omega
      · rw [if_neg (by omega), if_pos (by omega)]
        rw [show ((s : Int)).toNat = s from Int.toNat_natCast s,
          show ((e : Int)).toNat = e from Int.toNat_natCast e]
        simp only [List.length_append, List.length_cons, List.length_nil]
        omega

/-! ### The `collapse_powers_of_10` fold: value semantics and length -/

/-- The `collapse_powers_of_10` loop, started from an arbitrary state and
accumulated output. -/
def cpFoldF (st : CPState) (out : List (List Char)) (l : List (List Char)) :
    CPState × List (List Char) :=
  l.foldl (fun (acc : CPState × List (List Char)) r =>
    ((cpStep acc.1 r).1, acc.2 ++ (cpStep acc.1 r).2)) (st, out)

theorem cpFoldF_nil (st : CPState) (out : List (List Char)) :
    cpFoldF st out [] = (st, out) := rfl

theorem cpFoldF_cons (st : CPState) (out : List (List Char)) (r : List Char)
    (l : List (List Char)) :
    cpFoldF st out (r :: l) =
      cpFoldF (cpStep st r).1 (out ++ (cpStep st r).2) l := by
  unfold cpFoldF
  rw [List.foldl_cons]

theorem cpFoldF_append (st : CPState) (out : List (List Char))
    (l1 l2 : List (List Char)) :
    cpFoldF st out (l1 ++ l2) =
      cpFoldF (cpFoldF st out l1).1 (cpFoldF st out l1).2 l2 := by
  unfold cpFoldF
  rw [List.foldl_append]

theorem collapse_eq_cpFoldF (regexes : List (List Char)) :
    collapse_powers_of_10 regexes =
      (cpFoldF { p10start := -1, p10end := -1, sw0 := false } []
        (regexes ++ [[]])).2 := rfl

/-- The `collapse_powers_of_10` step on the sentinel with no open band
passes the state through and emits nothing. -/
theorem cpStep_sentinel_neg (st : CPState) (h : st.p10start < 0) :
    cpStep st [] = (st, []) := by
  unfold cpStep
  rw [if_neg (show ¬ ([] : List Char) = ['[', '0', '-', '9', ']'] by decide),
    if_neg (show ¬ ([] : List Char) = ['[', '1', '-', '9', ']'] by decide),
    if_neg (show ¬ ([] : List Char) =
      ['[', '1', '-', '9', ']', '[', '0', '-', '9', ']'] by decide),
    if_neg (show ¬ bandPre.isPrefixOf ([] : List Char) = true by decide),
    if_neg (show ¬ (0 : Int) ≤ st.p10start by omega), if_pos rfl]

/-- The alternation of `out` matches exactly the canonical strings of the
values in `[a0, hi)`. -/
def outLang (out : List (List Char)) (a0 hi : Nat) : Prop :=
  ∀ w, (∃ x ∈ out, reAccepts x w) ↔ ∃ v2, a0 ≤ v2 ∧ v2 < hi ∧ w = natStr v2

/-- Invariant of the `collapse_powers_of_10` fold over the splitter's
regexes: either no band is open and the output so far covers `[a0, v)`,
or a band `(s, e2)` is open, the band and the output together cover
`[a0, v)` with `v = 10 ^ (e2 + 1)`, and the output alone covers
`[a0, 10 ^ s)`.  The emitted length (plus the pending flush) never
exceeds the consumed length. -/
theorem collapse_fold_inv (pl : List (List Char × List Char)) :
    ∀ (st : CPState) (out : List (List Char)) (a0 v b0 : Nat),
    ChainCov (pairVals pl) v b0 →
    (∀ q ∈ pl, AllDigits q.1 ∧ SimplePair q ∧
      10 ^ (q.1.length - 1) ≤ pyInt q.1) →
    st.sw0 = false →
    ((st.p10start < 0 ∧ a0 ≤ v ∧ outLang out a0 v) ∨
     (∃ s e2 : Nat, st.p10start = (s : Int) ∧ st.p10end = (e2 : Int) ∧
       s ≤ e2 ∧ v = 10 ^ (e2 + 1) ∧ a0 ≤ 10 ^ s ∧ outLang out a0 (10 ^ s))) →
    (cpFoldF st out (pl.map (fun q => individual_regex q.1 q.2))).1.sw0 =
      false ∧
    (((cpFoldF st out (pl.map (fun q => individual_regex q.1 q.2))).1.p10start
        < 0 ∧
      a0 ≤ b0 + 1 ∧
      outLang (cpFoldF st out
        (pl.map (fun q => individual_regex q.1 q.2))).2 a0 (b0 + 1)) ∨
     (∃ s e2 : Nat,
       (cpFoldF st out
         (pl.map (fun q => individual_regex q.1 q.2))).1.p10start = (s : Int) ∧
       (cpFoldF st out
         (pl.map (fun q => individual_regex q.1 q.2))).1.p10end = (e2 : Int) ∧
       s ≤ e2 ∧ b0 + 1 = 10 ^ (e2 + 1) ∧ a0 ≤ 10 ^ s ∧
       outLang (cpFoldF st out
         (pl.map (fun q => individual_regex q.1 q.2))).2 a0 (10 ^ s))) ∧
    totLen (cpFoldF st out (pl.map (fun q => individual_regex q.1 q.2))).2 +
      pendLen (cpFoldF st out
        (pl.map (fun q => individual_regex q.1 q.2))).1 ≤
      totLen out + pendLen st +
        totLen (pl.map (fun q => individual_regex q.1 q.2)) := by
  induction pl with
  | nil =>
    intro st out a0 v b0 hC hG hsw hbr
    have hv : v = b0 + 1 := hC
    subst hv
    simp only [List.map_nil]
    refine ⟨hsw, hbr, ?_⟩
    show totLen out + pendLen st ≤ totLen out + pendLen st + totLen []
    omega
  | cons p pl2 ih =>
    intro st out a0 v b0 hC hG hsw hbr
    obtain ⟨hd1, hsp, hlo⟩ := hG p (List.mem_cons_self _ _)
    have hG2 : ∀ q ∈ pl2, AllDigits q.1 ∧ SimplePair q ∧
        10 ^ (q.1.length - 1) ≤ pyInt q.1 :=
      fun q hq => hG q (List.mem_cons_of_mem _ hq)
    have hCc : ChainCov ((pyInt p.1, pyInt p.2) :: pairVals pl2) v b0 := hC
    obtain ⟨hx0, hxy0, hCrest0⟩ := hCc
    have hx : pyInt p.1 = v := hx0
    have hxy : pyInt p.1 ≤ pyInt p.2 := hxy0
    have hCrest : ChainCov (pairVals pl2) (pyInt p.2 + 1) b0 := hCrest0
    simp only [List.map_cons]
    rw [cpFoldF_cons]
    by_cases hB1 : individual_regex p.1 p.2 = ['[', '0', '-', '9', ']']
    · exact absurd hB1 (alt_ne_d09 p hd1 hsp hlo)
    by_cases hB2 : individual_regex p.1 p.2 = ['[', '1', '-', '9', ']']
    · -- a fresh one-digit band "[1-9]"
      obtain ⟨hx1, hy9⟩ := alt_eq_band0 p hd1 hsp hlo hB2
      have hstep : cpStep st (individual_regex p.1 p.2) =
          ({ st with p10start := 0, p10end := 0 }, []) := by
        unfold cpStep
        rw [if_neg hB1, if_pos hB2]
      have hstep1 : (cpStep st (individual_regex p.1 p.2)).1 =
          { st with p10start := 0, p10end := 0 } := by rw [hstep]
      have hstep2 : (cpStep st (individual_regex p.1 p.2)).2 =
          ([] : List (List Char)) := by rw [hstep]
      rw [hstep1, hstep2, List.append_nil]
      rcases hbr with ⟨hneg, hav, hlang⟩ |
        ⟨s, e2, hs, he, hse, hve, has, hlang⟩
      · have hv1 : v = 1 := by omega
        have hsX : ({ st with p10start := 0, p10end := 0 } :
            CPState).p10start = ((0 : Nat) : Int) := rfl
        have heX : ({ st with p10start := 0, p10end := 0 } :
            CPState).p10end = ((0 : Nat) : Int) := rfl
        have hveX : pyInt p.2 + 1 = 10 ^ (0 + 1) := by
          rw [hy9]
          norm_num
        have haX : a0 ≤ 10 ^ 0 := by
          rw [pow_zero]
          omega
        have hlangX : outLang out a0 (10 ^ 0) := by
          intro w
          rw [pow_zero, ← hv1]
          exact hlang w
        obtain ⟨ih1, ih2, ih3⟩ := ih { st with p10start := 0, p10end := 0 }
          out a0 (pyInt p.2 + 1) b0 hCrest hG2 hsw
          (Or.inr ⟨0, 0, hsX, heX, le_refl 0, hveX, haX, hlangX⟩)
        refine ⟨ih1, ih2, ?_⟩
        have hpO : pendLen st = 0 := by
          unfold pendLen
          rw [if_neg (show ¬ (0 : Int) ≤ st.p10start by omega)]
        have hpN : pendLen ({ st with p10start := 0, p10end := 0 } :
            CPState) = 6 := by
          unfold pendLen
          rw [hsX, if_pos (show (0 : Int) ≤ ((0 : Nat) : Int) by omega)]
          rw [cpFlush_band ({ st with p10start := 0, p10end := 0 } :
            CPState) 0 hsw hsX heX, if_pos rfl]
          rfl
        have hL : (individual_regex p.1 p.2).length = 5 := by
          rw [hB2]
          rfl
        rw [totLen_cons, hL, hpO]
        rw [hpN] at ih3
        omega
      · exfalso
        have h10 : (10 : Nat) ≤ 10 ^ (e2 + 1) := by
          calc (10 : Nat) = 10 ^ 1 := by norm_num
          _ ≤ 10 ^ (e2 + 1) := Nat.pow_le_pow_right (by norm_num) (by omega)
        omega
    by_cases hB3 : individual_regex p.1 p.2 =
        ['[', '1', '-', '9', ']', '[', '0', '-', '9', ']']
    · -- the two-digit band "[1-9][0-9]"
      obtain ⟨hx10, hy99⟩ := alt_eq_band1 p hd1 hsp hlo hB3
      have hstep : cpStep st (individual_regex p.1 p.2) =
          ({ st with
              p10start := if st.p10start < 0 then 1 else st.p10start,
              p10end := 1 }, []) := by
        unfold cpStep
        rw [if_neg hB1, if_neg hB2, if_pos hB3]
      have hstep1 : (cpStep st (individual_regex p.1 p.2)).1 =
          { st with
            p10start := if st.p10start < 0 then 1 else st.p10start,
            p10end := 1 } := by rw [hstep]
      have hstep2 : (cpStep st (individual_regex p.1 p.2)).2 =
          ([] : List (List Char)) := by rw [hstep]
      rw [hstep1, hstep2, List.append_nil]
      have hL : (individual_regex p.1 p.2).length = 10 := by
        rw [hB3]
        rfl
      have heX : ({ st with
          p10start := if st.p10start < 0 then 1 else st.p10start,
          p10end := 1 } : CPState).p10end = ((1 : Nat) : Int) := rfl
      rcases hbr with ⟨hneg, hav, hlang⟩ |
        ⟨s, e2, hs, he, hse, hve, has, hlang⟩
      · -- fresh band (1, 1)
        have hv10 : v = 10 := by omega
        have hsX : ({ st with
            p10start := if st.p10start < 0 then 1 else st.p10start,
            p10end := 1 } : CPState).p10start = ((1 : Nat) : Int) := by
          show (if st.p10start < 0 then (1 : Int) else st.p10start) =
            ((1 : Nat) : Int)
          rw [if_pos hneg]
          rfl
        have hveX : pyInt p.2 + 1 = 10 ^ (1 + 1) := by
          rw [hy99]
          norm_num
        have haX : a0 ≤ 10 ^ 1 := by
          rw [pow_one]
          omega
        have hlangX : outLang out a0 (10 ^ 1) := by
          intro w
          rw [pow_one, ← hv10]
          exact hlang w
        obtain ⟨ih1, ih2, ih3⟩ := ih
          { st with
            p10start := if st.p10start < 0 then 1 else st.p10start,
            p10end := 1 }
          out a0 (pyInt p.2 + 1) b0 hCrest hG2 hsw
          (Or.inr ⟨1, 1, hsX, heX, le_refl 1, hveX, haX, hlangX⟩)
        refine ⟨ih1, ih2, ?_⟩
        have hpO : pendLen st = 0 := by
          unfold pendLen
          rw [if_neg (show ¬ (0 : Int) ≤ st.p10start by omega)]
        have hpN : pendLen ({ st with
            p10start := if st.p10start < 0 then 1 else st.p10start,
            p10end := 1 } : CPState) = 11 := by
          unfold pendLen
          rw [hsX, if_pos (show (0 : Int) ≤ ((1 : Nat) : Int) by omega)]
          rw [cpFlush_band ({ st with
            p10start := if st.p10start < 0 then 1 else st.p10start,
            p10end := 1 } : CPState) 1 hsw hsX heX,
            if_neg (show ¬ (1 : Nat) = 0 by omega), if_pos rfl]
          rfl
        rw [totLen_cons, hL, hpO]
        rw [hpN] at ih3
        omega
      · -- extending the band (0, 0) to (0, 1)
        have hv10 : v = 10 := by omega
        have he20 : e2 = 0 := by
          have hpe : (10 : Nat) ^ (e2 + 1) = 10 ^ 1 := by
            rw [← hve, hv10]
            norm_num
          have := pow10_inj hpe
          omega
        have hs0 : s = 0 := by omega
        subst he20
        subst hs0
        have hsX : ({ st with
            p10start := if st.p10start < 0 then 1 else st.p10start,
            p10end := 1 } : CPState).p10start = ((0 : Nat) : Int) := by
          show (if st.p10start < 0 then (1 : Int) else st.p10start) =
            ((0 : Nat) : Int)
          rw [if_neg (show ¬ st.p10start < 0 by rw [hs]; omega)]
          exact hs
        have hveX : pyInt p.2 + 1 = 10 ^ (1 + 1) := by
          rw [hy99]
          norm_num
        have hlangX : outLang out a0 (10 ^ 0) := fun w => hlang w
        obtain ⟨ih1, ih2, ih3⟩ := ih
          { st with
            p10start := if st.p10start < 0 then 1 else st.p10start,
            p10end := 1 }
          out a0 (pyInt p.2 + 1) b0 hCrest hG2 hsw
          (Or.inr ⟨0, 1, hsX, heX, by omega, hveX, has, hlangX⟩)
        refine ⟨ih1, ih2, ?_⟩
        have hpO : pendLen st = 6 := by
          unfold pendLen
          rw [hs, if_pos (show (0 : Int) ≤ ((0 : Nat) : Int) by omega)]
          rw [cpFlush_band st 0 hsw hs he, if_pos rfl]
          rfl
        have hpN : pendLen ({ st with
            p10start := if st.p10start < 0 then 1 else st.p10start,
            p10end := 1 } : CPState) ≤ 16 := by
          unfold pendLen
          rw [hsX, if_pos (show (0 : Int) ≤ ((0 : Nat) : Int) by omega)]
          have hb := (cpFlush_length_bounds ({ st with
            p10start := if st.p10start < 0 then 1 else st.p10start,
            p10end := 1 } : CPState) 0 1 hsw hsX heX (by omega)).2
          rw [show (natStr 0).length = 1 from rfl,
            show (natStr 1).length = 1 from rfl] at hb
          omega
        rw [totLen_cons, hL, hpO]
        omega
    by_cases hB4 : bandPre.isPrefixOf (individual_regex p.1 p.2) = true
    · -- a shrunk power-of-10 band "[1-9][0-9]{k}"
      obtain ⟨k, hk2, haltEq, hxk, hyk, hn⟩ := alt_band_rep p hd1 hsp hlo hB4
      have hstep : cpStep st (individual_regex p.1 p.2) =
          ({ st with
              p10start := if st.p10start < 0 then ((k : Nat) : Int)
                else st.p10start,
              p10end := ((k : Nat) : Int) }, []) := by
        unfold cpStep
        rw [if_neg hB1, if_neg hB2, if_neg hB3, if_pos hB4]
        show ({ st with
            p10start := if st.p10start < 0 then
              ((pyInt (((individual_regex p.1 p.2).drop
                bandPre.length).dropLast) : Int))
              else st.p10start,
            p10end := ((pyInt (((individual_regex p.1 p.2).drop
              bandPre.length).dropLast) : Int)) },
          ([] : List (List Char))) = _
        rw [hn]
      have hstep1 : (cpStep st (individual_regex p.1 p.2)).1 =
          { st with
            p10start := if st.p10start < 0 then ((k : Nat) : Int)
              else st.p10start,
            p10end := ((k : Nat) : Int) } := by rw [hstep]
      have hstep2 : (cpStep st (individual_regex p.1 p.2)).2 =
          ([] : List (List Char)) := by rw [hstep]
      rw [hstep1, hstep2, List.append_nil]
      have hL : (individual_regex p.1 p.2).length =
          12 + (natStr k).length := by
        rw [haltEq, List.length_append, shrinkRep_length]
        show 5 + (7 + (natStr k).length) = 12 + (natStr k).length
        omega
      have heX : ({ st with
          p10start := if st.p10start < 0 then ((k : Nat) : Int)
            else st.p10start,
          p10end := ((k : Nat) : Int) } : CPState).p10end =
          ((k : Nat) : Int) := rfl
      have h1p : 1 ≤ (10 : Nat) ^ (k + 1) := Nat.one_le_pow _ _ (by norm_num)
      rcases hbr with ⟨hneg, hav, hlang⟩ |
        ⟨s, e2, hs, he, hse, hve, has, hlang⟩
      · -- fresh band (k, k)
        have hvk : v = 10 ^ k := by omega
        have hsX : ({ st with
            p10start := if st.p10start < 0 then ((k : Nat) : Int)
              else st.p10start,
            p10end := ((k : Nat) : Int) } : CPState).p10start =
            ((k : Nat) : Int) := by
          show (if st.p10start < 0 then ((k : Nat) : Int) else st.p10start) =
            ((k : Nat) : Int)
          rw [if_pos hneg]
        have hveX : pyInt p.2 + 1 = 10 ^ (k + 1) := by omega
        have haX : a0 ≤ 10 ^ k := by omega
        have hlangX : outLang out a0 (10 ^ k) := by
          intro w
          rw [← hvk]
          exact hlang w
        obtain ⟨ih1, ih2, ih3⟩ := ih
          { st with
            p10start := if st.p10start < 0 then ((k : Nat) : Int)
              else st.p10start,
            p10end := ((k : Nat) : Int) }
          out a0 (pyInt p.2 + 1) b0 hCrest hG2 hsw
          (Or.inr ⟨k, k, hsX, heX, le_refl k, hveX, haX, hlangX⟩)
        refine ⟨ih1, ih2, ?_⟩
        have hpO : pendLen st = 0 := by
          unfold pendLen
          rw [if_neg (show ¬ (0 : Int) ≤ st.p10start by omega)]
        have hpN : pendLen ({ st with
            p10start := if st.p10start < 0 then ((k : Nat) : Int)
              else st.p10start,
            p10end := ((k : Nat) : Int) } : CPState) =
            13 + (natStr k).length := by
          unfold pendLen
          rw [hsX, if_pos (show (0 : Int) ≤ ((k : Nat) : Int) by omega)]
          rw [cpFlush_band ({ st with
            p10start := if st.p10start < 0 then ((k : Nat) : Int)
              else st.p10start,
            p10end := ((k : Nat) : Int) } : CPState) k hsw hsX heX,
            if_neg (show ¬ k = 0 by omega), if_neg (show ¬ k = 1 by omega)]
          rw [List.length_append, shrinkRep_length]
          show 5 + (7 + (natStr k).length) + 1 = 13 + (natStr k).length
          omega
        rw [totLen_cons, hL, hpO]
        rw [hpN] at ih3
        omega
      · -- extending the band (s, e2) to (s, k) with e2 + 1 = k
        have hvk : v = 10 ^ k := by omega
        have hek : e2 + 1 = k := pow10_inj (by rw [← hve, hvk])
        have hsk : s ≤ k := by omega
        have hsX : ({ st with
            p10start := if st.p10start < 0 then ((k : Nat) : Int)
              else st.p10start,
            p10end := ((k : Nat) : Int) } : CPState).p10start =
            ((s : Nat) : Int) := by
          show (if st.p10start < 0 then ((k : Nat) : Int) else st.p10start) =
            ((s : Nat) : Int)
          rw [if_neg (show ¬ st.p10start < 0 by rw [hs]; omega)]
          exact hs
        have hveX : pyInt p.2 + 1 = 10 ^ (k + 1) := by omega
        have hlangX : outLang out a0 (10 ^ s) := fun w => hlang w
        obtain ⟨ih1, ih2, ih3⟩ := ih
          { st with
            p10start := if st.p10start < 0 then ((k : Nat) : Int)
              else st.p10start,
            p10end := ((k : Nat) : Int) }
          out a0 (pyInt p.2 + 1) b0 hCrest hG2 hsw
          (Or.inr ⟨s, k, hsX, heX, hsk, hveX, has, hlangX⟩)


        refine ⟨ih1, ih2, ?_⟩
        have hb1 := (cpFlush_length_bounds st s e2 hsw hs he hse).1
        have hpO : 5 + (natStr s).length ≤ pendLen st := by
          unfold pendLen
          rw [hs, if_pos (show (0 : Int) ≤ ((s : Nat) : Int) by omega)]
          omega
        have hb2 := (cpFlush_length_bounds ({ st with
            p10start := if st.p10start < 0 then ((k : Nat) : Int)
              else st.p10start,
            p10end := ((k : Nat) : Int) } : CPState) s k hsw hsX heX hsk).2
        have hpN : pendLen ({ st with
            p10start := if st.p10start < 0 then ((k : Nat) : Int)
              else st.p10start,
            p10end := ((k : Nat) : Int) } : CPState) ≤
            14 + (natStr s).length + (natStr k).length := by
          unfold pendLen
          rw [hsX, if_pos (show (0 : Int) ≤ ((s : Nat) : Int) by omega)]
          omega
        rw [totLen_cons, hL]
        omega
    -- a non-matching alternative: pass-through, flushing any open band
    rcases hbr with ⟨hneg, hav, hlang⟩ |
      ⟨s, e2, hs, he, hse, hve, has, hlang⟩
    · -- no band open: the alternative passes through unchanged
      have hstep : cpStep st (individual_regex p.1 p.2) =
          (st, [individual_regex p.1 p.2]) := by
        unfold cpStep
        rw [if_neg hB1, if_neg hB2, if_neg hB3, if_neg hB4,
          if_neg (show ¬ (0 : Int) ≤ st.p10start by omega),
          if_neg (alt_ne_nil p hd1 hsp)]
      have hstep1 : (cpStep st (individual_regex p.1 p.2)).1 = st := by
        rw [hstep]
      have hstep2 : (cpStep st (individual_regex p.1 p.2)).2 =
          [individual_regex p.1 p.2] := by rw [hstep]
      rw [hstep1, hstep2]
      have hlangX : outLang (out ++ [individual_regex p.1 p.2]) a0
          (pyInt p.2 + 1) := by
        intro w
        constructor
        · rintro ⟨x, hx2, hacc⟩
          rcases List.mem_append.1 hx2 with hxo | hxs
          · obtain ⟨v2, ha2, hb2, rfl⟩ := (hlang w).1 ⟨x, hxo, hacc⟩
            exact ⟨v2, ha2, by omega, rfl⟩
          · rw [List.mem_singleton] at hxs
            subst hxs
            obtain ⟨v2, ha2, hb2, rfl⟩ := (alt_lang p hd1 hsp hlo w).1 hacc
            exact ⟨v2, by omega, by omega, rfl⟩
        · rintro ⟨v2, ha2, hb2, rfl⟩
          by_cases hc1 : v2 < v
          · obtain ⟨x, hxo, hacc⟩ := (hlang (natStr v2)).2 ⟨v2, ha2, hc1, rfl⟩
            exact ⟨x, List.mem_append.2 (Or.inl hxo), hacc⟩
          · refine ⟨individual_regex p.1 p.2,
              List.mem_append.2 (Or.inr (List.mem_singleton.2 rfl)), ?_⟩
            exact (alt_lang p hd1 hsp hlo _).2 ⟨v2, by omega, by omega, rfl⟩
      obtain ⟨ih1, ih2, ih3⟩ := ih st (out ++ [individual_regex p.1 p.2])
        a0 (pyInt p.2 + 1) b0 hCrest hG2 hsw
        (Or.inl ⟨hneg, by omega, hlangX⟩)
      refine ⟨ih1, ih2, ?_⟩
      have htA : totLen (out ++ [individual_regex p.1 p.2]) =
          totLen out + ((individual_regex p.1 p.2).length + 1) := by
        rw [totLen_append, totLen_cons, totLen_nil]
      rw [htA] at ih3
      rw [totLen_cons]
      omega
    · -- a band is open: it is flushed, then the alternative passes through
      have hstep : cpStep st (individual_regex p.1 p.2) =
          ({ st with p10start := -1, p10end := -1 },
            cpFlush st :: [individual_regex p.1 p.2]) := by
        unfold cpStep
        rw [if_neg hB1, if_neg hB2, if_neg hB3, if_neg hB4,
          if_pos (show (0 : Int) ≤ st.p10start by rw [hs]; omega),
          if_neg (alt_ne_nil p hd1 hsp)]
      have hstep1 : (cpStep st (individual_regex p.1 p.2)).1 =
          { st with p10start := -1, p10end := -1 } := by rw [hstep]
      have hstep2 : (cpStep st (individual_regex p.1 p.2)).2 =
          cpFlush st :: [individual_regex p.1 p.2] := by rw [hstep]
      rw [hstep1, hstep2]
      have hpow : (10 : Nat) ^ s ≤ 10 ^ (e2 + 1) :=
        Nat.pow_le_pow_right (by norm_num) (by omega)
      have hlangX : outLang
          (out ++ (cpFlush st :: [individual_regex p.1 p.2])) a0
          (pyInt p.2 + 1) := by
        intro w
        constructor
        · rintro ⟨x, hx2, hacc⟩
          rcases List.mem_append.1 hx2 with hxo | hxf
          · obtain ⟨v2, ha2, hb2, rfl⟩ := (hlang w).1 ⟨x, hxo, hacc⟩
            exact ⟨v2, ha2, by omega, rfl⟩
          · rcases List.mem_cons.1 hxf with rfl | hxs
            · obtain ⟨v2, ha2, hb2, rfl⟩ :=
                (cpFlush_lang st s e2 hsw hs he hse w).1 hacc
              exact ⟨v2, by omega, by omega, rfl⟩
            · rw [List.mem_singleton] at hxs
              subst hxs
              obtain ⟨v2, ha2, hb2, rfl⟩ := (alt_lang p hd1 hsp hlo w).1 hacc
              exact ⟨v2, by omega, by omega, rfl⟩
        · rintro ⟨v2, ha2, hb2, rfl⟩
          by_cases hc1 : v2 < 10 ^ s
          · obtain ⟨x, hxo, hacc⟩ := (hlang (natStr v2)).2 ⟨v2, ha2, hc1, rfl⟩
            exact ⟨x, List.mem_append.2 (Or.inl hxo), hacc⟩
          · by_cases hc2 : v2 < 10 ^ (e2 + 1)
            · refine ⟨cpFlush st,
                List.mem_append.2 (Or.inr (List.mem_cons_self _ _)), ?_⟩
              exact (cpFlush_lang st s e2 hsw hs he hse _).2
                ⟨v2, by omega, by omega, rfl⟩
            · refine ⟨individual_regex p.1 p.2,
                List.mem_append.2 (Or.inr (List.mem_cons_of_mem _
                  (List.mem_singleton.2 rfl))), ?_⟩
              exact (alt_lang p hd1 hsp hlo _).2 ⟨v2, by omega, by omega, rfl⟩
      obtain ⟨ih1, ih2, ih3⟩ := ih { st with p10start := -1, p10end := -1 }
        (out ++ (cpFlush st :: [individual_regex p.1 p.2]))
        a0 (pyInt p.2 + 1) b0 hCrest hG2 hsw
        (Or.inl ⟨show (-1 : Int) < 0 by omega, by omega, hlangX⟩)
      refine ⟨ih1, ih2, ?_⟩
      have htA : totLen (out ++ (cpFlush st :: [individual_regex p.1 p.2])) =
          totLen out + ((cpFlush st).length + 1) +
            ((individual_regex p.1 p.2).length + 1) := by
        rw [totLen_append, totLen_cons, totLen_cons, totLen_nil]
        omega
      have hpN0 : pendLen ({ st with p10start := -1, p10end := -1 } :
          CPState) = 0 := by
        unfold pendLen
        rw [if_neg (show ¬ (0 : Int) ≤ (-1 : Int) by omega)]
      have hpO : pendLen st = (cpFlush st).length + 1 := by
        unfold pendLen
        rw [hs, if_pos (show (0 : Int) ≤ ((s : Nat) : Int) by omega)]
      rw [htA, hpN0] at ih3
      rw [totLen_cons, hpO]
      omega

/-- The collapsed regex list of one positive compilation: its alternation
matches exactly the canonical strings of the values in `[a, b]`, and its
total joined length never exceeds the splitter's. -/
theorem collapse_main (a b : Nat) (h1 : 1 ≤ a) (hle : a ≤ b) :
    (∀ w, ((∃ x ∈ collapse_powers_of_10 (range_to_regexes a b),
        reAccepts x w) ↔
      ∃ v, a ≤ v ∧ v ≤ b ∧ w = natStr v)) ∧
    totLen (collapse_powers_of_10 (range_to_regexes a b)) ≤
      totLen (range_to_regexes a b) := by
  obtain ⟨hC, hP⟩ := break_into_ranges_correct a b h1 hle
  have hmap : range_to_regexes a b =
      (break_into_ranges a b).map (fun q => individual_regex q.1 q.2) := by
    unfold range_to_regexes ranges_to_regexes
    rw [if_neg (show ¬ a > b by omega)]
  have hG : ∀ q ∈ break_into_ranges a b, AllDigits q.1 ∧ SimplePair q ∧
      10 ^ (q.1.length - 1) ≤ pyInt q.1 := by
    intro q hq
    obtain ⟨u1, u2, u3, u4, u5, u6⟩ := hP q hq
    exact ⟨u1, u5, u6⟩
  have hlang0 : outLang ([] : List (List Char)) a a := by
    intro w
    constructor
    · rintro ⟨x, hx2, -⟩
      exact absurd hx2 (List.not_mem_nil x)
    · rintro ⟨v2, hv1, hv2, -⟩
      omega
  set R := cpFoldF { p10start := -1, p10end := -1, sw0 := false } []
    ((break_into_ranges a b).map (fun q => individual_regex q.1 q.2))
    with hR
  have hout : collapse_powers_of_10 (range_to_regexes a b) =
      R.2 ++ (cpStep R.1 []).2 := by
    rw [collapse_eq_cpFoldF, hmap, cpFoldF_append, ← hR, cpFoldF_cons,
      cpFoldF_nil]
  have hM := collapse_fold_inv (break_into_ranges a b)
    { p10start := -1, p10end := -1, sw0 := false } [] a a b hC hG rfl
    (Or.inl ⟨show ((-1 : Int) < 0) by omega, le_refl a, hlang0⟩)
  rw [← hR] at hM
  obtain ⟨hswF, hinvF, hlenF⟩ := hM
  have hpi : pendLen ({ p10start := -1, p10end := -1, sw0 := false } :
      CPState) = 0 := by
    unfold pendLen
    rw [if_neg (show ¬ (0 : Int) ≤
      ({ p10start := -1, p10end := -1, sw0 := false } : CPState).p10start
      by decide)]
  rw [totLen_nil, hpi] at hlenF
  rcases hinvF with ⟨hneg, -, hlang⟩ | ⟨s, e2, hs, he, hse, hveq, has, hlang⟩
  · have hs2 : (cpStep R.1 []).2 = [] := by
      rw [cpStep_sentinel_neg R.1 hneg]
    rw [hs2, List.append_nil] at hout
    constructor
    · intro w
      rw [hout, hlang w]
      constructor
      · rintro ⟨v2, hv1, hv2, rfl⟩
        exact ⟨v2, hv1, by omega, rfl⟩
      · rintro ⟨v2, hv1, hv2, rfl⟩
        exact ⟨v2, hv1, by omega, rfl⟩
    · rw [hout, hmap]
      omega
  · have hs2 : (cpStep R.1 []).2 = [cpFlush R.1] :=
      cpStep_sentinel R.1 (by rw [hs]; omega)
    rw [hs2] at hout
    have hpow : (10 : Nat) ^ s ≤ 10 ^ (e2 + 1) :=
      Nat.pow_le_pow_right (by norm_num) (by omega)
    constructor
    · intro w
      rw [hout]
      constructor
      · rintro ⟨x, hx2, hacc⟩
        rcases List.mem_append.1 hx2 with hxo | hxf
        · obtain ⟨v2, hv1, hv2, rfl⟩ := (hlang w).1 ⟨x, hxo, hacc⟩
          exact ⟨v2, hv1, by omega, rfl⟩
        · rw [List.mem_singleton] at hxf
          subst hxf
          obtain ⟨v2, hv1, hv2, rfl⟩ :=
            (cpFlush_lang R.1 s e2 hswF hs he hse w).1 hacc
          exact ⟨v2, by omega, by omega, rfl⟩
      · rintro ⟨v2, hv1, hv2, rfl⟩
        by_cases hc : v2 < 10 ^ s
        · obtain ⟨x, hxo, hacc⟩ := (hlang (natStr v2)).2 ⟨v2, hv1, hc, rfl⟩
          exact ⟨x, List.mem_append.2 (Or.inl hxo), hacc⟩
        · refine ⟨cpFlush R.1,
            List.mem_append.2 (Or.inr (List.mem_singleton.2 rfl)), ?_⟩
          exact (cpFlush_lang R.1 s e2 hswF hs he hse _).2
            ⟨v2, by omega, by omega, rfl⟩
    · have hp1 : pendLen R.1 = (cpFlush R.1).length + 1 := by
        unfold pendLen
        rw [hs, if_pos (show (0 : Int) ≤ ((s : Nat) : Int) by omega)]
      rw [hout, totLen_append, totLen_cons, totLen_nil, hmap]
      rw [hp1] at hlenF
      omega

/-- Anchored acceptance through a complete grammar derivation. -/
theorem reAccepts_of_gram {p : List Char} {r : RE} (h : Gram GCat.alt p r)
    (w : List Char) : reAccepts p w ↔ r.Matches w := by
  rw [reAccepts_iff]
  constructor
  · rintro ⟨r2, hp2, hm2⟩
    rw [gram_parseRE h, Option.some.injEq] at hp2
    rw [← hp2] at hm2
    exact hm2
  · intro hm
    exact ⟨r, gram_parseRE h, hm⟩

/-- For positive ordered bounds the inner pipeline's result parses, and its
language is exactly the canonical strings of the values in `[a, b]`. -/
theorem rfr_gram (a b : Nat) (h1 : 1 ≤ a) (hle : a ≤ b) :
    ∃ r, Gram GCat.seq (regex_for_range a b) r ∧
      ∀ w, (r.Matches w ↔ ∃ v, a ≤ v ∧ v ≤ b ∧ w = natStr v) := by
  have hcne : collapse_powers_of_10 (range_to_regexes a b) ≠ [] :=
    collapse_ne_nil _ (range_to_regexes_ne a b h1 hle)
      (range_to_regexes_nePats a b)
  obtain ⟨r, hg, hl⟩ := rfrTail_lang _ (pipeline_tokStr a b) hcne
  exact ⟨r, hg, fun w => (hl w).trans ((collapse_main a b h1 hle).1 w)⟩

/-- For positive ordered bounds the inner pipeline accepts exactly the
canonical strings of the values in `[a, b]`. -/
theorem rfr_lang (a b : Nat) (h1 : 1 ≤ a) (hle : a ≤ b) (w : List Char) :
    reAccepts (regex_for_range a b) w ↔
      ∃ v, a ≤ v ∧ v ≤ b ∧ w = natStr v := by
  obtain ⟨r, hg, hl⟩ := rfr_gram a b h1 hle
  exact (reAccepts_of_gram (Gram.altOne _ _ hg) w).trans (hl w)

/-- The canonical decimal representation of an integer: an optional
leading minus, no leading zero except for the literal zero itself. -/
def intStr (x : Int) : List Char :=
  if x < 0 then '-' :: natStr (-x).toNat else natStr x.toNat


/-! ### Claim theorems (first batch) -/

/-- C2: the signed entry point produces the literal boundary results
`compile(0,0) = "0"`, `compile(1,9) = "[1-9]"`, `compile(0,9) = "(0|[1-9])"`,
`compile(10,10) = "10"`; for `start < 0 ≤ end < 0` (with `start ≤ end`) it
returns `"(-" ++ compile_nonneg(-end, -start) ++ ")"` with the bounds negated
and swapped; and `compile(0,255)` accepts `"0"`, `"9"`, `"10"`, `"99"`,
`"100"`, `"255"` and rejects `"256"`, `"00"`, `"-1"`. -/
theorem claimC2 :
    reprRegexForRange 0 0 = Except.ok ['0'] ∧
    reprRegexForRange 1 9 = Except.ok (String.toList "[1-9]") ∧
    reprRegexForRange 0 9 = Except.ok (String.toList "(0|[1-9])") ∧
    reprRegexForRange 10 10 = Except.ok (String.toList "10") ∧
    (∀ s e : Int, s ≤ e → s < 0 → e < 0 →
      reprRegexForRange s e =
        Except.ok ('(' :: '-' :: (regex_for_range (-e).toNat (-s).toNat ++ [')']))) ∧
    (∃ p, reprRegexForRange 0 255 = Except.ok p ∧
      reAccepts p (String.toList "0") ∧
      reAccepts p (String.toList "9") ∧
      reAccepts p (String.toList "10") ∧
      reAccepts p (String.toList "99") ∧
      reAccepts p (String.toList "100") ∧
      reAccepts p (String.toList "255") ∧
      ¬ reAccepts p (String.toList "256") ∧
      ¬ reAccepts p (String.toList "00") ∧
      ¬ reAccepts p (String.toList "-1")) := by
  refine ⟨by rfl, by rfl, by rfl, by rfl, reprRegexForRange_neg_neg, ?_⟩
  refine ⟨_, rfl, ?_, ?_, ?_, ?_, ?_, ?_, ?_, ?_, ?_⟩ <;> decide

/-- C2 witness: the general all-negative case applied at `(-7, -3)`. -/
theorem claimC2_witness :
    reprRegexForRange (-7) (-3) =
      Except.ok ('(' :: '-' :: (regex_for_range 3 7 ++ [')'])) := by
  have h := claimC2.2.2.2.2.1 (-7) (-3) (by decide) (by decide) (by decide)
  exact h

/-- C3 counterexample: at `a = 1 < 2 = b` the signed compiler invoked with
the endpoints swapped does not succeed: it raises its assertion error
(while the ordered call returns `"[12]"`). -/
theorem claimC3_counterexample :
    reprRegexForRange 2 1 = Except.error () ∧
    reprRegexForRange 1 2 = Except.ok (String.toList "[12]") := by
  constructor <;> rfl

/-- C3 (amended): the signed entry point `RegexForRange.__repr__` rejects
swapped endpoints with an assertion error instead of normalizing; it is the
inner pipeline `regex_for_range` that accepts unordered inputs and
normalizes internally, returning the identical string (hence the same
language) with the endpoints swapped. -/
theorem claimC3_amended :
    (∀ a b : Int, a < b → reprRegexForRange b a = Except.error ()) ∧
    (∀ a b : Nat, regex_for_range b a = regex_for_range a b) := by
  exact ⟨fun a b h => reprRegexForRange_error b a h, regex_for_range_swap⟩

/-- C3 witness: the amended claim applied at `a = 1, b = 2`. -/
theorem claimC3_witness :
    reprRegexForRange 2 1 = Except.error () ∧
    regex_for_range 2 1 = regex_for_range 1 2 := by
  exact ⟨claimC3_amended.1 1 2 (by decide), claimC3_amended.2 2 1⟩

/-- C8: the prefix-factored string replaces the flat alternation only when
it is strictly shorter, and a failure of the factoring pass (tokenization,
tree construction or collapse) is caught locally: the pre-factoring
expression is returned unchanged and no error propagates (`rfr` is a total
function into strings whose result is always the flat expression or a
strictly shorter factored one). -/
theorem claimC8 :
    (∀ c : List (List Char),
      rfrTail c = rfrFlatTail c ∨
        ((rfrTail c).length < (rfrFlatTail c).length ∧
          ∃ t2, rfrFactor c = some t2 ∧ rfrTail c = lead_zeros ++ t2)) ∧
    (∀ c : List (List Char), rfrFactor c = none → rfrTail c = rfrFlatTail c) ∧
    (∀ start e : Nat,
      rfr start e = rfrTail (collapse_powers_of_10 (range_to_regexes start e)) ∧
      rfrFlat start e = rfrFlatTail (collapse_powers_of_10 (range_to_regexes start e))) := by
  exact ⟨rfrTail_flat_or_shorter, rfrTail_of_factor_none, fun _ _ => ⟨rfl, rfl⟩⟩

/-- C8 witness: a failing tokenization (patterns starting with `(` match no
token) is caught and the flat expression kept, applied at a concrete
alternative list. -/
theorem claimC8_witness :
    rfrFactor [['('], [')']] = none ∧
    rfrTail [['('], [')']] = rfrFlatTail [['('], [')']] := by
  exact ⟨by rfl, claimC8.2.1 [['('], [')']] (by rfl)⟩

/-- C10: on the input `(0, 99)` the inner pipeline alone returns the regex
`"[0-9]{1,2}"` (the collapsed form), which anchored matches the
leading-zero string `"00"`; the public no-leading-zero guarantee relies on
the sign wrapper, which for `start = 0 < end` handles `0` as a separate
literal alternative and invokes the pipeline from `1`, never with a start
bound of `0`. -/
theorem claimC10 :
    rfr 0 99 = String.toList "[0-9]" ++ ['{', '1', ',', '2', '}'] ∧
    reAccepts (rfr 0 99) (String.toList "00") ∧
    (∀ e : Int, 0 < e →
      reprRegexForRange 0 e =
        Except.ok ('(' :: '0' :: '|' :: (regex_for_range 1 e.toNat ++ [')']))) := by
  exact ⟨by rfl, by decide, reprRegexForRange_zero_pos⟩

/-- C9: for positive `a ≤ b`, `break_into_ranges(a, b)` returns an ordered
list of pairs of equal-length digit strings whose integer ranges are
pairwise disjoint, consecutive and tile `[a, b]` exactly (membership in
some pair range is equivalent to membership in `[a, b]`); and the Stage A
equal-length partition cuts at the top of each shorter length, so
`break_into_ranges_1(7, 150)` is exactly
`[("7","9"), ("10","99"), ("100","150")]`. -/
theorem claimC9 :
    (∀ a b : Nat, 1 ≤ a → a ≤ b →
      ChainCov (pairVals (break_into_ranges a b)) a b ∧
      (∀ p ∈ break_into_ranges a b, AllDigits p.1 ∧ AllDigits p.2 ∧
        p.1.length = p.2.length) ∧
      (pairVals (break_into_ranges a b)).Pairwise (fun p q => p.2 < q.1) ∧
      (∀ x : Nat, (∃ p ∈ pairVals (break_into_ranges a b), p.1 ≤ x ∧ x ≤ p.2) ↔
        (a ≤ x ∧ x ≤ b))) ∧
    break_into_ranges_1 7 150 =
      [(['7'], ['9']), (['1', '0'], ['9', '9']), (['1', '0', '0'], ['1', '5', '0'])] := by
  refine ⟨?_, by rfl⟩
  intro a b ha hle
  obtain ⟨hC, hG⟩ := break_into_ranges_correct a b ha hle
  exact ⟨hC, fun p hp => ⟨(hG p hp).1, (hG p hp).2.1, (hG p hp).2.2.1⟩,
    ChainCov_pairwise hC, ChainCov_mem_iff hC⟩

/-- C9 witness: the partition of `[7, 150]` covers `42`. -/
theorem claimC9_witness :
    ∃ p ∈ pairVals (break_into_ranges 7 150), p.1 ≤ 42 ∧ 42 ≤ p.2 := by
  have h := (claimC9.1 7 150 (by decide) (by decide)).2.2.2 42
  exact h.2 (by decide)

/-- C10 witness: the wrapper case applied at `end = 99`. -/
theorem claimC10_witness :
    reprRegexForRange 0 99 =
      Except.ok ('(' :: '0' :: '|' :: (regex_for_range 1 99 ++ [')'])) := by
  have h := claimC10.2.2 99 (by decide)
  exact h

/-- C7: whenever the prefix-factoring pass is applied (its result substituted
for the flat alternation), the factored expression matches no string that the
pre-factoring expression does not match — in fact for every pair of bounds the
returned expression accepts only strings the pre-factoring flat alternation
accepts — and the length of the returned expression never exceeds the length
of the pre-factoring expression (the factored string is kept only when
shorter, otherwise the unfactored one is returned). -/
theorem claimC7 (start e : Nat) (w : List Char) :
    (reAccepts (regex_for_range start e) w → reAccepts (rfrFlat start e) w) ∧
    (regex_for_range start e).length ≤ (rfrFlat start e).length := by
  constructor
  · intro hacc
    by_cases hne : collapse_powers_of_10 (range_to_regexes start e) = []
    · unfold regex_for_range rfr at hacc
      unfold rfrFlat
      rw [hne] at hacc ⊢
      exact hacc
    · obtain ⟨r, hg, hl⟩ := rfrTail_lang _ (pipeline_tokStr start e) hne
      obtain ⟨r2, hg2, hl2⟩ := rfrFlatTail_lang _ (pipeline_tokStr start e) hne
      unfold regex_for_range rfr at hacc
      rw [reAccepts_iff] at hacc
      obtain ⟨r3, hp3, hm3⟩ := hacc
      rw [gram_parseRE (Gram.altOne _ _ hg), Option.some.injEq] at hp3
      rw [← hp3] at hm3
      unfold rfrFlat
      rw [reAccepts_iff]
      exact ⟨r2, gram_parseRE (Gram.altOne _ _ hg2), (hl2 w).2 ((hl w).1 hm3)⟩
  · rcases rfrTail_flat_or_shorter (collapse_powers_of_10
        (range_to_regexes start e)) with heq | ⟨hlt, _⟩
    · unfold regex_for_range rfr rfrFlat
      rw [heq]
    · unfold regex_for_range rfr rfrFlat
      omega

/-- C4: for every non-negative interval, the signed entry point's output
matches no string made of a leading `'0'` followed by one or more further
characters; in particular no leading-zero digit string ever matches, and for
the interval `{0}` the output `"0"` matches only `"0"` itself. -/
theorem claimC4 (s e : Int) (hs : 0 ≤ s) (hle : s ≤ e) (p : List Char)
    (hp : reprRegexForRange s e = Except.ok p) (c : Char) (rest : List Char) :
    ¬ reAccepts p ('0' :: c :: rest) := by
  intro hacc
  unfold reprRegexForRange at hp
  rw [if_neg (by omega)] at hp
  by_cases hs0 : s > 0
  · rw [if_pos hs0] at hp
    injection hp with h
    subst h
    obtain ⟨rS, hg, hnz⟩ := rfr_NZ s.toNat e.toNat (by omega) (by omega)
    rw [reAccepts_iff] at hacc
    obtain ⟨r2, hq, hm⟩ := hacc
    rw [gram_parseRE (Gram.altOne _ _ hg), Option.some.injEq] at hq
    rw [← hq] at hm
    obtain ⟨c2, t2, heq, -, h1c, -⟩ := hnz _ hm
    injection heq with hA hB
    rw [← hA] at h1c
    exact absurd h1c (by decide)
  · rw [if_neg hs0] at hp
    have hs' : s = 0 := by omega
    by_cases he0 : e > 0
    · rw [if_pos ⟨hs', he0⟩] at hp
      injection hp with h
      subst h
      rcases wrap0P_lang 1 e.toNat (le_refl 1) (by omega) _ hacc with h | h
      · simp at h
      · obtain ⟨c2, t2, heq, -, h1c, -⟩ := h
        injection heq with hA hB
        rw [← hA] at h1c
        exact absurd h1c (by decide)
    · rw [if_neg (fun hh => he0 hh.2)] at hp
      have he' : e = 0 := by omega
      rw [if_pos ⟨hs', he'⟩] at hp
      injection hp with h
      subst h
      have hg0 : Gram GCat.alt ['0'] (RE.cat (RE.cls ['0']) RE.eps) :=
        Gram.altOne _ _ (gram_seq_lit '0' (by decide))
      rw [reAccepts_iff] at hacc
      obtain ⟨r2, hq, hm⟩ := hacc
      rw [gram_parseRE hg0, Option.some.injEq] at hq
      rw [← hq] at hm
      rw [Matches_lit] at hm
      simp at hm

/-- C4 witness: the interval `[0, 255]` rejects the leading-zero string
`"05"`. -/
theorem claimC4_witness :
    ¬ reAccepts ('(' :: '0' :: '|' :: (regex_for_range 1 255 ++ [')']))
      ('0' :: '5' :: []) :=
  claimC4 0 255 (by decide) (by decide) _ (by rfl) '5' []

/-- C5: `"-0"` never matches a compiled expression of the signed entry
point, in every sign case. -/
theorem claimC5 (s e : Int) (hle : s ≤ e) (p : List Char)
    (hp : reprRegexForRange s e = Except.ok p) :
    ¬ reAccepts p ['-', '0'] := by
  intro hacc
  unfold reprRegexForRange at hp
  rw [if_neg (by omega)] at hp
  by_cases h1 : s > 0
  · rw [if_pos h1] at hp
    injection hp with h
    subst h
    obtain ⟨rS, hg, hnz⟩ := rfr_NZ s.toNat e.toNat (by omega) (by omega)
    rw [reAccepts_iff] at hacc
    obtain ⟨r2, hq, hm⟩ := hacc
    rw [gram_parseRE (Gram.altOne _ _ hg), Option.some.injEq] at hq
    rw [← hq] at hm
    obtain ⟨c2, t2, heq, hd, -, -⟩ := hnz _ hm
    injection heq with hA hB
    rw [← hA] at hd
    exact absurd hd (by decide)
  · rw [if_neg h1] at hp
    by_cases h2 : s = 0 ∧ e > 0
    · rw [if_pos h2] at hp
      injection hp with h
      subst h
      rcases wrap0P_lang 1 e.toNat (le_refl 1) (by omega) _ hacc with h | h
      · exact absurd h (by decide)
      · obtain ⟨c2, t2, heq, hd, -, -⟩ := h
        injection heq with hA hB
        rw [← hA] at hd
        exact absurd hd (by decide)
    · rw [if_neg h2] at hp
      by_cases h3 : s = 0 ∧ e = 0
      · rw [if_pos h3] at hp
        injection hp with h
        subst h
        exact absurd hacc (by decide)
      · rw [if_neg h3] at hp
        by_cases h4 : s < 0 ∧ e = 0
        · rw [if_pos h4] at hp
          injection hp with h
          subst h
          rcases wrapN0_lang 1 (-s).toNat (le_refl 1) (by omega) _ hacc with
            h | ⟨v, hv, hnz⟩
          · exact absurd h (by decide)
          · injection hv with hA hB
            rw [← hB] at hnz
            obtain ⟨c2, t2, heq, -, h1c, -⟩ := hnz
            injection heq with hC hD
            rw [← hC] at h1c
            exact absurd h1c (by decide)
        · rw [if_neg h4] at hp
          by_cases h5 : s < 0 ∧ e < 0
          · rw [if_pos h5] at hp
            injection hp with h
            subst h
            obtain ⟨v, hv, hnz⟩ := wrapNN_lang (-e).toNat (-s).toNat
              (by omega) (by omega) _ hacc
            injection hv with hA hB
            rw [← hB] at hnz
            obtain ⟨c2, t2, heq, -, h1c, -⟩ := hnz
            injection heq with hC hD
            rw [← hC] at h1c
            exact absurd h1c (by decide)
          · rw [if_neg h5] at hp
            by_cases h6 : s < 0 ∧ e > 0
            · rw [if_pos h6] at hp
              injection hp with h
              subst h
              rcases wrapNP_lang 1 (-s).toNat 1 e.toNat (le_refl 1) (by omega)
                  (le_refl 1) (by omega) _ hacc with ⟨v, hv, hnz⟩ | h | h
              · injection hv with hA hB
                rw [← hB] at hnz
                obtain ⟨c2, t2, heq, -, h1c, -⟩ := hnz
                injection heq with hC hD
                rw [← hC] at h1c
                exact absurd h1c (by decide)
              · exact absurd h (by decide)
              · obtain ⟨c2, t2, heq, hd, -, -⟩ := h
                injection heq with hA hB
                rw [← hA] at hd
                exact absurd hd (by decide)
            · rw [if_neg h6] at hp
              exact Except.noConfusion hp

/-- C5 witness: the zero-crossing interval `[-5, 5]` rejects `"-0"`. -/
theorem claimC5_witness :
    ¬ reAccepts ('(' :: '-' :: (regex_for_range 1 5 ++
      '|' :: '0' :: '|' :: (regex_for_range 1 5 ++ [')']))) ['-', '0'] :=
  claimC5 (-5) 5 (by decide) _ (by rfl)

/-- C7 witness: the bounds `(7, 150)` at the candidate `"42"`. -/
theorem claimC7_witness :
    reAccepts (rfrFlat 7 150) (String.toList "42") ∧
    (regex_for_range 7 150).length ≤ (rfrFlat 7 150).length :=
  ⟨(claimC7 7 150 (String.toList "42")).1 (by decide),
   (claimC7 7 150 (String.toList "42")).2⟩


/-- C6: for positive ordered bounds `1 ≤ a ≤ b`, `collapse_powers_of_10`
preserves the alternation language of the splitter's per-range regex list
(every string accepted by some output alternative is accepted by some
input alternative and conversely), and the `'|'`-joined output is never
longer than the joined input. -/
theorem claimC6 (a b : Nat) (h1 : 1 ≤ a) (hle : a ≤ b) :
    (∀ w, ((∃ x ∈ collapse_powers_of_10 (range_to_regexes a b),
        reAccepts x w) ↔
      ∃ x ∈ range_to_regexes a b, reAccepts x w)) ∧
    (joinBar (collapse_powers_of_10 (range_to_regexes a b))).length ≤
      (joinBar (range_to_regexes a b)).length := by
  obtain ⟨hlang, hlen⟩ := collapse_main a b h1 hle
  obtain ⟨hC, hP⟩ := break_into_ranges_correct a b h1 hle
  have hmap : range_to_regexes a b =
      (break_into_ranges a b).map (fun q => individual_regex q.1 q.2) := by
    unfold range_to_regexes ranges_to_regexes
    rw [if_neg (show ¬ a > b by omega)]
  have hG : ∀ q ∈ break_into_ranges a b, AllDigits q.1 ∧ SimplePair q ∧
      10 ^ (q.1.length - 1) ≤ pyInt q.1 := by
    intro q hq
    obtain ⟨u1, u2, u3, u4, u5, u6⟩ := hP q hq
    exact ⟨u1, u5, u6⟩
  have hin : ∀ w, ((∃ x ∈ range_to_regexes a b, reAccepts x w) ↔
      ∃ v, a ≤ v ∧ v ≤ b ∧ w = natStr v) := by
    intro w
    rw [hmap]
    constructor
    · rintro ⟨x, hx2, hacc⟩
      rw [List.mem_map] at hx2
      obtain ⟨q, hq, rfl⟩ := hx2
      exact (alts_lang_union (break_into_ranges a b) a b hC hG w).1
        ⟨q, hq, hacc⟩
    · intro hv
      obtain ⟨q, hq, hacc⟩ :=
        (alts_lang_union (break_into_ranges a b) a b hC hG w).2 hv
      exact ⟨individual_regex q.1 q.2, List.mem_map.2 ⟨q, hq, rfl⟩, hacc⟩
  refine ⟨fun w => (hlang w).trans (hin w).symm, ?_⟩
  have hinne : range_to_regexes a b ≠ [] := range_to_regexes_ne a b h1 hle
  have houtne : collapse_powers_of_10 (range_to_regexes a b) ≠ [] :=
    collapse_ne_nil _ hinne (range_to_regexes_nePats a b)
  have hj1 := joinBar_length _ houtne
  have hj2 := joinBar_length _ hinne
  omega

/-- C6 witness: the bounds `(1, 30)` at the candidate `"17"`. -/
theorem claimC6_witness :
    (joinBar (collapse_powers_of_10 (range_to_regexes 1 30))).length ≤
      (joinBar (range_to_regexes 1 30)).length ∧
    ((∃ x ∈ collapse_powers_of_10 (range_to_regexes 1 30),
        reAccepts x (String.toList "17")) ↔
      ∃ x ∈ range_to_regexes 1 30, reAccepts x (String.toList "17")) :=
  ⟨(claimC6 1 30 (by decide) (by decide)).2,
   (claimC6 1 30 (by decide) (by decide)).1 (String.toList "17")⟩

/-- C1: whenever the signed compiler returns a pattern for the bounds
`(start, end)`, that pattern, matched in anchored mode, accepts a string
`w` exactly when `w` is the canonical decimal representation of some
integer `x` with `min start end ≤ x ≤ max start end`. -/
theorem claimC1 (s e : Int) (p : List Char)
    (hp : reprRegexForRange s e = Except.ok p) (w : List Char) :
    reAccepts p w ↔ ∃ x : Int, min s e ≤ x ∧ x ≤ max s e ∧ w = intStr x := by
  unfold reprRegexForRange at hp
  by_cases h1 : s > e
  · rw [if_pos h1] at hp
    exact Except.noConfusion hp
  rw [if_neg h1] at hp
  rw [min_eq_left (show s ≤ e by omega), max_eq_right (show s ≤ e by omega)]
  by_cases h2 : s > 0
  · rw [if_pos h2, Except.ok.injEq] at hp
    subst hp
    rw [rfr_lang s.toNat e.toNat (by omega) (by omega) w]
    constructor
    · rintro ⟨v, hv1, hv2, rfl⟩
      refine ⟨(v : Int), by omega, by omega, ?_⟩
      unfold intStr
      rw [if_neg (show ¬ (v : Int) < 0 by omega), Int.toNat_natCast]
    · rintro ⟨x, hx1, hx2, rfl⟩
      refine ⟨x.toNat, by omega, by omega, ?_⟩
      unfold intStr
      rw [if_neg (show ¬ x < 0 by omega)]
  rw [if_neg h2] at hp
  by_cases h3 : s = 0 ∧ e > 0
  · obtain ⟨hs0, hepos⟩ := h3
    subst hs0
    rw [if_pos ⟨rfl, hepos⟩, Except.ok.injEq] at hp
    subst hp
    obtain ⟨r, hg, hl⟩ := rfr_gram 1 e.toNat (le_refl 1) (by omega)
    have hbody : Gram GCat.alt ('0' :: '|' :: regex_for_range 1 e.toNat)
        (RE.alt (RE.cat (RE.cls ['0']) RE.eps) r) :=
      Gram.altCons ['0'] _ _ _ (gram_seq_lit '0' (by decide))
        (Gram.altOne _ _ hg)
    have hfull : Gram GCat.alt
        ('(' :: '0' :: '|' :: (regex_for_range 1 e.toNat ++ [')']))
        (RE.cat (RE.alt (RE.cat (RE.cls ['0']) RE.eps) r) RE.eps) :=
      gram_alt_group _ _ hbody
    rw [reAccepts_of_gram hfull w, Matches_cat_eps, Matches_alt_iff,
      Matches_lit, hl w]
    constructor
    · rintro (rfl | ⟨v, hv1, hv2, rfl⟩)
      · exact ⟨0, by omega, by omega, rfl⟩
      · refine ⟨(v : Int), by omega, by omega, ?_⟩
        unfold intStr
        rw [if_neg (show ¬ (v : Int) < 0 by omega), Int.toNat_natCast]
    · rintro ⟨x, hx1, hx2, rfl⟩
      by_cases hx0 : x = 0
      · subst hx0
        left
        rfl
      · right
        refine ⟨x.toNat, by omega, by omega, ?_⟩
        unfold intStr
        rw [if_neg (show ¬ x < 0 by omega)]
  rw [if_neg h3] at hp
  by_cases h4 : s = 0 ∧ e = 0
  · obtain ⟨hs0, he0⟩ := h4
    subst hs0
    subst he0
    rw [if_pos ⟨rfl, rfl⟩, Except.ok.injEq] at hp
    subst hp
    have hg0 : Gram GCat.alt ['0'] (RE.cat (RE.cls ['0']) RE.eps) :=
      Gram.altOne _ _ (gram_seq_lit '0' (by decide))
    rw [reAccepts_of_gram hg0 w, Matches_lit]
    constructor
    · rintro rfl
      exact ⟨0, by omega, by omega, rfl⟩
    · rintro ⟨x, hx1, hx2, rfl⟩
      have hx0 : x = 0 := by omega
      subst hx0
      rfl
  rw [if_neg h4] at hp
  by_cases h5 : s < 0 ∧ e = 0
  · obtain ⟨hsneg, he0⟩ := h5
    subst he0
    rw [if_pos ⟨hsneg, rfl⟩, Except.ok.injEq] at hp
    subst hp
    obtain ⟨r, hg, hl⟩ := rfr_gram 1 (-s).toNat (le_refl 1) (by omega)
    have hbody : Gram GCat.alt
        ('0' :: '|' :: '-' :: regex_for_range 1 (-s).toNat)
        (RE.alt (RE.cat (RE.cls ['0']) RE.eps) (RE.cat (RE.cls ['-']) r)) :=
      Gram.altCons ['0'] _ _ _ (gram_seq_lit '0' (by decide))
        (Gram.altOne _ _
          (Gram.seqCons ['-'] _ _ _ (Gram.itemChr '-' (by decide)) hg))
    have hfull : Gram GCat.alt
        ('(' :: '0' :: '|' :: '-' :: (regex_for_range 1 (-s).toNat ++ [')']))
        (RE.cat (RE.alt (RE.cat (RE.cls ['0']) RE.eps)
          (RE.cat (RE.cls ['-']) r)) RE.eps) :=
      gram_alt_group _ _ hbody
    rw [reAccepts_of_gram hfull w, Matches_cat_eps, Matches_alt_iff,
      Matches_lit, Matches_cat_iff]
    constructor
    · rintro (rfl | ⟨u, v, rfl, hu, hv⟩)
      · exact ⟨0, by omega, by omega, rfl⟩
      · obtain ⟨c, hc, rfl⟩ := (Matches_cls_iff _ u).1 hu
        rw [List.mem_singleton] at hc
        subst hc
        obtain ⟨v2, hv1, hv2, rfl⟩ := (hl v).1 hv
        refine ⟨-(v2 : Int), by omega, by omega, ?_⟩
        unfold intStr
        rw [if_pos (show -(v2 : Int) < 0 by omega), neg_neg,
          Int.toNat_natCast]
        rfl
    · rintro ⟨x, hx1, hx2, rfl⟩
      by_cases hx0 : x = 0
      · subst hx0
        left
        rfl
      · right
        refine ⟨['-'], natStr (-x).toNat, ?_,
          (Matches_cls_iff _ _).2 ⟨'-', List.mem_singleton.2 rfl, rfl⟩,
          (hl _).2 ⟨(-x).toNat, by omega, by omega, rfl⟩⟩
        unfold intStr
        rw [if_pos (show x < 0 by omega)]
        rfl
  rw [if_neg h5] at hp
  by_cases h6 : s < 0 ∧ e < 0
  · obtain ⟨hsneg, heneg⟩ := h6
    rw [if_pos ⟨hsneg, heneg⟩, Except.ok.injEq] at hp
    subst hp
    obtain ⟨r, hg, hl⟩ := rfr_gram (-e).toNat (-s).toNat (by omega) (by omega)
    have hbody : Gram GCat.alt
        ('-' :: regex_for_range (-e).toNat (-s).toNat)
        (RE.cat (RE.cls ['-']) r) :=
      Gram.altOne _ _
        (Gram.seqCons ['-'] _ _ _ (Gram.itemChr '-' (by decide)) hg)
    have hfull : Gram GCat.alt
        ('(' :: '-' :: (regex_for_range (-e).toNat (-s).toNat ++ [')']))
        (RE.cat (RE.cat (RE.cls ['-']) r) RE.eps) :=
      gram_alt_group _ _ hbody
    rw [reAccepts_of_gram hfull w, Matches_cat_eps, Matches_cat_iff]
    constructor
    · rintro ⟨u, v, rfl, hu, hv⟩
      obtain ⟨c, hc, rfl⟩ := (Matches_cls_iff _ u).1 hu
      rw [List.mem_singleton] at hc
      subst hc
      obtain ⟨v2, hv1, hv2, rfl⟩ := (hl v).1 hv
      refine ⟨-(v2 : Int), by omega, by omega, ?_⟩
      unfold intStr
      rw [if_pos (show -(v2 : Int) < 0 by omega), neg_neg, Int.toNat_natCast]
      rfl
    · rintro ⟨x, hx1, hx2, rfl⟩
      refine ⟨['-'], natStr (-x).toNat, ?_,
        (Matches_cls_iff _ _).2 ⟨'-', List.mem_singleton.2 rfl, rfl⟩,
        (hl _).2 ⟨(-x).toNat, by omega, by omega, rfl⟩⟩
      unfold intStr
      rw [if_pos (show x < 0 by omega)]
      rfl
  rw [if_neg h6] at hp
  by_cases h7 : s < 0 ∧ e > 0
  · obtain ⟨hsneg, hepos⟩ := h7
    rw [if_pos ⟨hsneg, hepos⟩, Except.ok.injEq] at hp
    subst hp
    obtain ⟨rN, hgN, hlN⟩ := rfr_gram 1 (-s).toNat (le_refl 1) (by omega)
    obtain ⟨rP, hgP, hlP⟩ := rfr_gram 1 e.toNat (le_refl 1) (by omega)
    have hbody : Gram GCat.alt
        ('-' :: (regex_for_range 1 (-s).toNat ++
          '|' :: '0' :: '|' :: regex_for_range 1 e.toNat))
        (RE.alt (RE.cat (RE.cls ['-']) rN)
          (RE.alt (RE.cat (RE.cls ['0']) RE.eps) rP)) :=
      Gram.altCons ('-' :: regex_for_range 1 (-s).toNat) _ _ _
        (Gram.seqCons ['-'] _ _ _ (Gram.itemChr '-' (by decide)) hgN)
        (Gram.altCons ['0'] _ _ _ (gram_seq_lit '0' (by decide))
          (Gram.altOne _ _ hgP))
    have hfull0 := gram_alt_group _ _ hbody
    rw [show ('(' :: '-' :: (regex_for_range 1 (-s).toNat ++
        '|' :: '0' :: '|' :: regex_for_range 1 e.toNat)) ++ [')'] =
        '(' :: '-' :: (regex_for_range 1 (-s).toNat ++
          '|' :: '0' :: '|' :: (regex_for_range 1 e.toNat ++ [')'])) from by
      simp] at hfull0
    rw [reAccepts_of_gram hfull0 w, Matches_cat_eps, Matches_alt_iff,
      Matches_alt_iff, Matches_cat_iff, Matches_lit]
    constructor
    · rintro (⟨u, v, rfl, hu, hv⟩ | rfl | hm)
      · obtain ⟨c, hc, rfl⟩ := (Matches_cls_iff _ u).1 hu
        rw [List.mem_singleton] at hc
        subst hc
        obtain ⟨v2, hv1, hv2, rfl⟩ := (hlN v).1 hv
        refine ⟨-(v2 : Int), by omega, by omega, ?_⟩
        unfold intStr
        rw [if_pos (show -(v2 : Int) < 0 by omega), neg_neg,
          Int.toNat_natCast]
        rfl
      · exact ⟨0, by omega, by omega, rfl⟩
      · obtain ⟨v2, hv1, hv2, rfl⟩ := (hlP w).1 hm
        refine ⟨(v2 : Int), by omega, by omega, ?_⟩
        unfold intStr
        rw [if_neg (show ¬ (v2 : Int) < 0 by omega), Int.toNat_natCast]
    · rintro ⟨x, hx1, hx2, rfl⟩
      rcases lt_trichotomy x 0 with hx | hx | hx
      · left
        refine ⟨['-'], natStr (-x).toNat, ?_,
          (Matches_cls_iff _ _).2 ⟨'-', List.mem_singleton.2 rfl, rfl⟩,
          (hlN _).2 ⟨(-x).toNat, by omega, by omega, rfl⟩⟩
        unfold intStr
        rw [if_pos (show x < 0 by omega)]
        rfl
      · subst hx
        right
        left
        rfl
      · right
        right
        refine (hlP _).2 ⟨x.toNat, by omega, by omega, ?_⟩
        unfold intStr
        rw [if_neg (show ¬ x < 0 by omega)]
  rw [if_neg h7] at hp
  exact Except.noConfusion hp

/-- C1 witness: the interval `[-5, 0]` at the candidate `"-3"`. -/
theorem claimC1_witness :
    reAccepts ('(' :: '0' :: '|' :: '-' ::
        (regex_for_range 1 5 ++ [')'])) ['-', '3'] ↔
      ∃ x : Int, min (-5 : Int) 0 ≤ x ∧ x ≤ max (-5 : Int) 0 ∧
        ['-', '3'] = intStr x :=
  claimC1 (-5) 0 _ (by rfl) ['-', '3']

end ApteryxRegex
